import Mathlib

/-!
# flexqueue: an index-addressable double-ended queue with TTL, de-duplication and a maximum length

A shallow embedding of `flexlist.go` and `flexqueue.go`.

Modelling conventions

* A Go `interface{}` value is an `Option V`: `none` is the nil interface.
* A Go `map[string]T` is an association list `List (String × T)` read with `mapLookup`,
  written with `mapStore` and `mapDelete`; the order of the list is the order in which a
  `range` over the map visits it.
* `container/list` is a sequence of elements; an element carries an identity `id` (its
  address) next to its `Value`, and a `*list.Element` is the element itself.  The `Value`
  of an element is never assigned after its creation, so a pointer can be read through
  its copy.
* A reading of `time.Now()` is a parameter (an integer count of nanoseconds); a
  `time.Duration` is an `Int`.  Instants and durations are unbounded integers: the
  arithmetic of `time.Time` does not wrap around.  A function takes one parameter for
  each place where it reads the clock: pushFBTTL reads it in NewTTL (`now`) and again in
  Expired (`checked`); ResetTTL reads it in pruneMessage (`now`), in NewTTL (`created`)
  and in Expired (`checked`).  The clock of Go is monotonic, so a later reading is not
  before an earlier one; the theorems say which order of the readings they need.  The
  readings that pullFB, readFB and Prune take one after the other in their loop are one
  parameter `now`.
* The lengths are the Go `int` values of `Len()`; they are far from the bounds of a
  machine integer and are modelled as `Int` without wrap-around.
* A callback is a value of an abstract type `C`; calling it is recorded as a `Call` in
  the list of calls returned by the operation.  A callback does not call back into the
  queue (in Go it would block on the lock that the operation holds).  The values of `C`
  are function values that can be called; where the nil function value matters, `C` is
  `Option K` with `none` for nil: the call of nil is recorded like every call, and in Go
  that call panics, so the outcome stands for the run up to that call (`calledNil`).
* The mutex is not modelled: operations are run one after the other.
-/

namespace flexqueue

/-! ## Go maps -/

/-- The Go expression `m[k]` with its `ok` flag: the value stored under `k`, if any. -/
def mapLookup {α : Type} : List (String × α) → String → Option α
  | [], _ => none
  | (k', v) :: m, k => if k' = k then some v else mapLookup m k

/-- The Go statement `m[k] = v`. -/
def mapStore {α : Type} : List (String × α) → String → α → List (String × α)
  | [], k, v => [(k, v)]
  | (k', v') :: m, k, v => if k' = k then (k, v) :: m else (k', v') :: mapStore m k v

/-- The Go statement `delete(m, k)`. -/
def mapDelete {α : Type} : List (String × α) → String → List (String × α)
  | [], _ => []
  | (k', v') :: m, k => if k' = k then mapDelete m k else (k', v') :: mapDelete m k

/-! ## container/list -/

/-- ItemWrapper retains the relationship between the linked list and the index map. -/
structure ItemWrapper (V : Type) where
  index : String
  item : Option V
deriving DecidableEq, Repr

/-- An element of a `container/list` list: its identity and its `Value`. -/
structure Element (V : Type) where
  id : Nat
  Value : ItemWrapper V
deriving DecidableEq, Repr

/-- A `container/list` list: the elements from front to back and the next unused
element identity. -/
structure LinkedList (V : Type) where
  elems : List (Element V)
  fresh : Nat
deriving DecidableEq, Repr

/-- Insert `e` right after the element whose identity is `mark`. -/
def insertAfterId {V : Type} : List (Element V) → Nat → Element V → List (Element V)
  | [], _, _ => []
  | x :: xs, mark, e => if x.id = mark then x :: e :: xs else x :: insertAfterId xs mark e

/-- Unlink the element whose identity is `i`. -/
def removeId {V : Type} : List (Element V) → Nat → List (Element V)
  | [], _ => []
  | x :: xs, i => if x.id = i then xs else x :: removeId xs i

namespace LinkedList

variable {V : Type}

/-- The Go function `list.New`. -/
def New : LinkedList V := ⟨[], 0⟩

/-- The Go method `List.PushFront`: a new element at the front; returns the element. -/
def PushFront (l : LinkedList V) (v : ItemWrapper V) : Element V × LinkedList V :=
  (⟨l.fresh, v⟩, ⟨⟨l.fresh, v⟩ :: l.elems, l.fresh + 1⟩)

/-- The Go method `List.PushBack`: a new element at the back; returns the element. -/
def PushBack (l : LinkedList V) (v : ItemWrapper V) : Element V × LinkedList V :=
  (⟨l.fresh, v⟩, ⟨l.elems ++ [⟨l.fresh, v⟩], l.fresh + 1⟩)

/-- The Go method `List.InsertAfter`: a new element right after `mark`.  When `mark` is
not an element of the list the list is not modified (Go returns nil there; `FlexList`
only passes an element taken from its own index, see `FlexList.WF`). -/
def InsertAfter (l : LinkedList V) (v : ItemWrapper V) (mark : Element V) :
    Element V × LinkedList V :=
  (⟨l.fresh, v⟩, ⟨insertAfterId l.elems mark.id ⟨l.fresh, v⟩, l.fresh + 1⟩)

/-- The Go method `List.Remove`: unlink `e` if it is an element of the list. -/
def Remove (l : LinkedList V) (e : Element V) : LinkedList V :=
  ⟨removeId l.elems e.id, l.fresh⟩

/-- The Go method `List.Front`. -/
def Front (l : LinkedList V) : Option (Element V) := l.elems.head?

/-- The Go method `List.Back`. -/
def Back (l : LinkedList V) : Option (Element V) := l.elems.getLast?

/-- The Go method `List.Len`. -/
def Len (l : LinkedList V) : Int := l.elems.length

end LinkedList

/-! ## flexlist.go -/

/-- FlexList is an ordered map: a linked list for the item order and a map of strings
for an index. -/
structure FlexList (V : Type) where
  items : LinkedList V
  indices : List (String × Element V)
deriving DecidableEq, Repr

/-- NewFlexList: the empty list. -/
def NewFlexList {V : Type} : FlexList V := ⟨LinkedList.New, []⟩

namespace FlexList

variable {V : Type}

/-- PushFront creates the index and adds the item to the front of the list; ignored
when the index already exists. -/
def PushFront (l : FlexList V) (index : String) (item : Option V) : Bool × FlexList V :=
  match mapLookup l.indices index with
  | none =>
    let r := l.items.PushFront ⟨index, item⟩
    (true, ⟨r.2, mapStore l.indices index r.1⟩)
  | some _ => (false, l)

/-- PushBack creates the index and adds the item to the back of the list; ignored when
the index already exists. -/
def PushBack (l : FlexList V) (index : String) (item : Option V) : Bool × FlexList V :=
  match mapLookup l.indices index with
  | none =>
    let r := l.items.PushBack ⟨index, item⟩
    (true, ⟨r.2, mapStore l.indices index r.1⟩)
  | some _ => (false, l)

/-- ReadFront returns the item at the front of the list without removing it. -/
def ReadFront (l : FlexList V) : String × Option V × Bool :=
  match l.items.Front with
  | some e => (e.Value.index, e.Value.item, true)
  | none => ("", none, false)

/-- ReadBack returns the item at the back of the list without removing it. -/
def ReadBack (l : FlexList V) : String × Option V × Bool :=
  match l.items.Back with
  | some e => (e.Value.index, e.Value.item, true)
  | none => ("", none, false)

/-- Read returns the item stored under the index without removing it. -/
def Read (l : FlexList V) (index : String) : Option V × Bool :=
  match mapLookup l.indices index with
  | some e => (e.Value.item, true)
  | none => (none, false)

/-- Update replaces the item stored under the index without changing the order. -/
def Update (l : FlexList V) (index : String) (item : Option V) : Bool × FlexList V :=
  match mapLookup l.indices index with
  | some oldItem =>
    let r := l.items.InsertAfter ⟨index, item⟩ oldItem
    (true, ⟨r.2.Remove oldItem, mapStore l.indices index r.1⟩)
  | none => (false, l)

/-- Remove deletes the item stored under the index. -/
def Remove (l : FlexList V) (index : String) : Bool × FlexList V :=
  match mapLookup l.indices index with
  | some e => (true, ⟨l.items.Remove e, mapDelete l.indices index⟩)
  | none => (false, l)

/-- PullFront is ReadFront followed by Remove. -/
def PullFront (l : FlexList V) : (String × Option V × Bool) × FlexList V :=
  match l.ReadFront with
  | (index, item, true) => ((index, item, true), (l.Remove index).2)
  | (_, _, false) => (("", none, false), l)

/-- PullBack is ReadBack followed by Remove. -/
def PullBack (l : FlexList V) : (String × Option V × Bool) × FlexList V :=
  match l.ReadBack with
  | (index, item, true) => ((index, item, true), (l.Remove index).2)
  | (_, _, false) => (("", none, false), l)

/-- Pull is Read followed by Remove. -/
def Pull (l : FlexList V) (index : String) : (Option V × Bool) × FlexList V :=
  match l.Read index with
  | (item, true) => ((item, true), (l.Remove index).2)
  | (_, false) => ((none, false), l)

/-- Has tells whether the list contains the index. -/
def Has (l : FlexList V) (index : String) : Bool :=
  (mapLookup l.indices index).isSome

/-- Len is the number of items in the list. -/
def Len (l : FlexList V) : Int := l.items.Len

/-- The (index, item) pairs of the linked list from front to back. -/
def entries (l : FlexList V) : List (String × Option V) :=
  l.items.elems.map (fun e => (e.Value.index, e.Value.item))

end FlexList

/-! ## flexqueue.go -/

/-- The constant `NoMax`. -/
def NoMax : Int := -1

/-- TTL is an expiration control that applies to a single message. -/
structure TTL (C : Type) where
  Expires : Int
  Callback : C
deriving DecidableEq, Repr

/-- Expired: the instant `now` is after the expiry. -/
def TTL.Expired {C : Type} (ttl : TTL C) (now : Int) : Bool := decide (ttl.Expires < now)

/-- NewTTL creates a TTL control for the duration based on now. -/
def NewTTL {C : Type} (now : Int) (ttl : Int) (callback : C) : TTL C :=
  ⟨now + ttl, callback⟩

/-- FlexQueue: the message list, the table of TTL controls keyed by digest, and the
maximum queue length. -/
structure FlexQueue (C V : Type) where
  messages : FlexList V
  ttl : List (String × TTL C)
  max : Int
deriving DecidableEq, Repr

/-- One invocation of an expiration callback. -/
structure Call (C V : Type) where
  callback : C
  digest : String
  message : Option V
deriving DecidableEq, Repr

/-- What a queue operation produces: the returned values, the queue afterwards and the
callbacks it invoked, in order. -/
structure Outcome (C V ρ : Type) where
  ret : ρ
  q : FlexQueue C V
  calls : List (Call C V)
deriving DecidableEq, Repr

/-- NewFlexQueue: the empty queue without a maximum. -/
def NewFlexQueue {C V : Type} : FlexQueue C V := ⟨NewFlexList, [], NoMax⟩

namespace FlexQueue

variable {C V : Type}

/-- SetMax sets the maximum length when it is above NoMax. -/
def SetMax (q : FlexQueue C V) (max : Int) : FlexQueue C V :=
  if max > NoMax then { q with max := max } else q

/-- The helper pushFB pushes a message into the queue unless it is full. -/
def pushFB (q : FlexQueue C V) (front : Bool) (digest : String) (message : Option V) :
    Bool × FlexQueue C V :=
  if q.messages.Has digest then (true, q)
  else if q.max > NoMax ∧ q.messages.Len ≥ q.max then (false, q)
  else
    let r := if front then q.messages.PushFront digest message
             else q.messages.PushBack digest message
    (r.1, { q with messages := r.2 })

/-- The helper pruneMessage: when the digest has a TTL control and it is expired, the
callback is fired with the message read from the list, and the message and the control
are removed. -/
def pruneMessage (q : FlexQueue C V) (now : Int) (digest : String) : Outcome C V Bool :=
  match mapLookup q.ttl digest with
  | some ttl =>
    if ttl.Expired now then
      ⟨true, ⟨(q.messages.Remove digest).2, mapDelete q.ttl digest, q.max⟩,
        [⟨ttl.Callback, digest, (q.messages.Read digest).1⟩]⟩
    else ⟨false, q, []⟩
  | none => ⟨false, q, []⟩

/-- The recursion of pullFB, bounded by `fuel` calls: pull a message off the front or
the back, and when its TTL control is expired, prune it and pull again.  The result is
`none` when the calls are used up. -/
def pullFBFuel : Nat → FlexQueue C V → Bool → Int →
    Option (Outcome C V (String × Option V × Bool))
  | 0, _, _, _ => none
  | fuel + 1, q, front, now =>
    let r := if front then q.messages.PullFront else q.messages.PullBack
    if r.1.2.2 = false then some ⟨("", none, false), ⟨r.2, q.ttl, q.max⟩, []⟩
    else
      let p := pruneMessage ⟨r.2, q.ttl, q.max⟩ now r.1.1
      if p.ret = true then
        (pullFBFuel fuel p.q front now).map
          fun rest => ⟨rest.ret, rest.q, p.calls ++ rest.calls⟩
      else some ⟨(r.1.1, r.1.2.1, true), p.q, p.calls⟩

/-- The recursion of readFB, bounded by `fuel` calls: read the message at the front or
the back, and when its TTL control is expired, prune it and read again. -/
def readFBFuel : Nat → FlexQueue C V → Bool → Int →
    Option (Outcome C V (String × Option V × Bool))
  | 0, _, _, _ => none
  | fuel + 1, q, front, now =>
    let r := if front then q.messages.ReadFront else q.messages.ReadBack
    if r.2.2 = false then some ⟨("", none, false), q, []⟩
    else
      let p := pruneMessage q now r.1
      if p.ret = true then
        (readFBFuel fuel p.q front now).map
          fun rest => ⟨rest.ret, rest.q, p.calls ++ rest.calls⟩
      else some ⟨(r.1, r.2.1, true), p.q, p.calls⟩

end FlexQueue

/-! ### Termination of the recursive helpers

Every recursive call of pullFB and readFB follows a pruneMessage that returned true, and
such a call deletes a key of the TTL table: one call more than the table has entries is
always enough. -/

theorem mapDelete_length_le {α : Type} (m : List (String × α)) (k : String) :
    (mapDelete m k).length ≤ m.length := by
  induction m with
  | nil => simp [mapDelete]
  | cons p m ih =>
    obtain ⟨k', v'⟩ := p
    simp only [mapDelete]
    split <;> simp <;> omega

theorem mapDelete_length_lt {α : Type} (m : List (String × α)) (k : String) (v : α)
    (h : mapLookup m k = some v) : (mapDelete m k).length < m.length := by
  induction m with
  | nil => simp [mapLookup] at h
  | cons p m ih =>
    obtain ⟨k', v'⟩ := p
    simp only [mapLookup] at h
    simp only [mapDelete]
    split
    · have := mapDelete_length_le m k
      simp only [List.length_cons]
      omega
    · rename_i hne
      simp only [hne, if_false] at h
      have := ih h
      simp only [List.length_cons]
      omega

namespace FlexQueue

variable {C V : Type}

theorem pruneMessage_ttl_lt (q : FlexQueue C V) (now : Int) (digest : String)
    (h : (q.pruneMessage now digest).ret = true) :
    (q.pruneMessage now digest).q.ttl.length < q.ttl.length := by
  unfold pruneMessage at h ⊢
  split
  · rename_i ttl hl
    split
    · exact mapDelete_length_lt _ _ _ hl
    · simp_all
  · simp_all

theorem pullFBFuel_isSome (fuel : Nat) (q : FlexQueue C V) (front : Bool) (now : Int)
    (h : q.ttl.length < fuel) : (pullFBFuel fuel q front now).isSome = true := by
  induction fuel generalizing q with
  | zero => omega
  | succ n ih =>
    rw [pullFBFuel]
    dsimp only
    by_cases h1 : (if front then q.messages.PullFront else q.messages.PullBack).1.2.2 = false
    · rw [if_pos h1]; rfl
    · rw [if_neg h1]
      by_cases hp : (pruneMessage
          ⟨(if front then q.messages.PullFront else q.messages.PullBack).2, q.ttl, q.max⟩ now
          (if front then q.messages.PullFront else q.messages.PullBack).1.1).ret = true
      · rw [if_pos hp, Option.isSome_map']
        apply ih
        have hlt := pruneMessage_ttl_lt _ _ _ hp
        simp only at hlt
        omega
      · rw [if_neg hp]; rfl

theorem readFBFuel_isSome (fuel : Nat) (q : FlexQueue C V) (front : Bool) (now : Int)
    (h : q.ttl.length < fuel) : (readFBFuel fuel q front now).isSome = true := by
  induction fuel generalizing q with
  | zero => omega
  | succ n ih =>
    rw [readFBFuel]
    dsimp only
    by_cases h1 : (if front then q.messages.ReadFront else q.messages.ReadBack).2.2 = false
    · rw [if_pos h1]; rfl
    · rw [if_neg h1]
      by_cases hp : (pruneMessage q now
          (if front then q.messages.ReadFront else q.messages.ReadBack).1).ret = true
      · rw [if_pos hp, Option.isSome_map']
        apply ih
        have hlt := pruneMessage_ttl_lt _ _ _ hp
        omega
      · rw [if_neg hp]; rfl

/-- The helper pullFB keeps peeling messages off the queue until it finds one that has
not expired or the queue is empty.  The recursion is run with one call more than the TTL
table has entries, which is always enough (`pullFBFuel_isSome`); the theorems
`pullFB_none`, `pullFB_found` and `pullFB_again` give back the three cases of the source
function. -/
def pullFB (q : FlexQueue C V) (front : Bool) (now : Int) :
    Outcome C V (String × Option V × Bool) :=
  (pullFBFuel (q.ttl.length + 1) q front now).get
    (pullFBFuel_isSome _ q front now (Nat.lt_succ_self _))

/-- The helper readFB keeps reading messages off the queue until it finds one that has
not expired or the queue is empty.  The recursion is run with one call more than the TTL
table has entries, which is always enough (`readFBFuel_isSome`); the theorems
`readFB_none`, `readFB_found` and `readFB_again` give back the three cases of the source
function. -/
def readFB (q : FlexQueue C V) (front : Bool) (now : Int) :
    Outcome C V (String × Option V × Bool) :=
  (readFBFuel (q.ttl.length + 1) q front now).get
    (readFBFuel_isSome _ q front now (Nat.lt_succ_self _))

/-- PushFront adds a new message to the front of the queue. -/
def PushFront (q : FlexQueue C V) (digest : String) (message : Option V) :
    Outcome C V Bool :=
  ⟨(q.pushFB true digest message).1, (q.pushFB true digest message).2, []⟩

/-- PushBack adds a new message to the end of the queue. -/
def PushBack (q : FlexQueue C V) (digest : String) (message : Option V) :
    Outcome C V Bool :=
  ⟨(q.pushFB false digest message).1, (q.pushFB false digest message).2, []⟩

/-- The helper pushFBTTL pushes a message like pushFB and also creates a TTL table
entry; it aborts, firing the callback, when the TTL is already expired.  The clock is
read twice: `now` is the reading of NewTTL and `checked` the reading of Expired. -/
def pushFBTTL (q : FlexQueue C V) (now checked : Int) (front : Bool) (digest : String)
    (message : Option V) (ttl : Int) (callback : C) : Outcome C V Bool :=
  if (NewTTL now ttl callback).Expired checked then
    ⟨false, q, [⟨(NewTTL now ttl callback).Callback, digest, message⟩]⟩
  else if (q.pushFB front digest message).1 then
    ⟨true, ⟨(q.pushFB front digest message).2.messages,
      mapStore (q.pushFB front digest message).2.ttl digest (NewTTL now ttl callback),
      (q.pushFB front digest message).2.max⟩, []⟩
  else ⟨false, (q.pushFB front digest message).2, []⟩

/-- PushFrontTTL is PushFront with a TTL and an expiration callback attached. -/
def PushFrontTTL (q : FlexQueue C V) (now checked : Int) (digest : String)
    (message : Option V) (ttl : Int) (callback : C) : Outcome C V Bool :=
  q.pushFBTTL now checked true digest message ttl callback

/-- PushBackTTL is PushBack with a TTL and an expiration callback attached. -/
def PushBackTTL (q : FlexQueue C V) (now checked : Int) (digest : String)
    (message : Option V) (ttl : Int) (callback : C) : Outcome C V Bool :=
  q.pushFBTTL now checked false digest message ttl callback

/-- Pull returns the message with the given digest and removes it from the queue. -/
def Pull (q : FlexQueue C V) (now : Int) (digest : String) : Outcome C V (Option V × Bool) :=
  if (q.pruneMessage now digest).ret then
    ⟨(none, false), (q.pruneMessage now digest).q, (q.pruneMessage now digest).calls⟩
  else
    ⟨((q.pruneMessage now digest).q.messages.Pull digest).1,
      ⟨((q.pruneMessage now digest).q.messages.Pull digest).2,
        (q.pruneMessage now digest).q.ttl, (q.pruneMessage now digest).q.max⟩,
      (q.pruneMessage now digest).calls⟩

/-- PullFront removes a message from the beginning of the queue and returns it. -/
def PullFront (q : FlexQueue C V) (now : Int) : Outcome C V (String × Option V × Bool) :=
  q.pullFB true now

/-- PullBack removes a message from the end of the queue and returns it. -/
def PullBack (q : FlexQueue C V) (now : Int) : Outcome C V (String × Option V × Bool) :=
  q.pullFB false now

/-- Read returns the message with the given digest without removing it. -/
def Read (q : FlexQueue C V) (now : Int) (digest : String) : Outcome C V (Option V × Bool) :=
  if (q.pruneMessage now digest).ret then
    ⟨(none, false), (q.pruneMessage now digest).q, (q.pruneMessage now digest).calls⟩
  else
    ⟨(q.pruneMessage now digest).q.messages.Read digest, (q.pruneMessage now digest).q,
      (q.pruneMessage now digest).calls⟩

/-- ReadFront returns the message at the beginning of the queue without removing it. -/
def ReadFront (q : FlexQueue C V) (now : Int) : Outcome C V (String × Option V × Bool) :=
  q.readFB true now

/-- ReadBack returns the message at the end of the queue without removing it. -/
def ReadBack (q : FlexQueue C V) (now : Int) : Outcome C V (String × Option V × Bool) :=
  q.readFB false now

/-- Update replaces a message already in the queue without changing the order. -/
def Update (q : FlexQueue C V) (now : Int) (digest : String) (message : Option V) :
    Outcome C V Bool :=
  if (q.pruneMessage now digest).ret then
    ⟨false, (q.pruneMessage now digest).q, (q.pruneMessage now digest).calls⟩
  else
    ⟨((q.pruneMessage now digest).q.messages.Update digest message).1,
      ⟨((q.pruneMessage now digest).q.messages.Update digest message).2,
        (q.pruneMessage now digest).q.ttl, (q.pruneMessage now digest).q.max⟩,
      (q.pruneMessage now digest).calls⟩

/-- ResetTTL replaces the TTL control of a message by one for the new duration with the
old callback; it aborts, firing the callback, when the new TTL is already expired.  The
clock is read three times: `now` is the reading of pruneMessage, `created` the reading
of NewTTL and `checked` the reading of Expired on the new control. -/
def ResetTTL (q : FlexQueue C V) (now created checked : Int) (digest : String) (ttl : Int) :
    Outcome C V Bool :=
  if (q.pruneMessage now digest).ret then
    ⟨false, (q.pruneMessage now digest).q, (q.pruneMessage now digest).calls⟩
  else
    match mapLookup (q.pruneMessage now digest).q.ttl digest with
    | none => ⟨false, (q.pruneMessage now digest).q, (q.pruneMessage now digest).calls⟩
    | some oldCtrl =>
      if (NewTTL created ttl oldCtrl.Callback).Expired checked then
        ⟨false, (q.pruneMessage now digest).q,
          (q.pruneMessage now digest).calls ++
            [⟨(NewTTL created ttl oldCtrl.Callback).Callback, digest,
              ((q.pruneMessage now digest).q.messages.Read digest).1⟩]⟩
      else
        ⟨true, ⟨(q.pruneMessage now digest).q.messages,
          mapStore (q.pruneMessage now digest).q.ttl digest
            (NewTTL created ttl oldCtrl.Callback),
          (q.pruneMessage now digest).q.max⟩, (q.pruneMessage now digest).calls⟩

/-- Remove deletes the message from the queue, with its TTL control. -/
def Remove (q : FlexQueue C V) (now : Int) (digest : String) : Outcome C V Bool :=
  if (q.pruneMessage now digest).ret then
    ⟨false, (q.pruneMessage now digest).q, (q.pruneMessage now digest).calls⟩
  else if ((q.pruneMessage now digest).q.messages.Remove digest).1 then
    ⟨true, ⟨((q.pruneMessage now digest).q.messages.Remove digest).2,
      mapDelete (q.pruneMessage now digest).q.ttl digest, (q.pruneMessage now digest).q.max⟩,
      (q.pruneMessage now digest).calls⟩
  else
    ⟨false, ⟨((q.pruneMessage now digest).q.messages.Remove digest).2,
      (q.pruneMessage now digest).q.ttl, (q.pruneMessage now digest).q.max⟩,
      (q.pruneMessage now digest).calls⟩

/-- The loop of Prune over the entries of the TTL table in the order `visit`: an expired
control fires its callback with the message read from the list, and the message and the
control are removed. -/
def pruneLoop (now : Int) : List (String × TTL C) → Outcome C V Bool → Outcome C V Bool
  | [], acc => acc
  | (digest, ttl) :: visit, acc =>
    if ttl.Expired now then
      pruneLoop now visit
        ⟨true, ⟨(acc.q.messages.Remove digest).2, mapDelete acc.q.ttl digest, acc.q.max⟩,
          acc.calls ++ [⟨ttl.Callback, digest, (acc.q.messages.Read digest).1⟩]⟩
    else pruneLoop now visit acc

/-- Prune scans the TTL table and removes every message with an expired TTL; the table
is visited in the order of its association list. -/
def Prune (q : FlexQueue C V) (now : Int) : Outcome C V Bool :=
  pruneLoop now q.ttl ⟨false, q, []⟩

/-- Has tells whether the message with the given digest is in the queue; an expired
message is removed. -/
def Has (q : FlexQueue C V) (now : Int) (digest : String) : Outcome C V Bool :=
  if (q.pruneMessage now digest).ret then
    ⟨false, (q.pruneMessage now digest).q, (q.pruneMessage now digest).calls⟩
  else
    ⟨(q.pruneMessage now digest).q.messages.Has digest, (q.pruneMessage now digest).q,
      (q.pruneMessage now digest).calls⟩

/-- Len returns the number of messages currently in the queue. -/
def Len (q : FlexQueue C V) : Int := q.messages.Len

/-- Max returns the maximum number of messages the queue can hold, or NoMax. -/
def Max (q : FlexQueue C V) : Int := if q.max > NoMax then q.max else NoMax

/-- IsFull tells whether the queue is full. -/
def IsFull (q : FlexQueue C V) : Bool := decide (q.max > NoMax ∧ q.messages.Len ≥ q.max)

/-- IsEmpty tells whether the queue is empty. -/
def IsEmpty (q : FlexQueue C V) : Bool := decide (q.messages.Len = 0)

end FlexQueue

/-! ## Runs of queue operations -/

/-- A call of a public operation of the queue, with its arguments and, for the
operations that read the clock at several places, the time that passes from one reading
to the next: `lag` between NewTTL and Expired in a push with a TTL; in ResetTTL `lag1`
between pruneMessage and NewTTL and `lag2` between NewTTL and Expired. -/
inductive Op (C V : Type) where
  | pushFront (digest : String) (message : Option V)
  | pushBack (digest : String) (message : Option V)
  | pushFrontTTL (digest : String) (message : Option V) (ttl : Int) (callback : C) (lag : Nat)
  | pushBackTTL (digest : String) (message : Option V) (ttl : Int) (callback : C) (lag : Nat)
  | pull (digest : String)
  | pullFront
  | pullBack
  | read (digest : String)
  | readFront
  | readBack
  | update (digest : String) (message : Option V)
  | resetTTL (digest : String) (ttl : Int) (lag1 lag2 : Nat)
  | remove (digest : String)
  | prune
  | has (digest : String)
  | len
  | max
  | isFull
  | isEmpty
deriving DecidableEq, Repr

/-- The values returned by a call. -/
inductive Resp (V : Type) where
  | flag (ok : Bool)
  | item (message : Option V) (ok : Bool)
  | entry (digest : String) (message : Option V) (ok : Bool)
  | count (n : Int)
deriving DecidableEq, Repr

/-- One call of an operation whose first reading of the clock is the instant `now`. -/
def step {C V : Type} (q : FlexQueue C V) (now : Int) : Op C V → Outcome C V (Resp V)
  | .pushFront d m => ⟨.flag (q.PushFront d m).ret, (q.PushFront d m).q, (q.PushFront d m).calls⟩
  | .pushBack d m => ⟨.flag (q.PushBack d m).ret, (q.PushBack d m).q, (q.PushBack d m).calls⟩
  | .pushFrontTTL d m t cb lag =>
    ⟨.flag (q.PushFrontTTL now (now + lag) d m t cb).ret,
      (q.PushFrontTTL now (now + lag) d m t cb).q,
      (q.PushFrontTTL now (now + lag) d m t cb).calls⟩
  | .pushBackTTL d m t cb lag =>
    ⟨.flag (q.PushBackTTL now (now + lag) d m t cb).ret,
      (q.PushBackTTL now (now + lag) d m t cb).q,
      (q.PushBackTTL now (now + lag) d m t cb).calls⟩
  | .pull d => ⟨.item (q.Pull now d).ret.1 (q.Pull now d).ret.2, (q.Pull now d).q, (q.Pull now d).calls⟩
  | .pullFront =>
    ⟨.entry (q.PullFront now).ret.1 (q.PullFront now).ret.2.1 (q.PullFront now).ret.2.2,
      (q.PullFront now).q, (q.PullFront now).calls⟩
  | .pullBack =>
    ⟨.entry (q.PullBack now).ret.1 (q.PullBack now).ret.2.1 (q.PullBack now).ret.2.2,
      (q.PullBack now).q, (q.PullBack now).calls⟩
  | .read d => ⟨.item (q.Read now d).ret.1 (q.Read now d).ret.2, (q.Read now d).q, (q.Read now d).calls⟩
  | .readFront =>
    ⟨.entry (q.ReadFront now).ret.1 (q.ReadFront now).ret.2.1 (q.ReadFront now).ret.2.2,
      (q.ReadFront now).q, (q.ReadFront now).calls⟩
  | .readBack =>
    ⟨.entry (q.ReadBack now).ret.1 (q.ReadBack now).ret.2.1 (q.ReadBack now).ret.2.2,
      (q.ReadBack now).q, (q.ReadBack now).calls⟩
  | .update d m => ⟨.flag (q.Update now d m).ret, (q.Update now d m).q, (q.Update now d m).calls⟩
  | .resetTTL d t lag1 lag2 =>
    ⟨.flag (q.ResetTTL now (now + lag1) (now + lag1 + lag2) d t).ret,
      (q.ResetTTL now (now + lag1) (now + lag1 + lag2) d t).q,
      (q.ResetTTL now (now + lag1) (now + lag1 + lag2) d t).calls⟩
  | .remove d => ⟨.flag (q.Remove now d).ret, (q.Remove now d).q, (q.Remove now d).calls⟩
  | .prune => ⟨.flag (q.Prune now).ret, (q.Prune now).q, (q.Prune now).calls⟩
  | .has d => ⟨.flag (q.Has now d).ret, (q.Has now d).q, (q.Has now d).calls⟩
  | .len => ⟨.count q.Len, q, []⟩
  | .max => ⟨.count q.Max, q, []⟩
  | .isFull => ⟨.flag q.IsFull, q, []⟩
  | .isEmpty => ⟨.flag q.IsEmpty, q, []⟩

/-- A run: the calls of `ops`, each at its own instant, one after the other from `q`.
Returns the list of the returned values, the final queue and all callbacks invoked. -/
def run {C V : Type} : FlexQueue C V → List (Int × Op C V) → Outcome C V (List (Resp V))
  | q, [] => ⟨[], q, []⟩
  | q, (now, op) :: ops =>
    ⟨(step q now op).ret :: (run (step q now op).q ops).ret,
      (run (step q now op).q ops).q,
      (step q now op).calls ++ (run (step q now op).q ops).calls⟩


/-! ## Representation invariants -/

/-- The representation invariant of a FlexList: the elements of the linked list have
pairwise different identities, all allocated before `fresh`; the index has no key twice;
every index entry points to an element of the list that carries its key; and every
element of the list is the one its key is indexed to. -/
def FlexList.WF {V : Type} (l : FlexList V) : Prop :=
  (l.items.elems.map Element.id).Nodup ∧
  (∀ e ∈ l.items.elems, e.id < l.items.fresh) ∧
  (l.indices.map Prod.fst).Nodup ∧
  (∀ p ∈ l.indices, p.2 ∈ l.items.elems ∧ p.2.Value.index = p.1) ∧
  (∀ e ∈ l.items.elems, mapLookup l.indices e.Value.index = some e)

instance FlexList.decidableWF {V : Type} [DecidableEq V] (l : FlexList V) : Decidable l.WF := by
  unfold FlexList.WF
  infer_instance

/-- The representation invariant of a FlexQueue: the message list is well formed and the
TTL table has no key twice. -/
def FlexQueue.WF {C V : Type} (q : FlexQueue C V) : Prop :=
  q.messages.WF ∧ (q.ttl.map Prod.fst).Nodup

instance FlexQueue.decidableWF {C V : Type} [DecidableEq V] (q : FlexQueue C V) :
    Decidable q.WF := by
  unfold FlexQueue.WF
  infer_instance

/-- The digest has a TTL control that is expired at the instant `now`. -/
def FlexQueue.expiredAt {C V : Type} (q : FlexQueue C V) (now : Int) (digest : String) : Bool :=
  match mapLookup q.ttl digest with
  | some ttl => ttl.Expired now
  | none => false

/-! ## Elementary changes of state -/

/-- The elementary changes of state out of which every queue operation is made: a
removal from the message list, an update of the message list, a push onto a queue that
is not full, the deletion of a key of the TTL table and a store into the TTL table. -/
inductive Prim {C V : Type} : FlexQueue C V → FlexQueue C V → Prop where
  | remove (q : FlexQueue C V) (d : String) :
      Prim q ⟨(q.messages.Remove d).2, q.ttl, q.max⟩
  | update (q : FlexQueue C V) (d : String) (v : Option V) :
      Prim q ⟨(q.messages.Update d v).2, q.ttl, q.max⟩
  | push (q : FlexQueue C V) (front : Bool) (d : String) (v : Option V)
      (h : q.IsFull = false) :
      Prim q ⟨(if front then q.messages.PushFront d v else q.messages.PushBack d v).2,
        q.ttl, q.max⟩
  | ttlDelete (q : FlexQueue C V) (d : String) :
      Prim q ⟨q.messages, mapDelete q.ttl d, q.max⟩
  | ttlStore (q : FlexQueue C V) (d : String) (t : TTL C) :
      Prim q ⟨q.messages, mapStore q.ttl d t, q.max⟩

/-- A chain of elementary changes of state. -/
def Prims {C V : Type} (q q' : FlexQueue C V) : Prop := Relation.ReflTransGen Prim q q'

/-! ## Counting callbacks -/

/-- The number of callbacks fired with the digest `d` among `calls`. -/
def callsFor {C V : Type} (d : String) (calls : List (Call C V)) : Nat :=
  (calls.filter fun c => decide (c.digest = d)).length

/-- The number of TTL controls the table holds for the digest `d` under lookup: 1 or 0. -/
def controls {α : Type} (m : List (String × α)) (d : String) : Nat :=
  if (mapLookup m d).isSome then 1 else 0

/-- The call is a push of the digest `d` with a TTL. -/
def Op.isTTLPush {C V : Type} (d : String) : Op C V → Bool
  | .pushFrontTTL d' _ _ _ _ => decide (d' = d)
  | .pushBackTTL d' _ _ _ _ => decide (d' = d)
  | _ => false

/-- The call is a ResetTTL of the digest `d` to a duration that is already elapsed when
the new control is checked: the duration is shorter than the time from the reading of
NewTTL to the reading of Expired (every negative duration is). -/
def Op.isElapsedReset {C V : Type} (d : String) : Op C V → Bool
  | .resetTTL d' ttl _ lag2 => decide (d' = d ∧ ttl < lag2)
  | _ => false

/-- The digest of the entry that a call returned with found = true, if it returned one:
Pull and Read return the entry of their argument, the positional pulls and reads return
the entry they name. -/
def returnedDigest {C V : Type} : Op C V → Resp V → Option String
  | .pull d, .item _ true => some d
  | .read d, .item _ true => some d
  | .pullFront, .entry d _ true => some d
  | .pullBack, .entry d _ true => some d
  | .readFront, .entry d _ true => some d
  | .readBack, .entry d _ true => some d
  | _, _ => none

/-- The call takes the digest `d` out of the queue by its name: a Pull or a Remove of
`d`. -/
def Op.takes {C V : Type} (d : String) : Op C V → Bool
  | .pull d' => decide (d' = d)
  | .remove d' => decide (d' = d)
  | _ => false

/-- The digest of the entry that a positional pull returned with found = true. -/
def pulledDigest {C V : Type} : Op C V → Resp V → Option String
  | .pullFront, .entry d _ true => some d
  | .pullBack, .entry d _ true => some d
  | _, _ => none

/-- Along the run of `ops` from `q`, no positional pull returns the digest `d`. -/
def neverPulls {C V : Type} (d : String) : FlexQueue C V → List (Int × Op C V) → Bool
  | _, [] => true
  | q, (now, op) :: ops =>
    decide (pulledDigest op (step q now op).ret ≠ some d) && neverPulls d (step q now op).q ops

/-- The message stored for the digest `d` after a call that does not remove it, when it
was `v` before: an Update of `d` replaces it. -/
def storedAfter {C V : Type} (d : String) (v : Option V) : Op C V → Option V
  | .update d' m => if d' = d then m else v
  | _ => v

/-- The message stored for the digest `d` after the calls `ops`, none of which removes
it, when it was `v` before: the message of the last Update of `d`, or `v`. -/
def lastStored {C V : Type} (d : String) (v : Option V) : List (Int × Op C V) → Option V
  | [] => v
  | (_, op) :: ops => lastStored d (storedAfter d v op) ops

/-! ## Calls of the FlexList methods -/

/-- A call of a method of FlexList, with its arguments. -/
inductive ListOp (V : Type) where
  | pushFront (index : String) (item : Option V)
  | pushBack (index : String) (item : Option V)
  | pullFront
  | pullBack
  | pull (index : String)
  | readFront
  | readBack
  | read (index : String)
  | update (index : String) (item : Option V)
  | remove (index : String)
  | has (index : String)
  | len
deriving DecidableEq, Repr

/-- The list after one call of a method.  ReadFront, ReadBack, Read, Has and Len contain
no assignment to the list or to what it points to: the list after them is the list
before. -/
def FlexList.after {V : Type} (l : FlexList V) : ListOp V → FlexList V
  | .pushFront k v => (l.PushFront k v).2
  | .pushBack k v => (l.PushBack k v).2
  | .pullFront => l.PullFront.2
  | .pullBack => l.PullBack.2
  | .pull k => (l.Pull k).2
  | .readFront => l
  | .readBack => l
  | .read _ => l
  | .update k v => (l.Update k v).2
  | .remove k => (l.Remove k).2
  | .has _ => l
  | .len => l

/-- The list after the calls `ops`, one after the other. -/
def FlexList.afterAll {V : Type} : FlexList V → List (ListOp V) → FlexList V
  | l, [] => l
  | l, op :: ops => (l.after op).afterAll ops

/-- The list after a removal of each key of `ks`, in order. -/
def FlexList.removeAll {V : Type} : FlexList V → List String → FlexList V
  | l, [] => l
  | l, k :: ks => ((l.Remove k).2).removeAll ks

/-- The table after a deletion of each key of `ks`, in order. -/
def mapDeleteAll {α : Type} : List (String × α) → List String → List (String × α)
  | m, [] => m
  | m, k :: ks => mapDeleteAll (mapDelete m k) ks

/-- Every control of the TTL table belongs to a message that is in the list. -/
def FlexQueue.NoStale {C V : Type} (q : FlexQueue C V) : Prop :=
  ∀ p ∈ q.ttl, q.messages.Has p.1 = true

instance FlexQueue.decidableNoStale {C V : Type} (q : FlexQueue C V) : Decidable q.NoStale := by
  unfold FlexQueue.NoStale
  infer_instance

/-- The call is a pull: Pull of a digest, PullFront or PullBack. -/
def Op.isPull {C V : Type} : Op C V → Bool
  | .pull _ => true
  | .pullFront => true
  | .pullBack => true
  | _ => false

/-- The entries of the TTL table whose control is expired at the instant `now`. -/
def expiredControls {C : Type} (now : Int) (m : List (String × TTL C)) : List (String × TTL C) :=
  m.filter fun p => p.2.Expired now

/-! ## Runs with SetMax -/

/-- A call of the public interface of a queue: SetMax, or an operation at an instant. -/
inductive Cmd (C V : Type) where
  | setMax (max : Int)
  | call (now : Int) (op : Op C V)
deriving DecidableEq, Repr

/-- The queue after the calls `cmds`, one after the other, and the callbacks they
invoked, in order. -/
def exec {C V : Type} : FlexQueue C V → List (Cmd C V) → FlexQueue C V × List (Call C V)
  | q, [] => (q, [])
  | q, .setMax m :: cmds => exec (q.SetMax m) cmds
  | q, .call now op :: cmds =>
    ((exec (step q now op).q cmds).1, (step q now op).calls ++ (exec (step q now op).q cmds).2)

/-- The callback argument of a call, when it has one: PushFrontTTL and PushBackTTL. -/
def Op.callbackArg {C V : Type} : Op C V → Option C
  | .pushFrontTTL _ _ _ cb _ => some cb
  | .pushBackTTL _ _ _ cb _ => some cb
  | _ => none

/-- The callback argument of a call of the public interface, when it has one. -/
def Cmd.callbackArg {C V : Type} : Cmd C V → Option C
  | .setMax _ => none
  | .call _ op => op.callbackArg

/-- The call passes the nil function value as its callback argument, with `Option K` as
the type of the callbacks and `none` as the nil function value. -/
def Cmd.passesNil {K V : Type} (c : Cmd (Option K) V) : Bool :=
  match c.callbackArg with
  | some none => true
  | _ => false

/-- Among the invocations `calls`, with `Option K` as the type of the callbacks and
`none` as the nil function value, one invokes nil.  In Go a call of a nil function value
panics, and the operation stops there: an outcome whose calls contain nil stands for a
run that panicked at the first such call. -/
def calledNil {K V : Type} (calls : List (Call (Option K) V)) : Bool :=
  calls.any fun c => c.callback.isNone

/-! ## Runs of pushes and pulls -/

/-- The calls that push the (instant, digest, message) triples of `es`, in order, at the
front or at the back. -/
def pushOps {C V : Type} (front : Bool) (es : List (Int × String × Option V)) :
    List (Int × Op C V) :=
  es.map fun p => (p.1, if front then Op.pushFront p.2.1 p.2.2 else Op.pushBack p.2.1 p.2.2)

/-- One positional pull at each instant of `ts`, at the front or at the back. -/
def pullOps {C V : Type} (front : Bool) (ts : List Int) : List (Int × Op C V) :=
  ts.map fun t => (t, if front then Op.pullFront else Op.pullBack)

/-! ## Example states -/

/-- A queue with maximum length 2 that holds "A" and "B". -/
def fullQueue : FlexQueue Nat Nat :=
  (((NewFlexQueue.SetMax 2).PushBack "A" (some 1)).q.PushBack "B" (some 2)).q

/-- A queue with maximum length 2 that holds "A" only. -/
def roomyQueue : FlexQueue Nat Nat :=
  ((NewFlexQueue.SetMax 2).PushBack "A" (some 1)).q

/-- A queue of "A", "B", "C" pushed at the instants 0, 2 and 4 with TTLs that expire at
the instants 10, 30 and 10. -/
def ttlQueue : FlexQueue Nat Nat :=
  (((((NewFlexQueue.PushBackTTL 0 1 "A" (some 1) 10 7).q).PushBackTTL 2 3 "B" (some 2) 28
    8).q).PushBackTTL 4 5 "C" (some 3) 6 9).q

/-- A queue of "A", "B" pushed at the instants 0 and 2 with TTLs that expire at the
instant 10. -/
def shortQueue : FlexQueue Nat Nat :=
  (((NewFlexQueue.PushBackTTL 0 1 "A" (some 1) 10 7).q).PushBackTTL 2 3 "B" (some 2) 8 8).q

/-- Three pushes: "A" at instant 0, "B" at instant 1 and "C" at instant 2. -/
def abcPushes : List (Int × String × Option Nat) :=
  [(0, "A", some 1), (1, "B", some 2), (2, "C", some 3)]

/-- A run with pushes beyond the maximum, TTLs, pulls, an update, a reset and a prune. -/
def busyRun : List (Int × Op Nat Nat) :=
  [(0, Op.pushBackTTL "A" (some 1) 10 7 1), (1, Op.pushFront "B" (some 2)),
    (2, Op.pushBack "C" (some 3)), (3, Op.update "B" (some 4)), (4, Op.resetTTL "A" 20 1 1),
    (12, Op.has "A"), (13, Op.pullFront), (14, Op.pushFrontTTL "D" (some 5) 5 8 1),
    (30, Op.prune), (31, Op.readBack), (32, Op.remove "B"), (33, Op.isFull)]

/-- A push of "A" with a TTL, a reset with an elapsed duration, and a later access. -/
def resetRun : List (Int × Op Nat Nat) :=
  [(0, Op.pushBackTTL "A" (some 1) 10 7 1), (1, Op.resetTTL "A" (-1) 1 1), (20, Op.has "A")]

/-- The same with a reset to the duration 0, checked one instant after the new control
was made. -/
def zeroResetRun : List (Int × Op Nat Nat) :=
  [(0, Op.pushBackTTL "A" (some 1) 10 7 1), (1, Op.resetTTL "A" 0 1 1), (20, Op.has "A")]

/-- A push of "A" with a TTL of 10 at instant 0 and a pull at instant 1, while "A" is
not expired. -/
def leakRun : List (Int × Op Nat Nat) :=
  [(0, Op.pushBackTTL "A" (some 1) 10 7 1), (1, Op.pullFront)]

/-- The same with a pull by digest. -/
def leakRunPull : List (Int × Op Nat Nat) :=
  [(0, Op.pushBackTTL "A" (some 1) 10 7 1), (1, Op.pull "A")]

/-- The same with Remove in the place of the pull. -/
def removeRun : List (Int × Op Nat Nat) :=
  [(0, Op.pushBackTTL "A" (some 1) 10 7 1), (1, Op.remove "A")]

/-- The queue after `leakRun`: it holds no message. -/
def staleQueue : FlexQueue Nat Nat := (run NewFlexQueue leakRun).q

/-- A run that works around "A": pushes with and without a TTL, an Update and an elapsed
ResetTTL of "A", reads, a pull of another digest and a prune. -/
def quietRun : List (Int × Op Nat Nat) :=
  [(1, Op.pushBackTTL "B" (some 2) 50 8 1), (2, Op.pushBackTTL "D" (some 7) 5 6 1),
    (3, Op.update "A" (some 4)), (4, Op.resetTTL "A" (-1) 1 1), (5, Op.readFront),
    (6, Op.pushFront "C" (some 3)), (7, Op.pullBack), (8, Op.has "A"), (20, Op.prune),
    (21, Op.read "A"), (22, Op.update "C" (some 6))]

/-- A plain push of "A", then a push of "A" with a TTL, then a Has after the expiry. -/
def lateTTLRun : List (Int × Op Nat Nat) :=
  [(0, Op.pushBack "A" (some 1)), (1, Op.pushBackTTL "A" (some 2) 10 7 1), (20, Op.has "A")]

/-- A list of "A", "B", "C" pushed at the back. -/
def abcList : FlexList Nat :=
  (((NewFlexList.PushBack "A" (some 1)).2.PushBack "B" (some 2)).2.PushBack "C" (some 3)).2

/-- The queue `shortQueue` of "A" and "B" after a PullFront at instant 4: it holds "B",
and the controls of "A" and of "B". -/
def halfStaleQueue : FlexQueue Nat Nat := (shortQueue.PullFront 4).q

/-- A run of FlexList calls with duplicate pushes, pulls, updates and removals. -/
def listRun : List (ListOp Nat) :=
  [.pushBack "A" (some 1), .pushFront "B" (some 2), .pushBack "A" (some 3), .update "B" none,
    .pullBack, .pushBack "C" (some 4), .remove "X", .pull "B", .pushFront "D" (some 5),
    .readFront, .pullFront, .update "C" (some 6)]

/-- A queue with maximum length 2 that holds "A" and "B", pushed at the instants 0 and
2 with TTLs that expire at the instant 10. -/
def expiredFullQueue : FlexQueue Nat Nat :=
  (((NewFlexQueue.SetMax 2).PushBackTTL 0 1 "A" (some 1) 10 7).q.PushBackTTL 2 3 "B" (some 2)
    8 8).q

/-- The three pushes that build `ttlQueue`. -/
def ttlPushes : List (Int × Op Nat Nat) :=
  [(0, Op.pushBackTTL "A" (some 1) 10 7 1), (2, Op.pushBackTTL "B" (some 2) 28 8 1),
    (4, Op.pushBackTTL "C" (some 3) 6 9 1)]

/-- Calls with SetMax in between and callbacks that are function values: pushes with
and without a TTL, the empty digest, an elapsed TTL, reads, a reset, pulls and a
prune. -/
def mixedCmds : List (Cmd (Option Nat) Nat) :=
  [.setMax 3, .call 0 (.pushBackTTL "" (some 1) 10 (some 7) 1), .call 1 (.pushFront "B" none),
    .call 2 (.pushBackTTL "C" (some 3) (-1) (some 8) 1), .setMax 0, .call 3 (.has ""),
    .call 4 (.resetTTL "" (-5) 1 1), .call 5 (.update "B" (some 4)), .setMax (-7),
    .call 12 .readBack, .call 13 (.pushFrontTTL "D" (some 5) 5 (some 9) 1), .setMax 4,
    .call 14 (.pushFrontTTL "D" (some 5) 5 (some 9) 1), .call 15 (.pushBack "E" (some 6)),
    .call 16 .pullBack, .call 30 .prune, .call 31 (.pushBackTTL "F" none 100 (some 6) 1),
    .call 32 (.remove "X")]

/-! ### Go maps -/

section Maps

variable {α : Type}

theorem mapLookup_mapStore_self (m : List (String × α)) (k : String) (v : α) :
    mapLookup (mapStore m k v) k = some v := by
  induction m with
  | nil => simp [mapStore, mapLookup]
  | cons p m ih =>
    obtain ⟨k', v'⟩ := p
    by_cases h : k' = k
    · simp [mapStore, mapLookup, h]
    · simp [mapStore, mapLookup, h, ih]

theorem mapLookup_mapStore_ne (m : List (String × α)) (k k' : String) (v : α) (h : k' ≠ k) :
    mapLookup (mapStore m k v) k' = mapLookup m k' := by
  induction m with
  | nil => simp [mapStore, mapLookup, Ne.symm h]
  | cons p m ih =>
    obtain ⟨k₁, v₁⟩ := p
    by_cases h1 : k₁ = k
    · subst h1
      simp [mapStore, mapLookup, Ne.symm h]
    · by_cases h2 : k₁ = k'
      · subst h2
        simp [mapStore, mapLookup, h1]
      · simp [mapStore, mapLookup, h1, h2, ih]

theorem mapLookup_mapDelete_self (m : List (String × α)) (k : String) :
    mapLookup (mapDelete m k) k = none := by
  induction m with
  | nil => simp [mapDelete, mapLookup]
  | cons p m ih =>
    obtain ⟨k', v'⟩ := p
    by_cases h : k' = k
    · simp [mapDelete, h, ih]
    · simp [mapDelete, mapLookup, h, ih]

theorem mapLookup_mapDelete_ne (m : List (String × α)) (k k' : String) (h : k' ≠ k) :
    mapLookup (mapDelete m k) k' = mapLookup m k' := by
  induction m with
  | nil => simp [mapDelete, mapLookup]
  | cons p m ih =>
    obtain ⟨k₁, v₁⟩ := p
    by_cases h1 : k₁ = k
    · subst h1
      simp [mapDelete, mapLookup, Ne.symm h, ih]
    · by_cases h2 : k₁ = k'
      · subst h2
        simp [mapDelete, mapLookup, h1]
      · simp [mapDelete, mapLookup, h1, h2, ih]

theorem mapDelete_of_mapLookup_none (m : List (String × α)) (k : String)
    (h : mapLookup m k = none) : mapDelete m k = m := by
  induction m with
  | nil => simp [mapDelete]
  | cons p m ih =>
    obtain ⟨k', v'⟩ := p
    by_cases h1 : k' = k
    · simp [mapLookup, h1] at h
    · simp only [mapLookup, h1, if_false] at h
      simp [mapDelete, h1, ih h]

theorem mapStore_of_mapLookup_none (m : List (String × α)) (k : String) (v : α)
    (h : mapLookup m k = none) : mapStore m k v = m ++ [(k, v)] := by
  induction m with
  | nil => simp [mapStore]
  | cons p m ih =>
    obtain ⟨k', v'⟩ := p
    by_cases h1 : k' = k
    · simp [mapLookup, h1] at h
    · simp only [mapLookup, h1, if_false] at h
      simp [mapStore, h1, ih h]

theorem map_fst_mapStore_of_mapLookup_some (m : List (String × α)) (k : String) (v v' : α)
    (h : mapLookup m k = some v') : (mapStore m k v).map Prod.fst = m.map Prod.fst := by
  induction m with
  | nil => simp [mapLookup] at h
  | cons p m ih =>
    obtain ⟨k₁, v₁⟩ := p
    by_cases h1 : k₁ = k
    · simp [mapStore, h1]
    · simp only [mapLookup, h1, if_false] at h
      simp [mapStore, h1, ih h]

theorem mem_of_mapLookup (m : List (String × α)) (k : String) (v : α)
    (h : mapLookup m k = some v) : (k, v) ∈ m := by
  induction m with
  | nil => simp [mapLookup] at h
  | cons p m ih =>
    obtain ⟨k₁, v₁⟩ := p
    by_cases h1 : k₁ = k
    · simp only [mapLookup, h1, if_true, Option.some.injEq] at h
      simp [h1, h]
    · simp only [mapLookup, h1, if_false] at h
      exact List.mem_cons_of_mem _ (ih h)

theorem mapLookup_eq_none_iff (m : List (String × α)) (k : String) :
    mapLookup m k = none ↔ k ∉ m.map Prod.fst := by
  induction m with
  | nil => simp [mapLookup]
  | cons p m ih =>
    obtain ⟨k₁, v₁⟩ := p
    by_cases h1 : k₁ = k
    · simp [mapLookup, h1]
    · simp [mapLookup, h1, ih, Ne.symm h1]

theorem mapLookup_of_mem (m : List (String × α)) (k : String) (v : α)
    (hn : (m.map Prod.fst).Nodup) (h : (k, v) ∈ m) : mapLookup m k = some v := by
  induction m with
  | nil => simp at h
  | cons p m ih =>
    obtain ⟨k₁, v₁⟩ := p
    simp only [List.map_cons, List.nodup_cons] at hn
    rcases List.mem_cons.1 h with h | h
    · cases h
      simp [mapLookup]
    · have hk : k₁ ≠ k := by
        rintro rfl
        exact hn.1 (List.mem_map_of_mem Prod.fst h)
      simp [mapLookup, hk, ih hn.2 h]

theorem mem_mapDelete (m : List (String × α)) (k : String) (p : String × α) :
    p ∈ mapDelete m k ↔ p ∈ m ∧ p.1 ≠ k := by
  induction m with
  | nil => simp [mapDelete]
  | cons p' m ih =>
    obtain ⟨k₁, v₁⟩ := p'
    by_cases h1 : k₁ = k
    · subst h1
      simp only [mapDelete, if_true, ih, List.mem_cons]
      constructor
      · rintro ⟨h, hne⟩
        exact ⟨Or.inr h, hne⟩
      · rintro ⟨h | h, hne⟩
        · subst h
          exact absurd rfl hne
        · exact ⟨h, hne⟩
    · simp only [mapDelete, h1, if_false, List.mem_cons, ih]
      constructor
      · rintro (h | ⟨h, hne⟩)
        · subst h
          exact ⟨Or.inl rfl, h1⟩
        · exact ⟨Or.inr h, hne⟩
      · rintro ⟨h | h, hne⟩
        · exact Or.inl h
        · exact Or.inr ⟨h, hne⟩

theorem mapDelete_sublist (m : List (String × α)) (k : String) :
    (mapDelete m k).Sublist m := by
  induction m with
  | nil => simp [mapDelete]
  | cons p m ih =>
    obtain ⟨k₁, v₁⟩ := p
    by_cases h1 : k₁ = k
    · simp only [mapDelete, h1, if_true]
      exact List.Sublist.cons _ ih
    · simp only [mapDelete, h1, if_false]
      exact List.Sublist.cons₂ _ ih

theorem nodup_keys_mapDelete (m : List (String × α)) (k : String)
    (hn : (m.map Prod.fst).Nodup) : ((mapDelete m k).map Prod.fst).Nodup :=
  hn.sublist ((mapDelete_sublist m k).map Prod.fst)

theorem nodup_keys_mapStore (m : List (String × α)) (k : String) (v : α)
    (hn : (m.map Prod.fst).Nodup) : ((mapStore m k v).map Prod.fst).Nodup := by
  cases h : mapLookup m k with
  | none =>
    rw [mapStore_of_mapLookup_none m k v h, List.map_append]
    have hk := (mapLookup_eq_none_iff m k).1 h
    simp only [List.map_cons, List.map_nil]
    exact List.Nodup.append hn (List.nodup_singleton k) (by simpa using hk)
  | some v' => rw [map_fst_mapStore_of_mapLookup_some m k v v' h]; exact hn

theorem mem_mapStore (m : List (String × α)) (k : String) (v : α) (p : String × α)
    (hn : (m.map Prod.fst).Nodup) (h : p ∈ mapStore m k v) :
    p = (k, v) ∨ (p ∈ m ∧ p.1 ≠ k) := by
  obtain ⟨k', v'⟩ := p
  by_cases hk : k' = k
  · subst hk
    left
    have := mapLookup_of_mem _ _ _ (nodup_keys_mapStore m k' v hn) h
    rw [mapLookup_mapStore_self] at this
    cases this
    rfl
  · right
    refine ⟨?_, hk⟩
    have := mapLookup_of_mem _ _ _ (nodup_keys_mapStore m k v hn) h
    rw [mapLookup_mapStore_ne _ _ _ _ hk] at this
    exact mem_of_mapLookup _ _ _ this

end Maps

/-! ### Linked lists -/

section Lists
variable {V : Type}

theorem removeId_sublist (xs : List (Element V)) (i : Nat) : (removeId xs i).Sublist xs := by
  induction xs with
  | nil => simp [removeId]
  | cons x xs ih =>
    by_cases h : x.id = i
    · simp only [removeId, h, if_true]
      exact List.sublist_cons_self x xs
    · simp only [removeId, h, if_false]
      exact List.Sublist.cons₂ _ ih

theorem removeId_of_not_mem (xs : List (Element V)) (i : Nat)
    (h : i ∉ xs.map Element.id) : removeId xs i = xs := by
  induction xs with
  | nil => simp [removeId]
  | cons x xs ih =>
    simp only [List.map_cons, List.mem_cons, not_or] at h
    simp [removeId, Ne.symm h.1, ih h.2]

theorem mem_removeId_of_ne (xs : List (Element V)) (i : Nat) (x : Element V)
    (hx : x ∈ xs) (hne : x.id ≠ i) : x ∈ removeId xs i := by
  induction xs with
  | nil => simp at hx
  | cons y ys ih =>
    by_cases h : y.id = i
    · simp only [removeId, h, if_true]
      rcases List.mem_cons.1 hx with rfl | hx
      · exact absurd h hne
      · exact hx
    · simp only [removeId, h, if_false]
      rcases List.mem_cons.1 hx with rfl | hx
      · exact List.mem_cons_self _ _
      · exact List.mem_cons_of_mem _ (ih hx)

theorem id_ne_of_mem_removeId (xs : List (Element V)) (i : Nat) (x : Element V)
    (hn : (xs.map Element.id).Nodup) (hx : x ∈ removeId xs i) : x.id ≠ i := by
  induction xs with
  | nil => simp [removeId] at hx
  | cons y ys ih =>
    simp only [List.map_cons, List.nodup_cons] at hn
    by_cases h : y.id = i
    · simp only [removeId, h, if_true] at hx
      intro hxi
      exact hn.1 (by rw [h, ← hxi]; exact List.mem_map_of_mem _ hx)
    · simp only [removeId, h, if_false] at hx
      rcases List.mem_cons.1 hx with rfl | hx
      · exact h
      · exact ih hn.2 hx

theorem removeId_append_singleton (xs : List (Element V)) (e : Element V)
    (h : e.id ∉ xs.map Element.id) : removeId (xs ++ [e]) e.id = xs := by
  induction xs with
  | nil => simp [removeId]
  | cons x xs ih =>
    simp only [List.map_cons, List.mem_cons, not_or] at h
    simp [removeId, Ne.symm h.1, ih h.2]

theorem length_removeId_le (xs : List (Element V)) (i : Nat) :
    (removeId xs i).length ≤ xs.length := (removeId_sublist xs i).length_le

theorem eq_of_id_eq (xs : List (Element V)) (hn : (xs.map Element.id).Nodup)
    (x y : Element V) (hx : x ∈ xs) (hy : y ∈ xs) (h : x.id = y.id) : x = y :=
  List.inj_on_of_nodup_map hn hx hy h

/-- Inserting a new element after the element `i` and unlinking the element `i`
replaces that element by the new one, in place. -/
theorem removeId_insertAfterId (xs : List (Element V)) (i : Nat) (e : Element V)
    (hn : (xs.map Element.id).Nodup) :
    removeId (insertAfterId xs i e) i = xs.map (fun x => if x.id = i then e else x) := by
  induction xs with
  | nil => simp [insertAfterId, removeId]
  | cons x xs ih =>
    simp only [List.map_cons, List.nodup_cons] at hn
    by_cases h : x.id = i
    · have hnot : ∀ y ∈ xs, y.id ≠ i := by
        intro y hy hyi
        exact hn.1 (by rw [h, ← hyi]; exact List.mem_map_of_mem _ hy)
      have hmap : xs.map (fun x => if x.id = i then e else x) = xs := by
        conv_rhs => rw [← List.map_id xs]
        apply List.map_congr_left
        intro y hy
        simp [hnot y hy]
      simp [insertAfterId, removeId, h, hmap]
    · simp [insertAfterId, removeId, h, ih hn.2]

theorem length_removeId_insertAfterId (xs : List (Element V)) (i : Nat) (e : Element V) :
    (removeId (insertAfterId xs i e) i).length = xs.length := by
  induction xs with
  | nil => simp [insertAfterId, removeId]
  | cons x xs ih =>
    by_cases h : x.id = i
    · simp [insertAfterId, removeId, h]
    · simp [insertAfterId, removeId, h, ih]

end Lists

/-! ### FlexList: the invariant is kept -/

namespace FlexList
variable {V : Type}

theorem WF_New : (NewFlexList : FlexList V).WF := by
  simp [FlexList.WF, NewFlexList, LinkedList.New]

theorem WF.lookup {l : FlexList V} (h : l.WF) {k : String} {e : Element V}
    (hl : mapLookup l.indices k = some e) : e ∈ l.items.elems ∧ e.Value.index = k :=
  h.2.2.2.1 (k, e) (mem_of_mapLookup _ _ _ hl)

theorem Has_eq_true_iff (l : FlexList V) (k : String) :
    l.Has k = true ↔ ∃ e, mapLookup l.indices k = some e := by
  simp [FlexList.Has, Option.isSome_iff_exists]

theorem Has_eq_false_iff (l : FlexList V) (k : String) :
    l.Has k = false ↔ mapLookup l.indices k = none := by
  simp [FlexList.Has]

theorem WF.key_ne {l : FlexList V} (h : l.WF) {k : String} {e : Element V}
    (he : e ∈ l.items.elems) (hk : mapLookup l.indices k = none) : e.Value.index ≠ k := by
  intro hek
  have := h.2.2.2.2 e he
  rw [hek, hk] at this
  cases this

theorem PushFront_absent (l : FlexList V) (d : String) (v : Option V)
    (h : l.Has d = false) :
    l.PushFront d v = (true, ⟨⟨⟨l.items.fresh, ⟨d, v⟩⟩ :: l.items.elems, l.items.fresh + 1⟩,
      mapStore l.indices d ⟨l.items.fresh, ⟨d, v⟩⟩⟩) := by
  have h' : mapLookup l.indices d = none := by simpa [FlexList.Has] using h
  simp [FlexList.PushFront, h', LinkedList.PushFront]

theorem PushBack_absent (l : FlexList V) (d : String) (v : Option V)
    (h : l.Has d = false) :
    l.PushBack d v = (true, ⟨⟨l.items.elems ++ [⟨l.items.fresh, ⟨d, v⟩⟩], l.items.fresh + 1⟩,
      mapStore l.indices d ⟨l.items.fresh, ⟨d, v⟩⟩⟩) := by
  have h' : mapLookup l.indices d = none := by simpa [FlexList.Has] using h
  simp [FlexList.PushBack, h', LinkedList.PushBack]

theorem PushFront_present (l : FlexList V) (d : String) (v : Option V)
    (h : l.Has d = true) : l.PushFront d v = (false, l) := by
  obtain ⟨e, he⟩ := (Has_eq_true_iff l d).1 h
  simp [FlexList.PushFront, he]

theorem PushBack_present (l : FlexList V) (d : String) (v : Option V)
    (h : l.Has d = true) : l.PushBack d v = (false, l) := by
  obtain ⟨e, he⟩ := (Has_eq_true_iff l d).1 h
  simp [FlexList.PushBack, he]

/-- Adding a new element with an unused identity and an unindexed key, at any place of
the list, keeps the invariant. -/
theorem WF_insert (l : FlexList V) (h : l.WF) (d : String) (v : Option V)
    (elems' : List (Element V)) (hk : mapLookup l.indices d = none)
    (hperm : ∀ x, x ∈ elems' ↔ x = ⟨l.items.fresh, ⟨d, v⟩⟩ ∨ x ∈ l.items.elems)
    (hids : (elems'.map Element.id).Nodup) :
    (⟨⟨elems', l.items.fresh + 1⟩, mapStore l.indices d ⟨l.items.fresh, ⟨d, v⟩⟩⟩ :
      FlexList V).WF := by
  obtain ⟨_, hfresh, hkeys, hlinked, hindexed⟩ := h
  refine ⟨hids, ?_, nodup_keys_mapStore _ _ _ hkeys, ?_, ?_⟩
  · intro e he
    rcases (hperm e).1 he with rfl | he
    · exact Nat.lt_succ_self _
    · exact Nat.lt_succ_of_lt (hfresh e he)
  · intro p hp
    rcases mem_mapStore _ _ _ _ hkeys hp with rfl | ⟨hp, _⟩
    · exact ⟨(hperm _).2 (Or.inl rfl), rfl⟩
    · exact ⟨(hperm _).2 (Or.inr (hlinked p hp).1), (hlinked p hp).2⟩
  · intro e he
    rcases (hperm e).1 he with rfl | he
    · exact mapLookup_mapStore_self _ _ _
    · have hne : e.Value.index ≠ d := by
        intro hek
        have := hindexed e he
        rw [hek, hk] at this
        cases this
      show mapLookup (mapStore l.indices d _) e.Value.index = some e
      rw [mapLookup_mapStore_ne _ _ _ _ hne]
      exact hindexed e he

theorem fresh_not_mem {l : FlexList V} (h : l.WF) :
    l.items.fresh ∉ l.items.elems.map Element.id := by
  intro hm
  obtain ⟨e, he, hid⟩ := List.mem_map.1 hm
  have := h.2.1 e he
  omega

theorem WF_PushFront (l : FlexList V) (h : l.WF) (d : String) (v : Option V) :
    (l.PushFront d v).2.WF := by
  cases hd : l.Has d with
  | true => rw [PushFront_present l d v hd]; exact h
  | false =>
    rw [PushFront_absent l d v hd]
    apply WF_insert l h d v _ ((Has_eq_false_iff l d).1 hd)
    · intro x; simp
    · simp only [List.map_cons, List.nodup_cons]
      exact ⟨fresh_not_mem h, h.1⟩

theorem WF_PushBack (l : FlexList V) (h : l.WF) (d : String) (v : Option V) :
    (l.PushBack d v).2.WF := by
  cases hd : l.Has d with
  | true => rw [PushBack_present l d v hd]; exact h
  | false =>
    rw [PushBack_absent l d v hd]
    apply WF_insert l h d v _ ((Has_eq_false_iff l d).1 hd)
    · intro x; simp [or_comm]
    · rw [List.map_append]
      refine List.Nodup.append h.1 (by simp) ?_
      simpa using fresh_not_mem h

theorem Remove_present (l : FlexList V) (d : String) (e : Element V)
    (h : mapLookup l.indices d = some e) :
    l.Remove d = (true, ⟨⟨removeId l.items.elems e.id, l.items.fresh⟩, mapDelete l.indices d⟩) := by
  simp [FlexList.Remove, h, LinkedList.Remove]

theorem Remove_absent (l : FlexList V) (d : String) (h : mapLookup l.indices d = none) :
    l.Remove d = (false, l) := by
  simp [FlexList.Remove, h]

theorem WF_Remove (l : FlexList V) (h : l.WF) (d : String) : (l.Remove d).2.WF := by
  cases hd : mapLookup l.indices d with
  | none => rw [Remove_absent l d hd]; exact h
  | some e =>
    rw [Remove_present l d e hd]
    have hed := h.lookup hd
    obtain ⟨hids, hfresh, hkeys, hlinked, hindexed⟩ := h
    refine ⟨hids.sublist ((removeId_sublist _ _).map _), ?_, nodup_keys_mapDelete _ _ hkeys,
      ?_, ?_⟩
    · intro x hx
      exact hfresh x ((removeId_sublist _ _).subset hx)
    · intro p hp
      obtain ⟨hp, hne⟩ := (mem_mapDelete _ _ _).1 hp
      refine ⟨?_, (hlinked p hp).2⟩
      apply mem_removeId_of_ne _ _ _ (hlinked p hp).1
      intro hid
      have := eq_of_id_eq _ hids _ _ (hlinked p hp).1 hed.1 hid
      apply hne
      rw [← (hlinked p hp).2, this, hed.2]
    · intro x hx
      have hx' := (removeId_sublist _ _).subset hx
      have hne : x.Value.index ≠ d := by
        intro hxd
        have := hindexed x hx'
        rw [hxd, hd] at this
        cases this
        exact id_ne_of_mem_removeId _ _ _ hids hx rfl
      show mapLookup (mapDelete l.indices d) x.Value.index = some x
      rw [mapLookup_mapDelete_ne _ _ _ hne]
      exact hindexed x hx'

theorem Update_present (l : FlexList V) (d : String) (v : Option V) (old : Element V)
    (h : mapLookup l.indices d = some old) :
    l.Update d v = (true,
      ⟨⟨removeId (insertAfterId l.items.elems old.id ⟨l.items.fresh, ⟨d, v⟩⟩) old.id,
        l.items.fresh + 1⟩, mapStore l.indices d ⟨l.items.fresh, ⟨d, v⟩⟩⟩) := by
  simp [FlexList.Update, h, LinkedList.InsertAfter, LinkedList.Remove]

theorem Update_absent (l : FlexList V) (d : String) (v : Option V)
    (h : mapLookup l.indices d = none) : l.Update d v = (false, l) := by
  simp [FlexList.Update, h]

theorem WF_Update (l : FlexList V) (h : l.WF) (d : String) (v : Option V) :
    (l.Update d v).2.WF := by
  cases hd : mapLookup l.indices d with
  | none => rw [Update_absent l d v hd]; exact h
  | some old =>
    rw [Update_present l d v old hd]
    have hold := h.lookup hd
    have hfr := fresh_not_mem h
    obtain ⟨hids, hfresh, hkeys, hlinked, hindexed⟩ := h
    rw [removeId_insertAfterId _ _ _ hids]
    have hidne : ∀ x ∈ l.items.elems, x.id ≠ l.items.fresh := fun x hx => by
      have := hfresh x hx; omega
    refine ⟨?_, ?_, nodup_keys_mapStore _ _ _ hkeys, ?_, ?_⟩
    · rw [List.map_map]
      apply List.Nodup.map_on _ (List.Nodup.of_map _ hids)
      intro x hx y hy hxy
      simp only [Function.comp] at hxy
      by_cases h1 : x.id = old.id <;> by_cases h2 : y.id = old.id
      · exact eq_of_id_eq _ hids _ _ hx hy (h1.trans h2.symm)
      · simp only [h1, h2, if_true, if_false] at hxy
        exact absurd hxy.symm (hidne y hy)
      · simp only [h1, h2, if_true, if_false] at hxy
        exact absurd hxy (hidne x hx)
      · simp only [h1, h2, if_false] at hxy
        exact eq_of_id_eq _ hids _ _ hx hy hxy
    · intro e he
      obtain ⟨x, hx, rfl⟩ := List.mem_map.1 he
      by_cases h1 : x.id = old.id
      · simp [h1]
      · simp only [h1, if_false]
        exact Nat.lt_succ_of_lt (hfresh x hx)
    · intro p hp
      rcases mem_mapStore _ _ _ _ hkeys hp with rfl | ⟨hp, hne⟩
      · refine ⟨?_, rfl⟩
        exact List.mem_map.2 ⟨old, hold.1, by simp⟩
      · refine ⟨?_, (hlinked p hp).2⟩
        refine List.mem_map.2 ⟨p.2, (hlinked p hp).1, ?_⟩
        have : p.2.id ≠ old.id := by
          intro hid
          have := eq_of_id_eq _ hids _ _ (hlinked p hp).1 hold.1 hid
          apply hne
          rw [← (hlinked p hp).2, this, hold.2]
        simp [this]
    · intro e he
      obtain ⟨x, hx, rfl⟩ := List.mem_map.1 he
      by_cases h1 : x.id = old.id
      · simp only [h1, if_true]
        exact mapLookup_mapStore_self _ _ _
      · simp only [h1, if_false]
        have hne : x.Value.index ≠ d := by
          intro hxd
          have := hindexed x hx
          rw [hxd, hd] at this
          cases this
          exact h1 rfl
        show mapLookup (mapStore l.indices d _) x.Value.index = some x
        rw [mapLookup_mapStore_ne _ _ _ _ hne]
        exact hindexed x hx

theorem ReadFront_nil (l : FlexList V) (h : l.items.elems = []) :
    l.ReadFront = ("", none, false) := by
  simp [FlexList.ReadFront, LinkedList.Front, h]

theorem ReadFront_cons (l : FlexList V) (e : Element V) (rest : List (Element V))
    (h : l.items.elems = e :: rest) : l.ReadFront = (e.Value.index, e.Value.item, true) := by
  simp [FlexList.ReadFront, LinkedList.Front, h]

theorem ReadBack_nil (l : FlexList V) (h : l.items.elems = []) :
    l.ReadBack = ("", none, false) := by
  simp [FlexList.ReadBack, LinkedList.Back, h]

theorem ReadBack_snoc (l : FlexList V) (e : Element V) (rest : List (Element V))
    (h : l.items.elems = rest ++ [e]) : l.ReadBack = (e.Value.index, e.Value.item, true) := by
  simp [FlexList.ReadBack, LinkedList.Back, h]

theorem PullFront_nil (l : FlexList V) (h : l.items.elems = []) :
    l.PullFront = (("", none, false), l) := by
  simp [FlexList.PullFront, ReadFront_nil l h]

theorem PullBack_nil (l : FlexList V) (h : l.items.elems = []) :
    l.PullBack = (("", none, false), l) := by
  simp [FlexList.PullBack, ReadBack_nil l h]

/-- Removing the key of the front element unlinks the front element. -/
theorem Remove_front (l : FlexList V) (hwf : l.WF) (e : Element V) (rest : List (Element V))
    (h : l.items.elems = e :: rest) :
    l.Remove e.Value.index =
      (true, ⟨⟨rest, l.items.fresh⟩, mapDelete l.indices e.Value.index⟩) := by
  have hl := hwf.2.2.2.2 e (by rw [h]; exact List.mem_cons_self _ _)
  rw [Remove_present l _ e hl, h]
  simp [removeId]

/-- Removing the key of the back element unlinks the back element. -/
theorem Remove_back (l : FlexList V) (hwf : l.WF) (e : Element V) (rest : List (Element V))
    (h : l.items.elems = rest ++ [e]) :
    l.Remove e.Value.index =
      (true, ⟨⟨rest, l.items.fresh⟩, mapDelete l.indices e.Value.index⟩) := by
  have hl := hwf.2.2.2.2 e (by rw [h]; simp)
  rw [Remove_present l _ e hl, h]
  have hids := hwf.1
  rw [h, List.map_append, List.nodup_append] at hids
  have : e.id ∉ rest.map Element.id := fun hm =>
    hids.2.2 hm (by simp)
  rw [removeId_append_singleton rest e this]

theorem PullFront_cons (l : FlexList V) (hwf : l.WF) (e : Element V) (rest : List (Element V))
    (h : l.items.elems = e :: rest) :
    l.PullFront = ((e.Value.index, e.Value.item, true),
      ⟨⟨rest, l.items.fresh⟩, mapDelete l.indices e.Value.index⟩) := by
  simp [FlexList.PullFront, ReadFront_cons l e rest h, Remove_front l hwf e rest h]

theorem PullBack_snoc (l : FlexList V) (hwf : l.WF) (e : Element V) (rest : List (Element V))
    (h : l.items.elems = rest ++ [e]) :
    l.PullBack = ((e.Value.index, e.Value.item, true),
      ⟨⟨rest, l.items.fresh⟩, mapDelete l.indices e.Value.index⟩) := by
  simp [FlexList.PullBack, ReadBack_snoc l e rest h, Remove_back l hwf e rest h]

theorem PullFront_snd (l : FlexList V) :
    l.PullFront.2 = l ∨ ∃ d, l.PullFront.2 = (l.Remove d).2 := by
  unfold FlexList.PullFront
  split
  · exact Or.inr ⟨_, rfl⟩
  · exact Or.inl rfl

theorem PullBack_snd (l : FlexList V) :
    l.PullBack.2 = l ∨ ∃ d, l.PullBack.2 = (l.Remove d).2 := by
  unfold FlexList.PullBack
  split
  · exact Or.inr ⟨_, rfl⟩
  · exact Or.inl rfl

theorem Pull_snd (l : FlexList V) (d : String) : (l.Pull d).2 = (l.Remove d).2 := by
  unfold FlexList.Pull FlexList.Read
  cases h : mapLookup l.indices d with
  | none => simp [Remove_absent l d h]
  | some e => simp

theorem WF_PullFront (l : FlexList V) (h : l.WF) : l.PullFront.2.WF := by
  rcases PullFront_snd l with h1 | ⟨d, h1⟩ <;> rw [h1]
  · exact h
  · exact WF_Remove l h d

theorem WF_PullBack (l : FlexList V) (h : l.WF) : l.PullBack.2.WF := by
  rcases PullBack_snd l with h1 | ⟨d, h1⟩ <;> rw [h1]
  · exact h
  · exact WF_Remove l h d

theorem WF_Pull (l : FlexList V) (h : l.WF) (d : String) : (l.Pull d).2.WF := by
  rw [Pull_snd]; exact WF_Remove l h d

end FlexList

/-! ### FlexQueue: pruneMessage, pullFB and readFB case by case -/

theorem FlexList.WF.index_ne_of_split {V : Type} {l : FlexList V} (h : l.WF)
    (pre post : List (Element V)) {e : Element V} (hs : l.items.elems = pre ++ e :: post)
    {x : Element V} (hx : x ∈ pre ++ post) : x.Value.index ≠ e.Value.index := by
  intro hxe
  have hxm : x ∈ l.items.elems := by
    rw [hs]
    rcases List.mem_append.1 hx with hx | hx
    · exact List.mem_append_left _ hx
    · exact List.mem_append_right _ (List.mem_cons_of_mem _ hx)
  have hem : e ∈ l.items.elems := by rw [hs]; simp
  have h1 := h.2.2.2.2 x hxm
  have h2 := h.2.2.2.2 e hem
  rw [hxe, h2] at h1
  cases h1
  have hnd : l.items.elems.Nodup := List.Nodup.of_map _ h.1
  rw [hs] at hnd
  have hnd' := List.nodup_middle.1 hnd
  exact (List.nodup_cons.1 hnd').1 hx

namespace FlexQueue
variable {C V : Type}

theorem pruneMessage_live (q : FlexQueue C V) (now : Int) (d : String)
    (h : q.expiredAt now d = false) : q.pruneMessage now d = ⟨false, q, []⟩ := by
  unfold expiredAt at h
  unfold pruneMessage
  cases hl : mapLookup q.ttl d with
  | none => rfl
  | some t =>
    rw [hl] at h
    simp only at h
    simp [h]

theorem pruneMessage_expired (q : FlexQueue C V) (now : Int) (d : String) (t : TTL C)
    (hl : mapLookup q.ttl d = some t) (h : t.Expired now = true) :
    q.pruneMessage now d =
      ⟨true, ⟨(q.messages.Remove d).2, mapDelete q.ttl d, q.max⟩,
        [⟨t.Callback, d, (q.messages.Read d).1⟩]⟩ := by
  simp [pruneMessage, hl, h]

theorem pruneMessage_ret (q : FlexQueue C V) (now : Int) (d : String) :
    (q.pruneMessage now d).ret = q.expiredAt now d := by
  unfold expiredAt pruneMessage
  cases hl : mapLookup q.ttl d with
  | none => rfl
  | some t =>
    cases h : t.Expired now <;> simp [h]

theorem expiredAt_eq_true_iff (q : FlexQueue C V) (now : Int) (d : String) :
    q.expiredAt now d = true ↔ ∃ t, mapLookup q.ttl d = some t ∧ t.Expired now = true := by
  unfold expiredAt
  cases hl : mapLookup q.ttl d with
  | none => simp
  | some t => simp

theorem pruneMessage_of_ret_false (q : FlexQueue C V) (now : Int) (d : String)
    (h : (q.pruneMessage now d).ret = false) : q.pruneMessage now d = ⟨false, q, []⟩ :=
  pruneMessage_live q now d (by rw [← pruneMessage_ret]; exact h)

theorem pullFBFuel_stable (n m : Nat) (q : FlexQueue C V) (front : Bool) (now : Int)
    (hn : q.ttl.length < n) (hm : q.ttl.length < m) :
    pullFBFuel n q front now = pullFBFuel m q front now := by
  induction n generalizing m q with
  | zero => omega
  | succ n ih =>
    cases m with
    | zero => omega
    | succ m =>
      rw [pullFBFuel, pullFBFuel]
      dsimp only
      by_cases h1 : (if front then q.messages.PullFront else q.messages.PullBack).1.2.2 = false
      · rw [if_pos h1, if_pos h1]
      · rw [if_neg h1, if_neg h1]
        by_cases hp : (pruneMessage
            ⟨(if front then q.messages.PullFront else q.messages.PullBack).2, q.ttl, q.max⟩ now
            (if front then q.messages.PullFront else q.messages.PullBack).1.1).ret = true
        · rw [if_pos hp, if_pos hp]
          have hlt := pruneMessage_ttl_lt _ _ _ hp
          simp only at hlt
          rw [ih m _ (by omega) (by omega)]
        · rw [if_neg hp, if_neg hp]

theorem pullFBFuel_eq (n : Nat) (q : FlexQueue C V) (front : Bool) (now : Int)
    (hn : q.ttl.length < n) : pullFBFuel n q front now = some (q.pullFB front now) := by
  rw [pullFB, Option.some_get]
  exact pullFBFuel_stable _ _ q front now hn (Nat.lt_succ_self _)

theorem readFBFuel_stable (n m : Nat) (q : FlexQueue C V) (front : Bool) (now : Int)
    (hn : q.ttl.length < n) (hm : q.ttl.length < m) :
    readFBFuel n q front now = readFBFuel m q front now := by
  induction n generalizing m q with
  | zero => omega
  | succ n ih =>
    cases m with
    | zero => omega
    | succ m =>
      rw [readFBFuel, readFBFuel]
      dsimp only
      by_cases h1 : (if front then q.messages.ReadFront else q.messages.ReadBack).2.2 = false
      · rw [if_pos h1, if_pos h1]
      · rw [if_neg h1, if_neg h1]
        by_cases hp : (pruneMessage q now
            (if front then q.messages.ReadFront else q.messages.ReadBack).1).ret = true
        · rw [if_pos hp, if_pos hp]
          have hlt := pruneMessage_ttl_lt _ _ _ hp
          rw [ih m _ (by omega) (by omega)]
        · rw [if_neg hp, if_neg hp]

theorem readFBFuel_eq (n : Nat) (q : FlexQueue C V) (front : Bool) (now : Int)
    (hn : q.ttl.length < n) : readFBFuel n q front now = some (q.readFB front now) := by
  rw [readFB, Option.some_get]
  exact readFBFuel_stable _ _ q front now hn (Nat.lt_succ_self _)

/-- The first case of pullFB: nothing to pull. -/
theorem pullFB_none (q : FlexQueue C V) (front : Bool) (now : Int)
    (h : (if front then q.messages.PullFront else q.messages.PullBack).1.2.2 = false) :
    q.pullFB front now = ⟨("", none, false),
      ⟨(if front then q.messages.PullFront else q.messages.PullBack).2, q.ttl, q.max⟩, []⟩ := by
  apply Option.some.inj
  rw [← pullFBFuel_eq (q.ttl.length + 1) q front now (Nat.lt_succ_self _), pullFBFuel]
  dsimp only
  rw [if_pos h]

/-- The second case of pullFB: the pulled message was expired, pull again. -/
theorem pullFB_again (q : FlexQueue C V) (front : Bool) (now : Int)
    (h : (if front then q.messages.PullFront else q.messages.PullBack).1.2.2 = true)
    (hp : (pruneMessage
      ⟨(if front then q.messages.PullFront else q.messages.PullBack).2, q.ttl, q.max⟩ now
      (if front then q.messages.PullFront else q.messages.PullBack).1.1).ret = true) :
    q.pullFB front now =
      ⟨((pruneMessage
          ⟨(if front then q.messages.PullFront else q.messages.PullBack).2, q.ttl, q.max⟩ now
          (if front then q.messages.PullFront else q.messages.PullBack).1.1).q.pullFB
            front now).ret,
       ((pruneMessage
          ⟨(if front then q.messages.PullFront else q.messages.PullBack).2, q.ttl, q.max⟩ now
          (if front then q.messages.PullFront else q.messages.PullBack).1.1).q.pullFB
            front now).q,
       (pruneMessage
          ⟨(if front then q.messages.PullFront else q.messages.PullBack).2, q.ttl, q.max⟩ now
          (if front then q.messages.PullFront else q.messages.PullBack).1.1).calls ++
       ((pruneMessage
          ⟨(if front then q.messages.PullFront else q.messages.PullBack).2, q.ttl, q.max⟩ now
          (if front then q.messages.PullFront else q.messages.PullBack).1.1).q.pullFB
            front now).calls⟩ := by
  apply Option.some.inj
  rw [← pullFBFuel_eq (q.ttl.length + 1) q front now (Nat.lt_succ_self _), pullFBFuel]
  dsimp only
  rw [if_neg (by simp [h]), if_pos hp]
  have hlt := pruneMessage_ttl_lt _ _ _ hp
  simp only at hlt
  rw [pullFBFuel_eq _ _ _ _ (by omega)]
  rfl

/-- The third case of pullFB: the pulled message is returned. -/
theorem pullFB_found (q : FlexQueue C V) (front : Bool) (now : Int)
    (h : (if front then q.messages.PullFront else q.messages.PullBack).1.2.2 = true)
    (hp : (pruneMessage
      ⟨(if front then q.messages.PullFront else q.messages.PullBack).2, q.ttl, q.max⟩ now
      (if front then q.messages.PullFront else q.messages.PullBack).1.1).ret = false) :
    q.pullFB front now =
      ⟨((if front then q.messages.PullFront else q.messages.PullBack).1.1,
        (if front then q.messages.PullFront else q.messages.PullBack).1.2.1, true),
       ⟨(if front then q.messages.PullFront else q.messages.PullBack).2, q.ttl, q.max⟩, []⟩ := by
  apply Option.some.inj
  rw [← pullFBFuel_eq (q.ttl.length + 1) q front now (Nat.lt_succ_self _), pullFBFuel]
  dsimp only
  rw [if_neg (by simp [h]), if_neg (by simp [hp]), pruneMessage_of_ret_false _ _ _ hp]

/-- The first case of readFB: nothing to read. -/
theorem readFB_none (q : FlexQueue C V) (front : Bool) (now : Int)
    (h : (if front then q.messages.ReadFront else q.messages.ReadBack).2.2 = false) :
    q.readFB front now = ⟨("", none, false), q, []⟩ := by
  apply Option.some.inj
  rw [← readFBFuel_eq (q.ttl.length + 1) q front now (Nat.lt_succ_self _), readFBFuel]
  dsimp only
  rw [if_pos h]

/-- The second case of readFB: the message read was expired, read again. -/
theorem readFB_again (q : FlexQueue C V) (front : Bool) (now : Int)
    (h : (if front then q.messages.ReadFront else q.messages.ReadBack).2.2 = true)
    (hp : (pruneMessage q now
      (if front then q.messages.ReadFront else q.messages.ReadBack).1).ret = true) :
    q.readFB front now =
      ⟨((pruneMessage q now
          (if front then q.messages.ReadFront else q.messages.ReadBack).1).q.readFB
            front now).ret,
       ((pruneMessage q now
          (if front then q.messages.ReadFront else q.messages.ReadBack).1).q.readFB
            front now).q,
       (pruneMessage q now
          (if front then q.messages.ReadFront else q.messages.ReadBack).1).calls ++
       ((pruneMessage q now
          (if front then q.messages.ReadFront else q.messages.ReadBack).1).q.readFB
            front now).calls⟩ := by
  apply Option.some.inj
  rw [← readFBFuel_eq (q.ttl.length + 1) q front now (Nat.lt_succ_self _), readFBFuel]
  dsimp only
  rw [if_neg (by simp [h]), if_pos hp]
  have hlt := pruneMessage_ttl_lt _ _ _ hp
  rw [readFBFuel_eq _ _ _ _ (by omega)]
  rfl

/-- The third case of readFB: the message read is returned. -/
theorem readFB_found (q : FlexQueue C V) (front : Bool) (now : Int)
    (h : (if front then q.messages.ReadFront else q.messages.ReadBack).2.2 = true)
    (hp : (pruneMessage q now
      (if front then q.messages.ReadFront else q.messages.ReadBack).1).ret = false) :
    q.readFB front now =
      ⟨((if front then q.messages.ReadFront else q.messages.ReadBack).1,
        (if front then q.messages.ReadFront else q.messages.ReadBack).2.1, true), q, []⟩ := by
  apply Option.some.inj
  rw [← readFBFuel_eq (q.ttl.length + 1) q front now (Nat.lt_succ_self _), readFBFuel]
  dsimp only
  rw [if_neg (by simp [h]), if_neg (by simp [hp]), pruneMessage_of_ret_false _ _ _ hp]

theorem expiredAt_mapDelete_ne (m : FlexList V) (m' : FlexList V) (ttl : List (String × TTL C))
    (mx mx' : Int) (now : Int) (d k : String) (h : k ≠ d) :
    (⟨m', mapDelete ttl d, mx'⟩ : FlexQueue C V).expiredAt now k =
      (⟨m, ttl, mx⟩ : FlexQueue C V).expiredAt now k := by
  simp only [expiredAt, mapLookup_mapDelete_ne _ _ _ h]

/-- A step of pullFB at the front on a live message: it is returned. -/
theorem pullFB_front_live (q : FlexQueue C V) (now : Int) (hwf : q.messages.WF)
    (e : Element V) (rest : List (Element V)) (h : q.messages.items.elems = e :: rest)
    (hlive : q.expiredAt now e.Value.index = false) :
    q.pullFB true now = ⟨(e.Value.index, e.Value.item, true),
      ⟨⟨⟨rest, q.messages.items.fresh⟩, mapDelete q.messages.indices e.Value.index⟩,
        q.ttl, q.max⟩, []⟩ := by
  have hpull := FlexList.PullFront_cons q.messages hwf e rest h
  have hp : (pruneMessage ⟨(if true then q.messages.PullFront else q.messages.PullBack).2,
      q.ttl, q.max⟩ now
      (if true then q.messages.PullFront else q.messages.PullBack).1.1).ret = false := by
    rw [pruneMessage_ret]
    simp only [if_true, hpull]
    exact hlive
  rw [pullFB_found q true now (by simp [hpull]) hp]
  simp [hpull]

/-- A step of pullFB at the front on an expired message: the callback is fired with a
nil message (the message was pulled off the list already) and pullFB goes on. -/
theorem pullFB_front_expired (q : FlexQueue C V) (now : Int) (hwf : q.messages.WF)
    (e : Element V) (rest : List (Element V)) (h : q.messages.items.elems = e :: rest)
    (t : TTL C) (hl : mapLookup q.ttl e.Value.index = some t) (hexp : t.Expired now = true) :
    q.pullFB true now =
      ⟨((⟨⟨⟨rest, q.messages.items.fresh⟩, mapDelete q.messages.indices e.Value.index⟩,
          mapDelete q.ttl e.Value.index, q.max⟩ : FlexQueue C V).pullFB true now).ret,
       ((⟨⟨⟨rest, q.messages.items.fresh⟩, mapDelete q.messages.indices e.Value.index⟩,
          mapDelete q.ttl e.Value.index, q.max⟩ : FlexQueue C V).pullFB true now).q,
       ⟨t.Callback, e.Value.index, none⟩ ::
       ((⟨⟨⟨rest, q.messages.items.fresh⟩, mapDelete q.messages.indices e.Value.index⟩,
          mapDelete q.ttl e.Value.index, q.max⟩ : FlexQueue C V).pullFB true now).calls⟩ := by
  have hpull := FlexList.PullFront_cons q.messages hwf e rest h
  have hprune : pruneMessage ⟨(if true then q.messages.PullFront else q.messages.PullBack).2,
      q.ttl, q.max⟩ now
      (if true then q.messages.PullFront else q.messages.PullBack).1.1 =
      ⟨true, ⟨⟨⟨rest, q.messages.items.fresh⟩, mapDelete q.messages.indices e.Value.index⟩,
          mapDelete q.ttl e.Value.index, q.max⟩, [⟨t.Callback, e.Value.index, none⟩]⟩ := by
    simp only [if_true, hpull]
    rw [pruneMessage_expired (⟨⟨⟨rest, q.messages.items.fresh⟩,
      mapDelete q.messages.indices e.Value.index⟩, q.ttl, q.max⟩ : FlexQueue C V) now _ t hl hexp]
    simp [FlexList.Remove, FlexList.Read, mapLookup_mapDelete_self]
  rw [pullFB_again q true now (by simp [hpull]) (by rw [hprune]), hprune]
  rfl

/-- A step of pullFB at the back on a live message: it is returned. -/
theorem pullFB_back_live (q : FlexQueue C V) (now : Int) (hwf : q.messages.WF)
    (e : Element V) (rest : List (Element V)) (h : q.messages.items.elems = rest ++ [e])
    (hlive : q.expiredAt now e.Value.index = false) :
    q.pullFB false now = ⟨(e.Value.index, e.Value.item, true),
      ⟨⟨⟨rest, q.messages.items.fresh⟩, mapDelete q.messages.indices e.Value.index⟩,
        q.ttl, q.max⟩, []⟩ := by
  have hpull := FlexList.PullBack_snoc q.messages hwf e rest h
  have hp : (pruneMessage ⟨(if false then q.messages.PullFront else q.messages.PullBack).2,
      q.ttl, q.max⟩ now
      (if false then q.messages.PullFront else q.messages.PullBack).1.1).ret = false := by
    rw [pruneMessage_ret]
    simp only [Bool.false_eq_true, if_false, hpull]
    exact hlive
  rw [pullFB_found q false now (by simp [hpull]) hp]
  simp [hpull]

/-- A step of pullFB at the back on an expired message. -/
theorem pullFB_back_expired (q : FlexQueue C V) (now : Int) (hwf : q.messages.WF)
    (e : Element V) (rest : List (Element V)) (h : q.messages.items.elems = rest ++ [e])
    (t : TTL C) (hl : mapLookup q.ttl e.Value.index = some t) (hexp : t.Expired now = true) :
    q.pullFB false now =
      ⟨((⟨⟨⟨rest, q.messages.items.fresh⟩, mapDelete q.messages.indices e.Value.index⟩,
          mapDelete q.ttl e.Value.index, q.max⟩ : FlexQueue C V).pullFB false now).ret,
       ((⟨⟨⟨rest, q.messages.items.fresh⟩, mapDelete q.messages.indices e.Value.index⟩,
          mapDelete q.ttl e.Value.index, q.max⟩ : FlexQueue C V).pullFB false now).q,
       ⟨t.Callback, e.Value.index, none⟩ ::
       ((⟨⟨⟨rest, q.messages.items.fresh⟩, mapDelete q.messages.indices e.Value.index⟩,
          mapDelete q.ttl e.Value.index, q.max⟩ : FlexQueue C V).pullFB false now).calls⟩ := by
  have hpull := FlexList.PullBack_snoc q.messages hwf e rest h
  have hprune : pruneMessage ⟨(if false then q.messages.PullFront else q.messages.PullBack).2,
      q.ttl, q.max⟩ now
      (if false then q.messages.PullFront else q.messages.PullBack).1.1 =
      ⟨true, ⟨⟨⟨rest, q.messages.items.fresh⟩, mapDelete q.messages.indices e.Value.index⟩,
          mapDelete q.ttl e.Value.index, q.max⟩, [⟨t.Callback, e.Value.index, none⟩]⟩ := by
    simp only [Bool.false_eq_true, if_false, hpull]
    rw [pruneMessage_expired (⟨⟨⟨rest, q.messages.items.fresh⟩,
      mapDelete q.messages.indices e.Value.index⟩, q.ttl, q.max⟩ : FlexQueue C V) now _ t hl hexp]
    simp [FlexList.Remove, FlexList.Read, mapLookup_mapDelete_self]
  rw [pullFB_again q false now (by simp [hpull]) (by rw [hprune]), hprune]
  rfl

/-- A call of pullFB on an empty list finds nothing. -/
theorem pullFB_empty (q : FlexQueue C V) (front : Bool) (now : Int)
    (h : q.messages.items.elems = []) : q.pullFB front now = ⟨("", none, false), q, []⟩ := by
  have h1 := FlexList.PullFront_nil q.messages h
  have h2 := FlexList.PullBack_nil q.messages h
  rw [pullFB_none q front now (by cases front <;> simp [h1, h2])]
  cases front <;> simp [h1, h2]

theorem pushFB_dup (q : FlexQueue C V) (front : Bool) (d : String) (v : Option V)
    (h : q.messages.Has d = true) : q.pushFB front d v = (true, q) := by
  simp [pushFB, h]

theorem pushFB_full (q : FlexQueue C V) (front : Bool) (d : String) (v : Option V)
    (h : q.messages.Has d = false) (hfull : q.IsFull = true) :
    q.pushFB front d v = (false, q) := by
  have hf : q.max > NoMax ∧ q.messages.Len ≥ q.max := by simpa [IsFull] using hfull
  simp [pushFB, h, hf]

theorem pushFB_room (q : FlexQueue C V) (front : Bool) (d : String) (v : Option V)
    (h : q.messages.Has d = false) (hroom : q.IsFull = false) :
    q.pushFB front d v =
      (true, ⟨(if front then q.messages.PushFront d v else q.messages.PushBack d v).2,
        q.ttl, q.max⟩) := by
  have hf : ¬ (q.max > NoMax ∧ q.messages.Len ≥ q.max) := by
    simpa [IsFull] using hroom
  unfold pushFB
  rw [if_neg (by simp [h]), if_neg hf]
  cases front
  · simp [FlexList.PushBack_absent _ _ _ h]
  · simp [FlexList.PushFront_absent _ _ _ h]

/-- Induction along the calls of pullFB. -/
theorem pullFB_induct (front : Bool) (now : Int)
    (motive : FlexQueue C V → Outcome C V (String × Option V × Bool) → Prop)
    (hnone : ∀ q : FlexQueue C V,
      (if front then q.messages.PullFront else q.messages.PullBack).1.2.2 = false →
      motive q ⟨("", none, false),
        ⟨(if front then q.messages.PullFront else q.messages.PullBack).2, q.ttl, q.max⟩, []⟩)
    (hfound : ∀ q : FlexQueue C V,
      (if front then q.messages.PullFront else q.messages.PullBack).1.2.2 = true →
      (pruneMessage
        ⟨(if front then q.messages.PullFront else q.messages.PullBack).2, q.ttl, q.max⟩ now
        (if front then q.messages.PullFront else q.messages.PullBack).1.1).ret = false →
      motive q ⟨((if front then q.messages.PullFront else q.messages.PullBack).1.1,
          (if front then q.messages.PullFront else q.messages.PullBack).1.2.1, true),
        ⟨(if front then q.messages.PullFront else q.messages.PullBack).2, q.ttl, q.max⟩, []⟩)
    (hagain : ∀ (q : FlexQueue C V) (p : Outcome C V Bool),
      (if front then q.messages.PullFront else q.messages.PullBack).1.2.2 = true →
      p = pruneMessage
        ⟨(if front then q.messages.PullFront else q.messages.PullBack).2, q.ttl, q.max⟩ now
        (if front then q.messages.PullFront else q.messages.PullBack).1.1 →
      p.ret = true → motive p.q (p.q.pullFB front now) →
      motive q ⟨(p.q.pullFB front now).ret, (p.q.pullFB front now).q,
        p.calls ++ (p.q.pullFB front now).calls⟩)
    (q : FlexQueue C V) : motive q (q.pullFB front now) := by
  suffices hall : ∀ (n : Nat) (q : FlexQueue C V), q.ttl.length = n →
      motive q (q.pullFB front now) from hall _ q rfl
  intro n
  induction n using Nat.strong_induction_on with
  | _ n ih =>
    intro q hn
    by_cases h1 : (if front then q.messages.PullFront else q.messages.PullBack).1.2.2 = false
    · rw [pullFB_none q front now h1]
      exact hnone q h1
    · have h1' : (if front then q.messages.PullFront else q.messages.PullBack).1.2.2 = true := by
        simpa using h1
      by_cases hp : (pruneMessage
          ⟨(if front then q.messages.PullFront else q.messages.PullBack).2, q.ttl, q.max⟩ now
          (if front then q.messages.PullFront else q.messages.PullBack).1.1).ret = true
      · rw [pullFB_again q front now h1' hp]
        apply hagain q _ h1' rfl hp
        have hlt := pruneMessage_ttl_lt _ _ _ hp
        simp only at hlt
        exact ih _ (by omega) _ rfl
      · have hp' : (pruneMessage
          ⟨(if front then q.messages.PullFront else q.messages.PullBack).2, q.ttl, q.max⟩ now
          (if front then q.messages.PullFront else q.messages.PullBack).1.1).ret = false := by
          simpa using hp
        rw [pullFB_found q front now h1' hp']
        exact hfound q h1' hp'

/-- Induction along the calls of readFB. -/
theorem readFB_induct (front : Bool) (now : Int)
    (motive : FlexQueue C V → Outcome C V (String × Option V × Bool) → Prop)
    (hnone : ∀ q : FlexQueue C V,
      (if front then q.messages.ReadFront else q.messages.ReadBack).2.2 = false →
      motive q ⟨("", none, false), q, []⟩)
    (hfound : ∀ q : FlexQueue C V,
      (if front then q.messages.ReadFront else q.messages.ReadBack).2.2 = true →
      (pruneMessage q now
        (if front then q.messages.ReadFront else q.messages.ReadBack).1).ret = false →
      motive q ⟨((if front then q.messages.ReadFront else q.messages.ReadBack).1,
          (if front then q.messages.ReadFront else q.messages.ReadBack).2.1, true), q, []⟩)
    (hagain : ∀ (q : FlexQueue C V) (p : Outcome C V Bool),
      (if front then q.messages.ReadFront else q.messages.ReadBack).2.2 = true →
      p = pruneMessage q now
        (if front then q.messages.ReadFront else q.messages.ReadBack).1 →
      p.ret = true → motive p.q (p.q.readFB front now) →
      motive q ⟨(p.q.readFB front now).ret, (p.q.readFB front now).q,
        p.calls ++ (p.q.readFB front now).calls⟩)
    (q : FlexQueue C V) : motive q (q.readFB front now) := by
  suffices hall : ∀ (n : Nat) (q : FlexQueue C V), q.ttl.length = n →
      motive q (q.readFB front now) from hall _ q rfl
  intro n
  induction n using Nat.strong_induction_on with
  | _ n ih =>
    intro q hn
    by_cases h1 : (if front then q.messages.ReadFront else q.messages.ReadBack).2.2 = false
    · rw [readFB_none q front now h1]
      exact hnone q h1
    · have h1' : (if front then q.messages.ReadFront else q.messages.ReadBack).2.2 = true := by
        simpa using h1
      by_cases hp : (pruneMessage q now
          (if front then q.messages.ReadFront else q.messages.ReadBack).1).ret = true
      · rw [readFB_again q front now h1' hp]
        apply hagain q _ h1' rfl hp
        have hlt := pruneMessage_ttl_lt _ _ _ hp
        exact ih _ (by omega) _ rfl
      · have hp' : (pruneMessage q now
          (if front then q.messages.ReadFront else q.messages.ReadBack).1).ret = false := by
          simpa using hp
        rw [readFB_found q front now h1' hp']
        exact hfound q h1' hp'

end FlexQueue

/-! ### Skipping expired messages -/

theorem mapLookup_of_mapDelete {α : Type} (m : List (String × α)) (d k : String) (v : α)
    (h : mapLookup (mapDelete m d) k = some v) : mapLookup m k = some v := by
  by_cases hk : k = d
  · subst hk
    rw [mapLookup_mapDelete_self] at h
    cases h
  · rwa [mapLookup_mapDelete_ne _ _ _ hk] at h

namespace FlexList
variable {V : Type}

theorem WF_drop_front (l : FlexList V) (h : l.WF) (e : Element V) (rest : List (Element V))
    (hs : l.items.elems = e :: rest) :
    (⟨⟨rest, l.items.fresh⟩, mapDelete l.indices e.Value.index⟩ : FlexList V).WF := by
  have := WF_Remove l h e.Value.index
  rwa [Remove_front l h e rest hs] at this

theorem WF_drop_back (l : FlexList V) (h : l.WF) (e : Element V) (rest : List (Element V))
    (hs : l.items.elems = rest ++ [e]) :
    (⟨⟨rest, l.items.fresh⟩, mapDelete l.indices e.Value.index⟩ : FlexList V).WF := by
  have := WF_Remove l h e.Value.index
  rwa [Remove_back l h e rest hs] at this

theorem Read_of_mem (l : FlexList V) (h : l.WF) (e : Element V) (he : e ∈ l.items.elems) :
    l.Read e.Value.index = (e.Value.item, true) := by
  simp [FlexList.Read, h.2.2.2.2 e he]

end FlexList

namespace FlexQueue
variable {C V : Type}

/-- A call of readFB on an empty list finds nothing. -/
theorem readFB_empty (q : FlexQueue C V) (front : Bool) (now : Int)
    (h : q.messages.items.elems = []) : q.readFB front now = ⟨("", none, false), q, []⟩ := by
  have h1 := FlexList.ReadFront_nil q.messages h
  have h2 := FlexList.ReadBack_nil q.messages h
  exact readFB_none q front now (by cases front <;> simp [h1, h2])

/-- A step of readFB at the front on a live message: it is returned, nothing changes. -/
theorem readFB_front_live (q : FlexQueue C V) (now : Int)
    (e : Element V) (rest : List (Element V)) (h : q.messages.items.elems = e :: rest)
    (hlive : q.expiredAt now e.Value.index = false) :
    q.readFB true now = ⟨(e.Value.index, e.Value.item, true), q, []⟩ := by
  have hread := FlexList.ReadFront_cons q.messages e rest h
  rw [readFB_found q true now (by simp [hread])
    (by rw [pruneMessage_ret]; simp only [if_true, hread]; exact hlive)]
  simp [hread]

/-- A step of readFB at the back on a live message. -/
theorem readFB_back_live (q : FlexQueue C V) (now : Int)
    (e : Element V) (rest : List (Element V)) (h : q.messages.items.elems = rest ++ [e])
    (hlive : q.expiredAt now e.Value.index = false) :
    q.readFB false now = ⟨(e.Value.index, e.Value.item, true), q, []⟩ := by
  have hread := FlexList.ReadBack_snoc q.messages e rest h
  rw [readFB_found q false now (by simp [hread])
    (by rw [pruneMessage_ret]; simp only [Bool.false_eq_true, if_false, hread]; exact hlive)]
  simp [hread]

/-- A step of readFB at the front on an expired message: the callback is fired with the
stored message, the message is removed and readFB goes on. -/
theorem readFB_front_expired (q : FlexQueue C V) (now : Int) (hwf : q.messages.WF)
    (e : Element V) (rest : List (Element V)) (h : q.messages.items.elems = e :: rest)
    (t : TTL C) (hl : mapLookup q.ttl e.Value.index = some t) (hexp : t.Expired now = true) :
    q.readFB true now =
      ⟨((⟨⟨⟨rest, q.messages.items.fresh⟩, mapDelete q.messages.indices e.Value.index⟩,
          mapDelete q.ttl e.Value.index, q.max⟩ : FlexQueue C V).readFB true now).ret,
       ((⟨⟨⟨rest, q.messages.items.fresh⟩, mapDelete q.messages.indices e.Value.index⟩,
          mapDelete q.ttl e.Value.index, q.max⟩ : FlexQueue C V).readFB true now).q,
       ⟨t.Callback, e.Value.index, e.Value.item⟩ ::
       ((⟨⟨⟨rest, q.messages.items.fresh⟩, mapDelete q.messages.indices e.Value.index⟩,
          mapDelete q.ttl e.Value.index, q.max⟩ : FlexQueue C V).readFB true now).calls⟩ := by
  have hread := FlexList.ReadFront_cons q.messages e rest h
  have hprune : pruneMessage q now
      (if true then q.messages.ReadFront else q.messages.ReadBack).1 =
      ⟨true, ⟨⟨⟨rest, q.messages.items.fresh⟩, mapDelete q.messages.indices e.Value.index⟩,
          mapDelete q.ttl e.Value.index, q.max⟩, [⟨t.Callback, e.Value.index, e.Value.item⟩]⟩ := by
    simp only [if_true, hread]
    rw [pruneMessage_expired q now _ t hl hexp, FlexList.Remove_front _ hwf e rest h,
      FlexList.Read_of_mem _ hwf e (by rw [h]; exact List.mem_cons_self _ _)]
  rw [readFB_again q true now (by simp [hread]) (by rw [hprune]), hprune]
  rfl

/-- A step of readFB at the back on an expired message. -/
theorem readFB_back_expired (q : FlexQueue C V) (now : Int) (hwf : q.messages.WF)
    (e : Element V) (rest : List (Element V)) (h : q.messages.items.elems = rest ++ [e])
    (t : TTL C) (hl : mapLookup q.ttl e.Value.index = some t) (hexp : t.Expired now = true) :
    q.readFB false now =
      ⟨((⟨⟨⟨rest, q.messages.items.fresh⟩, mapDelete q.messages.indices e.Value.index⟩,
          mapDelete q.ttl e.Value.index, q.max⟩ : FlexQueue C V).readFB false now).ret,
       ((⟨⟨⟨rest, q.messages.items.fresh⟩, mapDelete q.messages.indices e.Value.index⟩,
          mapDelete q.ttl e.Value.index, q.max⟩ : FlexQueue C V).readFB false now).q,
       ⟨t.Callback, e.Value.index, e.Value.item⟩ ::
       ((⟨⟨⟨rest, q.messages.items.fresh⟩, mapDelete q.messages.indices e.Value.index⟩,
          mapDelete q.ttl e.Value.index, q.max⟩ : FlexQueue C V).readFB false now).calls⟩ := by
  have hread := FlexList.ReadBack_snoc q.messages e rest h
  have hprune : pruneMessage q now
      (if false then q.messages.ReadFront else q.messages.ReadBack).1 =
      ⟨true, ⟨⟨⟨rest, q.messages.items.fresh⟩, mapDelete q.messages.indices e.Value.index⟩,
          mapDelete q.ttl e.Value.index, q.max⟩, [⟨t.Callback, e.Value.index, e.Value.item⟩]⟩ := by
    simp only [Bool.false_eq_true, if_false, hread]
    rw [pruneMessage_expired q now _ t hl hexp, FlexList.Remove_back _ hwf e rest h,
      FlexList.Read_of_mem _ hwf e (by rw [h]; simp)]
  rw [readFB_again q false now (by simp [hread]) (by rw [hprune]), hprune]
  rfl

/-- Skipping a run of expired messages at the front: a function that, on an expired
front message, fires the callback, drops the message and its control and calls itself
again, ends up on the queue without the run. -/
theorem skip_front {ρ : Type} (now : Int) (f : FlexQueue C V → Outcome C V ρ)
    (msg : Element V → Option V)
    (hstep : ∀ (q : FlexQueue C V) (e : Element V) (rest : List (Element V)) (t : TTL C),
      q.messages.WF → q.messages.items.elems = e :: rest →
      mapLookup q.ttl e.Value.index = some t → t.Expired now = true →
      f q = ⟨(f ⟨⟨⟨rest, q.messages.items.fresh⟩,
                mapDelete q.messages.indices e.Value.index⟩,
                mapDelete q.ttl e.Value.index, q.max⟩).ret,
             (f ⟨⟨⟨rest, q.messages.items.fresh⟩,
                mapDelete q.messages.indices e.Value.index⟩,
                mapDelete q.ttl e.Value.index, q.max⟩).q,
             ⟨t.Callback, e.Value.index, msg e⟩ ::
             (f ⟨⟨⟨rest, q.messages.items.fresh⟩,
                mapDelete q.messages.indices e.Value.index⟩,
                mapDelete q.ttl e.Value.index, q.max⟩).calls⟩)
    (pre rest : List (Element V)) (q : FlexQueue C V) (hwf : q.messages.WF)
    (hs : q.messages.items.elems = pre ++ rest)
    (hexp : ∀ e ∈ pre, q.expiredAt now e.Value.index = true) :
    ∃ q' : FlexQueue C V, q'.messages.WF ∧ q'.messages.items.elems = rest ∧ q'.max = q.max ∧
      (∀ e ∈ rest, q'.expiredAt now e.Value.index = q.expiredAt now e.Value.index) ∧
      ∃ calls : List (Call C V),
        calls.map Call.digest = pre.map (fun e => e.Value.index) ∧
        calls.map Call.message = pre.map msg ∧
        (∀ c ∈ calls, ∃ t, mapLookup q.ttl c.digest = some t ∧ t.Callback = c.callback) ∧
        f q = ⟨(f q').ret, (f q').q, calls ++ (f q').calls⟩ := by
  induction pre generalizing q with
  | nil =>
    exact ⟨q, hwf, by simpa using hs, rfl, fun _ _ => rfl, [], rfl, rfl, by simp, by simp⟩
  | cons e pre ih =>
    obtain ⟨t, hl, ht⟩ := (expiredAt_eq_true_iff q now _).1 (hexp e (List.mem_cons_self _ _))
    have hs' : q.messages.items.elems = e :: (pre ++ rest) := by simpa using hs
    have hne : ∀ x ∈ pre ++ rest, x.Value.index ≠ e.Value.index := fun x hx =>
      hwf.index_ne_of_split [] _ (by simpa using hs') (by simpa using hx)
    have hwf2 := FlexList.WF_drop_front q.messages hwf e _ hs'
    obtain ⟨q', hwf', hel, hmax, hsame, calls, hd, hm, hcb, hf⟩ :=
      ih ⟨⟨⟨pre ++ rest, q.messages.items.fresh⟩, mapDelete q.messages.indices e.Value.index⟩,
        mapDelete q.ttl e.Value.index, q.max⟩ hwf2 rfl
        (fun x hx => by
          rw [expiredAt_mapDelete_ne q.messages _ q.ttl q.max _ now _ _
            (hne x (List.mem_append_left _ hx))]
          exact hexp x (List.mem_cons_of_mem _ hx))
    refine ⟨q', hwf', hel, hmax, ?_, ⟨t.Callback, e.Value.index, msg e⟩ :: calls, ?_, ?_, ?_, ?_⟩
    · intro x hx
      rw [hsame x hx]
      exact expiredAt_mapDelete_ne q.messages _ q.ttl q.max _ now _ _
        (hne x (List.mem_append_right _ hx))
    · simp [hd]
    · simp [hm]
    · intro c hc
      rcases List.mem_cons.1 hc with rfl | hc
      · exact ⟨t, hl, rfl⟩
      · obtain ⟨t', hl', hcb'⟩ := hcb c hc
        exact ⟨t', mapLookup_of_mapDelete _ _ _ _ hl', hcb'⟩
    · rw [hstep q e _ t hwf hs' hl ht, hf]
      simp

/-- Skipping a run of expired messages at the back, the mirror image of `skip_front`:
the callbacks are fired from the back to the front. -/
theorem skip_back {ρ : Type} (now : Int) (f : FlexQueue C V → Outcome C V ρ)
    (msg : Element V → Option V)
    (hstep : ∀ (q : FlexQueue C V) (e : Element V) (rest : List (Element V)) (t : TTL C),
      q.messages.WF → q.messages.items.elems = rest ++ [e] →
      mapLookup q.ttl e.Value.index = some t → t.Expired now = true →
      f q = ⟨(f ⟨⟨⟨rest, q.messages.items.fresh⟩,
                mapDelete q.messages.indices e.Value.index⟩,
                mapDelete q.ttl e.Value.index, q.max⟩).ret,
             (f ⟨⟨⟨rest, q.messages.items.fresh⟩,
                mapDelete q.messages.indices e.Value.index⟩,
                mapDelete q.ttl e.Value.index, q.max⟩).q,
             ⟨t.Callback, e.Value.index, msg e⟩ ::
             (f ⟨⟨⟨rest, q.messages.items.fresh⟩,
                mapDelete q.messages.indices e.Value.index⟩,
                mapDelete q.ttl e.Value.index, q.max⟩).calls⟩)
    (rest suf : List (Element V)) (q : FlexQueue C V) (hwf : q.messages.WF)
    (hs : q.messages.items.elems = rest ++ suf)
    (hexp : ∀ e ∈ suf, q.expiredAt now e.Value.index = true) :
    ∃ q' : FlexQueue C V, q'.messages.WF ∧ q'.messages.items.elems = rest ∧ q'.max = q.max ∧
      (∀ e ∈ rest, q'.expiredAt now e.Value.index = q.expiredAt now e.Value.index) ∧
      ∃ calls : List (Call C V),
        calls.map Call.digest = suf.reverse.map (fun e => e.Value.index) ∧
        calls.map Call.message = suf.reverse.map msg ∧
        (∀ c ∈ calls, ∃ t, mapLookup q.ttl c.digest = some t ∧ t.Callback = c.callback) ∧
        f q = ⟨(f q').ret, (f q').q, calls ++ (f q').calls⟩ := by
  induction suf using List.reverseRecOn generalizing q with
  | nil =>
    exact ⟨q, hwf, by simpa using hs, rfl, fun _ _ => rfl, [], rfl, rfl, by simp, by simp⟩
  | append_singleton suf e ih =>
    obtain ⟨t, hl, ht⟩ := (expiredAt_eq_true_iff q now _).1 (hexp e (by simp))
    have hs' : q.messages.items.elems = (rest ++ suf) ++ [e] := by simpa using hs
    have hne : ∀ x ∈ rest ++ suf, x.Value.index ≠ e.Value.index := fun x hx =>
      hwf.index_ne_of_split _ [] hs' (by simpa using hx)
    have hwf2 := FlexList.WF_drop_back q.messages hwf e _ hs'
    obtain ⟨q', hwf', hel, hmax, hsame, calls, hd, hm, hcb, hf⟩ :=
      ih ⟨⟨⟨rest ++ suf, q.messages.items.fresh⟩, mapDelete q.messages.indices e.Value.index⟩,
        mapDelete q.ttl e.Value.index, q.max⟩ hwf2 rfl
        (fun x hx => by
          rw [expiredAt_mapDelete_ne q.messages _ q.ttl q.max _ now _ _
            (hne x (List.mem_append_right _ hx))]
          exact hexp x (List.mem_append_left _ hx))
    refine ⟨q', hwf', hel, hmax, ?_, ⟨t.Callback, e.Value.index, msg e⟩ :: calls, ?_, ?_, ?_, ?_⟩
    · intro x hx
      rw [hsame x hx]
      exact expiredAt_mapDelete_ne q.messages _ q.ttl q.max _ now _ _
        (hne x (List.mem_append_left _ hx))
    · simp [hd]
    · simp [hm]
    · intro c hc
      rcases List.mem_cons.1 hc with rfl | hc
      · exact ⟨t, hl, rfl⟩
      · obtain ⟨t', hl', hcb'⟩ := hcb c hc
        exact ⟨t', mapLookup_of_mapDelete _ _ _ _ hl', hcb'⟩
    · rw [hstep q e _ t hwf hs' hl ht, hf]
      simp

end FlexQueue

theorem FlexList.entries_split {V : Type} (l : FlexList V) (pre post : List (String × Option V))
    (d : String) (v : Option V) (h : l.entries = pre ++ (d, v) :: post) :
    ∃ (pe po : List (Element V)) (e : Element V), l.items.elems = pe ++ e :: po ∧
      pe.map (fun e => (e.Value.index, e.Value.item)) = pre ∧
      po.map (fun e => (e.Value.index, e.Value.item)) = post ∧
      e.Value.index = d ∧ e.Value.item = v := by
  unfold FlexList.entries at h
  obtain ⟨pe, r, hs, hpe, hr⟩ := List.map_eq_append_iff.1 h
  obtain ⟨e, po, hr', he, hpo⟩ := List.map_eq_cons_iff.1 hr
  subst hr'
  simp only [Prod.mk.injEq] at he
  exact ⟨pe, po, e, hs, hpe, hpo, he.1, he.2⟩

namespace FlexQueue
variable {C V : Type}

theorem expired_of_map {now : Int} {q : FlexQueue C V} {pe : List (Element V)}
    {pre : List (String × Option V)}
    (hpe : pe.map (fun e => (e.Value.index, e.Value.item)) = pre)
    (h : ∀ p ∈ pre, q.expiredAt now p.1 = true) :
    ∀ e ∈ pe, q.expiredAt now e.Value.index = true := by
  intro e he
  exact h (e.Value.index, e.Value.item) (by rw [← hpe]; exact List.mem_map_of_mem _ he)

theorem map_index_eq {pe : List (Element V)} {pre : List (String × Option V)}
    (hpe : pe.map (fun e => (e.Value.index, e.Value.item)) = pre) :
    pe.map (fun e => e.Value.index) = pre.map Prod.fst := by
  rw [← hpe, List.map_map]; rfl

theorem map_item_eq {pe : List (Element V)} {pre : List (String × Option V)}
    (hpe : pe.map (fun e => (e.Value.index, e.Value.item)) = pre) :
    pe.map (fun e => e.Value.item) = pre.map Prod.snd := by
  rw [← hpe, List.map_map]; rfl

end FlexQueue


theorem removeId_middle {V : Type} (pe po : List (Element V)) (e : Element V)
    (h : e.id ∉ pe.map Element.id) : removeId (pe ++ e :: po) e.id = pe ++ po := by
  induction pe with
  | nil => simp [removeId]
  | cons x xs ih =>
    simp only [List.map_cons, List.mem_cons, not_or] at h
    simp [removeId, Ne.symm h.1, ih h.2]

/-- Removing the key of an element of the list unlinks that element. -/
theorem FlexList.Remove_middle {V : Type} (l : FlexList V) (hwf : l.WF) (e : Element V)
    (pe po : List (Element V)) (h : l.items.elems = pe ++ e :: po) :
    l.Remove e.Value.index =
      (true, ⟨⟨pe ++ po, l.items.fresh⟩, mapDelete l.indices e.Value.index⟩) := by
  have hl := hwf.2.2.2.2 e (by rw [h]; simp)
  rw [FlexList.Remove_present l _ e hl, h]
  have hids := hwf.1
  rw [h, List.map_append, List.nodup_append] at hids
  have : e.id ∉ pe.map Element.id := fun hm => hids.2.2 hm (by simp)
  rw [removeId_middle pe po e this]


/-! ### Runs of pushes and pulls -/

section Runs

variable {C V : Type}

theorem run_append (q : FlexQueue C V) (a b : List (Int × Op C V)) :
    run q (a ++ b) = ⟨(run q a).ret ++ (run (run q a).q b).ret, (run (run q a).q b).q,
      (run q a).calls ++ (run (run q a).q b).calls⟩ := by
  induction a generalizing q with
  | nil => simp [run]
  | cons x a ih =>
    obtain ⟨now, op⟩ := x
    simp [run, ih]

theorem FlexList.WF.Has_iff {l : FlexList V} (h : l.WF) (k : String) :
    l.Has k = true ↔ k ∈ l.entries.map Prod.fst := by
  rw [FlexList.Has_eq_true_iff]
  constructor
  · rintro ⟨e, he⟩
    have := h.lookup he
    simp only [FlexList.entries, List.map_map, List.mem_map, Function.comp]
    exact ⟨e, this.1, this.2⟩
  · intro hk
    simp only [FlexList.entries, List.map_map, List.mem_map, Function.comp] at hk
    obtain ⟨e, he, rfl⟩ := hk
    exact ⟨e, h.2.2.2.2 e he⟩

theorem FlexQueue.IsFull_of_NoMax (q : FlexQueue C V) (h : q.max = NoMax) :
    q.IsFull = false := by
  simp [FlexQueue.IsFull, h]

/-- Pushing new, pairwise different digests onto an unbounded queue: every push returns
true, and the entries are added in order at the back, or one before the other at the
front. -/
theorem run_pushOps (front : Bool) (es : List (Int × String × Option V)) (q : FlexQueue C V)
    (hwf : q.messages.WF) (hmax : q.max = NoMax)
    (hnd : (es.map (fun p => p.2.1)).Nodup)
    (hnew : ∀ p ∈ es, p.2.1 ∉ q.messages.entries.map Prod.fst) :
    (run q (pushOps front es)).ret = es.map (fun _ => Resp.flag true) ∧
    (run q (pushOps front es)).calls = [] ∧
    (run q (pushOps front es)).q.messages.WF ∧
    (run q (pushOps front es)).q.ttl = q.ttl ∧
    (run q (pushOps front es)).q.max = q.max ∧
    (run q (pushOps front es)).q.messages.entries =
      if front then (es.map (fun p => p.2)).reverse ++ q.messages.entries
      else q.messages.entries ++ es.map (fun p => p.2) := by
  induction es generalizing q with
  | nil => cases front <;> simp [pushOps, run, hwf]
  | cons p es ih =>
    obtain ⟨t, d, v⟩ := p
    simp only [List.map_cons, List.nodup_cons] at hnd
    have hd : q.messages.Has d = false := by
      have := hnew (t, d, v) (List.mem_cons_self _ _)
      rw [← Bool.not_eq_true, hwf.Has_iff]
      exact this
    have hroom := FlexQueue.pushFB_room q front d v hd (FlexQueue.IsFull_of_NoMax q hmax)
    have hstep : step q t (if front then Op.pushFront d v else Op.pushBack d v) =
        ⟨Resp.flag true, ⟨(if front then q.messages.PushFront d v
          else q.messages.PushBack d v).2, q.ttl, q.max⟩, []⟩ := by
      cases front <;> simp [step, FlexQueue.PushFront, FlexQueue.PushBack, hroom]
    have hwf1 : (if front then q.messages.PushFront d v
        else q.messages.PushBack d v).2.WF := by
      cases front
      · exact FlexList.WF_PushBack _ hwf d v
      · exact FlexList.WF_PushFront _ hwf d v
    have hent : (if front then q.messages.PushFront d v
        else q.messages.PushBack d v).2.entries =
        if front then (d, v) :: q.messages.entries else q.messages.entries ++ [(d, v)] := by
      cases front
      · simp [FlexList.PushBack_absent _ _ _ hd, FlexList.entries]
      · simp [FlexList.PushFront_absent _ _ _ hd, FlexList.entries]
    have hnew1 : ∀ p ∈ es, p.2.1 ∉ (if front then q.messages.PushFront d v
        else q.messages.PushBack d v).2.entries.map Prod.fst := by
      intro p hp
      have h1 := hnew p (List.mem_cons_of_mem _ hp)
      have h2 : p.2.1 ≠ d := by
        intro h
        exact hnd.1 (by rw [← h]; exact List.mem_map_of_mem (fun p => p.2.1) hp)
      rw [hent]
      cases front <;> simp [h1, h2]
    obtain ⟨i1, i2, i3, i4, i5, i6⟩ := ih ⟨(if front then q.messages.PushFront d v
        else q.messages.PushBack d v).2, q.ttl, q.max⟩ hwf1 hmax hnd.2 hnew1
    simp only [pushOps, List.map_cons, run, hstep]
    simp only [pushOps] at i1 i2 i3 i4 i5 i6
    refine ⟨by rw [i1], by rw [i2]; rfl, i3, i4, i5, ?_⟩
    rw [i6, hent]
    cases front <;> simp

theorem FlexQueue.expiredAt_of_ttl_nil (q : FlexQueue C V) (h : q.ttl = []) (now : Int)
    (d : String) : q.expiredAt now d = false := by
  simp [FlexQueue.expiredAt, h, mapLookup]

/-- Pulling as many times as there are messages from a queue without TTL controls: the
messages come out in the order of the list at the front, in the opposite order at the
back, and the queue ends up empty. -/
theorem run_pullOps (front : Bool) (ts : List Int) (q : FlexQueue C V)
    (hwf : q.messages.WF) (httl : q.ttl = [])
    (hlen : ts.length = q.messages.entries.length) :
    (run q (pullOps front ts)).ret =
      (if front then q.messages.entries else q.messages.entries.reverse).map
        (fun p => Resp.entry p.1 p.2 true) ∧
    (run q (pullOps front ts)).calls = [] ∧
    (run q (pullOps front ts)).q.messages.WF ∧
    (run q (pullOps front ts)).q.ttl = [] ∧
    (run q (pullOps front ts)).q.max = q.max ∧
    (run q (pullOps front ts)).q.messages.items.elems = [] := by
  induction ts generalizing q with
  | nil =>
    have : q.messages.items.elems = [] := by
      simpa [FlexList.entries] using hlen.symm
    cases front <;> simp [pullOps, run, hwf, httl, FlexList.entries, this]
  | cons t ts ih =>
    cases front with
    | true =>
      cases hel : q.messages.items.elems with
      | nil => simp [FlexList.entries, hel] at hlen
      | cons e rest =>
        have hstep := FlexQueue.pullFB_front_live q t hwf e rest hel
          (q.expiredAt_of_ttl_nil httl t _)
        obtain ⟨i1, i2, i3, i4, i5, i6⟩ := ih
          ⟨⟨⟨rest, q.messages.items.fresh⟩, mapDelete q.messages.indices e.Value.index⟩,
            q.ttl, q.max⟩ (FlexList.WF_drop_front _ hwf e rest hel) httl
          (by simpa [FlexList.entries, hel] using hlen)
        simp only [pullOps, List.map_cons, run, step, FlexQueue.PullFront, hstep, if_true]
        simp only [pullOps, if_true] at i1 i2 i3 i4 i5 i6
        refine ⟨?_, by rw [i2]; rfl, i3, i4, i5, i6⟩
        rw [i1]
        simp [FlexList.entries, hel]
    | false =>
      rcases List.eq_nil_or_concat q.messages.items.elems with hel | ⟨rest, e, hel⟩
      · simp [FlexList.entries, hel] at hlen
      · rw [List.concat_eq_append] at hel
        have hstep := FlexQueue.pullFB_back_live q t hwf e rest hel
          (q.expiredAt_of_ttl_nil httl t _)
        obtain ⟨i1, i2, i3, i4, i5, i6⟩ := ih
          ⟨⟨⟨rest, q.messages.items.fresh⟩, mapDelete q.messages.indices e.Value.index⟩,
            q.ttl, q.max⟩ (FlexList.WF_drop_back _ hwf e rest hel) httl
          (by simpa [FlexList.entries, hel] using hlen)
        simp only [pullOps, List.map_cons, run, step, FlexQueue.PullBack, hstep,
          Bool.false_eq_true, if_false]
        simp only [pullOps, Bool.false_eq_true, if_false] at i1 i2 i3 i4 i5 i6
        refine ⟨?_, by rw [i2]; rfl, i3, i4, i5, i6⟩
        rw [i1]
        simp [FlexList.entries, hel]

/-- Pushes of pairwise different digests onto a new queue followed by as many pulls and
one more: the pulls return the pushed entries in the order in which the list holds them
seen from the pulled end, the last pull finds nothing, and the queue is empty. -/
theorem run_push_pull (pushFront pullFront : Bool) (es : List (Int × String × Option V))
    (ts : List Int) (t : Int) (hnd : (es.map (fun p => p.2.1)).Nodup)
    (hlen : ts.length = es.length) :
    (run (NewFlexQueue : FlexQueue C V) (pushOps pushFront es ++ pullOps pullFront ts ++
        [(t, if pullFront then Op.pullFront else Op.pullBack)])).ret =
      es.map (fun _ => Resp.flag true) ++
      (if pushFront = pullFront then es.reverse else es).map
        (fun p => Resp.entry p.2.1 p.2.2 true) ++
      [Resp.entry "" none false] ∧
    (run (NewFlexQueue : FlexQueue C V) (pushOps pushFront es ++ pullOps pullFront ts ++
        [(t, if pullFront then Op.pullFront else Op.pullBack)])).q.Len = 0 := by
  obtain ⟨a1, a2, a3, a4, a5, a6⟩ := run_pushOps (C := C) pushFront es NewFlexQueue
    FlexList.WF_New rfl hnd (by simp [NewFlexQueue, NewFlexList, LinkedList.New, FlexList.entries])
  have hent : (run (NewFlexQueue : FlexQueue C V) (pushOps pushFront es)).q.messages.entries =
      if pushFront then (es.map (fun p => p.2)).reverse else es.map (fun p => p.2) := by
    rw [a6]
    cases pushFront <;> simp [NewFlexQueue, NewFlexList, LinkedList.New, FlexList.entries]
  obtain ⟨b1, b2, b3, b4, b5, b6⟩ := run_pullOps pullFront ts
    (run (NewFlexQueue : FlexQueue C V) (pushOps pushFront es)).q a3
    (by rw [a4]; rfl) (by rw [hent]; cases pushFront <;> simp [hlen])
  have hlast := FlexQueue.pullFB_empty _ pullFront t b6
  rw [run_append, run_append]
  refine ⟨?_, ?_⟩
  · simp only [a1, b1, hent]
    have hl : (run (run (run (NewFlexQueue : FlexQueue C V) (pushOps pushFront es)).q
        (pullOps pullFront ts)).q
        [(t, if pullFront then Op.pullFront else Op.pullBack)]).ret =
        [Resp.entry "" none false] := by
      cases pullFront <;>
        simp [run, step, FlexQueue.PullFront, FlexQueue.PullBack, hlast]
    rw [hl]
    cases pushFront <;> cases pullFront <;> simp [Function.comp_def]
  · have hl : (run (run (run (NewFlexQueue : FlexQueue C V) (pushOps pushFront es)).q
        (pullOps pullFront ts)).q
        [(t, if pullFront then Op.pullFront else Op.pullBack)]).q =
        (run (run (NewFlexQueue : FlexQueue C V) (pushOps pushFront es)).q
        (pullOps pullFront ts)).q := by
      cases pullFront <;>
        simp [run, step, FlexQueue.PullFront, FlexQueue.PullBack, hlast]
    simp only [hl]
    simp [FlexQueue.Len, FlexList.Len, LinkedList.Len, b6]

end Runs

/-! ### Every operation is a chain of elementary changes -/

section PrimsSec
variable {C V : Type}

theorem Prims.refl (q : FlexQueue C V) : Prims q q := Relation.ReflTransGen.refl

theorem Prims.trans {a b c : FlexQueue C V} (h1 : Prims a b) (h2 : Prims b c) : Prims a c :=
  Relation.ReflTransGen.trans h1 h2

theorem Prims.single {a b : FlexQueue C V} (h : Prim a b) : Prims a b :=
  Relation.ReflTransGen.single h

/-- A property kept by every elementary change is kept by every chain of them. -/
theorem Prims.preserves {P : FlexQueue C V → Prop}
    (hP : ∀ q q', Prim q q' → P q → P q') {q q' : FlexQueue C V} (h : Prims q q')
    (hq : P q) : P q' := by
  induction h with
  | refl => exact hq
  | tail _ hstep ih => exact hP _ _ hstep ih

theorem Prims.removeMsg (q : FlexQueue C V) (d : String) :
    Prims q ⟨(q.messages.Remove d).2, q.ttl, q.max⟩ := Prims.single (Prim.remove q d)

theorem Prims.pullFront (q : FlexQueue C V) :
    Prims q ⟨q.messages.PullFront.2, q.ttl, q.max⟩ := by
  rcases FlexList.PullFront_snd q.messages with h | ⟨d, h⟩ <;> rw [h]
  · exact Prims.refl q
  · exact Prims.removeMsg q d

theorem Prims.pullBack (q : FlexQueue C V) :
    Prims q ⟨q.messages.PullBack.2, q.ttl, q.max⟩ := by
  rcases FlexList.PullBack_snd q.messages with h | ⟨d, h⟩ <;> rw [h]
  · exact Prims.refl q
  · exact Prims.removeMsg q d

theorem Prims.pruneMessage (q : FlexQueue C V) (now : Int) (d : String) :
    Prims q (q.pruneMessage now d).q := by
  unfold FlexQueue.pruneMessage
  cases mapLookup q.ttl d with
  | none => exact Prims.refl q
  | some t =>
    by_cases h : t.Expired now = true
    · simp only [h, if_true]
      exact (Prims.removeMsg q d).trans (Prims.single (Prim.ttlDelete _ d))
    · simp only [h]
      exact Prims.refl q

theorem Prims.pushFB (q : FlexQueue C V) (front : Bool) (d : String) (v : Option V) :
    Prims q (q.pushFB front d v).2 := by
  unfold FlexQueue.pushFB
  by_cases h1 : q.messages.Has d = true
  · simp only [h1, if_true]; exact Prims.refl q
  · by_cases h2 : q.max > NoMax ∧ q.messages.Len ≥ q.max
    · simp only [h1, h2]; exact Prims.refl q
    · simp only [h1, h2]
      have hfull : q.IsFull = false := by simpa [FlexQueue.IsFull] using h2
      have := Prims.single (Prim.push q front d v hfull)
      cases front <;> simpa using this

theorem Prims.pushFBTTL (q : FlexQueue C V) (now checked : Int) (front : Bool) (d : String)
    (v : Option V) (ttl : Int) (cb : C) :
    Prims q (q.pushFBTTL now checked front d v ttl cb).q := by
  unfold FlexQueue.pushFBTTL
  by_cases h1 : (NewTTL now ttl cb).Expired checked = true
  · simp only [h1, if_true]; exact Prims.refl q
  · by_cases h2 : (q.pushFB front d v).1 = true
    · simp only [h1, h2, if_true]
      exact (Prims.pushFB q front d v).trans (Prims.single (Prim.ttlStore _ d _))
    · simp only [h1, h2]
      exact Prims.pushFB q front d v

theorem Prims.pullFB (q : FlexQueue C V) (front : Bool) (now : Int) :
    Prims q (q.pullFB front now).q := by
  have hpull : ∀ q : FlexQueue C V, Prims q
      ⟨(if front then q.messages.PullFront else q.messages.PullBack).2, q.ttl, q.max⟩ := by
    intro q
    cases front
    · exact Prims.pullBack q
    · exact Prims.pullFront q
  refine FlexQueue.pullFB_induct front now (fun q o => Prims q o.q) ?_ ?_ ?_ q
  · intro q _; exact hpull q
  · intro q _ _; exact hpull q
  · intro q p _ hp _ ih
    refine ((hpull q).trans ?_).trans ih
    rw [hp]
    exact Prims.pruneMessage _ now _

theorem Prims.readFB (q : FlexQueue C V) (front : Bool) (now : Int) :
    Prims q (q.readFB front now).q := by
  refine FlexQueue.readFB_induct front now (fun q o => Prims q o.q) ?_ ?_ ?_ q
  · intro q _; exact Prims.refl q
  · intro q _ _; exact Prims.refl q
  · intro q p _ hp _ ih
    refine Prims.trans ?_ ih
    rw [hp]
    exact Prims.pruneMessage _ now _

theorem Prims.pruneLoop (now : Int) (visit : List (String × TTL C))
    (acc : Outcome C V Bool) : Prims acc.q (FlexQueue.pruneLoop now visit acc).q := by
  induction visit generalizing acc with
  | nil => exact Prims.refl _
  | cons p visit ih =>
    obtain ⟨d, t⟩ := p
    unfold FlexQueue.pruneLoop
    by_cases h : t.Expired now = true
    · simp only [h, if_true]
      refine Prims.trans ?_ (ih _)
      exact (Prims.removeMsg acc.q d).trans (Prims.single (Prim.ttlDelete _ d))
    · simp only [h]
      exact ih acc

/-- Every call of a public operation changes the queue by a chain of elementary
changes. -/
theorem Prims.step (q : FlexQueue C V) (now : Int) (op : Op C V) :
    Prims q (step q now op).q := by
  cases op with
  | pushFront d m => exact Prims.pushFB q true d m
  | pushBack d m => exact Prims.pushFB q false d m
  | pushFrontTTL d m t cb lag => exact Prims.pushFBTTL q now (now + lag) true d m t cb
  | pushBackTTL d m t cb lag => exact Prims.pushFBTTL q now (now + lag) false d m t cb
  | pull d =>
    simp only [flexqueue.step, FlexQueue.Pull]
    split
    · exact Prims.pruneMessage q now d
    · refine (Prims.pruneMessage q now d).trans ?_
      rw [FlexList.Pull_snd]
      exact Prims.removeMsg _ d
  | pullFront => exact Prims.pullFB q true now
  | pullBack => exact Prims.pullFB q false now
  | read d =>
    simp only [flexqueue.step, FlexQueue.Read]
    split <;> exact Prims.pruneMessage q now d
  | readFront => exact Prims.readFB q true now
  | readBack => exact Prims.readFB q false now
  | update d m =>
    simp only [flexqueue.step, FlexQueue.Update]
    split
    · exact Prims.pruneMessage q now d
    · exact (Prims.pruneMessage q now d).trans (Prims.single (Prim.update _ d m))
  | resetTTL d t lag1 lag2 =>
    simp only [flexqueue.step, FlexQueue.ResetTTL]
    split
    · exact Prims.pruneMessage q now d
    · split
      · exact Prims.pruneMessage q now d
      · split
        · exact Prims.pruneMessage q now d
        · exact (Prims.pruneMessage q now d).trans (Prims.single (Prim.ttlStore _ d _))
  | remove d =>
    simp only [flexqueue.step, FlexQueue.Remove]
    split
    · exact Prims.pruneMessage q now d
    · split
      · exact ((Prims.pruneMessage q now d).trans (Prims.removeMsg _ d)).trans
          (Prims.single (Prim.ttlDelete _ d))
      · exact (Prims.pruneMessage q now d).trans (Prims.removeMsg _ d)
  | prune => exact Prims.pruneLoop now q.ttl ⟨false, q, []⟩
  | has d =>
    simp only [flexqueue.step, FlexQueue.Has]
    split <;> exact Prims.pruneMessage q now d
  | len => exact Prims.refl q
  | max => exact Prims.refl q
  | isFull => exact Prims.refl q
  | isEmpty => exact Prims.refl q

theorem Prims.run (q : FlexQueue C V) (ops : List (Int × Op C V)) :
    Prims q (run q ops).q := by
  induction ops generalizing q with
  | nil => exact Prims.refl q
  | cons x ops ih =>
    obtain ⟨now, op⟩ := x
    exact (Prims.step q now op).trans (ih _)

end PrimsSec

/-! ### The maximum is a ceiling -/

section Ceiling
variable {C V : Type}

theorem FlexList.Len_Remove_le (l : FlexList V) (d : String) : (l.Remove d).2.Len ≤ l.Len := by
  cases h : mapLookup l.indices d with
  | none => rw [FlexList.Remove_absent l d h]
  | some e =>
    rw [FlexList.Remove_present l d e h]
    simp only [FlexList.Len, LinkedList.Len]
    exact_mod_cast length_removeId_le _ _

theorem FlexList.Len_Update (l : FlexList V) (d : String) (v : Option V) :
    (l.Update d v).2.Len = l.Len := by
  cases h : mapLookup l.indices d with
  | none => rw [FlexList.Update_absent l d v h]
  | some e =>
    rw [FlexList.Update_present l d v e h]
    simp only [FlexList.Len, LinkedList.Len]
    exact_mod_cast length_removeId_insertAfterId _ _ _

theorem FlexList.Len_push_le (l : FlexList V) (front : Bool) (d : String) (v : Option V) :
    (if front then l.PushFront d v else l.PushBack d v).2.Len ≤ l.Len + 1 := by
  cases h : l.Has d with
  | true =>
    cases front <;> simp [FlexList.PushFront_present _ _ _ h, FlexList.PushBack_present _ _ _ h]
  | false =>
    cases front <;>
      simp [FlexList.PushFront_absent _ _ _ h, FlexList.PushBack_absent _ _ _ h,
        FlexList.Len, LinkedList.Len]

/-- An elementary change keeps the maximum, and keeps the length under a maximum that
is set. -/
theorem Prim.ceiling {q q' : FlexQueue C V} (h : Prim q q') (m : Int) (hm : 0 ≤ m)
    (hq : q.max = m ∧ q.Len ≤ m) : q'.max = m ∧ q'.Len ≤ m := by
  obtain ⟨hmax, hlen⟩ := hq
  cases h with
  | remove d =>
    exact ⟨hmax, le_trans (FlexList.Len_Remove_le _ d) hlen⟩
  | update d v =>
    refine ⟨hmax, ?_⟩
    show (q.messages.Update d v).2.Len ≤ m
    rw [FlexList.Len_Update]; exact hlen
  | push front d v hroom =>
    refine ⟨hmax, ?_⟩
    have h1 := FlexList.Len_push_le q.messages front d v
    have h2 : ¬ (q.max > NoMax ∧ q.messages.Len ≥ q.max) := by
      simpa [FlexQueue.IsFull] using hroom
    have h3 : q.messages.Len < m := by
      by_contra hge
      apply h2
      rw [hmax]
      exact ⟨by simp only [NoMax]; omega, by omega⟩
    show (if front then q.messages.PushFront d v else q.messages.PushBack d v).2.Len ≤ m
    omega
  | ttlDelete d => exact ⟨hmax, hlen⟩
  | ttlStore d t => exact ⟨hmax, hlen⟩

end Ceiling


/-! ### Counting callbacks -/

section Counting
variable {C V : Type}

theorem callsFor_nil (d : String) : callsFor d ([] : List (Call C V)) = 0 := rfl

theorem callsFor_append (d : String) (a b : List (Call C V)) :
    callsFor d (a ++ b) = callsFor d a + callsFor d b := by
  simp [callsFor, List.filter_append]

theorem callsFor_singleton (d : String) (c : Call C V) :
    callsFor d [c] = if c.digest = d then 1 else 0 := by
  by_cases h : c.digest = d <;> simp [callsFor, h]

theorem controls_le_one {α : Type} (m : List (String × α)) (d : String) : controls m d ≤ 1 := by
  unfold controls; split <;> omega

theorem controls_mapDelete_self {α : Type} (m : List (String × α)) (d : String) :
    controls (mapDelete m d) d = 0 := by
  simp [controls, mapLookup_mapDelete_self]

theorem controls_mapDelete_ne {α : Type} (m : List (String × α)) (d k : String) (h : d ≠ k) :
    controls (mapDelete m k) d = controls m d := by
  simp [controls, mapLookup_mapDelete_ne _ _ _ h]

theorem controls_mapDelete_le {α : Type} (m : List (String × α)) (d k : String) :
    controls (mapDelete m k) d ≤ controls m d := by
  by_cases h : d = k
  · subst h; rw [controls_mapDelete_self]; omega
  · rw [controls_mapDelete_ne _ _ _ h]

theorem controls_mapStore_self {α : Type} (m : List (String × α)) (d : String) (v : α) :
    controls (mapStore m d v) d = 1 := by
  simp [controls, mapLookup_mapStore_self]

theorem controls_mapStore_ne {α : Type} (m : List (String × α)) (d k : String) (v : α)
    (h : d ≠ k) : controls (mapStore m k v) d = controls m d := by
  simp [controls, mapLookup_mapStore_ne _ _ _ _ h]

theorem controls_of_lookup {α : Type} (m : List (String × α)) (d : String) (v : α)
    (h : mapLookup m d = some v) : controls m d = 1 := by
  simp [controls, h]

namespace FlexQueue

/-- A call of pruneMessage fires a callback for `d` only by using up the control of
`d`. -/
theorem pruneMessage_callsFor (q : FlexQueue C V) (now : Int) (x d : String) :
    callsFor d (q.pruneMessage now x).calls + controls (q.pruneMessage now x).q.ttl d ≤
      controls q.ttl d := by
  unfold pruneMessage
  cases hl : mapLookup q.ttl x with
  | none => simp [callsFor_nil]
  | some t =>
    by_cases h : t.Expired now = true
    · simp only [h, if_true, callsFor_singleton]
      by_cases hx : x = d
      · subst hx
        rw [controls_mapDelete_self, controls_of_lookup _ _ _ hl]
        simp
      · rw [controls_mapDelete_ne _ _ _ (Ne.symm hx)]
        simp [hx]
    · simp [h, callsFor_nil]

theorem pullFB_callsFor (q : FlexQueue C V) (front : Bool) (now : Int) (d : String) :
    callsFor d (q.pullFB front now).calls + controls (q.pullFB front now).q.ttl d ≤
      controls q.ttl d := by
  refine pullFB_induct front now
    (fun q o => callsFor d o.calls + controls o.q.ttl d ≤ controls q.ttl d) ?_ ?_ ?_ q
  · intro q _; simp [callsFor_nil]
  · intro q _ _; simp [callsFor_nil]
  · intro q p _ hp _ ih
    have h1 := pruneMessage_callsFor
      (⟨(if front then q.messages.PullFront else q.messages.PullBack).2, q.ttl, q.max⟩ :
        FlexQueue C V) now (if front then q.messages.PullFront else q.messages.PullBack).1.1 d
    rw [← hp] at h1
    dsimp only at h1
    simp only [callsFor_append] at ih ⊢
    omega

theorem readFB_callsFor (q : FlexQueue C V) (front : Bool) (now : Int) (d : String) :
    callsFor d (q.readFB front now).calls + controls (q.readFB front now).q.ttl d ≤
      controls q.ttl d := by
  refine readFB_induct front now
    (fun q o => callsFor d o.calls + controls o.q.ttl d ≤ controls q.ttl d) ?_ ?_ ?_ q
  · intro q _; simp [callsFor_nil]
  · intro q _ _; simp [callsFor_nil]
  · intro q p _ hp _ ih
    have h1 := pruneMessage_callsFor q now
      (if front then q.messages.ReadFront else q.messages.ReadBack).1 d
    rw [← hp] at h1
    simp only [callsFor_append] at ih ⊢
    omega

/-- The loop of Prune over entries with pairwise different keys fires a callback for `d`
only by using up the control of `d`. -/
theorem pruneLoop_callsFor (now : Int) (d : String) (visit : List (String × TTL C))
    (acc : Outcome C V Bool) (hnd : (visit.map Prod.fst).Nodup)
    (hin : d ∈ visit.map Prod.fst → controls acc.q.ttl d = 1) :
    callsFor d (pruneLoop now visit acc).calls + controls (pruneLoop now visit acc).q.ttl d ≤
      callsFor d acc.calls + controls acc.q.ttl d := by
  induction visit generalizing acc with
  | nil => simp [pruneLoop]
  | cons p visit ih =>
    obtain ⟨k, t⟩ := p
    simp only [List.map_cons, List.nodup_cons] at hnd
    unfold pruneLoop
    by_cases h : t.Expired now = true
    · simp only [h, if_true]
      by_cases hk : k = d
      · subst hk
        refine le_trans (ih _ hnd.2 (fun hmem => absurd hmem hnd.1)) ?_
        simp only [callsFor_append, callsFor_singleton, if_true, controls_mapDelete_self]
        have := hin (by simp)
        omega
      · refine le_trans (ih _ hnd.2 ?_) ?_
        · intro hmem
          simp only [controls_mapDelete_ne _ _ _ (Ne.symm hk)]
          exact hin (by simp [hmem])
        · simp only [callsFor_append, callsFor_singleton, hk, if_false,
            controls_mapDelete_ne _ _ _ (Ne.symm hk)]
          omega
    · simp only [h]
      refine ih acc hnd.2 ?_
      intro hmem
      exact hin (by simp [hmem])

theorem Prune_callsFor (q : FlexQueue C V) (now : Int) (d : String)
    (hnd : (q.ttl.map Prod.fst).Nodup) :
    callsFor d (q.Prune now).calls + controls (q.Prune now).q.ttl d ≤ controls q.ttl d := by
  have := pruneLoop_callsFor now d q.ttl ⟨false, q, []⟩ hnd (by
    intro hmem
    simp only [controls]
    cases hl : mapLookup q.ttl d with
    | none => exact absurd hmem ((mapLookup_eq_none_iff _ _).1 hl)
    | some t => simp)
  simpa [Prune, callsFor_nil] using this

theorem pushFB_ttl (q : FlexQueue C V) (front : Bool) (x : String) (m : Option V) :
    (q.pushFB front x m).2.ttl = q.ttl := by
  unfold pushFB
  split
  · rfl
  · split <;> rfl

end FlexQueue

/-- One call fires a callback for `d` only by using up the control of `d`, and only a
push of `d` with a TTL adds a control for `d`; a ResetTTL of `d` to a duration that is
elapsed when the new control is checked is left out. -/
theorem step_callsFor (q : FlexQueue C V) (now : Int) (op : Op C V) (d : String)
    (hnd : (q.ttl.map Prod.fst).Nodup) (hno : op.isElapsedReset d = false) :
    callsFor d (step q now op).calls + controls (step q now op).q.ttl d ≤
      controls q.ttl d + (if op.isTTLPush d then 1 else 0) := by
  have hpm := fun x => FlexQueue.pruneMessage_callsFor q now x d
  have hpush : ∀ (checked : Int) (front : Bool) (x : String) (m : Option V) (t : Int) (cb : C),
      callsFor d (q.pushFBTTL now checked front x m t cb).calls +
        controls (q.pushFBTTL now checked front x m t cb).q.ttl d ≤
      controls q.ttl d + (if x = d then 1 else 0) := by
    intro checked front x m t cb
    unfold FlexQueue.pushFBTTL
    by_cases h1 : (NewTTL now t cb).Expired checked = true
    · simp only [h1, if_true, callsFor_singleton]
      split <;> omega
    · simp only [h1, Bool.false_eq_true, if_false]
      by_cases h2 : (q.pushFB front x m).1 = true
      · simp only [h2, if_true, callsFor_nil, FlexQueue.pushFB_ttl]
        by_cases hx : x = d
        · subst hx
          rw [controls_mapStore_self]; simp
        · rw [controls_mapStore_ne _ _ _ _ (Ne.symm hx)]; simp [hx]
      · simp only [h2, Bool.false_eq_true, if_false, callsFor_nil, FlexQueue.pushFB_ttl]
        split <;> simp
  cases op with
  | pushFront x m => simp [step, FlexQueue.PushFront, FlexQueue.pushFB_ttl, callsFor_nil]
  | pushBack x m => simp [step, FlexQueue.PushBack, FlexQueue.pushFB_ttl, callsFor_nil]
  | pushFrontTTL x m t cb lag =>
    simpa [step, FlexQueue.PushFrontTTL, Op.isTTLPush] using hpush (now + lag) true x m t cb
  | pushBackTTL x m t cb lag =>
    simpa [step, FlexQueue.PushBackTTL, Op.isTTLPush] using hpush (now + lag) false x m t cb
  | pull x =>
    simp only [step, FlexQueue.Pull, Op.isTTLPush]
    split <;> simpa using hpm x
  | pullFront =>
    simpa [step, FlexQueue.PullFront, Op.isTTLPush] using FlexQueue.pullFB_callsFor q true now d
  | pullBack =>
    simpa [step, FlexQueue.PullBack, Op.isTTLPush] using FlexQueue.pullFB_callsFor q false now d
  | read x =>
    simp only [step, FlexQueue.Read, Op.isTTLPush]
    split <;> simpa using hpm x
  | readFront =>
    simpa [step, FlexQueue.ReadFront, Op.isTTLPush] using FlexQueue.readFB_callsFor q true now d
  | readBack =>
    simpa [step, FlexQueue.ReadBack, Op.isTTLPush] using FlexQueue.readFB_callsFor q false now d
  | update x m =>
    simp only [step, FlexQueue.Update, Op.isTTLPush]
    split <;> simpa using hpm x
  | resetTTL x t lag1 lag2 =>
    simp only [step, FlexQueue.ResetTTL, Op.isTTLPush]
    split
    · simpa using hpm x
    · split
      · simpa using hpm x
      · rename_i oldCtrl hl
        split
        · rename_i hexp
          have hxd : x ≠ d := by
            intro hx
            have : t < (lag2 : Int) := by
              have h0 : now + lag1 + t < now + lag1 + lag2 := by
                simpa [NewTTL, TTL.Expired] using hexp
              omega
            simp [Op.isElapsedReset, hx, this] at hno
          simp only [callsFor_append, callsFor_singleton, hxd, if_false]
          simpa using hpm x
        · by_cases hx : x = d
          · subst hx
            have h1 := hpm x
            rw [controls_of_lookup _ _ _ hl] at h1
            simp only [controls_mapStore_self]
            omega
          · simp only [controls_mapStore_ne _ _ _ _ (Ne.symm hx)]
            simpa using hpm x
  | remove x =>
    simp only [step, FlexQueue.Remove, Op.isTTLPush]
    split
    · simpa using hpm x
    · split
      · have := controls_mapDelete_le (q.pruneMessage now x).q.ttl d x
        have := hpm x
        simp only [Bool.false_eq_true, if_false, Nat.add_zero]
        omega
      · simpa using hpm x
  | prune =>
    simpa [step, Op.isTTLPush] using FlexQueue.Prune_callsFor q now d hnd
  | has x =>
    simp only [step, FlexQueue.Has, Op.isTTLPush]
    split <;> simpa using hpm x
  | len => simp [step, Op.isTTLPush, callsFor_nil]
  | max => simp [step, Op.isTTLPush, callsFor_nil]
  | isFull => simp [step, Op.isTTLPush, callsFor_nil]
  | isEmpty => simp [step, Op.isTTLPush, callsFor_nil]

end Counting

/-! ### Invariants of runs and returned entries -/

section Returned
variable {C V : Type}

/-- An elementary change keeps the representation invariant of the queue. -/
theorem Prim.keeps_WF {q q' : FlexQueue C V} (h : Prim q q') (hq : q.WF) : q'.WF := by
  obtain ⟨hm, ht⟩ := hq
  cases h with
  | remove d => exact ⟨FlexList.WF_Remove _ hm d, ht⟩
  | update d v => exact ⟨FlexList.WF_Update _ hm d v, ht⟩
  | push front d v _ =>
    refine ⟨?_, ht⟩
    cases front
    · exact FlexList.WF_PushBack _ hm d v
    · exact FlexList.WF_PushFront _ hm d v
  | ttlDelete d => exact ⟨hm, nodup_keys_mapDelete _ _ ht⟩
  | ttlStore d t => exact ⟨hm, nodup_keys_mapStore _ _ _ ht⟩

theorem Prims.chain_WF {q q' : FlexQueue C V} (h : Prims q q') (hq : q.WF) : q'.WF :=
  Prims.preserves (P := fun q : FlexQueue C V => q.WF) (fun _ _ h hq => Prim.keeps_WF h hq) h hq

theorem FlexQueue.WF_SetMax_New (m : Int) : ((NewFlexQueue : FlexQueue C V).SetMax m).WF := by
  unfold FlexQueue.SetMax
  split <;> exact ⟨FlexList.WF_New, by simp [NewFlexQueue]⟩

/-- Every state of a run from a new queue satisfies the representation invariant. -/
theorem run_WF (m : Int) (ops : List (Int × Op C V)) :
    (run ((NewFlexQueue : FlexQueue C V).SetMax m) ops).q.WF :=
  Prims.chain_WF (Prims.run _ ops) (FlexQueue.WF_SetMax_New m)

/-- Along a run without a ResetTTL of `d` to an elapsed duration, the callbacks fired
for `d` and the control left for `d` are paid for by the control at the start and the
pushes of `d` with a TTL. -/
theorem run_callsFor (q : FlexQueue C V) (ops : List (Int × Op C V)) (d : String)
    (hwf : q.WF) (hno : ∀ x ∈ ops, x.2.isElapsedReset d = false) :
    callsFor d (run q ops).calls + controls (run q ops).q.ttl d ≤
      controls q.ttl d + ops.countP (fun x => x.2.isTTLPush d) := by
  induction ops generalizing q with
  | nil => simp [run, callsFor_nil]
  | cons x ops ih =>
    obtain ⟨now, op⟩ := x
    have h1 := step_callsFor q now op d hwf.2 (hno (now, op) (List.mem_cons_self _ _))
    have h2 := ih (step q now op).q (Prims.chain_WF (Prims.step q now op) hwf)
      (fun x hx => hno x (List.mem_cons_of_mem _ hx))
    simp only [run, callsFor_append, List.countP_cons]
    split at h1 <;> rename_i hp <;> simp only [hp, if_true, Bool.false_eq_true, if_false] <;> omega

theorem FlexList.Has_Remove_self (l : FlexList V) (d : String) : (l.Remove d).2.Has d = false := by
  cases h : mapLookup l.indices d with
  | none => rw [FlexList.Remove_absent l d h]; simp [FlexList.Has, h]
  | some e => rw [FlexList.Remove_present l d e h]; simp [FlexList.Has, mapLookup_mapDelete_self]

theorem FlexList.Has_of_Has_Remove (l : FlexList V) (d k : String)
    (h : (l.Remove d).2.Has k = true) : l.Has k = true := by
  cases hd : mapLookup l.indices d with
  | none => rwa [FlexList.Remove_absent l d hd] at h
  | some e =>
    rw [FlexList.Remove_present l d e hd] at h
    obtain ⟨e', he'⟩ := (FlexList.Has_eq_true_iff _ _).1 h
    exact (FlexList.Has_eq_true_iff _ _).2 ⟨e', mapLookup_of_mapDelete _ _ _ _ he'⟩

theorem FlexList.Has_ReadFront (l : FlexList V) (h : l.WF) (hok : l.ReadFront.2.2 = true) :
    l.Has l.ReadFront.1 = true := by
  cases hel : l.items.elems with
  | nil => rw [FlexList.ReadFront_nil l hel] at hok; cases hok
  | cons e rest =>
    rw [FlexList.ReadFront_cons l e rest hel]
    exact (FlexList.Has_eq_true_iff _ _).2 ⟨e, h.2.2.2.2 e (by rw [hel]; simp)⟩

theorem FlexList.Has_ReadBack (l : FlexList V) (h : l.WF) (hok : l.ReadBack.2.2 = true) :
    l.Has l.ReadBack.1 = true := by
  rcases List.eq_nil_or_concat l.items.elems with hel | ⟨rest, e, hel⟩
  · rw [FlexList.ReadBack_nil l hel] at hok; cases hok
  · rw [List.concat_eq_append] at hel
    rw [FlexList.ReadBack_snoc l e rest hel]
    exact (FlexList.Has_eq_true_iff _ _).2 ⟨e, h.2.2.2.2 e (by rw [hel]; simp)⟩

theorem FlexList.PullFront_eq (l : FlexList V) :
    l.PullFront = if l.ReadFront.2.2 = true then
      ((l.ReadFront.1, l.ReadFront.2.1, true), (l.Remove l.ReadFront.1).2)
      else (("", none, false), l) := by
  unfold FlexList.PullFront
  rcases hr : l.ReadFront with ⟨i, m, ok⟩
  cases ok <;> simp

theorem FlexList.PullBack_eq (l : FlexList V) :
    l.PullBack = if l.ReadBack.2.2 = true then
      ((l.ReadBack.1, l.ReadBack.2.1, true), (l.Remove l.ReadBack.1).2)
      else (("", none, false), l) := by
  unfold FlexList.PullBack
  rcases hr : l.ReadBack with ⟨i, m, ok⟩
  cases ok <;> simp

/-- What a successful pull at either end gives: an indexed digest, and the list after
the removal of that digest. -/
theorem FlexList.pull_end (l : FlexList V) (h : l.WF) (front : Bool)
    (hok : (if front then l.PullFront else l.PullBack).1.2.2 = true) :
    l.Has (if front then l.PullFront else l.PullBack).1.1 = true ∧
    (if front then l.PullFront else l.PullBack).2 =
      (l.Remove (if front then l.PullFront else l.PullBack).1.1).2 := by
  cases front
  · simp only [Bool.false_eq_true, if_false] at hok ⊢
    rw [FlexList.PullBack_eq] at hok ⊢
    by_cases hr : l.ReadBack.2.2 = true
    · rw [if_pos hr]
      exact ⟨FlexList.Has_ReadBack l h hr, rfl⟩
    · rw [if_neg hr] at hok
      cases hok
  · simp only [if_true] at hok ⊢
    rw [FlexList.PullFront_eq] at hok ⊢
    by_cases hr : l.ReadFront.2.2 = true
    · rw [if_pos hr]
      exact ⟨FlexList.Has_ReadFront l h hr, rfl⟩
    · rw [if_neg hr] at hok
      cases hok

theorem FlexQueue.expiredAt_congr (q q' : FlexQueue C V) (h : q.ttl = q'.ttl) (now : Int)
    (d : String) : q.expiredAt now d = q'.expiredAt now d := by
  simp [FlexQueue.expiredAt, h]

/-- A call of pruneMessage that returns true has removed the digest and its control. -/
theorem FlexQueue.pruneMessage_fired (q : FlexQueue C V) (now : Int) (d : String)
    (h : (q.pruneMessage now d).ret = true) :
    (q.pruneMessage now d).q = ⟨(q.messages.Remove d).2, mapDelete q.ttl d, q.max⟩ := by
  rw [FlexQueue.pruneMessage_ret, FlexQueue.expiredAt_eq_true_iff] at h
  obtain ⟨t, hl, ht⟩ := h
  rw [FlexQueue.pruneMessage_expired q now d t hl ht]

/-- A digest returned by pullFB was indexed and its control, if any, is not expired. -/
theorem FlexQueue.pullFB_returned (q : FlexQueue C V) (front : Bool) (now : Int)
    (hwf : q.messages.WF) (hok : (q.pullFB front now).ret.2.2 = true) :
    q.messages.Has (q.pullFB front now).ret.1 = true ∧
    q.expiredAt now (q.pullFB front now).ret.1 = false := by
  revert hwf hok
  refine FlexQueue.pullFB_induct front now
    (fun q o => q.messages.WF → o.ret.2.2 = true →
      q.messages.Has o.ret.1 = true ∧ q.expiredAt now o.ret.1 = false) ?_ ?_ ?_ q
  · intro q _ _ hok; cases hok
  · intro q h1 hp hwf _
    refine ⟨(FlexList.pull_end _ hwf front h1).1, ?_⟩
    rw [FlexQueue.pruneMessage_ret] at hp
    exact hp
  · intro q p h1 hp hret ih hwf hok
    obtain ⟨hhas, hrem⟩ := FlexList.pull_end _ hwf front h1
    have hpq := FlexQueue.pruneMessage_fired _ now _ (by rw [← hp]; exact hret)
    rw [← hp] at hpq
    have hm : p.q.messages =
        ((q.messages.Remove (if front then q.messages.PullFront
          else q.messages.PullBack).1.1).2.Remove
          (if front then q.messages.PullFront else q.messages.PullBack).1.1).2 := by
      rw [hpq]
      dsimp only
      rw [hrem]
    have ht : p.q.ttl = mapDelete q.ttl
        (if front then q.messages.PullFront else q.messages.PullBack).1.1 := by
      rw [hpq]
    have hwf1 : p.q.messages.WF := by
      rw [hm]
      exact FlexList.WF_Remove _ (FlexList.WF_Remove _ hwf _) _
    obtain ⟨ih1, ih2⟩ := ih hwf1 hok
    rw [hm] at ih1
    have hne : (p.q.pullFB front now).ret.1 ≠
        (if front then q.messages.PullFront else q.messages.PullBack).1.1 := by
      intro heq
      rw [heq, FlexList.Has_Remove_self] at ih1
      cases ih1
    refine ⟨?_, ?_⟩
    · exact FlexList.Has_of_Has_Remove _ _ _ (FlexList.Has_of_Has_Remove _ _ _ ih1)
    · rw [← ih2]
      simp only [FlexQueue.expiredAt, ht, mapLookup_mapDelete_ne _ _ _ hne]

/-- A digest returned by readFB was indexed and its control, if any, is not expired. -/
theorem FlexQueue.readFB_returned (q : FlexQueue C V) (front : Bool) (now : Int)
    (hwf : q.messages.WF) (hok : (q.readFB front now).ret.2.2 = true) :
    q.messages.Has (q.readFB front now).ret.1 = true ∧
    q.expiredAt now (q.readFB front now).ret.1 = false := by
  revert hwf hok
  have hread : ∀ q : FlexQueue C V, q.messages.WF →
      (if front then q.messages.ReadFront else q.messages.ReadBack).2.2 = true →
      q.messages.Has (if front then q.messages.ReadFront else q.messages.ReadBack).1 = true := by
    intro q hwf h
    cases front
    · exact FlexList.Has_ReadBack _ hwf (by simpa using h)
    · exact FlexList.Has_ReadFront _ hwf (by simpa using h)
  refine FlexQueue.readFB_induct front now
    (fun q o => q.messages.WF → o.ret.2.2 = true →
      q.messages.Has o.ret.1 = true ∧ q.expiredAt now o.ret.1 = false) ?_ ?_ ?_ q
  · intro q _ _ hok; cases hok
  · intro q h1 hp hwf _
    refine ⟨hread q hwf h1, ?_⟩
    rw [FlexQueue.pruneMessage_ret] at hp
    exact hp
  · intro q p h1 hp hret ih hwf hok
    have hpq := FlexQueue.pruneMessage_fired q now _ (by rw [← hp]; exact hret)
    rw [← hp] at hpq
    have hm : p.q.messages = (q.messages.Remove
        (if front then q.messages.ReadFront else q.messages.ReadBack).1).2 := by
      rw [hpq]
    have ht : p.q.ttl = mapDelete q.ttl
        (if front then q.messages.ReadFront else q.messages.ReadBack).1 := by
      rw [hpq]
    have hwf1 : p.q.messages.WF := by
      rw [hm]
      exact FlexList.WF_Remove _ hwf _
    obtain ⟨ih1, ih2⟩ := ih hwf1 hok
    rw [hm] at ih1
    have hne : (p.q.readFB front now).ret.1 ≠
        (if front then q.messages.ReadFront else q.messages.ReadBack).1 := by
      intro heq
      rw [heq, FlexList.Has_Remove_self] at ih1
      cases ih1
    refine ⟨?_, ?_⟩
    · exact FlexList.Has_of_Has_Remove _ _ _ ih1
    · rw [← ih2]
      simp only [FlexQueue.expiredAt, ht, mapLookup_mapDelete_ne _ _ _ hne]

/-- No call returns an entry whose TTL control is expired at the instant of the call. -/
theorem step_returned_live (q : FlexQueue C V) (now : Int) (op : Op C V) (d : String)
    (hwf : q.messages.WF) (h : returnedDigest op (step q now op).ret = some d) :
    q.expiredAt now d = false := by
  cases op with
  | pull x =>
    simp only [step, FlexQueue.Pull] at h
    by_cases hp : (q.pruneMessage now x).ret = true
    · simp [hp, returnedDigest] at h
    · rw [FlexQueue.pruneMessage_ret] at hp
      simp only [Bool.not_eq_true] at hp
      have hd : x = d := by
        revert h
        split
        · simp [returnedDigest]
        · cases hok : ((q.pruneMessage now x).q.messages.Pull x).1.2 <;>
            simp [returnedDigest]
      rw [← hd]; exact hp
  | read x =>
    simp only [step, FlexQueue.Read] at h
    by_cases hp : (q.pruneMessage now x).ret = true
    · simp [hp, returnedDigest] at h
    · rw [FlexQueue.pruneMessage_ret] at hp
      simp only [Bool.not_eq_true] at hp
      have hd : x = d := by
        revert h
        split
        · simp [returnedDigest]
        · cases hok : ((q.pruneMessage now x).q.messages.Read x).2 <;>
            simp [returnedDigest]
      rw [← hd]; exact hp
  | pullFront =>
    simp only [step, FlexQueue.PullFront] at h
    cases hok : (q.pullFB true now).ret.2.2 with
    | false => simp [hok, returnedDigest] at h
    | true =>
      simp only [hok, returnedDigest, Option.some.injEq] at h
      rw [← h]
      exact (FlexQueue.pullFB_returned q true now hwf hok).2
  | pullBack =>
    simp only [step, FlexQueue.PullBack] at h
    cases hok : (q.pullFB false now).ret.2.2 with
    | false => simp [hok, returnedDigest] at h
    | true =>
      simp only [hok, returnedDigest, Option.some.injEq] at h
      rw [← h]
      exact (FlexQueue.pullFB_returned q false now hwf hok).2
  | readFront =>
    simp only [step, FlexQueue.ReadFront] at h
    cases hok : (q.readFB true now).ret.2.2 with
    | false => simp [hok, returnedDigest] at h
    | true =>
      simp only [hok, returnedDigest, Option.some.injEq] at h
      rw [← h]
      exact (FlexQueue.readFB_returned q true now hwf hok).2
  | readBack =>
    simp only [step, FlexQueue.ReadBack] at h
    cases hok : (q.readFB false now).ret.2.2 with
    | false => simp [hok, returnedDigest] at h
    | true =>
      simp only [hok, returnedDigest, Option.some.injEq] at h
      rw [← h]
      exact (FlexQueue.readFB_returned q false now hwf hok).2
  | pushFront x m => simp [step, returnedDigest] at h
  | pushBack x m => simp [step, returnedDigest] at h
  | pushFrontTTL x m t cb lag => simp [step, returnedDigest] at h
  | pushBackTTL x m t cb lag => simp [step, returnedDigest] at h
  | update x m => simp [step, returnedDigest] at h
  | resetTTL x t lag1 lag2 => simp [step, returnedDigest] at h
  | remove x => simp [step, returnedDigest] at h
  | prune => simp [step, returnedDigest] at h
  | has x => simp [step, returnedDigest] at h
  | len => simp [step, returnedDigest] at h
  | max => simp [step, returnedDigest] at h
  | isFull => simp [step, returnedDigest] at h
  | isEmpty => simp [step, returnedDigest] at h

end Returned

/-! ### The message passed to the callback by pullFB -/

section PullNil
variable {C V : Type}

/-- After a pull at either end the pulled digest is not indexed any more, in every
state of the list. -/
theorem FlexList.Read_after_pull (l : FlexList V) (front : Bool)
    (hok : (if front then l.PullFront else l.PullBack).1.2.2 = true) :
    ((if front then l.PullFront else l.PullBack).2.Read
      (if front then l.PullFront else l.PullBack).1.1).1 = none := by
  have hrem : ∀ d, ((l.Remove d).2.Read d).1 = none := by
    intro d
    have := FlexList.Has_Remove_self l d
    rw [FlexList.Has_eq_false_iff] at this
    simp [FlexList.Read, this]
  cases front
  · simp only [Bool.false_eq_true, if_false] at hok ⊢
    rw [FlexList.PullBack_eq] at hok ⊢
    by_cases hr : l.ReadBack.2.2 = true
    · rw [if_pos hr]; exact hrem _
    · rw [if_neg hr] at hok; cases hok
  · simp only [if_true] at hok ⊢
    rw [FlexList.PullFront_eq] at hok ⊢
    by_cases hr : l.ReadFront.2.2 = true
    · rw [if_pos hr]; exact hrem _
    · rw [if_neg hr] at hok; cases hok

/-- Every callback fired by pullFB, in every state of the queue, is called with a nil
message: pruneMessage reads the message after the pull has removed it. -/
theorem FlexQueue.pullFB_calls_nil (q : FlexQueue C V) (front : Bool) (now : Int) :
    ∀ c ∈ (q.pullFB front now).calls, c.message = none := by
  refine FlexQueue.pullFB_induct front now (fun _ o => ∀ c ∈ o.calls, c.message = none)
    ?_ ?_ ?_ q
  · intro q _ c hc; simp at hc
  · intro q _ _ c hc; simp at hc
  · intro q p h1 hp _ ih c hc
    rcases List.mem_append.1 hc with hc | hc
    · rw [hp] at hc
      unfold FlexQueue.pruneMessage at hc
      revert hc
      split
      · split
        · intro hc
          simp only [List.mem_singleton] at hc
          rw [hc]
          exact FlexList.Read_after_pull q.messages front h1
        · intro hc; simp at hc
      · intro hc; simp at hc
    · exact ih c hc

end PullNil

/-! ### Pushes with a TTL, Update and ResetTTL -/

section TTLPush
variable {C V : Type}

/-- The control created at the reading `now` is expired at the reading `checked` when
the duration is shorter than the time between the two readings. -/
theorem NewTTL_Expired (now checked ttl : Int) (cb : C) :
    (NewTTL now ttl cb).Expired checked = decide (now + ttl < checked) := by
  simp only [NewTTL, TTL.Expired]

/-- A push with a TTL that is elapsed when it is checked fires the callback with the
message of the push and changes nothing. -/
theorem FlexQueue.pushFBTTL_elapsed (q : FlexQueue C V) (now checked : Int) (front : Bool)
    (d : String) (v : Option V) (ttl : Int) (cb : C) (h : now + ttl < checked) :
    q.pushFBTTL now checked front d v ttl cb = ⟨false, q, [⟨cb, d, v⟩]⟩ := by
  unfold FlexQueue.pushFBTTL
  rw [NewTTL_Expired]
  simp [h, NewTTL]

/-- A push with a TTL that is not elapsed when it is checked is the push followed, when
it returns true, by the store of the control. -/
theorem FlexQueue.pushFBTTL_fresh (q : FlexQueue C V) (now checked : Int) (front : Bool)
    (d : String) (v : Option V) (ttl : Int) (cb : C) (h : checked ≤ now + ttl) :
    q.pushFBTTL now checked front d v ttl cb =
      if (q.pushFB front d v).1 = true then
        ⟨true, ⟨(q.pushFB front d v).2.messages,
          mapStore (q.pushFB front d v).2.ttl d ⟨now + ttl, cb⟩,
          (q.pushFB front d v).2.max⟩, []⟩
      else ⟨false, (q.pushFB front d v).2, []⟩ := by
  unfold FlexQueue.pushFBTTL
  rw [NewTTL_Expired]
  have : ¬ now + ttl < checked := by omega
  simp [this, NewTTL]

end TTLPush


section UpdateReset
variable {C V : Type}

theorem map_replace_middle (pe po : List (Element V)) (e new : Element V)
    (hn : ((pe ++ e :: po).map Element.id).Nodup) :
    (pe ++ e :: po).map (fun x => if x.id = e.id then new else x) = pe ++ new :: po := by
  rw [List.map_append, List.nodup_append] at hn
  obtain ⟨_, hpo, hdis⟩ := hn
  simp only [List.map_cons, List.nodup_cons] at hpo
  have h1 : pe.map (fun x => if x.id = e.id then new else x) = pe := by
    conv_rhs => rw [← List.map_id pe]
    apply List.map_congr_left
    intro x hx
    have : x.id ≠ e.id := fun h =>
      hdis (List.mem_map_of_mem Element.id hx) (by simp [h])
    simp [this]
  have h2 : po.map (fun x => if x.id = e.id then new else x) = po := by
    conv_rhs => rw [← List.map_id po]
    apply List.map_congr_left
    intro x hx
    have : x.id ≠ e.id := fun h => hpo.1 (by rw [← h]; exact List.mem_map_of_mem Element.id hx)
    simp [this]
  simp [h1, h2]

/-- Update of the key of an element of the list puts a new element with the new item in
its place. -/
theorem FlexList.Update_middle (l : FlexList V) (hwf : l.WF) (e : Element V)
    (pe po : List (Element V)) (h : l.items.elems = pe ++ e :: po) (v : Option V) :
    l.Update e.Value.index v =
      (true, ⟨⟨pe ++ ⟨l.items.fresh, ⟨e.Value.index, v⟩⟩ :: po, l.items.fresh + 1⟩,
        mapStore l.indices e.Value.index ⟨l.items.fresh, ⟨e.Value.index, v⟩⟩⟩) := by
  have hl := hwf.2.2.2.2 e (by rw [h]; simp)
  rw [FlexList.Update_present l _ v e hl, removeId_insertAfterId _ _ _ hwf.1, h,
    map_replace_middle pe po e _ (by rw [← h]; exact hwf.1)]

/-- A call of pruneMessage on a digest of the list whose control is expired: the
callback is fired with the stored message, and the message and the control are
removed. -/
theorem FlexQueue.pruneMessage_expired_middle (q : FlexQueue C V) (now : Int)
    (hwf : q.messages.WF) (e : Element V) (pe po : List (Element V))
    (h : q.messages.items.elems = pe ++ e :: po) (t : TTL C)
    (ht : mapLookup q.ttl e.Value.index = some t) (hexp : t.Expires < now) :
    q.pruneMessage now e.Value.index =
      ⟨true, ⟨⟨⟨pe ++ po, q.messages.items.fresh⟩,
        mapDelete q.messages.indices e.Value.index⟩, mapDelete q.ttl e.Value.index, q.max⟩,
        [⟨t.Callback, e.Value.index, e.Value.item⟩]⟩ := by
  rw [FlexQueue.pruneMessage_expired q now _ t ht (by simp [TTL.Expired, hexp]),
    FlexList.Remove_middle _ hwf e pe po h,
    FlexList.Read_of_mem _ hwf e (by rw [h]; simp)]

/-- A call of pruneMessage on a digest without a control does nothing. -/
theorem FlexQueue.pruneMessage_no_control (q : FlexQueue C V) (now : Int) (d : String)
    (h : mapLookup q.ttl d = none) : q.pruneMessage now d = ⟨false, q, []⟩ :=
  FlexQueue.pruneMessage_live q now d (by simp [FlexQueue.expiredAt, h])

/-- Update of a digest of the list that is not expired replaces its message in place and
changes nothing else. -/
theorem FlexQueue.Update_live (q : FlexQueue C V) (now : Int) (hwf : q.messages.WF)
    (e : Element V) (pe po : List (Element V)) (h : q.messages.items.elems = pe ++ e :: po)
    (hlive : q.expiredAt now e.Value.index = false) (v : Option V) :
    q.Update now e.Value.index v =
      ⟨true, ⟨⟨⟨pe ++ ⟨q.messages.items.fresh, ⟨e.Value.index, v⟩⟩ :: po,
          q.messages.items.fresh + 1⟩,
        mapStore q.messages.indices e.Value.index
          ⟨q.messages.items.fresh, ⟨e.Value.index, v⟩⟩⟩, q.ttl, q.max⟩, []⟩ := by
  unfold FlexQueue.Update
  rw [FlexQueue.pruneMessage_live q now _ hlive]
  simp [FlexList.Update_middle _ hwf e pe po h v]

/-- Update of a digest that is neither indexed nor under an expired control returns
false and changes nothing. -/
theorem FlexQueue.Update_missing (q : FlexQueue C V) (now : Int) (d : String) (v : Option V)
    (habsent : q.messages.Has d = false) (hlive : q.expiredAt now d = false) :
    q.Update now d v = ⟨false, q, []⟩ := by
  unfold FlexQueue.Update
  rw [FlexQueue.pruneMessage_live q now _ hlive]
  simp [FlexList.Update_absent _ _ _ ((FlexList.Has_eq_false_iff _ _).1 habsent)]

/-- ResetTTL of a digest without a control returns false and changes nothing. -/
theorem FlexQueue.ResetTTL_no_control (q : FlexQueue C V) (now created checked : Int)
    (d : String) (ttl : Int) (h : mapLookup q.ttl d = none) :
    q.ResetTTL now created checked d ttl = ⟨false, q, []⟩ := by
  unfold FlexQueue.ResetTTL
  rw [FlexQueue.pruneMessage_no_control q now d h]
  simp [h]

end UpdateReset


/-! ### A digest without a TTL control is left alone -/

section Frame
variable {C V : Type}

theorem FlexList.Remove_index_ne (l : FlexList V) (x d : String) (h : d ≠ x) :
    mapLookup (l.Remove x).2.indices d = mapLookup l.indices d := by
  cases hx : mapLookup l.indices x with
  | none => rw [FlexList.Remove_absent l x hx]
  | some e =>
    rw [FlexList.Remove_present l x e hx]
    exact mapLookup_mapDelete_ne _ _ _ h

theorem FlexList.Update_index_ne (l : FlexList V) (x d : String) (v : Option V) (h : d ≠ x) :
    mapLookup (l.Update x v).2.indices d = mapLookup l.indices d := by
  cases hx : mapLookup l.indices x with
  | none => rw [FlexList.Update_absent l x v hx]
  | some e =>
    rw [FlexList.Update_present l x v e hx]
    exact mapLookup_mapStore_ne _ _ _ _ h

theorem FlexList.Update_index_self (l : FlexList V) (d : String) (v : Option V)
    (e : Element V) (h : mapLookup l.indices d = some e) :
    ∃ e', mapLookup (l.Update d v).2.indices d = some e' ∧ e'.Value.item = v := by
  rw [FlexList.Update_present l d v e h]
  exact ⟨_, mapLookup_mapStore_self _ _ _, rfl⟩

/-- A push leaves the index entry of a digest that is already indexed as it is. -/
theorem FlexList.push_index (l : FlexList V) (front : Bool) (x d : String) (v : Option V)
    (e : Element V) (h : mapLookup l.indices d = some e) :
    mapLookup (if front then l.PushFront x v else l.PushBack x v).2.indices d = some e := by
  cases hx : l.Has x with
  | true =>
    cases front <;>
      simp [FlexList.PushFront_present _ _ _ hx, FlexList.PushBack_present _ _ _ hx, h]
  | false =>
    have hne : d ≠ x := by
      intro hdx
      rw [FlexList.Has_eq_false_iff, ← hdx, h] at hx
      cases hx
    cases front <;>
      simp [FlexList.PushFront_absent _ _ _ hx, FlexList.PushBack_absent _ _ _ hx,
        mapLookup_mapStore_ne _ _ _ _ hne, h]

/-- A pull at either end leaves the index entries of the other digests as they are. -/
theorem FlexList.pull_index (l : FlexList V) (front : Bool) (d : String)
    (h : (if front then l.PullFront else l.PullBack).1.2.2 = true →
      (if front then l.PullFront else l.PullBack).1.1 ≠ d) :
    mapLookup (if front then l.PullFront else l.PullBack).2.indices d =
      mapLookup l.indices d := by
  cases front
  · simp only [Bool.false_eq_true, if_false] at h ⊢
    rw [FlexList.PullBack_eq] at h ⊢
    by_cases hr : l.ReadBack.2.2 = true
    · rw [if_pos hr] at h ⊢
      exact FlexList.Remove_index_ne _ _ _ (Ne.symm (h rfl))
    · rw [if_neg hr]
  · simp only [if_true] at h ⊢
    rw [FlexList.PullFront_eq] at h ⊢
    by_cases hr : l.ReadFront.2.2 = true
    · rw [if_pos hr] at h ⊢
      exact FlexList.Remove_index_ne _ _ _ (Ne.symm (h rfl))
    · rw [if_neg hr]

namespace FlexQueue

/-- A call of pruneMessage leaves a digest without a control alone: no control appears
for it, its index entry stays and no callback is fired for it. -/
theorem pruneMessage_frame (q : FlexQueue C V) (now : Int) (x d : String)
    (httl : mapLookup q.ttl d = none) :
    mapLookup (q.pruneMessage now x).q.ttl d = none ∧
    mapLookup (q.pruneMessage now x).q.messages.indices d = mapLookup q.messages.indices d ∧
    callsFor d (q.pruneMessage now x).calls = 0 := by
  by_cases hp : (q.pruneMessage now x).ret = true
  · have hne : d ≠ x := by
      intro hdx
      rw [pruneMessage_ret, expiredAt_eq_true_iff] at hp
      obtain ⟨t, hl, _⟩ := hp
      rw [← hdx, httl] at hl
      cases hl
    have hq := pruneMessage_fired q now x hp
    have hc : callsFor d (q.pruneMessage now x).calls = 0 := by
      have := pruneMessage_callsFor q now x d
      simp only [controls, httl] at this
      simp at this
      omega
    rw [hq]
    exact ⟨by simp [mapLookup_mapDelete_ne _ _ _ hne, httl],
      FlexList.Remove_index_ne _ _ _ hne, hc⟩
  · rw [pruneMessage_of_ret_false q now x (by simpa using hp)]
    exact ⟨httl, rfl, rfl⟩

theorem pullFB_frame (q : FlexQueue C V) (front : Bool) (now : Int) (d : String)
    (httl : mapLookup q.ttl d = none)
    (hret : (q.pullFB front now).ret.2.2 = true → (q.pullFB front now).ret.1 ≠ d) :
    mapLookup (q.pullFB front now).q.ttl d = none ∧
    mapLookup (q.pullFB front now).q.messages.indices d = mapLookup q.messages.indices d ∧
    callsFor d (q.pullFB front now).calls = 0 := by
  revert httl hret
  refine pullFB_induct front now
    (fun q o => mapLookup q.ttl d = none → (o.ret.2.2 = true → o.ret.1 ≠ d) →
      mapLookup o.q.ttl d = none ∧
      mapLookup o.q.messages.indices d = mapLookup q.messages.indices d ∧
      callsFor d o.calls = 0) ?_ ?_ ?_ q
  · intro q h1 httl _
    exact ⟨httl, FlexList.pull_index _ front d (fun h => by rw [h1] at h; cases h), rfl⟩
  · intro q _ _ httl hret
    exact ⟨httl, FlexList.pull_index _ front d (fun _ => hret rfl), rfl⟩
  · intro q p h1 hp hfire ih httl hret
    have hne : (if front then q.messages.PullFront else q.messages.PullBack).1.1 ≠ d := by
      intro hx
      rw [hp, pruneMessage_ret, expiredAt_eq_true_iff] at hfire
      obtain ⟨t, hl, _⟩ := hfire
      rw [hx] at hl
      dsimp only at hl
      rw [httl] at hl
      cases hl
    have hidx := FlexList.pull_index q.messages front d (fun _ => hne)
    obtain ⟨f1, f2, f3⟩ := pruneMessage_frame
      (⟨(if front then q.messages.PullFront else q.messages.PullBack).2, q.ttl, q.max⟩ :
        FlexQueue C V) now (if front then q.messages.PullFront else q.messages.PullBack).1.1
      d httl
    rw [← hp] at f1 f2 f3
    obtain ⟨i1, i2, i3⟩ := ih f1 hret
    refine ⟨i1, ?_, ?_⟩
    · rw [i2, f2]
      exact hidx
    · rw [callsFor_append, f3, i3]

theorem readFB_frame (q : FlexQueue C V) (front : Bool) (now : Int) (d : String)
    (httl : mapLookup q.ttl d = none) :
    mapLookup (q.readFB front now).q.ttl d = none ∧
    mapLookup (q.readFB front now).q.messages.indices d = mapLookup q.messages.indices d ∧
    callsFor d (q.readFB front now).calls = 0 := by
  revert httl
  refine readFB_induct front now
    (fun q o => mapLookup q.ttl d = none →
      mapLookup o.q.ttl d = none ∧
      mapLookup o.q.messages.indices d = mapLookup q.messages.indices d ∧
      callsFor d o.calls = 0) ?_ ?_ ?_ q
  · intro q _ httl
    exact ⟨httl, rfl, rfl⟩
  · intro q _ _ httl
    exact ⟨httl, rfl, rfl⟩
  · intro q p _ hp _ ih httl
    obtain ⟨f1, f2, f3⟩ := pruneMessage_frame q now
      (if front then q.messages.ReadFront else q.messages.ReadBack).1 d httl
    rw [← hp] at f1 f2 f3
    obtain ⟨i1, i2, i3⟩ := ih f1
    exact ⟨i1, by rw [i2, f2], by rw [callsFor_append, f3, i3]⟩

theorem pruneLoop_frame (now : Int) (d : String) (visit : List (String × TTL C))
    (acc : Outcome C V Bool) (hvis : d ∉ visit.map Prod.fst)
    (httl : mapLookup acc.q.ttl d = none) :
    mapLookup (pruneLoop now visit acc).q.ttl d = none ∧
    mapLookup (pruneLoop now visit acc).q.messages.indices d =
      mapLookup acc.q.messages.indices d ∧
    callsFor d (pruneLoop now visit acc).calls = callsFor d acc.calls := by
  induction visit generalizing acc with
  | nil => exact ⟨httl, rfl, rfl⟩
  | cons p visit ih =>
    obtain ⟨k, t⟩ := p
    simp only [List.map_cons, List.mem_cons, not_or] at hvis
    unfold pruneLoop
    by_cases h : t.Expired now = true
    · simp only [h, if_true]
      obtain ⟨i1, i2, i3⟩ := ih
        ⟨true, ⟨(acc.q.messages.Remove k).2, mapDelete acc.q.ttl k, acc.q.max⟩,
          acc.calls ++ [⟨t.Callback, k, (acc.q.messages.Read k).1⟩]⟩ hvis.2
        (by simp [mapLookup_mapDelete_ne _ _ _ hvis.1, httl])
      refine ⟨i1, ?_, ?_⟩
      · rw [i2]
        exact FlexList.Remove_index_ne _ _ _ hvis.1
      · rw [i3, callsFor_append, callsFor_singleton]
        simp [Ne.symm hvis.1]
    · simp only [h]
      exact ih acc hvis.2 httl

theorem Prune_frame (q : FlexQueue C V) (now : Int) (d : String)
    (httl : mapLookup q.ttl d = none) :
    mapLookup (q.Prune now).q.ttl d = none ∧
    mapLookup (q.Prune now).q.messages.indices d = mapLookup q.messages.indices d ∧
    callsFor d (q.Prune now).calls = 0 :=
  pruneLoop_frame now d q.ttl ⟨false, q, []⟩ ((mapLookup_eq_none_iff _ _).1 httl) httl

theorem pushFB_index (q : FlexQueue C V) (front : Bool) (x d : String) (v : Option V)
    (e : Element V) (h : mapLookup q.messages.indices d = some e) :
    mapLookup (q.pushFB front x v).2.messages.indices d = some e := by
  unfold pushFB
  split
  · exact h
  · split
    · exact h
    · exact FlexList.push_index q.messages front x d v e h

end FlexQueue
end Frame

section Frame2
variable {C V : Type}

/-- One call that neither takes `d` out by name, nor pulls it, nor pushes it with a TTL
leaves `d`, indexed and without a control, in the queue: no control appears for it, no
callback is fired for it, and it stays indexed, with the message of the call when the
call is an Update of `d`. -/
theorem step_frame (q : FlexQueue C V) (now : Int) (op : Op C V) (d : String)
    (e : Element V) (httl : mapLookup q.ttl d = none)
    (hidx : mapLookup q.messages.indices d = some e)
    (htakes : op.takes d = false) (hpush : op.isTTLPush d = false)
    (hpull : pulledDigest op (step q now op).ret ≠ some d) :
    mapLookup (step q now op).q.ttl d = none ∧
    (∃ e', mapLookup (step q now op).q.messages.indices d = some e' ∧
      e'.Value.item = storedAfter d e.Value.item op) ∧
    callsFor d (step q now op).calls = 0 := by
  have hpm := fun x => FlexQueue.pruneMessage_frame q now x d httl
  have hpushTTL : ∀ (checked : Int) (front : Bool) (x : String) (m : Option V) (t : Int)
      (cb : C), x ≠ d →
      mapLookup (q.pushFBTTL now checked front x m t cb).q.ttl d = none ∧
      mapLookup (q.pushFBTTL now checked front x m t cb).q.messages.indices d = some e ∧
      callsFor d (q.pushFBTTL now checked front x m t cb).calls = 0 := by
    intro checked front x m t cb hx
    unfold FlexQueue.pushFBTTL
    by_cases h1 : (NewTTL now t cb).Expired checked = true
    · simp only [h1, if_true, callsFor_singleton, hx, if_false]
      exact ⟨httl, hidx, trivial⟩
    · simp only [h1, Bool.false_eq_true, if_false]
      by_cases h2 : (q.pushFB front x m).1 = true
      · simp only [h2, if_true, callsFor_nil, FlexQueue.pushFB_ttl]
        exact ⟨by rw [mapLookup_mapStore_ne _ _ _ _ (Ne.symm hx)]; exact httl,
          FlexQueue.pushFB_index q front x d m e hidx, trivial⟩
      · simp only [h2, Bool.false_eq_true, if_false, callsFor_nil, FlexQueue.pushFB_ttl]
        exact ⟨httl, FlexQueue.pushFB_index q front x d m e hidx, trivial⟩
  cases op with
  | pushFront x m =>
    simp only [step, FlexQueue.PushFront, FlexQueue.pushFB_ttl, callsFor_nil, storedAfter]
    exact ⟨httl, ⟨e, FlexQueue.pushFB_index q true x d m e hidx, rfl⟩, trivial⟩
  | pushBack x m =>
    simp only [step, FlexQueue.PushBack, FlexQueue.pushFB_ttl, callsFor_nil, storedAfter]
    exact ⟨httl, ⟨e, FlexQueue.pushFB_index q false x d m e hidx, rfl⟩, trivial⟩
  | pushFrontTTL x m t cb lag =>
    have hx : x ≠ d := by simpa [Op.isTTLPush] using hpush
    obtain ⟨h1, h2, h3⟩ := hpushTTL (now + lag) true x m t cb hx
    exact ⟨h1, ⟨e, h2, rfl⟩, h3⟩
  | pushBackTTL x m t cb lag =>
    have hx : x ≠ d := by simpa [Op.isTTLPush] using hpush
    obtain ⟨h1, h2, h3⟩ := hpushTTL (now + lag) false x m t cb hx
    exact ⟨h1, ⟨e, h2, rfl⟩, h3⟩
  | pull x =>
    have hx : d ≠ x := by
      have : x ≠ d := by simpa [Op.takes] using htakes
      exact Ne.symm this
    obtain ⟨h1, h2, h3⟩ := hpm x
    simp only [step, FlexQueue.Pull, storedAfter]
    split
    · exact ⟨h1, ⟨e, by rw [h2]; exact hidx, rfl⟩, h3⟩
    · refine ⟨h1, ⟨e, ?_, rfl⟩, h3⟩
      rw [FlexList.Pull_snd, FlexList.Remove_index_ne _ _ _ hx, h2]
      exact hidx
  | pullFront =>
    obtain ⟨h1, h2, h3⟩ := FlexQueue.pullFB_frame q true now d httl (by
      intro hok hd
      apply hpull
      simp only [step, FlexQueue.PullFront, hok, hd, pulledDigest])
    exact ⟨h1, ⟨e, by rw [← hidx]; exact h2, rfl⟩, h3⟩
  | pullBack =>
    obtain ⟨h1, h2, h3⟩ := FlexQueue.pullFB_frame q false now d httl (by
      intro hok hd
      apply hpull
      simp only [step, FlexQueue.PullBack, hok, hd, pulledDigest])
    exact ⟨h1, ⟨e, by rw [← hidx]; exact h2, rfl⟩, h3⟩
  | read x =>
    obtain ⟨h1, h2, h3⟩ := hpm x
    simp only [step, FlexQueue.Read, storedAfter]
    split <;> exact ⟨h1, ⟨e, by rw [h2]; exact hidx, rfl⟩, h3⟩
  | readFront =>
    obtain ⟨h1, h2, h3⟩ := FlexQueue.readFB_frame q true now d httl
    exact ⟨h1, ⟨e, by rw [← hidx]; exact h2, rfl⟩, h3⟩
  | readBack =>
    obtain ⟨h1, h2, h3⟩ := FlexQueue.readFB_frame q false now d httl
    exact ⟨h1, ⟨e, by rw [← hidx]; exact h2, rfl⟩, h3⟩
  | update x m =>
    obtain ⟨h1, h2, h3⟩ := hpm x
    simp only [step, FlexQueue.Update, storedAfter]
    by_cases hx : x = d
    · subst hx
      have hp := FlexQueue.pruneMessage_no_control q now x httl
      simp only [hp, Bool.false_eq_true, if_false, if_true, callsFor_nil]
      exact ⟨httl, FlexList.Update_index_self _ x m e hidx, trivial⟩
    · simp only [hx, if_false]
      split
      · exact ⟨h1, ⟨e, by rw [h2]; exact hidx, rfl⟩, h3⟩
      · refine ⟨h1, ⟨e, ?_, rfl⟩, h3⟩
        rw [FlexList.Update_index_ne _ _ _ _ (Ne.symm hx), h2]
        exact hidx
  | resetTTL x t lag1 lag2 =>
    obtain ⟨h1, h2, h3⟩ := hpm x
    by_cases hx : x = d
    · subst hx
      have := FlexQueue.ResetTTL_no_control q now (now + lag1) (now + lag1 + lag2) x t httl
      simp only [step, this, storedAfter, callsFor_nil]
      exact ⟨httl, ⟨e, hidx, rfl⟩, trivial⟩
    · simp only [step, FlexQueue.ResetTTL, storedAfter]
      split
      · exact ⟨h1, ⟨e, by rw [h2]; exact hidx, rfl⟩, h3⟩
      · split
        · exact ⟨h1, ⟨e, by rw [h2]; exact hidx, rfl⟩, h3⟩
        · split
          · refine ⟨h1, ⟨e, by rw [h2]; exact hidx, rfl⟩, ?_⟩
            rw [callsFor_append, h3, callsFor_singleton]
            simp [hx]
          · refine ⟨?_, ⟨e, by rw [h2]; exact hidx, rfl⟩, h3⟩
            show mapLookup (mapStore _ x _) d = none
            rw [mapLookup_mapStore_ne _ _ _ _ (Ne.symm hx)]
            exact h1
  | remove x =>
    have hx : d ≠ x := by
      have : x ≠ d := by simpa [Op.takes] using htakes
      exact Ne.symm this
    obtain ⟨h1, h2, h3⟩ := hpm x
    simp only [step, FlexQueue.Remove, storedAfter]
    split
    · exact ⟨h1, ⟨e, by rw [h2]; exact hidx, rfl⟩, h3⟩
    · split
      · refine ⟨?_, ⟨e, ?_, rfl⟩, h3⟩
        · show mapLookup (mapDelete _ x) d = none
          rw [mapLookup_mapDelete_ne _ _ _ hx]
          exact h1
        · show mapLookup ((q.pruneMessage now x).q.messages.Remove x).2.indices d = some e
          rw [FlexList.Remove_index_ne _ _ _ hx, h2]
          exact hidx
      · refine ⟨h1, ⟨e, ?_, rfl⟩, h3⟩
        show mapLookup ((q.pruneMessage now x).q.messages.Remove x).2.indices d = some e
        rw [FlexList.Remove_index_ne _ _ _ hx, h2]
        exact hidx
  | prune =>
    obtain ⟨h1, h2, h3⟩ := FlexQueue.Prune_frame q now d httl
    exact ⟨h1, ⟨e, by rw [← hidx]; exact h2, rfl⟩, h3⟩
  | has x =>
    obtain ⟨h1, h2, h3⟩ := hpm x
    simp only [step, FlexQueue.Has, storedAfter]
    split <;> exact ⟨h1, ⟨e, by rw [h2]; exact hidx, rfl⟩, h3⟩
  | len => exact ⟨httl, ⟨e, hidx, rfl⟩, rfl⟩
  | max => exact ⟨httl, ⟨e, hidx, rfl⟩, rfl⟩
  | isFull => exact ⟨httl, ⟨e, hidx, rfl⟩, rfl⟩
  | isEmpty => exact ⟨httl, ⟨e, hidx, rfl⟩, rfl⟩

/-- A run of such calls leaves `d` in the queue with its last stored message, without a
control, and fires no callback for it. -/
theorem run_frame (q : FlexQueue C V) (ops : List (Int × Op C V)) (d : String)
    (e : Element V) (httl : mapLookup q.ttl d = none)
    (hidx : mapLookup q.messages.indices d = some e)
    (hops : ∀ x ∈ ops, x.2.takes d = false ∧ x.2.isTTLPush d = false)
    (hpull : neverPulls d q ops = true) :
    mapLookup (run q ops).q.ttl d = none ∧
    (∃ e', mapLookup (run q ops).q.messages.indices d = some e' ∧
      e'.Value.item = lastStored d e.Value.item ops) ∧
    callsFor d (run q ops).calls = 0 := by
  induction ops generalizing q e with
  | nil => exact ⟨httl, ⟨e, hidx, rfl⟩, rfl⟩
  | cons x ops ih =>
    obtain ⟨now, op⟩ := x
    simp only [neverPulls, Bool.and_eq_true, decide_eq_true_eq] at hpull
    obtain ⟨s1, ⟨e1, s2, s3⟩, s4⟩ := step_frame q now op d e httl hidx
      (hops (now, op) (List.mem_cons_self _ _)).1 (hops (now, op) (List.mem_cons_self _ _)).2
      hpull.1
    obtain ⟨r1, ⟨e2, r2, r3⟩, r4⟩ := ih (step q now op).q e1 s1 s2
      (fun x hx => hops x (List.mem_cons_of_mem _ hx)) hpull.2
    refine ⟨r1, ⟨e2, r2, ?_⟩, ?_⟩
    · rw [r3, s3]; rfl
    · simp only [run, callsFor_append, s4, r4]

end Frame2

section ResetExpired
variable {C V : Type}

/-- ResetTTL of a digest of the list whose control is expired returns false after the
pruning: the callback is fired once with the stored message, and the message and the
control are removed. -/
theorem FlexQueue.ResetTTL_expired_middle (q : FlexQueue C V) (now created checked : Int)
    (hwf : q.messages.WF) (e : Element V) (pe po : List (Element V))
    (h : q.messages.items.elems = pe ++ e :: po) (t : TTL C)
    (ht : mapLookup q.ttl e.Value.index = some t) (hexp : t.Expires < now) (ttl : Int) :
    q.ResetTTL now created checked e.Value.index ttl =
      ⟨false, ⟨⟨⟨pe ++ po, q.messages.items.fresh⟩,
        mapDelete q.messages.indices e.Value.index⟩, mapDelete q.ttl e.Value.index, q.max⟩,
        [⟨t.Callback, e.Value.index, e.Value.item⟩]⟩ := by
  unfold FlexQueue.ResetTTL
  rw [FlexQueue.pruneMessage_expired_middle q now hwf e pe po h t ht hexp]
  simp

/-- The entries after an Update of a digest of the list that is not expired: the same
digests in the same order, with the new message for the updated digest. -/
theorem FlexQueue.Update_live_entries (q : FlexQueue C V) (now : Int) (hwf : q.messages.WF)
    (d : String) (v v' : Option V) (pre post : List (String × Option V))
    (hs : q.messages.entries = pre ++ (d, v) :: post)
    (hlive : q.expiredAt now d = false) :
    (q.Update now d v').ret = true ∧ (q.Update now d v').calls = [] ∧
    (q.Update now d v').q.messages.entries = pre ++ (d, v') :: post ∧
    (q.Update now d v').q.ttl = q.ttl ∧ (q.Update now d v').q.max = q.max ∧
    (q.Update now d v').q.Len = q.Len ∧
    (q.Update now d v').q.Read now d = ⟨(v', true), (q.Update now d v').q, []⟩ := by
  obtain ⟨pe, po, e, hel, hpe, hpo, rfl, rfl⟩ := q.messages.entries_split pre post _ _ hs
  rw [FlexQueue.Update_live q now hwf e pe po hel hlive v']
  refine ⟨rfl, rfl, ?_, rfl, rfl, ?_, ?_⟩
  · simp [FlexList.entries, hpe, hpo]
  · simp [FlexQueue.Len, FlexList.Len, LinkedList.Len, hel]
  · unfold FlexQueue.Read
    rw [FlexQueue.pruneMessage_live _ now _ (by
      rw [← hlive]; rfl)]
    simp [FlexList.Read, mapLookup_mapStore_self]

end ResetExpired

/-- C1 (FIFO): pushing pairwise different digests with PushBack onto a new unbounded
queue and pulling as many times with PullFront returns the entries in the order of the
pushes, each with found = true; one more PullFront finds nothing and the length is then
0.  The same holds for PushFront followed by PullBack. -/
theorem C1_fifo {C V : Type} (es : List (Int × String × Option V)) (ts : List Int) (t : Int)
    (hnd : (es.map (fun p => p.2.1)).Nodup) (hlen : ts.length = es.length) :
    ((run (NewFlexQueue : FlexQueue C V)
        (pushOps false es ++ pullOps true ts ++ [(t, Op.pullFront)])).ret =
      es.map (fun _ => Resp.flag true) ++
        es.map (fun p => Resp.entry p.2.1 p.2.2 true) ++ [Resp.entry "" none false] ∧
     (run (NewFlexQueue : FlexQueue C V)
        (pushOps false es ++ pullOps true ts ++ [(t, Op.pullFront)])).q.Len = 0) ∧
    ((run (NewFlexQueue : FlexQueue C V)
        (pushOps true es ++ pullOps false ts ++ [(t, Op.pullBack)])).ret =
      es.map (fun _ => Resp.flag true) ++
        es.map (fun p => Resp.entry p.2.1 p.2.2 true) ++ [Resp.entry "" none false] ∧
     (run (NewFlexQueue : FlexQueue C V)
        (pushOps true es ++ pullOps false ts ++ [(t, Op.pullBack)])).q.Len = 0) := by
  have h1 := run_push_pull (C := C) false true es ts t hnd hlen
  have h2 := run_push_pull (C := C) true false es ts t hnd hlen
  simp only [if_true, Bool.false_eq_true, if_false, Bool.true_eq_false] at h1 h2
  exact ⟨h1, h2⟩

theorem C1_fifo_witness :
    (abcPushes.map (fun p => p.2.1)).Nodup ∧ [3, 4, 5].length = abcPushes.length ∧
    ((run (NewFlexQueue : FlexQueue Nat Nat)
        (pushOps false abcPushes ++ pullOps true [3, 4, 5] ++ [(6, Op.pullFront)])).ret =
      [Resp.flag true, Resp.flag true, Resp.flag true, Resp.entry "A" (some 1) true,
        Resp.entry "B" (some 2) true, Resp.entry "C" (some 3) true,
        Resp.entry "" none false] ∧
     (run (NewFlexQueue : FlexQueue Nat Nat)
        (pushOps false abcPushes ++ pullOps true [3, 4, 5] ++ [(6, Op.pullFront)])).q.Len = 0) ∧
    ((run (NewFlexQueue : FlexQueue Nat Nat)
        (pushOps true abcPushes ++ pullOps false [3, 4, 5] ++ [(6, Op.pullBack)])).ret =
      [Resp.flag true, Resp.flag true, Resp.flag true, Resp.entry "A" (some 1) true,
        Resp.entry "B" (some 2) true, Resp.entry "C" (some 3) true,
        Resp.entry "" none false] ∧
     (run (NewFlexQueue : FlexQueue Nat Nat)
        (pushOps true abcPushes ++ pullOps false [3, 4, 5] ++ [(6, Op.pullBack)])).q.Len = 0) :=
  ⟨by decide, by decide, C1_fifo abcPushes [3, 4, 5] 6 (by decide) (by decide)⟩


/-- C2 (LIFO): pushing pairwise different digests with PushBack onto a new unbounded
queue and pulling as many times with PullBack returns the entries in the opposite order
of the pushes, each with its own message and found = true; one more PullBack finds
nothing.  The same holds for PushFront followed by PullFront. -/
theorem C2_lifo {C V : Type} (es : List (Int × String × Option V)) (ts : List Int) (t : Int)
    (hnd : (es.map (fun p => p.2.1)).Nodup) (hlen : ts.length = es.length) :
    ((run (NewFlexQueue : FlexQueue C V)
        (pushOps false es ++ pullOps false ts ++ [(t, Op.pullBack)])).ret =
      es.map (fun _ => Resp.flag true) ++
        es.reverse.map (fun p => Resp.entry p.2.1 p.2.2 true) ++ [Resp.entry "" none false]) ∧
    ((run (NewFlexQueue : FlexQueue C V)
        (pushOps true es ++ pullOps true ts ++ [(t, Op.pullFront)])).ret =
      es.map (fun _ => Resp.flag true) ++
        es.reverse.map (fun p => Resp.entry p.2.1 p.2.2 true) ++ [Resp.entry "" none false]) := by
  have h1 := run_push_pull (C := C) false false es ts t hnd hlen
  have h2 := run_push_pull (C := C) true true es ts t hnd hlen
  simp only [if_true, Bool.false_eq_true, if_false] at h1 h2
  exact ⟨h1.1, h2.1⟩

theorem C2_lifo_witness :
    (abcPushes.map (fun p => p.2.1)).Nodup ∧ [3, 4, 5].length = abcPushes.length ∧
    ((run (NewFlexQueue : FlexQueue Nat Nat)
        (pushOps false abcPushes ++ pullOps false [3, 4, 5] ++ [(6, Op.pullBack)])).ret =
      [Resp.flag true, Resp.flag true, Resp.flag true, Resp.entry "C" (some 3) true,
        Resp.entry "B" (some 2) true, Resp.entry "A" (some 1) true,
        Resp.entry "" none false]) ∧
    ((run (NewFlexQueue : FlexQueue Nat Nat)
        (pushOps true abcPushes ++ pullOps true [3, 4, 5] ++ [(6, Op.pullFront)])).ret =
      [Resp.flag true, Resp.flag true, Resp.flag true, Resp.entry "C" (some 3) true,
        Resp.entry "B" (some 2) true, Resp.entry "A" (some 1) true,
        Resp.entry "" none false]) :=
  ⟨by decide, by decide, C2_lifo abcPushes [3, 4, 5] 6 (by decide) (by decide)⟩


/-- C3: a push of a digest that is already in the queue returns true and leaves the
whole queue (messages, order, length, TTL table) as it was, whatever the maximum. -/
theorem C3_dedup_noop (q : FlexQueue C V) (d : String) (v2 : Option V)
    (h : q.messages.Has d = true) :
    q.PushFront d v2 = ⟨true, q, []⟩ ∧ q.PushBack d v2 = ⟨true, q, []⟩ := by
  simp [FlexQueue.PushFront, FlexQueue.PushBack, FlexQueue.pushFB_dup _ _ _ _ h]

theorem C3_dedup_noop_witness :
    fullQueue.messages.Has "A" = true ∧ fullQueue.IsFull = true ∧
      (fullQueue.PushFront "A" (some 9) = ⟨true, fullQueue, []⟩ ∧
        fullQueue.PushBack "A" (some 9) = ⟨true, fullQueue, []⟩) :=
  ⟨by decide, by decide, C3_dedup_noop fullQueue "A" (some 9) (by decide)⟩


/-- C4: a push of an absent digest into a full queue returns false and leaves the queue
as it was; into a queue that is not full it returns true and the length grows by 1. -/
theorem C4_capacity (q : FlexQueue C V) (d : String) (v : Option V)
    (h : q.messages.Has d = false) :
    (q.IsFull = true →
      q.PushFront d v = ⟨false, q, []⟩ ∧ q.PushBack d v = ⟨false, q, []⟩) ∧
    (q.IsFull = false →
      (q.PushFront d v).ret = true ∧ (q.PushFront d v).q.Len = q.Len + 1 ∧
      (q.PushBack d v).ret = true ∧ (q.PushBack d v).q.Len = q.Len + 1) := by
  constructor
  · intro hfull
    simp [FlexQueue.PushFront, FlexQueue.PushBack, FlexQueue.pushFB_full _ _ _ _ h hfull]
  · intro hroom
    simp [FlexQueue.PushFront, FlexQueue.PushBack, FlexQueue.pushFB_room _ _ _ _ h hroom,
      FlexList.PushFront_absent _ _ _ h, FlexList.PushBack_absent _ _ _ h,
      FlexQueue.Len, FlexList.Len, LinkedList.Len]

theorem C4_capacity_witness :
    (fullQueue.messages.Has "C" = false ∧ fullQueue.IsFull = true ∧
      fullQueue.PushFront "C" (some 3) = ⟨false, fullQueue, []⟩ ∧
      fullQueue.PushBack "C" (some 3) = ⟨false, fullQueue, []⟩) ∧
    (roomyQueue.messages.Has "C" = false ∧ roomyQueue.IsFull = false ∧
      (roomyQueue.PushFront "C" (some 3)).ret = true ∧
      (roomyQueue.PushFront "C" (some 3)).q.Len = roomyQueue.Len + 1 ∧
      (roomyQueue.PushBack "C" (some 3)).ret = true ∧
      (roomyQueue.PushBack "C" (some 3)).q.Len = roomyQueue.Len + 1) :=
  ⟨⟨by decide, by decide, (C4_capacity fullQueue "C" (some 3) (by decide)).1 (by decide)⟩,
   ⟨by decide, by decide, (C4_capacity roomyQueue "C" (some 3) (by decide)).2 (by decide)⟩⟩


/-- C5: after every call of every run of operations on NewFlexQueue().SetMax(m) with
m >= 1 (the state after the first n calls, for every n), the length is at most m, Max
is m, and IsFull is true exactly when the length is m. -/
theorem C5_max_is_ceiling {C V : Type} (m : Int) (hm : 1 ≤ m) (ops : List (Int × Op C V))
    (n : Nat) :
    (run ((NewFlexQueue : FlexQueue C V).SetMax m) (ops.take n)).q.Len ≤ m ∧
    (run ((NewFlexQueue : FlexQueue C V).SetMax m) (ops.take n)).q.Max = m ∧
    ((run ((NewFlexQueue : FlexQueue C V).SetMax m) (ops.take n)).q.IsFull = true ↔
      (run ((NewFlexQueue : FlexQueue C V).SetMax m) (ops.take n)).q.Len = m) := by
  have h0 : ((NewFlexQueue : FlexQueue C V).SetMax m).max = m ∧
      ((NewFlexQueue : FlexQueue C V).SetMax m).Len ≤ m := by
    have : m > NoMax := by simp only [NoMax]; omega
    simp only [FlexQueue.SetMax, this, if_true, FlexQueue.Len, FlexList.Len, LinkedList.Len,
      NewFlexQueue, NewFlexList, LinkedList.New]
    simp
    omega
  obtain ⟨hmax, hlen⟩ := Prims.preserves
    (P := fun q : FlexQueue C V => q.max = m ∧ q.Len ≤ m)
    (fun q q' h hq => Prim.ceiling h m (by omega) hq) (Prims.run _ (ops.take n)) h0
  have hgt : m > NoMax := by simp only [NoMax]; omega
  refine ⟨hlen, ?_, ?_⟩
  · simp [FlexQueue.Max, hmax, hgt]
  · simp only [FlexQueue.IsFull, hmax, decide_eq_true_eq]
    simp only [FlexQueue.Len] at hlen
    constructor
    · rintro ⟨_, h⟩
      simp only [FlexQueue.Len]
      omega
    · intro h
      simp only [FlexQueue.Len] at h
      exact ⟨hgt, by omega⟩

theorem C5_max_is_ceiling_witness :
    (1 : Int) ≤ 2 ∧
    ((run ((NewFlexQueue : FlexQueue Nat Nat).SetMax 2) (busyRun.take 3)).q.Len ≤ 2 ∧
    (run ((NewFlexQueue : FlexQueue Nat Nat).SetMax 2) (busyRun.take 3)).q.Max = 2 ∧
    ((run ((NewFlexQueue : FlexQueue Nat Nat).SetMax 2) (busyRun.take 3)).q.IsFull = true ↔
      (run ((NewFlexQueue : FlexQueue Nat Nat).SetMax 2) (busyRun.take 3)).q.Len = 2)) :=
  ⟨by decide, C5_max_is_ceiling 2 (by decide) busyRun 3⟩


open FlexQueue in
/-- C6: on a well-formed queue that holds `d` with the message `v` and a TTL control
`t`, Has returns false exactly when `now` is strictly after the expiry; then the callback
was fired once with `(d, v)`, `d` is gone from the list, the index and the TTL table, the
length has decreased by 1 and everything else is as before; otherwise Has returns true,
fires nothing and leaves the queue as it was. -/
theorem C6_has_lazy_expiry {C V : Type} (q : FlexQueue C V) (now : Int) (d : String)
    (v : Option V) (t : TTL C) (pre post : List (String × Option V))
    (hwf : q.messages.WF) (hs : q.messages.entries = pre ++ (d, v) :: post)
    (ht : mapLookup q.ttl d = some t) :
    ((q.Has now d).ret = false ↔ t.Expires < now) ∧
    (t.Expires < now →
      (q.Has now d).calls = [⟨t.Callback, d, v⟩] ∧
      (q.Has now d).q.messages.entries = pre ++ post ∧
      (q.Has now d).q.messages.Has d = false ∧
      (q.Has now d).q.ttl = mapDelete q.ttl d ∧
      mapLookup (q.Has now d).q.ttl d = none ∧
      (∀ k, k ≠ d → mapLookup (q.Has now d).q.ttl k = mapLookup q.ttl k) ∧
      (q.Has now d).q.Len = q.Len - 1 ∧
      (q.Has now d).q.max = q.max) ∧
    (¬ t.Expires < now → q.Has now d = ⟨true, q, []⟩) := by
  obtain ⟨pe, po, e, hel, hpe, hpo, rfl, rfl⟩ := q.messages.entries_split pre post _ _ hs
  have hmem : e ∈ q.messages.items.elems := by rw [hel]; simp
  have hidx := hwf.2.2.2.2 e hmem
  have hexpired : t.Expires < now →
      q.pruneMessage now e.Value.index =
        ⟨true, ⟨⟨⟨pe ++ po, q.messages.items.fresh⟩,
          mapDelete q.messages.indices e.Value.index⟩, mapDelete q.ttl e.Value.index, q.max⟩,
          [⟨t.Callback, e.Value.index, e.Value.item⟩]⟩ := by
    intro hlt
    rw [pruneMessage_expired q now _ t ht (by simp [TTL.Expired, hlt]),
      FlexList.Remove_middle _ hwf e pe po hel, FlexList.Read_of_mem _ hwf e hmem]
  have hlive : ¬ t.Expires < now → q.pruneMessage now e.Value.index = ⟨false, q, []⟩ := by
    intro hlt
    apply pruneMessage_live
    simp [expiredAt, ht, TTL.Expired, hlt]
  have hhas : q.messages.Has e.Value.index = true := by simp [FlexList.Has, hidx]
  refine ⟨?_, ?_, ?_⟩
  · by_cases hlt : t.Expires < now
    · simp [Has, hexpired hlt, hlt]
    · simp [Has, hlive hlt, hlt, hhas]
  · intro hlt
    have hq : q.Has now e.Value.index = ⟨false, ⟨⟨⟨pe ++ po, q.messages.items.fresh⟩,
        mapDelete q.messages.indices e.Value.index⟩, mapDelete q.ttl e.Value.index, q.max⟩,
        [⟨t.Callback, e.Value.index, e.Value.item⟩]⟩ := by
      simp [Has, hexpired hlt]
    rw [hq]
    refine ⟨rfl, ?_, ?_, rfl, mapLookup_mapDelete_self _ _, ?_, ?_, rfl⟩
    · simp [FlexList.entries, hpe, hpo]
    · simp [FlexList.Has, mapLookup_mapDelete_self]
    · intro k hk
      exact mapLookup_mapDelete_ne _ _ _ hk
    · simp only [FlexQueue.Len, FlexList.Len, LinkedList.Len, hel]
      simp
      omega
  · intro hlt
    simp [Has, hlive hlt, hhas]

theorem C6_has_lazy_expiry_witness :
    ttlQueue.messages.WF ∧
    ttlQueue.messages.entries = [] ++ ("A", some 1) :: [("B", some 2), ("C", some 3)] ∧
    mapLookup ttlQueue.ttl "A" = some ⟨10, 7⟩ ∧
    (((ttlQueue.Has 20 "A").ret = false ↔ (⟨10, 7⟩ : TTL Nat).Expires < 20) ∧
    ((⟨10, 7⟩ : TTL Nat).Expires < 20 →
      (ttlQueue.Has 20 "A").calls = [⟨(⟨10, 7⟩ : TTL Nat).Callback, "A", some 1⟩] ∧
      (ttlQueue.Has 20 "A").q.messages.entries = [] ++ [("B", some 2), ("C", some 3)] ∧
      (ttlQueue.Has 20 "A").q.messages.Has "A" = false ∧
      (ttlQueue.Has 20 "A").q.ttl = mapDelete ttlQueue.ttl "A" ∧
      mapLookup (ttlQueue.Has 20 "A").q.ttl "A" = none ∧
      (∀ k, k ≠ "A" → mapLookup (ttlQueue.Has 20 "A").q.ttl k = mapLookup ttlQueue.ttl k) ∧
      (ttlQueue.Has 20 "A").q.Len = ttlQueue.Len - 1 ∧
      (ttlQueue.Has 20 "A").q.max = ttlQueue.max) ∧
    (¬ (⟨10, 7⟩ : TTL Nat).Expires < 20 → ttlQueue.Has 20 "A" = ⟨true, ttlQueue, []⟩)) :=
  ⟨by decide, by decide, by decide,
    C6_has_lazy_expiry ttlQueue 20 "A" (some 1) ⟨10, 7⟩ [] [("B", some 2), ("C", some 3)]
      (by decide) (by decide) (by decide)⟩


open FlexQueue in
/-- C7: on a well-formed queue PullFront skips the expired messages at the front: when
the entries are `pre`, then `(d, v)`, then `post`, all of `pre` expired and `d` not, it
returns `(d, v, true)`, leaves exactly `post`, and has fired the registered callback
once for each entry of `pre`, in order; when all entries are expired it finds nothing,
leaves the queue empty and has fired one callback per entry.  PullBack is the mirror
image from the back. -/
theorem C7_pull_skips_expired {C V : Type} (q : FlexQueue C V) (now : Int)
    (hwf : q.messages.WF) :
    (∀ pre d v post, q.messages.entries = pre ++ (d, v) :: post →
      (∀ p ∈ pre, q.expiredAt now p.1 = true) → q.expiredAt now d = false →
      (q.PullFront now).ret = (d, v, true) ∧
      (q.PullFront now).q.messages.entries = post ∧
      (q.PullFront now).calls.map Call.digest = pre.map Prod.fst ∧
      ∀ c ∈ (q.PullFront now).calls,
        ∃ t, mapLookup q.ttl c.digest = some t ∧ t.Callback = c.callback) ∧
    ((∀ p ∈ q.messages.entries, q.expiredAt now p.1 = true) →
      (q.PullFront now).ret = ("", none, false) ∧
      (q.PullFront now).q.messages.entries = [] ∧
      (q.PullFront now).calls.map Call.digest = q.messages.entries.map Prod.fst ∧
      ∀ c ∈ (q.PullFront now).calls,
        ∃ t, mapLookup q.ttl c.digest = some t ∧ t.Callback = c.callback) ∧
    (∀ pre d v post, q.messages.entries = pre ++ (d, v) :: post →
      (∀ p ∈ post, q.expiredAt now p.1 = true) → q.expiredAt now d = false →
      (q.PullBack now).ret = (d, v, true) ∧
      (q.PullBack now).q.messages.entries = pre ∧
      (q.PullBack now).calls.map Call.digest = post.reverse.map Prod.fst ∧
      ∀ c ∈ (q.PullBack now).calls,
        ∃ t, mapLookup q.ttl c.digest = some t ∧ t.Callback = c.callback) ∧
    ((∀ p ∈ q.messages.entries, q.expiredAt now p.1 = true) →
      (q.PullBack now).ret = ("", none, false) ∧
      (q.PullBack now).q.messages.entries = [] ∧
      (q.PullBack now).calls.map Call.digest = q.messages.entries.reverse.map Prod.fst ∧
      ∀ c ∈ (q.PullBack now).calls,
        ∃ t, mapLookup q.ttl c.digest = some t ∧ t.Callback = c.callback) := by
  refine ⟨?_, ?_, ?_, ?_⟩
  · intro pre d v post hs hexp hlive
    obtain ⟨pe, po, e, hel, hpe, hpo, rfl, rfl⟩ := q.messages.entries_split pre post _ _ hs
    obtain ⟨q', hwf', hel', -, hsame, calls, hd, -, hcb, hf⟩ :=
      skip_front now (fun q => q.pullFB true now) (fun _ => none)
        (fun q e rest t h1 h2 h3 h4 => pullFB_front_expired q now h1 e rest h2 t h3 h4)
        pe (e :: po) q hwf hel (expired_of_map hpe hexp)
    have hlive' : q'.expiredAt now e.Value.index = false := by
      rw [hsame e (List.mem_cons_self _ _)]; exact hlive
    rw [pullFB_front_live q' now hwf' e po hel' hlive'] at hf
    rw [PullFront, hf]
    refine ⟨rfl, ?_, ?_, ?_⟩
    · simp [FlexList.entries, hpo]
    · simp [hd, map_index_eq hpe]
    · simpa using hcb
  · intro hexp
    obtain ⟨q', -, hel', -, -, calls, hd, -, hcb, hf⟩ :=
      skip_front now (fun q => q.pullFB true now) (fun _ => none)
        (fun q e rest t h1 h2 h3 h4 => pullFB_front_expired q now h1 e rest h2 t h3 h4)
        q.messages.items.elems [] q hwf (by simp) (expired_of_map rfl hexp)
    rw [pullFB_empty q' true now hel'] at hf
    rw [PullFront, hf]
    refine ⟨rfl, ?_, ?_, ?_⟩
    · simp [FlexList.entries, hel']
    · simp [hd, FlexList.entries, Function.comp_def]
    · simpa using hcb
  · intro pre d v post hs hexp hlive
    obtain ⟨pe, po, e, hel, hpe, hpo, rfl, rfl⟩ := q.messages.entries_split pre post _ _ hs
    obtain ⟨q', hwf', hel', -, hsame, calls, hd, -, hcb, hf⟩ :=
      skip_back now (fun q => q.pullFB false now) (fun _ => none)
        (fun q e rest t h1 h2 h3 h4 => pullFB_back_expired q now h1 e rest h2 t h3 h4)
        (pe ++ [e]) po q hwf (by simpa using hel) (expired_of_map hpo hexp)
    have hlive' : q'.expiredAt now e.Value.index = false := by
      rw [hsame e (by simp)]; exact hlive
    rw [pullFB_back_live q' now hwf' e pe hel' hlive'] at hf
    rw [PullBack, hf]
    refine ⟨rfl, ?_, ?_, ?_⟩
    · simp [FlexList.entries, hpe]
    · rw [← hpo]
      simp [hd, Function.comp_def]
    · simpa using hcb
  · intro hexp
    obtain ⟨q', -, hel', -, -, calls, hd, -, hcb, hf⟩ :=
      skip_back now (fun q => q.pullFB false now) (fun _ => none)
        (fun q e rest t h1 h2 h3 h4 => pullFB_back_expired q now h1 e rest h2 t h3 h4)
        [] q.messages.items.elems q hwf (by simp) (expired_of_map rfl hexp)
    rw [pullFB_empty q' false now hel'] at hf
    rw [PullBack, hf]
    refine ⟨rfl, ?_, ?_, ?_⟩
    · simp [FlexList.entries, hel']
    · simp [hd, FlexList.entries, Function.comp_def]
    · simpa using hcb

theorem C7_pull_skips_expired_witness :
    ttlQueue.messages.WF ∧
    ((ttlQueue.PullFront 20).ret = ("B", some 2, true) ∧
      (ttlQueue.PullFront 20).q.messages.entries = [("C", some 3)] ∧
      (ttlQueue.PullFront 20).calls.map Call.digest = ["A"] ∧
      ∀ c ∈ (ttlQueue.PullFront 20).calls,
        ∃ t, mapLookup ttlQueue.ttl c.digest = some t ∧ t.Callback = c.callback) ∧
    ((ttlQueue.PullBack 20).ret = ("B", some 2, true) ∧
      (ttlQueue.PullBack 20).q.messages.entries = [("A", some 1)] ∧
      (ttlQueue.PullBack 20).calls.map Call.digest = ["C"] ∧
      ∀ c ∈ (ttlQueue.PullBack 20).calls,
        ∃ t, mapLookup ttlQueue.ttl c.digest = some t ∧ t.Callback = c.callback) ∧
    shortQueue.messages.WF ∧
    ((shortQueue.PullFront 20).ret = ("", none, false) ∧
      (shortQueue.PullFront 20).q.messages.entries = [] ∧
      (shortQueue.PullFront 20).calls.map Call.digest = ["A", "B"] ∧
      ∀ c ∈ (shortQueue.PullFront 20).calls,
        ∃ t, mapLookup shortQueue.ttl c.digest = some t ∧ t.Callback = c.callback) :=
  ⟨by decide,
   (C7_pull_skips_expired ttlQueue 20 (by decide)).1 [("A", some 1)] "B" (some 2)
     [("C", some 3)] (by decide) (by decide) (by decide),
   (C7_pull_skips_expired ttlQueue 20 (by decide)).2.2.1 [("A", some 1)] "B" (some 2)
     [("C", some 3)] (by decide) (by decide) (by decide),
   by decide,
   (C7_pull_skips_expired shortQueue 20 (by decide)).2.1 (by decide)⟩


open FlexQueue in
/-- C8: on a well-formed queue ReadFront removes the expired messages at the front and
nothing else: when the entries are `pre`, then `(d, v)`, then `post`, all of `pre`
expired and `d` not, it returns `(d, v, true)`, leaves `(d, v)` followed by `post` in
place (expired or not), the length has decreased by the length of `pre`, and the
registered callback was fired once for each entry of `pre` with its stored message; when
all entries are expired it finds nothing and leaves the queue empty.  ReadBack is the
mirror image from the back. -/
theorem C8_read_skips_expired {C V : Type} (q : FlexQueue C V) (now : Int)
    (hwf : q.messages.WF) :
    (∀ pre d v post, q.messages.entries = pre ++ (d, v) :: post →
      (∀ p ∈ pre, q.expiredAt now p.1 = true) → q.expiredAt now d = false →
      (q.ReadFront now).ret = (d, v, true) ∧
      (q.ReadFront now).q.messages.entries = (d, v) :: post ∧
      (q.ReadFront now).q.Len = q.Len - pre.length ∧
      (q.ReadFront now).calls.map (fun c => (c.digest, c.message)) = pre ∧
      ∀ c ∈ (q.ReadFront now).calls,
        ∃ t, mapLookup q.ttl c.digest = some t ∧ t.Callback = c.callback) ∧
    ((∀ p ∈ q.messages.entries, q.expiredAt now p.1 = true) →
      (q.ReadFront now).ret = ("", none, false) ∧
      (q.ReadFront now).q.messages.entries = [] ∧
      (q.ReadFront now).calls.map (fun c => (c.digest, c.message)) = q.messages.entries ∧
      ∀ c ∈ (q.ReadFront now).calls,
        ∃ t, mapLookup q.ttl c.digest = some t ∧ t.Callback = c.callback) ∧
    (∀ pre d v post, q.messages.entries = pre ++ (d, v) :: post →
      (∀ p ∈ post, q.expiredAt now p.1 = true) → q.expiredAt now d = false →
      (q.ReadBack now).ret = (d, v, true) ∧
      (q.ReadBack now).q.messages.entries = pre ++ [(d, v)] ∧
      (q.ReadBack now).q.Len = q.Len - post.length ∧
      (q.ReadBack now).calls.map (fun c => (c.digest, c.message)) = post.reverse ∧
      ∀ c ∈ (q.ReadBack now).calls,
        ∃ t, mapLookup q.ttl c.digest = some t ∧ t.Callback = c.callback) ∧
    ((∀ p ∈ q.messages.entries, q.expiredAt now p.1 = true) →
      (q.ReadBack now).ret = ("", none, false) ∧
      (q.ReadBack now).q.messages.entries = [] ∧
      (q.ReadBack now).calls.map (fun c => (c.digest, c.message)) =
        q.messages.entries.reverse ∧
      ∀ c ∈ (q.ReadBack now).calls,
        ∃ t, mapLookup q.ttl c.digest = some t ∧ t.Callback = c.callback) := by
  have hpair : ∀ (calls : List (Call C V)) (es : List (Element V)),
      calls.map Call.digest = es.map (fun e => e.Value.index) →
      calls.map Call.message = es.map (fun e => e.Value.item) →
      calls.map (fun c => (c.digest, c.message)) =
        es.map (fun e => (e.Value.index, e.Value.item)) := by
    intro calls
    induction calls with
    | nil => intro es h1 _; cases es <;> simp_all
    | cons c cs ih =>
      intro es h1 h2
      cases es with
      | nil => simp at h1
      | cons e es =>
        simp only [List.map_cons, List.cons.injEq] at h1 h2 ⊢
        exact ⟨by rw [h1.1, h2.1], ih es h1.2 h2.2⟩
  refine ⟨?_, ?_, ?_, ?_⟩
  · intro pre d v post hs hexp hlive
    obtain ⟨pe, po, e, hel, hpe, hpo, rfl, rfl⟩ := q.messages.entries_split pre post _ _ hs
    obtain ⟨q', hwf', hel', -, hsame, calls, hd, hm, hcb, hf⟩ :=
      skip_front now (fun q => q.readFB true now) (fun e => e.Value.item)
        (fun q e rest t h1 h2 h3 h4 => readFB_front_expired q now h1 e rest h2 t h3 h4)
        pe (e :: po) q hwf hel (expired_of_map hpe hexp)
    have hlive' : q'.expiredAt now e.Value.index = false := by
      rw [hsame e (List.mem_cons_self _ _)]; exact hlive
    rw [readFB_front_live q' now e po hel' hlive'] at hf
    rw [ReadFront, hf]
    refine ⟨rfl, ?_, ?_, ?_, ?_⟩
    · simp [FlexList.entries, hel', hpo]
    · simp only [FlexQueue.Len, FlexList.Len, LinkedList.Len, hel', hel, ← hpe]
      simp
    · rw [List.append_nil, hpair calls pe hd hm, hpe]
    · simpa using hcb
  · intro hexp
    obtain ⟨q', -, hel', -, -, calls, hd, hm, hcb, hf⟩ :=
      skip_front now (fun q => q.readFB true now) (fun e => e.Value.item)
        (fun q e rest t h1 h2 h3 h4 => readFB_front_expired q now h1 e rest h2 t h3 h4)
        q.messages.items.elems [] q hwf (by simp) (expired_of_map rfl hexp)
    rw [readFB_empty q' true now hel'] at hf
    rw [ReadFront, hf]
    refine ⟨rfl, ?_, ?_, ?_⟩
    · simp [FlexList.entries, hel']
    · rw [List.append_nil, hpair calls _ hd hm]; rfl
    · simpa using hcb
  · intro pre d v post hs hexp hlive
    obtain ⟨pe, po, e, hel, hpe, hpo, rfl, rfl⟩ := q.messages.entries_split pre post _ _ hs
    obtain ⟨q', hwf', hel', -, hsame, calls, hd, hm, hcb, hf⟩ :=
      skip_back now (fun q => q.readFB false now) (fun e => e.Value.item)
        (fun q e rest t h1 h2 h3 h4 => readFB_back_expired q now h1 e rest h2 t h3 h4)
        (pe ++ [e]) po q hwf (by simpa using hel) (expired_of_map hpo hexp)
    have hlive' : q'.expiredAt now e.Value.index = false := by
      rw [hsame e (by simp)]; exact hlive
    rw [readFB_back_live q' now e pe hel' hlive'] at hf
    rw [ReadBack, hf]
    refine ⟨rfl, ?_, ?_, ?_, ?_⟩
    · simp [FlexList.entries, hel', hpe]
    · simp only [FlexQueue.Len, FlexList.Len, LinkedList.Len, hel', hel, ← hpo]
      simp
      omega
    · rw [List.append_nil, hpair calls po.reverse hd hm, ← hpo, List.map_reverse]
    · simpa using hcb
  · intro hexp
    obtain ⟨q', -, hel', -, -, calls, hd, hm, hcb, hf⟩ :=
      skip_back now (fun q => q.readFB false now) (fun e => e.Value.item)
        (fun q e rest t h1 h2 h3 h4 => readFB_back_expired q now h1 e rest h2 t h3 h4)
        [] q.messages.items.elems q hwf (by simp) (expired_of_map rfl hexp)
    rw [readFB_empty q' false now hel'] at hf
    rw [ReadBack, hf]
    refine ⟨rfl, ?_, ?_, ?_⟩
    · simp [FlexList.entries, hel']
    · rw [List.append_nil, hpair calls _ hd hm, List.map_reverse]; rfl
    · simpa using hcb

theorem C8_read_skips_expired_witness :
    ttlQueue.messages.WF ∧
    ((ttlQueue.ReadFront 20).ret = ("B", some 2, true) ∧
      (ttlQueue.ReadFront 20).q.messages.entries = [("B", some 2), ("C", some 3)] ∧
      (ttlQueue.ReadFront 20).q.Len = ttlQueue.Len - ([("A", some 1)] : List (String × Option Nat)).length ∧
      (ttlQueue.ReadFront 20).calls.map (fun c => (c.digest, c.message)) = [("A", some 1)] ∧
      ∀ c ∈ (ttlQueue.ReadFront 20).calls,
        ∃ t, mapLookup ttlQueue.ttl c.digest = some t ∧ t.Callback = c.callback) ∧
    ((ttlQueue.ReadBack 20).ret = ("B", some 2, true) ∧
      (ttlQueue.ReadBack 20).q.messages.entries = [("A", some 1)] ++ [("B", some 2)] ∧
      (ttlQueue.ReadBack 20).q.Len = ttlQueue.Len - ([("C", some 3)] : List (String × Option Nat)).length ∧
      (ttlQueue.ReadBack 20).calls.map (fun c => (c.digest, c.message)) =
        ([("C", some 3)] : List (String × Option Nat)).reverse ∧
      ∀ c ∈ (ttlQueue.ReadBack 20).calls,
        ∃ t, mapLookup ttlQueue.ttl c.digest = some t ∧ t.Callback = c.callback) ∧
    shortQueue.messages.WF ∧
    ((shortQueue.ReadFront 20).ret = ("", none, false) ∧
      (shortQueue.ReadFront 20).q.messages.entries = [] ∧
      (shortQueue.ReadFront 20).calls.map (fun c => (c.digest, c.message)) =
        shortQueue.messages.entries ∧
      ∀ c ∈ (shortQueue.ReadFront 20).calls,
        ∃ t, mapLookup shortQueue.ttl c.digest = some t ∧ t.Callback = c.callback) :=
  ⟨by decide,
   (C8_read_skips_expired ttlQueue 20 (by decide)).1 [("A", some 1)] "B" (some 2)
     [("C", some 3)] (by decide) (by decide) (by decide),
   (C8_read_skips_expired ttlQueue 20 (by decide)).2.2.1 [("A", some 1)] "B" (some 2)
     [("C", some 3)] (by decide) (by decide) (by decide),
   by decide,
   (C8_read_skips_expired shortQueue 20 (by decide)).2.1 (by decide)⟩


/-- C9 (evaluation at the failing input): in the queue of "A", "B", "C" pushed with TTLs
that expire at the instants 10, 30 and 10, the message stored for "A" is 1 and for "C"
is 3, and both are expired at instant 20; PullFront and PullBack fire the callback with
a nil message, while ReadFront and Has on the same state fire it with the stored
message. -/
theorem C9_pull_callback_message :
    (ttlQueue.messages.Read "A").1 = some 1 ∧ ttlQueue.expiredAt 20 "A" = true ∧
    (ttlQueue.PullFront 20).calls = [⟨7, "A", none⟩] ∧
    (ttlQueue.messages.Read "C").1 = some 3 ∧ ttlQueue.expiredAt 20 "C" = true ∧
    (ttlQueue.PullBack 20).calls = [⟨9, "C", none⟩] ∧
    (ttlQueue.ReadFront 20).calls = [⟨7, "A", some 1⟩] ∧
    (ttlQueue.Has 20 "A").calls = [⟨7, "A", some 1⟩] := by
  decide


/-- C10 (counterexample): the run that pushes "A" once with a TTL of 10 at instant 0,
resets its TTL to the elapsed duration -1 at instant 1 and asks Has at instant 20 is a
run at non-decreasing instants with exactly one push of "A" with a TTL, and it fires
the callback of "A" twice; so does the run that resets the TTL to the duration 0 when
the clock has advanced by 1 between NewTTL and Expired. -/
theorem C10_counterexample :
    (resetRun.map Prod.fst).Pairwise (· ≤ ·) ∧
    resetRun.countP (fun x => x.2.isTTLPush "A") = 1 ∧
    ¬ callsFor "A" (run (NewFlexQueue : FlexQueue Nat Nat) resetRun).calls ≤ 1 ∧
    (zeroResetRun.map Prod.fst).Pairwise (· ≤ ·) ∧
    zeroResetRun.countP (fun x => x.2.isTTLPush "A") = 1 ∧
    ¬ callsFor "A" (run (NewFlexQueue : FlexQueue Nat Nat) zeroResetRun).calls ≤ 1 := by
  decide

/-- C10 (amended): in every run from a new queue in which the digest `d` is pushed with
a TTL exactly once and no ResetTTL of `d` asks for a duration that is elapsed when the
new control is checked (a duration shorter than the time between the reading of the
clock in NewTTL and the reading in Expired, as every negative duration is), at most one
callback is fired for `d` over the whole run; and in every run from a new queue no call
returns an entry whose TTL control is expired at the instant of the call. -/
theorem C10_callback_at_most_once {C V : Type} (m : Int) (ops : List (Int × Op C V))
    (d : String) (hpush : ops.countP (fun x => x.2.isTTLPush d) = 1)
    (hno : ∀ x ∈ ops, x.2.isElapsedReset d = false) :
    callsFor d (run ((NewFlexQueue : FlexQueue C V).SetMax m) ops).calls ≤ 1 ∧
    ∀ (pre post : List (Int × Op C V)) (now : Int) (op : Op C V) (d' : String),
      ops = pre ++ (now, op) :: post →
      returnedDigest op
        (step (run ((NewFlexQueue : FlexQueue C V).SetMax m) pre).q now op).ret = some d' →
      (run ((NewFlexQueue : FlexQueue C V).SetMax m) pre).q.expiredAt now d' = false := by
  constructor
  · have h := run_callsFor ((NewFlexQueue : FlexQueue C V).SetMax m) ops d
      (FlexQueue.WF_SetMax_New m) hno
    have h0 : controls ((NewFlexQueue : FlexQueue C V).SetMax m).ttl d = 0 := by
      unfold FlexQueue.SetMax
      split <;> simp [controls, NewFlexQueue, mapLookup]
    omega
  · intro pre post now op d' _ hret
    exact step_returned_live _ now op d' (run_WF m pre).1 hret

theorem C10_callback_at_most_once_witness :
    busyRun.countP (fun x => x.2.isTTLPush "A") = 1 ∧
    (∀ x ∈ busyRun, x.2.isElapsedReset "A" = false) ∧
    (callsFor "A" (run ((NewFlexQueue : FlexQueue Nat Nat).SetMax 2) busyRun).calls ≤ 1 ∧
    ∀ (pre post : List (Int × Op Nat Nat)) (now : Int) (op : Op Nat Nat) (d' : String),
      busyRun = pre ++ (now, op) :: post →
      returnedDigest op
        (step (run ((NewFlexQueue : FlexQueue Nat Nat).SetMax 2) pre).q now op).ret = some d' →
      (run ((NewFlexQueue : FlexQueue Nat Nat).SetMax 2) pre).q.expiredAt now d' = false) :=
  ⟨by decide, by decide, C10_callback_at_most_once 2 busyRun "A" (by decide) (by decide)⟩


/-- C11 (evaluation at the failing input): after a push of "A" with a TTL of 10 at
instant 0 and a PullFront (or a Pull of "A") at instant 1, which returns "A", the message
list and its index are empty and the TTL table still holds the control of "A"; after a
Remove of "A" in the place of the pull the TTL table is empty. -/
theorem C11_ttl_outlives_entry :
    (run (NewFlexQueue : FlexQueue Nat Nat) leakRun).ret =
      [Resp.flag true, Resp.entry "A" (some 1) true] ∧
    (run (NewFlexQueue : FlexQueue Nat Nat) leakRun).q.messages.Has "A" = false ∧
    (run (NewFlexQueue : FlexQueue Nat Nat) leakRun).q.messages.entries = [] ∧
    mapLookup (run (NewFlexQueue : FlexQueue Nat Nat) leakRun).q.ttl "A" = some ⟨10, 7⟩ ∧
    (run (NewFlexQueue : FlexQueue Nat Nat) leakRunPull).ret =
      [Resp.flag true, Resp.item (some 1) true] ∧
    (run (NewFlexQueue : FlexQueue Nat Nat) leakRunPull).q.messages.Has "A" = false ∧
    mapLookup (run (NewFlexQueue : FlexQueue Nat Nat) leakRunPull).q.ttl "A" = some ⟨10, 7⟩ ∧
    (run (NewFlexQueue : FlexQueue Nat Nat) removeRun).ret = [Resp.flag true, Resp.flag true] ∧
    (run (NewFlexQueue : FlexQueue Nat Nat) removeRun).q.ttl = [] := by
  decide


/-- C12 (evaluation at the failing input): after PullFront (or Pull) has returned "A"
at instant 1, a Has of "A", a Read of "A" or a Prune at instant 20 fires the callback
registered for "A", with a nil message; after a Remove of "A" none of them fires it. -/
theorem C12_callback_after_pull :
    (run (NewFlexQueue : FlexQueue Nat Nat) (leakRun ++ [(20, Op.has "A")])).ret =
      [Resp.flag true, Resp.entry "A" (some 1) true, Resp.flag false] ∧
    (run (NewFlexQueue : FlexQueue Nat Nat) (leakRun ++ [(20, Op.has "A")])).calls =
      [⟨7, "A", none⟩] ∧
    (run (NewFlexQueue : FlexQueue Nat Nat) (leakRun ++ [(20, Op.prune)])).calls =
      [⟨7, "A", none⟩] ∧
    (run (NewFlexQueue : FlexQueue Nat Nat) (leakRunPull ++ [(20, Op.read "A")])).calls =
      [⟨7, "A", none⟩] ∧
    (run (NewFlexQueue : FlexQueue Nat Nat) (removeRun ++ [(20, Op.has "A")])).calls = [] ∧
    (run (NewFlexQueue : FlexQueue Nat Nat) (removeRun ++ [(20, Op.prune)])).calls = [] := by
  decide


/-- C13 (counterexample): "A" is pushed without a TTL onto a new queue, where it is
absent, and the push returns true; the later calls are a PushBackTTL of "A" and a Has of
"A", no pull and no Remove; yet the Has at instant 20 returns false, after the callback
was fired with "A" and the message of the first push. -/
theorem C13_counterexample :
    (NewFlexQueue : FlexQueue Nat Nat).messages.Has "A" = false ∧
    (run (NewFlexQueue : FlexQueue Nat Nat) lateTTLRun).ret =
      [Resp.flag true, Resp.flag true, Resp.flag false] ∧
    (run (NewFlexQueue : FlexQueue Nat Nat) lateTTLRun).calls = [⟨7, "A", some 1⟩] ∧
    (run (NewFlexQueue : FlexQueue Nat Nat) lateTTLRun).q.messages.Has "A" = false := by
  decide

/-- C13 (amended): let `d` be neither in the queue nor in the TTL table, and let
PushFront or PushBack of `d` with the message `v` return true.  Then after every later
run of calls among which there is no Pull of `d`, no Remove of `d`, no positional pull
that returns `d` and no push of `d` with a TTL, no callback was fired for `d`, `d` has
no control, and at every instant Has of `d` returns true and Read of `d` returns the
message of the last Update of `d`, or `v`, both without changing the queue. -/
theorem C13_plain_entry_stays {C V : Type} (q : FlexQueue C V) (front : Bool) (d : String)
    (v : Option V) (ops : List (Int × Op C V))
    (habsent : q.messages.Has d = false) (hnoctl : mapLookup q.ttl d = none)
    (hpushed : (if front then q.PushFront d v else q.PushBack d v).ret = true)
    (hops : ∀ x ∈ ops, x.2.takes d = false ∧ x.2.isTTLPush d = false)
    (hpull : neverPulls d (if front then q.PushFront d v else q.PushBack d v).q ops = true) :
    callsFor d (run (if front then q.PushFront d v else q.PushBack d v).q ops).calls = 0 ∧
    mapLookup (run (if front then q.PushFront d v else q.PushBack d v).q ops).q.ttl d = none ∧
    ∀ now : Int,
      (run (if front then q.PushFront d v else q.PushBack d v).q ops).q.Has now d =
        ⟨true, (run (if front then q.PushFront d v else q.PushBack d v).q ops).q, []⟩ ∧
      (run (if front then q.PushFront d v else q.PushBack d v).q ops).q.Read now d =
        ⟨(lastStored d v ops, true),
          (run (if front then q.PushFront d v else q.PushBack d v).q ops).q, []⟩ := by
  have hfull : q.IsFull = false := by
    cases hf : q.IsFull with
    | false => rfl
    | true =>
      have := FlexQueue.pushFB_full q front d v habsent hf
      cases front <;> simp [FlexQueue.PushFront, FlexQueue.PushBack, this] at hpushed
  have hq1 : (if front then q.PushFront d v else q.PushBack d v).q =
      ⟨(if front then q.messages.PushFront d v else q.messages.PushBack d v).2,
        q.ttl, q.max⟩ := by
    have := FlexQueue.pushFB_room q front d v habsent hfull
    cases front <;> simp [FlexQueue.PushFront, FlexQueue.PushBack, this]
  have hidx : mapLookup (if front then q.PushFront d v
      else q.PushBack d v).q.messages.indices d = some ⟨q.messages.items.fresh, ⟨d, v⟩⟩ := by
    rw [hq1]
    cases front <;>
      simp [FlexList.PushFront_absent _ _ _ habsent, FlexList.PushBack_absent _ _ _ habsent,
        mapLookup_mapStore_self]
  have httl : mapLookup (if front then q.PushFront d v else q.PushBack d v).q.ttl d = none := by
    rw [hq1]; exact hnoctl
  obtain ⟨r1, ⟨e', r2, r3⟩, r4⟩ := run_frame _ ops d _ httl hidx hops hpull
  refine ⟨r4, r1, ?_⟩
  intro now
  have hp := FlexQueue.pruneMessage_no_control _ now d r1
  constructor
  · unfold FlexQueue.Has
    rw [hp]
    simp [FlexList.Has, r2]
  · unfold FlexQueue.Read
    rw [hp]
    simp [FlexList.Read, r2, r3]

theorem C13_plain_entry_stays_witness :
    (NewFlexQueue : FlexQueue Nat Nat).messages.Has "A" = false ∧
    mapLookup (NewFlexQueue : FlexQueue Nat Nat).ttl "A" = none ∧
    (if false then (NewFlexQueue : FlexQueue Nat Nat).PushFront "A" (some 1)
      else (NewFlexQueue : FlexQueue Nat Nat).PushBack "A" (some 1)).ret = true ∧
    (∀ x ∈ quietRun, x.2.takes "A" = false ∧ x.2.isTTLPush "A" = false) ∧
    neverPulls "A" (if false then (NewFlexQueue : FlexQueue Nat Nat).PushFront "A" (some 1)
      else (NewFlexQueue : FlexQueue Nat Nat).PushBack "A" (some 1)).q quietRun = true ∧
    (callsFor "A" (run (if false then (NewFlexQueue : FlexQueue Nat Nat).PushFront "A" (some 1)
      else (NewFlexQueue : FlexQueue Nat Nat).PushBack "A" (some 1)).q quietRun).calls = 0 ∧
    mapLookup (run (if false then (NewFlexQueue : FlexQueue Nat Nat).PushFront "A" (some 1)
      else (NewFlexQueue : FlexQueue Nat Nat).PushBack "A" (some 1)).q quietRun).q.ttl "A" =
        none ∧
    ∀ now : Int,
      (run (if false then (NewFlexQueue : FlexQueue Nat Nat).PushFront "A" (some 1)
        else (NewFlexQueue : FlexQueue Nat Nat).PushBack "A" (some 1)).q quietRun).q.Has now "A" =
        ⟨true, (run (if false then (NewFlexQueue : FlexQueue Nat Nat).PushFront "A" (some 1)
          else (NewFlexQueue : FlexQueue Nat Nat).PushBack "A" (some 1)).q quietRun).q, []⟩ ∧
      (run (if false then (NewFlexQueue : FlexQueue Nat Nat).PushFront "A" (some 1)
        else (NewFlexQueue : FlexQueue Nat Nat).PushBack "A" (some 1)).q quietRun).q.Read now "A" =
        ⟨(lastStored "A" (some 1) quietRun, true),
          (run (if false then (NewFlexQueue : FlexQueue Nat Nat).PushFront "A" (some 1)
            else (NewFlexQueue : FlexQueue Nat Nat).PushBack "A" (some 1)).q quietRun).q, []⟩) :=
  ⟨by decide, by decide, by decide, by decide, by decide,
    C13_plain_entry_stays NewFlexQueue false "A" (some 1) quietRun (by decide) (by decide)
      (by decide) (by decide) (by decide)⟩

/-- C14: for every state of the queue, digest, message, callback and every duration that
is not positive, when the reading of the clock in Expired is after the reading in NewTTL,
PushFrontTTL and PushBackTTL fire the callback once with the digest and the message,
return false and leave the queue and the TTL table as they were; for a negative duration
the same holds also when the two readings are the same instant. -/
theorem C14_expiry_at_creation {C V : Type} (q : FlexQueue C V) (now checked : Int)
    (d : String) (v : Option V) (duration : Int) (cb : C) (hdur : duration ≤ 0)
    (hclock : now < checked) :
    q.PushFrontTTL now checked d v duration cb = ⟨false, q, [⟨cb, d, v⟩]⟩ ∧
    q.PushBackTTL now checked d v duration cb = ⟨false, q, [⟨cb, d, v⟩]⟩ ∧
    callsFor d (q.PushFrontTTL now checked d v duration cb).calls = 1 ∧
    callsFor d (q.PushBackTTL now checked d v duration cb).calls = 1 ∧
    (duration < 0 →
      q.PushFrontTTL now now d v duration cb = ⟨false, q, [⟨cb, d, v⟩]⟩ ∧
      q.PushBackTTL now now d v duration cb = ⟨false, q, [⟨cb, d, v⟩]⟩) := by
  have h1 : q.PushFrontTTL now checked d v duration cb = ⟨false, q, [⟨cb, d, v⟩]⟩ :=
    FlexQueue.pushFBTTL_elapsed q now checked true d v duration cb (by omega)
  have h2 : q.PushBackTTL now checked d v duration cb = ⟨false, q, [⟨cb, d, v⟩]⟩ :=
    FlexQueue.pushFBTTL_elapsed q now checked false d v duration cb (by omega)
  rw [h1, h2]
  refine ⟨rfl, rfl, by simp [callsFor], by simp [callsFor], fun hneg => ?_⟩
  exact ⟨FlexQueue.pushFBTTL_elapsed q now now true d v duration cb (by omega),
    FlexQueue.pushFBTTL_elapsed q now now false d v duration cb (by omega)⟩

theorem C14_expiry_at_creation_witness :
    (0 : Int) ≤ 0 ∧ (5 : Int) < 6 ∧
    (roomyQueue.PushFrontTTL 5 6 "C" (some 3) 0 9 = ⟨false, roomyQueue, [⟨9, "C", some 3⟩]⟩ ∧
    roomyQueue.PushBackTTL 5 6 "C" (some 3) 0 9 = ⟨false, roomyQueue, [⟨9, "C", some 3⟩]⟩ ∧
    callsFor "C" (roomyQueue.PushFrontTTL 5 6 "C" (some 3) 0 9).calls = 1 ∧
    callsFor "C" (roomyQueue.PushBackTTL 5 6 "C" (some 3) 0 9).calls = 1 ∧
    ((0 : Int) < 0 →
      roomyQueue.PushFrontTTL 5 5 "C" (some 3) 0 9 = ⟨false, roomyQueue, [⟨9, "C", some 3⟩]⟩ ∧
      roomyQueue.PushBackTTL 5 5 "C" (some 3) 0 9 =
        ⟨false, roomyQueue, [⟨9, "C", some 3⟩]⟩)) :=
  ⟨by decide, by decide, C14_expiry_at_creation roomyQueue 5 6 "C" (some 3) 0 9 (by decide)
    (by decide)⟩

/-- C15 (counterexample): on the queue with room that does not hold "C", PushBackTTL and
PushFrontTTL of "C" with the positive duration 1, when the clock reads 5 in NewTTL and 7
in Expired, return false, fire the callback with ("C", 3) and insert nothing; the same
with the duration 10 and the readings 5 and 60. -/
theorem C15_counterexample :
    roomyQueue.messages.Has "C" = false ∧ roomyQueue.IsFull = false ∧ (0 : Int) < 1 ∧
    roomyQueue.PushBackTTL 5 7 "C" (some 3) 1 9 = ⟨false, roomyQueue, [⟨9, "C", some 3⟩]⟩ ∧
    roomyQueue.PushFrontTTL 5 7 "C" (some 3) 1 9 = ⟨false, roomyQueue, [⟨9, "C", some 3⟩]⟩ ∧
    roomyQueue.PushBackTTL 5 60 "C" (some 3) 10 9 =
      ⟨false, roomyQueue, [⟨9, "C", some 3⟩]⟩ := by
  decide

/-- C15 (amended): for a digest that is not in the queue and a duration that is not
shorter than the time from the reading of the clock in NewTTL (`now`) to the reading in
Expired (`checked`), as every positive duration is that is longer than the call takes,
on a queue that is not full PushFrontTTL (PushBackTTL) returns true, fires no callback,
puts the entry at the front (at the back) and records the control that expires at
now + duration with the given callback; on a full queue both return false, fire no
callback and leave the queue and the TTL table as they were. -/
theorem C15_ttl_push_new {C V : Type} (q : FlexQueue C V) (now checked : Int) (d : String)
    (v : Option V) (duration : Int) (cb : C) (habsent : q.messages.Has d = false)
    (hfresh : checked ≤ now + duration) :
    (q.IsFull = false →
      q.PushFrontTTL now checked d v duration cb =
        ⟨true, ⟨(q.messages.PushFront d v).2, mapStore q.ttl d ⟨now + duration, cb⟩, q.max⟩,
          []⟩ ∧
      (q.PushFrontTTL now checked d v duration cb).q.messages.entries =
        (d, v) :: q.messages.entries ∧
      mapLookup (q.PushFrontTTL now checked d v duration cb).q.ttl d =
        some ⟨now + duration, cb⟩ ∧
      q.PushBackTTL now checked d v duration cb =
        ⟨true, ⟨(q.messages.PushBack d v).2, mapStore q.ttl d ⟨now + duration, cb⟩, q.max⟩,
          []⟩ ∧
      (q.PushBackTTL now checked d v duration cb).q.messages.entries =
        q.messages.entries ++ [(d, v)] ∧
      mapLookup (q.PushBackTTL now checked d v duration cb).q.ttl d =
        some ⟨now + duration, cb⟩) ∧
    (q.IsFull = true →
      q.PushFrontTTL now checked d v duration cb = ⟨false, q, []⟩ ∧
      q.PushBackTTL now checked d v duration cb = ⟨false, q, []⟩) := by
  constructor
  · intro hroom
    have h1 : q.PushFrontTTL now checked d v duration cb =
        ⟨true, ⟨(q.messages.PushFront d v).2, mapStore q.ttl d ⟨now + duration, cb⟩, q.max⟩,
          []⟩ := by
      rw [FlexQueue.PushFrontTTL, FlexQueue.pushFBTTL_fresh _ _ _ _ _ _ _ _ hfresh,
        FlexQueue.pushFB_room q true d v habsent hroom]
      simp
    have h2 : q.PushBackTTL now checked d v duration cb =
        ⟨true, ⟨(q.messages.PushBack d v).2, mapStore q.ttl d ⟨now + duration, cb⟩, q.max⟩,
          []⟩ := by
      rw [FlexQueue.PushBackTTL, FlexQueue.pushFBTTL_fresh _ _ _ _ _ _ _ _ hfresh,
        FlexQueue.pushFB_room q false d v habsent hroom]
      simp
    rw [h1, h2]
    refine ⟨rfl, ?_, mapLookup_mapStore_self _ _ _, rfl, ?_, mapLookup_mapStore_self _ _ _⟩
    · simp [FlexList.PushFront_absent _ _ _ habsent, FlexList.entries]
    · simp [FlexList.PushBack_absent _ _ _ habsent, FlexList.entries]
  · intro hfull
    constructor
    · rw [FlexQueue.PushFrontTTL, FlexQueue.pushFBTTL_fresh _ _ _ _ _ _ _ _ hfresh,
        FlexQueue.pushFB_full q true d v habsent hfull]
      simp
    · rw [FlexQueue.PushBackTTL, FlexQueue.pushFBTTL_fresh _ _ _ _ _ _ _ _ hfresh,
        FlexQueue.pushFB_full q false d v habsent hfull]
      simp

theorem C15_ttl_push_new_witness :
    (roomyQueue.messages.Has "C" = false ∧ (6 : Int) ≤ 5 + 10 ∧
      roomyQueue.IsFull = false ∧
      roomyQueue.PushFrontTTL 5 6 "C" (some 3) 10 9 =
        ⟨true, ⟨(roomyQueue.messages.PushFront "C" (some 3)).2,
          mapStore roomyQueue.ttl "C" ⟨5 + 10, 9⟩, roomyQueue.max⟩, []⟩ ∧
      (roomyQueue.PushFrontTTL 5 6 "C" (some 3) 10 9).q.messages.entries =
        ("C", some 3) :: roomyQueue.messages.entries ∧
      mapLookup (roomyQueue.PushFrontTTL 5 6 "C" (some 3) 10 9).q.ttl "C" =
        some ⟨5 + 10, 9⟩ ∧
      roomyQueue.PushBackTTL 5 6 "C" (some 3) 10 9 =
        ⟨true, ⟨(roomyQueue.messages.PushBack "C" (some 3)).2,
          mapStore roomyQueue.ttl "C" ⟨5 + 10, 9⟩, roomyQueue.max⟩, []⟩ ∧
      (roomyQueue.PushBackTTL 5 6 "C" (some 3) 10 9).q.messages.entries =
        roomyQueue.messages.entries ++ [("C", some 3)] ∧
      mapLookup (roomyQueue.PushBackTTL 5 6 "C" (some 3) 10 9).q.ttl "C" =
        some ⟨5 + 10, 9⟩) ∧
    (fullQueue.messages.Has "C" = false ∧ fullQueue.IsFull = true ∧
      fullQueue.PushFrontTTL 5 6 "C" (some 3) 10 9 = ⟨false, fullQueue, []⟩ ∧
      fullQueue.PushBackTTL 5 6 "C" (some 3) 10 9 = ⟨false, fullQueue, []⟩) :=
  ⟨⟨by decide, by decide, by decide,
      (C15_ttl_push_new roomyQueue 5 6 "C" (some 3) 10 9 (by decide) (by decide)).1
        (by decide)⟩,
   ⟨by decide, by decide,
      (C15_ttl_push_new fullQueue 5 6 "C" (some 3) 10 9 (by decide) (by decide)).2
        (by decide)⟩⟩

/-- C16 (counterexample): on the queue that holds "A" under the control that expires at
10, PushBackTTL and PushFrontTTL of "A" with the positive duration 1, when the clock
reads 5 in NewTTL and 7 in Expired, return false and fire the new callback with the
message of the push; the control of "A" is the old one. -/
theorem C16_counterexample :
    ttlQueue.messages.Has "A" = true ∧ (0 : Int) < 1 ∧
    ttlQueue.PushBackTTL 5 7 "A" (some 9) 1 6 = ⟨false, ttlQueue, [⟨6, "A", some 9⟩]⟩ ∧
    ttlQueue.PushFrontTTL 5 7 "A" (some 9) 1 6 = ⟨false, ttlQueue, [⟨6, "A", some 9⟩]⟩ ∧
    mapLookup (ttlQueue.PushBackTTL 5 7 "A" (some 9) 1 6).q.ttl "A" = some ⟨10, 7⟩ := by
  decide

/-- C16 (amended): for a digest that is already in the queue and a duration that is not
shorter than the time from the reading of the clock in NewTTL (`now`) to the reading in
Expired (`checked`), as every positive duration is that is longer than the call takes,
PushFrontTTL and PushBackTTL return true, fire no callback, leave the message list
(messages, values, order) and the maximum as they were, and set the control of the
digest to the one that expires at now + duration with the given callback, in the place
of any earlier control; the controls of the other digests are as before. -/
theorem C16_ttl_push_existing {C V : Type} (q : FlexQueue C V) (now checked : Int)
    (d : String) (v2 : Option V) (duration : Int) (cb : C) (hpresent : q.messages.Has d = true)
    (hfresh : checked ≤ now + duration) :
    q.PushFrontTTL now checked d v2 duration cb =
      ⟨true, ⟨q.messages, mapStore q.ttl d ⟨now + duration, cb⟩, q.max⟩, []⟩ ∧
    q.PushBackTTL now checked d v2 duration cb =
      ⟨true, ⟨q.messages, mapStore q.ttl d ⟨now + duration, cb⟩, q.max⟩, []⟩ ∧
    mapLookup (mapStore q.ttl d (⟨now + duration, cb⟩ : TTL C)) d =
      some ⟨now + duration, cb⟩ ∧
    ∀ k, k ≠ d →
      mapLookup (mapStore q.ttl d (⟨now + duration, cb⟩ : TTL C)) k = mapLookup q.ttl k := by
  refine ⟨?_, ?_, mapLookup_mapStore_self _ _ _, fun k hk => mapLookup_mapStore_ne _ _ _ _ hk⟩
  · rw [FlexQueue.PushFrontTTL, FlexQueue.pushFBTTL_fresh _ _ _ _ _ _ _ _ hfresh,
      FlexQueue.pushFB_dup q true d v2 hpresent]
    simp
  · rw [FlexQueue.PushBackTTL, FlexQueue.pushFBTTL_fresh _ _ _ _ _ _ _ _ hfresh,
      FlexQueue.pushFB_dup q false d v2 hpresent]
    simp

theorem C16_ttl_push_existing_witness :
    ttlQueue.messages.Has "A" = true ∧ (6 : Int) ≤ 5 + 50 ∧
    (ttlQueue.PushFrontTTL 5 6 "A" (some 9) 50 6 =
      ⟨true, ⟨ttlQueue.messages, mapStore ttlQueue.ttl "A" ⟨5 + 50, 6⟩, ttlQueue.max⟩, []⟩ ∧
    ttlQueue.PushBackTTL 5 6 "A" (some 9) 50 6 =
      ⟨true, ⟨ttlQueue.messages, mapStore ttlQueue.ttl "A" ⟨5 + 50, 6⟩, ttlQueue.max⟩, []⟩ ∧
    mapLookup (mapStore ttlQueue.ttl "A" (⟨5 + 50, 6⟩ : TTL Nat)) "A" = some ⟨5 + 50, 6⟩ ∧
    ∀ k, k ≠ "A" →
      mapLookup (mapStore ttlQueue.ttl "A" (⟨5 + 50, 6⟩ : TTL Nat)) k =
        mapLookup ttlQueue.ttl k) :=
  ⟨by decide, by decide,
    C16_ttl_push_existing ttlQueue 5 6 "A" (some 9) 50 6 (by decide) (by decide)⟩


/-- C17 (evaluation at the failing input): in the queue left by a push of "A" with a TTL
of 10 at instant 0 and a PullFront at instant 1, "A" is absent and its control is still
in the TTL table; Update of "A" at instant 20 returns false, but it fires the callback
with a nil message and deletes the control, so the queue is not as it was. -/
theorem C17_update_absent_stale :
    staleQueue.messages.Has "A" = false ∧ staleQueue.messages.entries = [] ∧
    mapLookup staleQueue.ttl "A" = some ⟨10, 7⟩ ∧
    (staleQueue.Update 20 "A" (some 5)).ret = false ∧
    (staleQueue.Update 20 "A" (some 5)).calls = [⟨7, "A", none⟩] ∧
    (staleQueue.Update 20 "A" (some 5)).q.ttl = [] ∧
    (staleQueue.Update 20 "A" (some 5)).q ≠ staleQueue := by
  decide


/-- C18: on a well-formed queue that holds `d` with the message `v` under a control that
is expired at `now`, Update returns false, fires the callback once with `(d, v)`, removes
`d` from the list, the index and the TTL table, and stores nothing: the entries left are
the other entries, and every later Has and Read of `d` finds nothing. -/
theorem C18_update_expired {C V : Type} (q : FlexQueue C V) (now : Int) (d : String)
    (v v' : Option V) (t : TTL C) (pre post : List (String × Option V))
    (hwf : q.messages.WF) (hs : q.messages.entries = pre ++ (d, v) :: post)
    (ht : mapLookup q.ttl d = some t) (hexp : t.Expires < now) :
    (q.Update now d v').ret = false ∧
    (q.Update now d v').calls = [⟨t.Callback, d, v⟩] ∧
    (q.Update now d v').q.messages.entries = pre ++ post ∧
    (q.Update now d v').q.messages.Has d = false ∧
    mapLookup (q.Update now d v').q.ttl d = none ∧
    (q.Update now d v').q.Len = q.Len - 1 ∧
    ∀ later : Int,
      (q.Update now d v').q.Has later d = ⟨false, (q.Update now d v').q, []⟩ ∧
      (q.Update now d v').q.Read later d = ⟨(none, false), (q.Update now d v').q, []⟩ := by
  obtain ⟨pe, po, e, hel, hpe, hpo, rfl, rfl⟩ := q.messages.entries_split pre post _ _ hs
  have hq : q.Update now e.Value.index v' =
      ⟨false, ⟨⟨⟨pe ++ po, q.messages.items.fresh⟩,
        mapDelete q.messages.indices e.Value.index⟩, mapDelete q.ttl e.Value.index, q.max⟩,
        [⟨t.Callback, e.Value.index, e.Value.item⟩]⟩ := by
    unfold FlexQueue.Update
    rw [FlexQueue.pruneMessage_expired_middle q now hwf e pe po hel t ht hexp]
    simp
  rw [hq]
  refine ⟨rfl, rfl, ?_, ?_, mapLookup_mapDelete_self _ _, ?_, ?_⟩
  · simp [FlexList.entries, hpe, hpo]
  · simp [FlexList.Has, mapLookup_mapDelete_self]
  · simp only [FlexQueue.Len, FlexList.Len, LinkedList.Len, hel]
    simp
    omega
  · intro later
    have hp := FlexQueue.pruneMessage_no_control
      (⟨⟨⟨pe ++ po, q.messages.items.fresh⟩, mapDelete q.messages.indices e.Value.index⟩,
        mapDelete q.ttl e.Value.index, q.max⟩ : FlexQueue C V) later e.Value.index
      (mapLookup_mapDelete_self _ _)
    constructor
    · unfold FlexQueue.Has
      rw [hp]
      simp [FlexList.Has, mapLookup_mapDelete_self]
    · unfold FlexQueue.Read
      rw [hp]
      simp [FlexList.Read, mapLookup_mapDelete_self]

theorem C18_update_expired_witness :
    ttlQueue.messages.WF ∧
    ttlQueue.messages.entries = [] ++ ("A", some 1) :: [("B", some 2), ("C", some 3)] ∧
    mapLookup ttlQueue.ttl "A" = some ⟨10, 7⟩ ∧ (⟨10, 7⟩ : TTL Nat).Expires < 20 ∧
    ((ttlQueue.Update 20 "A" (some 9)).ret = false ∧
    (ttlQueue.Update 20 "A" (some 9)).calls = [⟨(⟨10, 7⟩ : TTL Nat).Callback, "A", some 1⟩] ∧
    (ttlQueue.Update 20 "A" (some 9)).q.messages.entries =
      [] ++ [("B", some 2), ("C", some 3)] ∧
    (ttlQueue.Update 20 "A" (some 9)).q.messages.Has "A" = false ∧
    mapLookup (ttlQueue.Update 20 "A" (some 9)).q.ttl "A" = none ∧
    (ttlQueue.Update 20 "A" (some 9)).q.Len = ttlQueue.Len - 1 ∧
    ∀ later : Int,
      (ttlQueue.Update 20 "A" (some 9)).q.Has later "A" =
        ⟨false, (ttlQueue.Update 20 "A" (some 9)).q, []⟩ ∧
      (ttlQueue.Update 20 "A" (some 9)).q.Read later "A" =
        ⟨(none, false), (ttlQueue.Update 20 "A" (some 9)).q, []⟩) :=
  ⟨by decide, by decide, by decide, by decide,
    C18_update_expired ttlQueue 20 "A" (some 1) (some 9) ⟨10, 7⟩ []
      [("B", some 2), ("C", some 3)] (by decide) (by decide) (by decide) (by decide)⟩

/-- C19 (counterexample): on the queue that holds "A" under the control that expires at
10, ResetTTL of "A" with the positive duration 1, when the clock reads 8 in pruneMessage,
9 in NewTTL and 11 in Expired, returns false, fires the old callback with the stored
message and leaves the old control in the TTL table. -/
theorem C19_counterexample :
    ttlQueue.messages.Has "A" = true ∧ mapLookup ttlQueue.ttl "A" = some ⟨10, 7⟩ ∧
    ¬ (⟨10, 7⟩ : TTL Nat).Expires < 8 ∧ (0 : Int) < 1 ∧
    ttlQueue.ResetTTL 8 9 11 "A" 1 = ⟨false, ttlQueue, [⟨7, "A", some 1⟩]⟩ ∧
    mapLookup (ttlQueue.ResetTTL 8 9 11 "A" 1).q.ttl "A" = some ⟨10, 7⟩ := by
  decide

/-- C19 (amended): for a digest that is in the queue under a control that is not expired
at `now`, the reading of the clock in pruneMessage, and a duration that is not shorter
than the time from the reading in NewTTL (`created`) to the reading in Expired
(`checked`), as every positive duration is that is longer than the call takes, ResetTTL
returns true, fires no callback, leaves the message list and the maximum as they were
and stores for the digest the control that expires at created + duration with the old
callback; the controls of the other digests are as before, and Has of the digest
returns true, changing nothing, at every instant up to created + duration, so, as
`created` is not before `now`, at every instant from `now` to now + duration. -/
theorem C19_reset_ttl {C V : Type} (q : FlexQueue C V) (now created checked : Int)
    (d : String) (duration : Int) (old : TTL C) (hpresent : q.messages.Has d = true)
    (hctl : mapLookup q.ttl d = some old) (hlive : ¬ old.Expires < now)
    (hclock : now ≤ created) (hfresh : checked ≤ created + duration) :
    q.ResetTTL now created checked d duration =
      ⟨true, ⟨q.messages, mapStore q.ttl d ⟨created + duration, old.Callback⟩, q.max⟩, []⟩ ∧
    mapLookup (q.ResetTTL now created checked d duration).q.ttl d =
      some ⟨created + duration, old.Callback⟩ ∧
    (∀ k, k ≠ d →
      mapLookup (q.ResetTTL now created checked d duration).q.ttl k = mapLookup q.ttl k) ∧
    (∀ t : Int, t ≤ created + duration →
      (q.ResetTTL now created checked d duration).q.Has t d =
        ⟨true, (q.ResetTTL now created checked d duration).q, []⟩) ∧
    ∀ t : Int, now ≤ t → t ≤ now + duration →
      (q.ResetTTL now created checked d duration).q.Has t d =
        ⟨true, (q.ResetTTL now created checked d duration).q, []⟩ := by
  have hq : q.ResetTTL now created checked d duration =
      ⟨true, ⟨q.messages, mapStore q.ttl d ⟨created + duration, old.Callback⟩, q.max⟩, []⟩ := by
    unfold FlexQueue.ResetTTL
    rw [FlexQueue.pruneMessage_live q now d (by simp [FlexQueue.expiredAt, hctl, TTL.Expired, hlive])]
    have hE : (NewTTL created duration old.Callback).Expired checked = false := by
      rw [NewTTL_Expired]
      simp
      omega
    simp only [hctl, hE, Bool.false_eq_true, if_false]
    rfl
  have hHas : ∀ t : Int, t ≤ created + duration →
      (⟨q.messages, mapStore q.ttl d ⟨created + duration, old.Callback⟩, q.max⟩ :
        FlexQueue C V).Has t d =
      ⟨true, ⟨q.messages, mapStore q.ttl d ⟨created + duration, old.Callback⟩, q.max⟩, []⟩ := by
    intro t ht
    unfold FlexQueue.Has
    rw [FlexQueue.pruneMessage_live _ t d (by
      have : ¬ created + duration < t := by omega
      simp [FlexQueue.expiredAt, mapLookup_mapStore_self, TTL.Expired, this])]
    simp [hpresent]
  rw [hq]
  exact ⟨rfl, mapLookup_mapStore_self _ _ _, fun k hk => mapLookup_mapStore_ne _ _ _ _ hk,
    hHas, fun t _ ht => hHas t (by omega)⟩

theorem C19_reset_ttl_witness :
    ttlQueue.messages.Has "A" = true ∧ mapLookup ttlQueue.ttl "A" = some ⟨10, 7⟩ ∧
    ¬ (⟨10, 7⟩ : TTL Nat).Expires < 8 ∧ (8 : Int) ≤ 9 ∧ (10 : Int) ≤ 9 + 20 ∧
    (ttlQueue.ResetTTL 8 9 10 "A" 20 =
      ⟨true, ⟨ttlQueue.messages,
        mapStore ttlQueue.ttl "A" ⟨9 + 20, (⟨10, 7⟩ : TTL Nat).Callback⟩, ttlQueue.max⟩, []⟩ ∧
    mapLookup (ttlQueue.ResetTTL 8 9 10 "A" 20).q.ttl "A" =
      some ⟨9 + 20, (⟨10, 7⟩ : TTL Nat).Callback⟩ ∧
    (∀ k, k ≠ "A" →
      mapLookup (ttlQueue.ResetTTL 8 9 10 "A" 20).q.ttl k = mapLookup ttlQueue.ttl k) ∧
    (∀ t : Int, t ≤ 9 + 20 →
      (ttlQueue.ResetTTL 8 9 10 "A" 20).q.Has t "A" =
        ⟨true, (ttlQueue.ResetTTL 8 9 10 "A" 20).q, []⟩) ∧
    ∀ t : Int, 8 ≤ t → t ≤ 8 + 20 →
      (ttlQueue.ResetTTL 8 9 10 "A" 20).q.Has t "A" =
        ⟨true, (ttlQueue.ResetTTL 8 9 10 "A" 20).q, []⟩) :=
  ⟨by decide, by decide, by decide, by decide, by decide,
    C19_reset_ttl ttlQueue 8 9 10 "A" 20 ⟨10, 7⟩ (by decide) (by decide) (by decide)
      (by decide) (by decide)⟩


/-- C20 (evaluation at the failing input): in the queue left by a push of "A" with a TTL
of 10 at instant 0 and a PullFront at instant 1, "A" is not in the queue and its control
is still in the TTL table; ResetTTL of "A" entered at instant 2 returns true and stores
a new control for the missing message, and ResetTTL of "A" entered at instant 20 fires
the callback and deletes the control. -/
theorem C20_reset_absent_stale :
    staleQueue.messages.Has "A" = false ∧ staleQueue.messages.entries = [] ∧
    mapLookup staleQueue.ttl "A" = some ⟨10, 7⟩ ∧
    (staleQueue.ResetTTL 2 2 3 "A" 100).ret = true ∧
    (staleQueue.ResetTTL 2 2 3 "A" 100).q.ttl = [("A", ⟨102, 7⟩)] ∧
    (staleQueue.ResetTTL 20 21 22 "A" 100).ret = false ∧
    (staleQueue.ResetTTL 20 21 22 "A" 100).calls = [⟨7, "A", none⟩] ∧
    (staleQueue.ResetTTL 20 21 22 "A" 100).q.ttl = [] := by
  decide


/-! ### FlexList: runs of calls and the keys of a well-formed list -/

section ListFacts
variable {V : Type}

theorem FlexList.WF_after (l : FlexList V) (h : l.WF) (op : ListOp V) : (l.after op).WF := by
  cases op with
  | pushFront k v => exact FlexList.WF_PushFront l h k v
  | pushBack k v => exact FlexList.WF_PushBack l h k v
  | pullFront => exact FlexList.WF_PullFront l h
  | pullBack => exact FlexList.WF_PullBack l h
  | pull k => exact FlexList.WF_Pull l h k
  | update k v => exact FlexList.WF_Update l h k v
  | remove k => exact FlexList.WF_Remove l h k
  | readFront => exact h
  | readBack => exact h
  | read k => exact h
  | has k => exact h
  | len => exact h

theorem FlexList.WF_afterAll (l : FlexList V) (h : l.WF) (ops : List (ListOp V)) :
    (l.afterAll ops).WF := by
  induction ops generalizing l with
  | nil => exact h
  | cons op ops ih => exact ih _ (FlexList.WF_after l h op)

/-- In a well-formed list no key is carried by two elements. -/
theorem FlexList.WF.nodup_keys {l : FlexList V} (h : l.WF) :
    (l.entries.map Prod.fst).Nodup := by
  have hel : l.items.elems.Nodup := List.Nodup.of_map _ h.1
  simp only [FlexList.entries, List.map_map]
  refine List.Nodup.map_on ?_ hel
  intro x hx y hy hxy
  simp only [Function.comp] at hxy
  have h1 := h.2.2.2.2 x hx
  have h2 := h.2.2.2.2 y hy
  rw [hxy, h2] at h1
  exact (Option.some.inj h1).symm

/-- In a well-formed list the keys of the index are the keys carried by the elements. -/
theorem FlexList.WF.keys_iff {l : FlexList V} (h : l.WF) (k : String) :
    k ∈ l.indices.map Prod.fst ↔ k ∈ l.entries.map Prod.fst := by
  rw [← h.Has_iff, FlexList.Has_eq_true_iff]
  constructor
  · intro hk
    cases hl : mapLookup l.indices k with
    | none => exact absurd hk ((mapLookup_eq_none_iff _ _).1 hl)
    | some e => exact ⟨e, rfl⟩
  · rintro ⟨e, he⟩
    have := mem_of_mapLookup _ _ _ he
    exact List.mem_map.2 ⟨(k, e), this, rfl⟩

/-- In a well-formed list the index has as many entries as the list has elements. -/
theorem FlexList.WF.length_indices {l : FlexList V} (h : l.WF) :
    l.indices.length = l.items.elems.length := by
  have hp : (l.indices.map Prod.fst).Perm (l.entries.map Prod.fst) :=
    (List.perm_ext_iff_of_nodup h.2.2.1 h.nodup_keys).2 (fun k => h.keys_iff k)
  have := hp.length_eq
  simpa [FlexList.entries] using this

/-- On a well-formed list, Has is false for a key that no element carries. -/
theorem FlexList.WF.Has_false {V : Type} {l : FlexList V} (h : l.WF) {k : String}
    (hk : k ∉ l.entries.map Prod.fst) : l.Has k = false := by
  cases hh : l.Has k with
  | false => rfl
  | true => exact absurd ((h.Has_iff k).1 hh) hk

theorem FlexList.Pull_eq {V : Type} (l : FlexList V) (k : String) :
    l.Pull k = if (l.Read k).2 = true then (((l.Read k).1, true), (l.Remove k).2)
      else ((none, false), l) := by
  unfold FlexList.Pull FlexList.Read
  cases mapLookup l.indices k <;> simp

theorem FlexList.Read_fst_of_not_found {V : Type} (l : FlexList V) (k : String)
    (h : (l.Read k).2 = false) : l.Read k = (none, false) := by
  unfold FlexList.Read at h ⊢
  cases hl : mapLookup l.indices k with
  | none => rfl
  | some e => simp [hl] at h

theorem FlexList.ReadFront_of_not_found {V : Type} (l : FlexList V)
    (h : l.ReadFront.2.2 = false) : l.ReadFront = ("", none, false) := by
  unfold FlexList.ReadFront at h ⊢
  cases hl : l.items.Front with
  | none => rfl
  | some e => simp [hl] at h

theorem FlexList.ReadBack_of_not_found {V : Type} (l : FlexList V)
    (h : l.ReadBack.2.2 = false) : l.ReadBack = ("", none, false) := by
  unfold FlexList.ReadBack at h ⊢
  cases hl : l.items.Back with
  | none => rfl
  | some e => simp [hl] at h

end ListFacts


/-! ### Remove and Pull by digest -/

section RemovePull
variable {C V : Type}

/-- Remove of a digest of the list that is not expired takes the message out of the list
and the digest out of the TTL table. -/
theorem FlexQueue.Remove_live (q : FlexQueue C V) (now : Int) (hwf : q.messages.WF)
    (e : Element V) (pe po : List (Element V)) (h : q.messages.items.elems = pe ++ e :: po)
    (hlive : q.expiredAt now e.Value.index = false) :
    q.Remove now e.Value.index =
      ⟨true, ⟨⟨⟨pe ++ po, q.messages.items.fresh⟩,
        mapDelete q.messages.indices e.Value.index⟩, mapDelete q.ttl e.Value.index, q.max⟩,
        []⟩ := by
  unfold FlexQueue.Remove
  rw [FlexQueue.pruneMessage_live q now _ hlive]
  simp [FlexList.Remove_middle _ hwf e pe po h]

/-- Remove of a digest that is neither indexed nor under an expired control returns
false and changes nothing. -/
theorem FlexQueue.Remove_missing (q : FlexQueue C V) (now : Int) (d : String)
    (habsent : q.messages.Has d = false) (hlive : q.expiredAt now d = false) :
    q.Remove now d = ⟨false, q, []⟩ := by
  unfold FlexQueue.Remove
  rw [FlexQueue.pruneMessage_live q now _ hlive]
  simp [FlexList.Remove_absent _ _ ((FlexList.Has_eq_false_iff _ _).1 habsent)]

/-- Remove of a digest of the list whose control is expired returns false after the
pruning: the callback is fired once with the stored message, and the message and the
control are removed. -/
theorem FlexQueue.Remove_expired_middle (q : FlexQueue C V) (now : Int)
    (hwf : q.messages.WF) (e : Element V) (pe po : List (Element V))
    (h : q.messages.items.elems = pe ++ e :: po) (t : TTL C)
    (ht : mapLookup q.ttl e.Value.index = some t) (hexp : t.Expires < now) :
    q.Remove now e.Value.index =
      ⟨false, ⟨⟨⟨pe ++ po, q.messages.items.fresh⟩,
        mapDelete q.messages.indices e.Value.index⟩, mapDelete q.ttl e.Value.index, q.max⟩,
        [⟨t.Callback, e.Value.index, e.Value.item⟩]⟩ := by
  unfold FlexQueue.Remove
  rw [FlexQueue.pruneMessage_expired_middle q now hwf e pe po h t ht hexp]
  simp

/-- The entries after a Remove of a digest of the list that is not expired: the other
entries in their order, with their controls; the digest is in neither the list nor the
TTL table. -/
theorem FlexQueue.Remove_live_entries (q : FlexQueue C V) (now : Int) (hwf : q.messages.WF)
    (d : String) (v : Option V) (pre post : List (String × Option V))
    (hs : q.messages.entries = pre ++ (d, v) :: post)
    (hlive : q.expiredAt now d = false) :
    (q.Remove now d).ret = true ∧ (q.Remove now d).calls = [] ∧
    (q.Remove now d).q.messages.entries = pre ++ post ∧
    (q.Remove now d).q.messages.Has d = false ∧
    mapLookup (q.Remove now d).q.ttl d = none ∧
    (∀ k, k ≠ d → mapLookup (q.Remove now d).q.ttl k = mapLookup q.ttl k) ∧
    (q.Remove now d).q.max = q.max ∧ (q.Remove now d).q.Len = q.Len - 1 := by
  obtain ⟨pe, po, e, hel, hpe, hpo, rfl, rfl⟩ := q.messages.entries_split pre post _ _ hs
  rw [FlexQueue.Remove_live q now hwf e pe po hel hlive]
  refine ⟨rfl, rfl, ?_, ?_, mapLookup_mapDelete_self _ _,
    fun k hk => mapLookup_mapDelete_ne _ _ _ hk, rfl, ?_⟩
  · simp [FlexList.entries, hpe, hpo]
  · simp [FlexList.Has, mapLookup_mapDelete_self]
  · simp only [FlexQueue.Len, FlexList.Len, LinkedList.Len, hel]
    simp
    omega

/-- Pull of a digest of the list that is not expired returns the stored message and
takes it out of the list; the TTL table is not written. -/
theorem FlexQueue.Pull_live (q : FlexQueue C V) (now : Int) (hwf : q.messages.WF)
    (e : Element V) (pe po : List (Element V)) (h : q.messages.items.elems = pe ++ e :: po)
    (hlive : q.expiredAt now e.Value.index = false) :
    q.Pull now e.Value.index =
      ⟨(e.Value.item, true), ⟨⟨⟨pe ++ po, q.messages.items.fresh⟩,
        mapDelete q.messages.indices e.Value.index⟩, q.ttl, q.max⟩, []⟩ := by
  unfold FlexQueue.Pull
  rw [FlexQueue.pruneMessage_live q now _ hlive]
  have hr := FlexList.Read_of_mem _ hwf e (show e ∈ q.messages.items.elems by rw [h]; simp)
  simp [FlexList.Pull, hr, FlexList.Remove_middle _ hwf e pe po h]

/-- Pull of a digest that is neither indexed nor under an expired control returns
(nil, false) and changes nothing. -/
theorem FlexQueue.Pull_missing (q : FlexQueue C V) (now : Int) (d : String)
    (habsent : q.messages.Has d = false) (hlive : q.expiredAt now d = false) :
    q.Pull now d = ⟨(none, false), q, []⟩ := by
  unfold FlexQueue.Pull
  rw [FlexQueue.pruneMessage_live q now _ hlive]
  simp [FlexList.Pull, FlexList.Read, (FlexList.Has_eq_false_iff _ _).1 habsent]

/-- Pull of a digest of the list whose control is expired returns (nil, false) after
the pruning: the callback is fired once with the stored message, and the message and
the control are removed. -/
theorem FlexQueue.Pull_expired_middle (q : FlexQueue C V) (now : Int)
    (hwf : q.messages.WF) (e : Element V) (pe po : List (Element V))
    (h : q.messages.items.elems = pe ++ e :: po) (t : TTL C)
    (ht : mapLookup q.ttl e.Value.index = some t) (hexp : t.Expires < now) :
    q.Pull now e.Value.index =
      ⟨(none, false), ⟨⟨⟨pe ++ po, q.messages.items.fresh⟩,
        mapDelete q.messages.indices e.Value.index⟩, mapDelete q.ttl e.Value.index, q.max⟩,
        [⟨t.Callback, e.Value.index, e.Value.item⟩]⟩ := by
  unfold FlexQueue.Pull
  rw [FlexQueue.pruneMessage_expired_middle q now hwf e pe po h t ht hexp]
  simp

/-- The entries after a Pull of a digest of the list that is not expired: the stored
message is returned, the other entries stay in their order, and every later Has of the
digest returns false. -/
theorem FlexQueue.Pull_live_entries (q : FlexQueue C V) (now : Int) (hwf : q.messages.WF)
    (d : String) (v : Option V) (pre post : List (String × Option V))
    (hs : q.messages.entries = pre ++ (d, v) :: post)
    (hlive : q.expiredAt now d = false) :
    (q.Pull now d).ret = (v, true) ∧ (q.Pull now d).calls = [] ∧
    (q.Pull now d).q.messages.entries = pre ++ post ∧
    (q.Pull now d).q.messages.Has d = false ∧
    (q.Pull now d).q.ttl = q.ttl ∧
    (q.Pull now d).q.max = q.max ∧ (q.Pull now d).q.Len = q.Len - 1 ∧
    ∀ later : Int, ((q.Pull now d).q.Has later d).ret = false := by
  obtain ⟨pe, po, e, hel, hpe, hpo, rfl, rfl⟩ := q.messages.entries_split pre post _ _ hs
  rw [FlexQueue.Pull_live q now hwf e pe po hel hlive]
  refine ⟨rfl, rfl, ?_, ?_, rfl, rfl, ?_, ?_⟩
  · simp [FlexList.entries, hpe, hpo]
  · simp [FlexList.Has, mapLookup_mapDelete_self]
  · simp only [FlexQueue.Len, FlexList.Len, LinkedList.Len, hel]
    simp
    omega
  · intro later
    unfold FlexQueue.Has
    split
    · rfl
    · rename_i hp
      rw [FlexQueue.pruneMessage_of_ret_false _ _ _ (by simpa using hp)]
      simp [FlexList.Has, mapLookup_mapDelete_self]

/-- ResetTTL of a digest of the list under a control that is not expired, to a duration
that is elapsed when the new control is checked: the old callback is fired with the
stored message and nothing is written. -/
theorem FlexQueue.ResetTTL_elapsed (q : FlexQueue C V) (now created checked : Int)
    (hwf : q.messages.WF)
    (e : Element V) (he : e ∈ q.messages.items.elems) (old : TTL C)
    (hctl : mapLookup q.ttl e.Value.index = some old) (hlive : ¬ old.Expires < now)
    (duration : Int) (helapsed : created + duration < checked) :
    q.ResetTTL now created checked e.Value.index duration =
      ⟨false, q, [⟨old.Callback, e.Value.index, e.Value.item⟩]⟩ := by
  unfold FlexQueue.ResetTTL
  rw [FlexQueue.pruneMessage_live q now _
    (by simp [FlexQueue.expiredAt, hctl, TTL.Expired, hlive])]
  have hE : (NewTTL created duration old.Callback).Expired checked = true := by
    rw [NewTTL_Expired]
    simpa using helapsed
  simp only [hctl, hE, if_true, Bool.false_eq_true, if_false]
  rw [FlexList.Read_of_mem _ hwf e he]
  rfl

end RemovePull


/-! ### Prune: what the loop over the TTL table does -/

section PruneFacts
variable {C V : Type}

theorem mapDelete_eq_filter {α : Type} (m : List (String × α)) (k : String) :
    mapDelete m k = m.filter (fun p => decide (p.1 ≠ k)) := by
  induction m with
  | nil => rfl
  | cons p m ih =>
    obtain ⟨k', v'⟩ := p
    by_cases h : k' = k
    · simp [mapDelete, h, ih]
    · simp [mapDelete, h, ih]

theorem mapDeleteAll_eq_filter {α : Type} (m : List (String × α)) (ks : List String) :
    mapDeleteAll m ks = m.filter (fun p => decide (p.1 ∉ ks)) := by
  induction ks generalizing m with
  | nil => simp [mapDeleteAll]
  | cons k ks ih =>
    rw [mapDeleteAll, ih, mapDelete_eq_filter, List.filter_filter]
    apply List.filter_congr
    intro p _
    simp [not_or, eq_comm, Bool.and_comm]

/-- On a well-formed list, Remove of a key leaves the entries with another key, in
their order. -/
theorem FlexList.entries_Remove (l : FlexList V) (hwf : l.WF) (k : String) :
    (l.Remove k).2.entries = l.entries.filter (fun p => decide (p.1 ≠ k)) := by
  cases hl : mapLookup l.indices k with
  | none =>
    rw [FlexList.Remove_absent l k hl]
    symm
    rw [List.filter_eq_self]
    intro p hp
    simp only [FlexList.entries, List.mem_map] at hp
    obtain ⟨e, he, rfl⟩ := hp
    simpa using hwf.key_ne he hl
  | some e =>
    obtain ⟨hmem, hidx⟩ := hwf.lookup hl
    obtain ⟨pe, po, hsplit⟩ := List.append_of_mem hmem
    subst hidx
    rw [FlexList.Remove_middle l hwf e pe po hsplit]
    have hne : ∀ x ∈ pe ++ po, x.Value.index ≠ e.Value.index :=
      fun x hx => hwf.index_ne_of_split pe po hsplit hx
    simp only [FlexList.entries, hsplit, List.map_append, List.map_cons, List.filter_append,
      List.filter_cons]
    have hpe : (pe.map fun e => (e.Value.index, e.Value.item)).filter
        (fun p => decide (p.1 ≠ e.Value.index)) = pe.map fun e => (e.Value.index, e.Value.item) := by
      rw [List.filter_eq_self]
      intro p hp
      obtain ⟨x, hx, rfl⟩ := List.mem_map.1 hp
      simpa using hne x (List.mem_append_left _ hx)
    have hpo : (po.map fun e => (e.Value.index, e.Value.item)).filter
        (fun p => decide (p.1 ≠ e.Value.index)) = po.map fun e => (e.Value.index, e.Value.item) := by
      rw [List.filter_eq_self]
      intro p hp
      obtain ⟨x, hx, rfl⟩ := List.mem_map.1 hp
      simpa using hne x (List.mem_append_right _ hx)
    rw [hpe, hpo]
    simp

theorem FlexList.WF_removeAll (l : FlexList V) (hwf : l.WF) (ks : List String) :
    (l.removeAll ks).WF := by
  induction ks generalizing l with
  | nil => exact hwf
  | cons k ks ih => exact ih _ (FlexList.WF_Remove l hwf k)

/-- On a well-formed list, the removal of the keys `ks` leaves the entries with a key
outside `ks`, in their order. -/
theorem FlexList.entries_removeAll (l : FlexList V) (hwf : l.WF) (ks : List String) :
    (l.removeAll ks).entries = l.entries.filter (fun p => decide (p.1 ∉ ks)) := by
  induction ks generalizing l with
  | nil => simp [FlexList.removeAll]
  | cons k ks ih =>
    rw [FlexList.removeAll, ih _ (FlexList.WF_Remove l hwf k), FlexList.entries_Remove l hwf k,
      List.filter_filter]
    apply List.filter_congr
    intro p _
    simp [not_or, eq_comm, Bool.and_comm]

theorem FlexList.Read_Remove_ne (l : FlexList V) (x d : String) (h : d ≠ x) :
    (l.Remove x).2.Read d = l.Read d := by
  unfold FlexList.Read
  rw [FlexList.Remove_index_ne l x d h]

/-- The loop of Prune over `visit`, a list of controls with pairwise different digests:
it removes from the message list and from the TTL table the digests of the expired
controls of `visit`, fires one callback for each of them with the message read from the
list at the start, and returns true when there is one. -/
theorem FlexQueue.pruneLoop_eq (now : Int) (visit : List (String × TTL C))
    (acc : Outcome C V Bool) (hnd : (visit.map Prod.fst).Nodup) :
    FlexQueue.pruneLoop now visit acc =
      ⟨acc.ret || !(expiredControls now visit).isEmpty,
        ⟨acc.q.messages.removeAll ((expiredControls now visit).map Prod.fst),
          mapDeleteAll acc.q.ttl ((expiredControls now visit).map Prod.fst), acc.q.max⟩,
        acc.calls ++ (expiredControls now visit).map
          (fun p => ⟨p.2.Callback, p.1, (acc.q.messages.Read p.1).1⟩)⟩ := by
  induction visit generalizing acc with
  | nil => simp [FlexQueue.pruneLoop, expiredControls, FlexList.removeAll, mapDeleteAll]
  | cons p visit ih =>
    obtain ⟨d, t⟩ := p
    have hnd' : (visit.map Prod.fst).Nodup := (List.nodup_cons.1 hnd).2
    have hd : d ∉ visit.map Prod.fst := (List.nodup_cons.1 hnd).1
    by_cases hexp : t.Expired now = true
    · rw [FlexQueue.pruneLoop, if_pos hexp, ih _ hnd']
      have hec : expiredControls now ((d, t) :: visit) = (d, t) :: expiredControls now visit := by
        simp [expiredControls, List.filter_cons, hexp]
      rw [hec]
      have hcalls : (expiredControls now visit).map
          (fun p => (⟨p.2.Callback, p.1, ((acc.q.messages.Remove d).2.Read p.1).1⟩ : Call C V)) =
          (expiredControls now visit).map
          (fun p => (⟨p.2.Callback, p.1, (acc.q.messages.Read p.1).1⟩ : Call C V)) := by
        apply List.map_congr_left
        intro p hp
        have hpv : p ∈ visit := (List.mem_filter.1 hp).1
        have hne : p.1 ≠ d := fun h => hd (h ▸ List.mem_map_of_mem Prod.fst hpv)
        rw [FlexList.Read_Remove_ne _ _ _ hne]
      simp [FlexList.removeAll, mapDeleteAll, hcalls]
    · rw [FlexQueue.pruneLoop, if_neg hexp, ih _ hnd']
      have hec : expiredControls now ((d, t) :: visit) = expiredControls now visit := by
        simp [expiredControls, List.filter_cons, hexp]
      rw [hec]

/-- The digest is the key of an expired control of the table exactly when it is expired
under lookup. -/
theorem mem_expiredControls_keys (now : Int) (m : List (String × TTL C))
    (hnd : (m.map Prod.fst).Nodup) (mx : Int) (l : FlexList V) (k : String) :
    k ∈ (expiredControls now m).map Prod.fst ↔
      (⟨l, m, mx⟩ : FlexQueue C V).expiredAt now k = true := by
  rw [FlexQueue.expiredAt_eq_true_iff]
  constructor
  · intro hk
    obtain ⟨p, hp, rfl⟩ := List.mem_map.1 hk
    obtain ⟨hpm, hexp⟩ := List.mem_filter.1 hp
    exact ⟨p.2, mapLookup_of_mem m p.1 p.2 hnd hpm, hexp⟩
  · rintro ⟨t, hl, hexp⟩
    exact List.mem_map.2 ⟨(k, t), List.mem_filter.2 ⟨mem_of_mapLookup _ _ _ hl, hexp⟩, rfl⟩

/-- Prune on a well-formed queue: it returns true when a control of the table is
expired; the entries left are the entries that are not expired, in their order; the
controls left are the controls that are not expired; and one callback is fired for
each expired control, in the order of the table, with the message read from the
list. -/
theorem FlexQueue.Prune_spec (q : FlexQueue C V) (now : Int) (hwf : q.WF) :
    (q.Prune now).ret = !(expiredControls now q.ttl).isEmpty ∧
    (q.Prune now).q.messages.entries =
      q.messages.entries.filter (fun p => !q.expiredAt now p.1) ∧
    (q.Prune now).q.ttl = q.ttl.filter (fun p => !p.2.Expired now) ∧
    (q.Prune now).q.max = q.max ∧
    (q.Prune now).calls = (expiredControls now q.ttl).map
      (fun p => ⟨p.2.Callback, p.1, (q.messages.Read p.1).1⟩) ∧
    (q.Prune now).q.WF := by
  have hq : q.Prune now = _ := FlexQueue.pruneLoop_eq now q.ttl ⟨false, q, []⟩ hwf.2
  have hwf' : (q.Prune now).q.WF := Prims.chain_WF (Prims.pruneLoop now q.ttl ⟨false, q, []⟩) hwf
  refine ⟨?_, ?_, ?_, ?_, ?_, hwf'⟩
  · rw [hq]; simp
  · rw [hq]
    simp only
    rw [FlexList.entries_removeAll _ hwf.1]
    apply List.filter_congr
    intro p _
    have := mem_expiredControls_keys now q.ttl hwf.2 q.max q.messages p.1
    by_cases h : p.1 ∈ (expiredControls now q.ttl).map Prod.fst
    · have h2 : q.expiredAt now p.1 = true := this.1 h
      simp only [h, not_true_eq_false, decide_False]
      rw [h2]; rfl
    · have h2 : q.expiredAt now p.1 = false := by
        cases hh : q.expiredAt now p.1 with
        | false => rfl
        | true => exact absurd (this.2 hh) h
      simp only [h, not_false_eq_true, decide_True]
      rw [h2]; rfl
  · rw [hq]
    simp only
    rw [mapDeleteAll_eq_filter]
    apply List.filter_congr
    intro p hp
    have := mem_expiredControls_keys now q.ttl hwf.2 q.max q.messages p.1
    have hl := mapLookup_of_mem q.ttl p.1 p.2 hwf.2 hp
    have he : q.expiredAt now p.1 = p.2.Expired now := by simp [FlexQueue.expiredAt, hl]
    by_cases h : p.1 ∈ (expiredControls now q.ttl).map Prod.fst
    · have h2 := this.1 h
      rw [show (⟨q.messages, q.ttl, q.max⟩ : FlexQueue C V) = q from rfl, he] at h2
      simp only [h, not_true_eq_false, decide_False]
      rw [h2]; rfl
    · have h2 : p.2.Expired now = false := by
        cases hh : p.2.Expired now with
        | false => rfl
        | true =>
          refine absurd (this.2 ?_) h
          rw [show (⟨q.messages, q.ttl, q.max⟩ : FlexQueue C V) = q from rfl, he, hh]
      simp only [h, not_false_eq_true, decide_True]
      rw [h2]; rfl
  · rw [hq]
  · rw [hq]; simp

theorem callsFor_map_keys (d : String) (m : List (String × TTL C)) (msg : String → Option V) :
    callsFor d (m.map (fun p => (⟨p.2.Callback, p.1, msg p.1⟩ : Call C V))) =
      (m.map Prod.fst).count d := by
  induction m with
  | nil => rfl
  | cons p m ih =>
    simp only [callsFor, List.map_cons, List.filter_cons, List.count_cons] at ih ⊢
    by_cases h : p.1 = d
    · simp [h, ih]
    · simp [h, ih]

/-- Prune on a well-formed queue fires one callback for each digest that is expired
under lookup, and none for the other digests. -/
theorem FlexQueue.Prune_callsFor_eq (q : FlexQueue C V) (now : Int) (hwf : q.WF) (d : String) :
    callsFor d (q.Prune now).calls = if q.expiredAt now d = true then 1 else 0 := by
  rw [(FlexQueue.Prune_spec q now hwf).2.2.2.2.1]
  rw [callsFor_map_keys d (expiredControls now q.ttl) (fun k => (q.messages.Read k).1)]
  have hnd : ((expiredControls now q.ttl).map Prod.fst).Nodup :=
    List.Nodup.sublist (List.Sublist.map _ (List.filter_sublist _)) hwf.2
  rw [List.count_eq_of_nodup hnd]
  have := mem_expiredControls_keys now q.ttl hwf.2 q.max q.messages d
  by_cases h : d ∈ (expiredControls now q.ttl).map Prod.fst
  · rw [if_pos h, if_pos (this.1 h)]
  · rw [if_neg h, if_neg (fun h2 => h (this.2 h2))]

/-- Prune on a well-formed queue in which every control has its message: as many
entries are removed as the table has expired controls, each callback is fired with an
entry of the list, and the result is true exactly when Len has decreased. -/
theorem FlexQueue.Prune_sweep (q : FlexQueue C V) (now : Int) (hwf : q.WF) (hns : q.NoStale) :
    (q.Prune now).q.Len = q.Len - (expiredControls now q.ttl).length ∧
    (q.Prune now).calls.length = (expiredControls now q.ttl).length ∧
    (∀ c ∈ (q.Prune now).calls, (c.digest, c.message) ∈ q.messages.entries ∧
      q.expiredAt now c.digest = true) ∧
    ((q.Prune now).ret = true ↔ (q.Prune now).q.Len < q.Len) ∧
    (∀ p ∈ (q.Prune now).q.ttl, p.2.Expired now = false) := by
  obtain ⟨hret, hent, httl, -, hcalls, -⟩ := FlexQueue.Prune_spec q now hwf
  have hkeys : ((q.messages.entries.filter (fun p => q.expiredAt now p.1)).map Prod.fst).Perm
      ((expiredControls now q.ttl).map Prod.fst) := by
    refine (List.perm_ext_iff_of_nodup ?_ ?_).2 ?_
    · exact List.Nodup.sublist (List.Sublist.map _ (List.filter_sublist _)) hwf.1.nodup_keys
    · exact List.Nodup.sublist (List.Sublist.map _ (List.filter_sublist _)) hwf.2
    · intro k
      rw [mem_expiredControls_keys now q.ttl hwf.2 q.max q.messages k]
      constructor
      · intro hk
        obtain ⟨p, hp, rfl⟩ := List.mem_map.1 hk
        exact (List.mem_filter.1 hp).2
      · intro hk
        obtain ⟨t, hl, -⟩ := (FlexQueue.expiredAt_eq_true_iff q now k).1 hk
        have hhas : q.messages.Has k = true := hns (k, t) (mem_of_mapLookup _ _ _ hl)
        obtain ⟨p, hp, rfl⟩ := List.mem_map.1 ((hwf.1.Has_iff k).1 hhas)
        exact List.mem_map.2 ⟨p, List.mem_filter.2 ⟨hp, hk⟩, rfl⟩
  have hcount : (q.messages.entries.filter (fun p => q.expiredAt now p.1)).length =
      (expiredControls now q.ttl).length := by
    simpa using hkeys.length_eq
  have hsplit : q.messages.entries.length =
      (q.messages.entries.filter (fun p => q.expiredAt now p.1)).length +
      (q.messages.entries.filter (fun p => !q.expiredAt now p.1)).length := by
    have := List.length_eq_length_filter_add (l := q.messages.entries)
      (fun p => q.expiredAt now p.1)
    simpa using this
  have hlen : (q.Prune now).q.Len = q.Len - (expiredControls now q.ttl).length := by
    have h1 : (q.Prune now).q.Len = ((q.Prune now).q.messages.entries.length : Int) := by
      simp [FlexQueue.Len, FlexList.Len, LinkedList.Len, FlexList.entries]
    have h2 : q.Len = (q.messages.entries.length : Int) := by
      simp [FlexQueue.Len, FlexList.Len, LinkedList.Len, FlexList.entries]
    rw [h1, h2, hent]
    omega
  refine ⟨hlen, ?_, ?_, ?_, ?_⟩
  · rw [hcalls, List.length_map]
  · intro c hc
    rw [hcalls] at hc
    obtain ⟨p, hp, rfl⟩ := List.mem_map.1 hc
    obtain ⟨hpm, hexp⟩ := List.mem_filter.1 hp
    have hl := mapLookup_of_mem q.ttl p.1 p.2 hwf.2 hpm
    have hhas : q.messages.Has p.1 = true := hns p hpm
    obtain ⟨e, he⟩ := (FlexList.Has_eq_true_iff _ _).1 hhas
    obtain ⟨hmem, hidx⟩ := hwf.1.lookup he
    refine ⟨?_, by simp [FlexQueue.expiredAt, hl, hexp]⟩
    simp only [FlexList.Read, he, FlexList.entries, List.mem_map]
    exact ⟨e, hmem, by rw [hidx]⟩
  · rw [hret, hlen]
    cases hE : expiredControls now q.ttl with
    | nil => simp
    | cons p rest => simp
  · intro p hp
    rw [httl] at hp
    simpa using (List.mem_filter.1 hp).2

end PruneFacts

/-! ### Without a pull every control keeps its message -/

section NoStaleFacts
variable {C V : Type}

theorem mem_mapStore_or {α : Type} (m : List (String × α)) (k : String) (v : α)
    (p : String × α) (h : p ∈ mapStore m k v) : p = (k, v) ∨ p ∈ m := by
  induction m with
  | nil => simpa [mapStore] using h
  | cons x m ih =>
    obtain ⟨k', v'⟩ := x
    simp only [mapStore] at h
    split at h
    · rcases List.mem_cons.1 h with h | h
      · exact Or.inl h
      · exact Or.inr (List.mem_cons_of_mem _ h)
    · rcases List.mem_cons.1 h with h | h
      · exact Or.inr (h ▸ List.mem_cons_self _ _)
      · rcases ih h with h | h
        · exact Or.inl h
        · exact Or.inr (List.mem_cons_of_mem _ h)

theorem FlexList.Has_Update (l : FlexList V) (d k : String) (v : Option V) :
    (l.Update d v).2.Has k = l.Has k := by
  by_cases hk : k = d
  · subst hk
    cases hl : mapLookup l.indices k with
    | none => rw [FlexList.Update_absent l k v hl]
    | some e =>
      obtain ⟨e', he', -⟩ := FlexList.Update_index_self l k v e hl
      simp [FlexList.Has, he', hl]
  · simp [FlexList.Has, FlexList.Update_index_ne l d k v hk]

theorem FlexQueue.NoStale_mono {q q' : FlexQueue C V} (h : q.NoStale)
    (hidx : ∀ k, q.messages.Has k = true → q'.messages.Has k = true)
    (httl : ∀ p ∈ q'.ttl, p ∈ q.ttl) : q'.NoStale :=
  fun p hp => hidx p.1 (h p (httl p hp))

/-- The removal of a digest from the message list and from the TTL table keeps every
other control with its message. -/
theorem FlexQueue.NoStale_drop (q : FlexQueue C V) (h : q.NoStale) (d : String) :
    (⟨(q.messages.Remove d).2, mapDelete q.ttl d, q.max⟩ : FlexQueue C V).NoStale := by
  intro p hp
  obtain ⟨hpm, hne⟩ := (mem_mapDelete _ _ _).1 hp
  have := h p hpm
  simpa [FlexList.Has, FlexList.Remove_index_ne _ d p.1 hne] using this

theorem FlexQueue.NoStale_pruneMessage (q : FlexQueue C V) (now : Int) (d : String)
    (h : q.NoStale) : (q.pruneMessage now d).q.NoStale := by
  by_cases hp : (q.pruneMessage now d).ret = true
  · rw [FlexQueue.pruneMessage_fired q now d hp]
    exact FlexQueue.NoStale_drop q h d
  · rw [FlexQueue.pruneMessage_of_ret_false q now d (by simpa using hp)]
    exact h

theorem FlexQueue.NoStale_pushFB (q : FlexQueue C V) (front : Bool) (d : String)
    (v : Option V) (h : q.NoStale) : (q.pushFB front d v).2.NoStale := by
  refine FlexQueue.NoStale_mono h ?_ ?_
  · intro k hk
    obtain ⟨e, he⟩ := (FlexList.Has_eq_true_iff _ _).1 hk
    exact (FlexList.Has_eq_true_iff _ _).2 ⟨e, pushFB_index q front d k v e he⟩
  · intro p hp
    rwa [pushFB_ttl] at hp

/-- After a pushFB that returned true the digest is in the message list. -/
theorem FlexQueue.Has_pushFB (q : FlexQueue C V) (front : Bool) (d : String) (v : Option V)
    (h : (q.pushFB front d v).1 = true) : (q.pushFB front d v).2.messages.Has d = true := by
  by_cases hd : q.messages.Has d = true
  · rw [pushFB_dup q front d v hd]
    exact hd
  · have hd' : q.messages.Has d = false := by simpa using hd
    by_cases hf : q.IsFull = true
    · rw [pushFB_full q front d v hd' hf] at h
      cases h
    · rw [pushFB_room q front d v hd' (by simpa using hf)]
      cases front
      · simp [FlexList.PushBack_absent _ d v hd', FlexList.Has, mapLookup_mapStore_self]
      · simp [FlexList.PushFront_absent _ d v hd', FlexList.Has, mapLookup_mapStore_self]

theorem FlexQueue.NoStale_pushFBTTL (q : FlexQueue C V) (now checked : Int) (front : Bool)
    (d : String) (v : Option V) (ttl : Int) (cb : C) (h : q.NoStale) :
    (q.pushFBTTL now checked front d v ttl cb).q.NoStale := by
  unfold FlexQueue.pushFBTTL
  split
  · exact h
  · split
    · rename_i hok
      intro p hp
      rcases mem_mapStore_or _ _ _ _ hp with rfl | hp
      · exact FlexQueue.Has_pushFB q front d v hok
      · exact FlexQueue.NoStale_pushFB q front d v h p hp
    · exact FlexQueue.NoStale_pushFB q front d v h

theorem FlexQueue.NoStale_readFB (q : FlexQueue C V) (front : Bool) (now : Int)
    (h : q.NoStale) : (q.readFB front now).q.NoStale := by
  refine readFB_induct front now (fun q out => q.NoStale → out.q.NoStale) ?_ ?_ ?_ q h
  · intro q _ h; exact h
  · intro q _ _ h; exact h
  · intro q p _ hp _ ih h
    exact ih (hp ▸ FlexQueue.NoStale_pruneMessage q now _ h)

theorem FlexQueue.NoStale_pruneLoop (now : Int) (visit : List (String × TTL C))
    (acc : Outcome C V Bool) (h : acc.q.NoStale) :
    (FlexQueue.pruneLoop now visit acc).q.NoStale := by
  induction visit generalizing acc with
  | nil => exact h
  | cons p visit ih =>
    obtain ⟨d, t⟩ := p
    rw [FlexQueue.pruneLoop]
    split
    · exact ih _ (FlexQueue.NoStale_drop acc.q h d)
    · exact ih _ h

/-- A call that is no pull keeps every control of the TTL table with its message. -/
theorem step_NoStale (q : FlexQueue C V) (now : Int) (op : Op C V) (h : q.NoStale)
    (hop : op.isPull = false) : (step q now op).q.NoStale := by
  cases op with
  | pushFront d m => exact FlexQueue.NoStale_pushFB q true d m h
  | pushBack d m => exact FlexQueue.NoStale_pushFB q false d m h
  | pushFrontTTL d m t cb lag =>
    exact FlexQueue.NoStale_pushFBTTL q now (now + lag) true d m t cb h
  | pushBackTTL d m t cb lag =>
    exact FlexQueue.NoStale_pushFBTTL q now (now + lag) false d m t cb h
  | pull d => simp [Op.isPull] at hop
  | pullFront => simp [Op.isPull] at hop
  | pullBack => simp [Op.isPull] at hop
  | read d =>
    have hp := FlexQueue.NoStale_pruneMessage q now d h
    simp only [step, FlexQueue.Read]
    split <;> exact hp
  | readFront => exact FlexQueue.NoStale_readFB q true now h
  | readBack => exact FlexQueue.NoStale_readFB q false now h
  | update d m =>
    have hp := FlexQueue.NoStale_pruneMessage q now d h
    simp only [step, FlexQueue.Update]
    split
    · exact hp
    · refine FlexQueue.NoStale_mono hp ?_ (fun p hp => hp)
      intro k hk
      simpa [FlexList.Has_Update] using hk
  | resetTTL d t lag1 lag2 =>
    have hp := FlexQueue.NoStale_pruneMessage q now d h
    simp only [step, FlexQueue.ResetTTL]
    split
    · exact hp
    · split
      · exact hp
      · rename_i old hold
        split
        · exact hp
        · intro p hpm
          rcases mem_mapStore_or _ _ _ _ hpm with rfl | hpm
          · exact hp (d, old) (mem_of_mapLookup _ _ _ hold)
          · exact hp p hpm
  | remove d =>
    have hp := FlexQueue.NoStale_pruneMessage q now d h
    simp only [step, FlexQueue.Remove]
    split
    · exact hp
    · split
      · exact FlexQueue.NoStale_drop _ hp d
      · rename_i hrem
        have : mapLookup (q.pruneMessage now d).q.messages.indices d = none := by
          cases hl : mapLookup (q.pruneMessage now d).q.messages.indices d with
          | none => rfl
          | some e => simp [FlexList.Remove, hl] at hrem
        rw [FlexList.Remove_absent _ _ this]
        exact hp
  | prune => exact FlexQueue.NoStale_pruneLoop now q.ttl ⟨false, q, []⟩ h
  | has d =>
    have hp := FlexQueue.NoStale_pruneMessage q now d h
    simp only [step, FlexQueue.Has]
    split <;> exact hp
  | len => exact h
  | max => exact h
  | isFull => exact h
  | isEmpty => exact h

/-- A run without a pull keeps every control of the TTL table with its message. -/
theorem run_NoStale (q : FlexQueue C V) (ops : List (Int × Op C V)) (h : q.NoStale)
    (hops : ∀ x ∈ ops, x.2.isPull = false) : (run q ops).q.NoStale := by
  induction ops generalizing q with
  | nil => exact h
  | cons x ops ih =>
    obtain ⟨now, op⟩ := x
    exact ih _ (step_NoStale q now op h (hops (now, op) (List.mem_cons_self _ _)))
      (fun y hy => hops y (List.mem_cons_of_mem _ hy))

theorem FlexQueue.NoStale_New (m : Int) : ((NewFlexQueue : FlexQueue C V).SetMax m).NoStale := by
  intro p hp
  unfold FlexQueue.SetMax at hp
  split at hp <;> simp [NewFlexQueue] at hp

/-- When every control has its message, a digest that is not in the list is not
expired: it has no control. -/
theorem FlexQueue.NoStale.not_expired {q : FlexQueue C V} (h : q.NoStale) (now : Int)
    (d : String) (habs : q.messages.Has d = false) : q.expiredAt now d = false := by
  cases hl : mapLookup q.ttl d with
  | none => simp [FlexQueue.expiredAt, hl]
  | some t =>
    have := h (d, t) (mem_of_mapLookup _ _ _ hl)
    rw [habs] at this
    cases this

/-- When every control has its message, Remove and Pull of a digest that is not in the
list return not found, fire no callback and change nothing. -/
theorem FlexQueue.NoStale.absent_untouched {q : FlexQueue C V} (h : q.NoStale) (now : Int)
    (d : String) (habs : q.messages.Has d = false) :
    q.Remove now d = ⟨false, q, []⟩ ∧ q.Pull now d = ⟨(none, false), q, []⟩ :=
  ⟨FlexQueue.Remove_missing q now d habs (h.not_expired now d habs),
    FlexQueue.Pull_missing q now d habs (h.not_expired now d habs)⟩

/-- Prune after a run without a pull from the empty queue: as many entries are removed
as the table has expired controls, each callback is fired once, for an entry of the
list whose control is expired, and the result is true exactly when Len has
decreased. -/
theorem Prune_after_run (m : Int) (ops : List (Int × Op C V)) (now : Int)
    (hops : ∀ x ∈ ops, x.2.isPull = false) :
    ((run ((NewFlexQueue : FlexQueue C V).SetMax m) ops).q.Prune now).q.Len =
      (run ((NewFlexQueue : FlexQueue C V).SetMax m) ops).q.Len -
        (expiredControls now (run ((NewFlexQueue : FlexQueue C V).SetMax m) ops).q.ttl).length ∧
    ((run ((NewFlexQueue : FlexQueue C V).SetMax m) ops).q.Prune now).calls.length =
      (expiredControls now (run ((NewFlexQueue : FlexQueue C V).SetMax m) ops).q.ttl).length ∧
    (∀ c ∈ ((run ((NewFlexQueue : FlexQueue C V).SetMax m) ops).q.Prune now).calls,
      (c.digest, c.message) ∈
        (run ((NewFlexQueue : FlexQueue C V).SetMax m) ops).q.messages.entries ∧
      (run ((NewFlexQueue : FlexQueue C V).SetMax m) ops).q.expiredAt now c.digest = true) ∧
    (((run ((NewFlexQueue : FlexQueue C V).SetMax m) ops).q.Prune now).ret = true ↔
      ((run ((NewFlexQueue : FlexQueue C V).SetMax m) ops).q.Prune now).q.Len <
        (run ((NewFlexQueue : FlexQueue C V).SetMax m) ops).q.Len) ∧
    (∀ p ∈ ((run ((NewFlexQueue : FlexQueue C V).SetMax m) ops).q.Prune now).q.ttl,
      p.2.Expired now = false) :=
  FlexQueue.Prune_sweep _ now (run_WF m ops)
    (run_NoStale _ ops (FlexQueue.NoStale_New m) hops)

end NoStaleFacts


/-- C21: on a well-formed queue that holds `d` with the message `v` under a control
that is not expired at `now`, the reading of the clock in pruneMessage, ResetTTL with a
negative duration, whose new expiry is before the reading in NewTTL (`created`) and so
before the reading in Expired (`checked`), which is not earlier, returns false, fires
the callback of the old control exactly once, with (d, v), and writes nothing: the
entries, the TTL table with the old control of `d` and the maximum are as before. -/
theorem C21_reset_elapsed {C V : Type} (q : FlexQueue C V) (now created checked : Int)
    (d : String)
    (v : Option V) (duration : Int) (old : TTL C) (pre post : List (String × Option V))
    (hwf : q.messages.WF) (hs : q.messages.entries = pre ++ (d, v) :: post)
    (hctl : mapLookup q.ttl d = some old) (hlive : ¬ old.Expires < now)
    (hneg : duration < 0) (hclock : created ≤ checked) :
    (q.ResetTTL now created checked d duration).ret = false ∧
    (q.ResetTTL now created checked d duration).calls = [⟨old.Callback, d, v⟩] ∧
    callsFor d (q.ResetTTL now created checked d duration).calls = 1 ∧
    (q.ResetTTL now created checked d duration).q = q ∧
    (q.ResetTTL now created checked d duration).q.messages.entries =
      pre ++ (d, v) :: post ∧
    mapLookup (q.ResetTTL now created checked d duration).q.ttl d = some old ∧
    (q.ResetTTL now created checked d duration).q.Len = q.Len := by
  obtain ⟨pe, po, e, hel, hpe, hpo, rfl, rfl⟩ := q.messages.entries_split pre post _ _ hs
  rw [FlexQueue.ResetTTL_elapsed q now created checked hwf e (by rw [hel]; simp) old hctl
    hlive duration (by omega)]
  exact ⟨rfl, rfl, by simp [callsFor], rfl, hs, hctl, rfl⟩

theorem C21_reset_elapsed_witness :
    ttlQueue.messages.WF ∧
    ttlQueue.messages.entries = [("A", some 1)] ++ ("B", some 2) :: [("C", some 3)] ∧
    mapLookup ttlQueue.ttl "B" = some ⟨30, 8⟩ ∧ ¬ (⟨30, 8⟩ : TTL Nat).Expires < 12 ∧
    (-5 : Int) < 0 ∧ (13 : Int) ≤ 14 ∧
    ((ttlQueue.ResetTTL 12 13 14 "B" (-5)).ret = false ∧
    (ttlQueue.ResetTTL 12 13 14 "B" (-5)).calls =
      [⟨(⟨30, 8⟩ : TTL Nat).Callback, "B", some 2⟩] ∧
    callsFor "B" (ttlQueue.ResetTTL 12 13 14 "B" (-5)).calls = 1 ∧
    (ttlQueue.ResetTTL 12 13 14 "B" (-5)).q = ttlQueue ∧
    (ttlQueue.ResetTTL 12 13 14 "B" (-5)).q.messages.entries =
      [("A", some 1)] ++ ("B", some 2) :: [("C", some 3)] ∧
    mapLookup (ttlQueue.ResetTTL 12 13 14 "B" (-5)).q.ttl "B" = some ⟨30, 8⟩ ∧
    (ttlQueue.ResetTTL 12 13 14 "B" (-5)).q.Len = ttlQueue.Len) :=
  ⟨by decide, by decide, by decide, by decide, by decide, by decide,
    C21_reset_elapsed ttlQueue 12 13 14 "B" (some 2) (-5) ⟨30, 8⟩ [("A", some 1)]
      [("C", some 3)] (by decide) (by decide) (by decide) (by decide) (by decide) (by decide)⟩


/-- C22 (evaluation at the failing input): in the queue left by a push of "A" with a TTL
of 10 at instant 0 and a PullFront at instant 1, "A" is absent and its control is still
in the TTL table; Remove of "A" at instant 20 returns false, but it fires the callback
with a nil message and deletes the control, so the queue is not as it was. -/
theorem C22_remove_absent_stale :
    staleQueue.messages.Has "A" = false ∧ staleQueue.messages.entries = [] ∧
    mapLookup staleQueue.ttl "A" = some ⟨10, 7⟩ ∧
    (staleQueue.Remove 20 "A").ret = false ∧
    (staleQueue.Remove 20 "A").calls = [⟨7, "A", none⟩] ∧
    (staleQueue.Remove 20 "A").q.ttl = [] ∧
    (staleQueue.Remove 20 "A").q ≠ staleQueue := by
  decide


/-- C23 (evaluation at the failing input): in the queue of "A" and "B", pushed at the
instants 0 and 2 with TTLs that expire at the instant 10, after a PullFront at instant 4
that returned "A", the list holds "B" only and the TTL table holds the controls of "A"
and of "B"; Prune at instant 20 removes the one entry "B" and fires two callbacks, one
of them for "A", which is no entry of the queue, with a nil message. -/
theorem C23_prune_stale_control :
    halfStaleQueue.WF ∧ halfStaleQueue.messages.entries = [("B", some 2)] ∧
    halfStaleQueue.ttl = [("A", ⟨10, 7⟩), ("B", ⟨10, 8⟩)] ∧
    halfStaleQueue.messages.Has "A" = false ∧
    (halfStaleQueue.Prune 20).q.messages.entries = [] ∧
    halfStaleQueue.Len - (halfStaleQueue.Prune 20).q.Len = 1 ∧
    (halfStaleQueue.Prune 20).calls = [⟨7, "A", none⟩, ⟨8, "B", some 2⟩] ∧
    callsFor "A" (halfStaleQueue.Prune 20).calls = 1 := by
  decide


/-- C24 (evaluation at the failing input): in the queue left by a push of "A" with a TTL
of 10 at instant 0 and a PullFront at instant 1, the list is empty and the control of
"A" is still in the TTL table; Prune at instant 20 returns true although it removes no
entry: Len is 0 before and after. -/
theorem C24_prune_true_without_removal :
    staleQueue.WF ∧ staleQueue.messages.entries = [] ∧ staleQueue.Len = 0 ∧
    staleQueue.ttl = [("A", ⟨10, 7⟩)] ∧
    (staleQueue.Prune 20).ret = true ∧
    (staleQueue.Prune 20).q.messages.entries = [] ∧
    (staleQueue.Prune 20).q.Len = 0 ∧
    ¬ (staleQueue.Prune 20).q.Len < staleQueue.Len := by
  decide


/-- C25 (evaluation at the failing input): in the queue left by a push of "A" with a TTL
of 10 at instant 0 and a PullFront at instant 1, "A" is absent and its control is still
in the TTL table; Pull of "A" at instant 20 returns (nil, false), but it fires the
callback with a nil message and deletes the control, so the queue is not as it was. -/
theorem C25_pull_absent_stale :
    staleQueue.messages.Has "A" = false ∧ staleQueue.messages.entries = [] ∧
    mapLookup staleQueue.ttl "A" = some ⟨10, 7⟩ ∧
    (staleQueue.Pull 20 "A").ret = (none, false) ∧
    (staleQueue.Pull 20 "A").calls = [⟨7, "A", none⟩] ∧
    (staleQueue.Pull 20 "A").q.ttl = [] ∧
    (staleQueue.Pull 20 "A").q ≠ staleQueue := by
  decide


/-- C26: in every state of a FlexList reached from NewFlexList by calls of its methods,
the keys of the index map are the keys carried by the elements of the linked list, no
key is carried by two elements and no key is indexed twice, every index entry refers to
an element that is linked in the list and carries the key of the entry, every element
is the one its key is indexed to, Has is true exactly for these keys, and Len is their
number. -/
theorem C26_bijection {V : Type} (ops : List (ListOp V)) :
    (∀ k, k ∈ ((NewFlexList : FlexList V).afterAll ops).indices.map Prod.fst ↔
      k ∈ ((NewFlexList : FlexList V).afterAll ops).entries.map Prod.fst) ∧
    (((NewFlexList : FlexList V).afterAll ops).entries.map Prod.fst).Nodup ∧
    (((NewFlexList : FlexList V).afterAll ops).indices.map Prod.fst).Nodup ∧
    (∀ p ∈ ((NewFlexList : FlexList V).afterAll ops).indices,
      p.2 ∈ ((NewFlexList : FlexList V).afterAll ops).items.elems ∧ p.2.Value.index = p.1) ∧
    (∀ e ∈ ((NewFlexList : FlexList V).afterAll ops).items.elems,
      mapLookup ((NewFlexList : FlexList V).afterAll ops).indices e.Value.index = some e) ∧
    (∀ k, ((NewFlexList : FlexList V).afterAll ops).Has k = true ↔
      k ∈ ((NewFlexList : FlexList V).afterAll ops).entries.map Prod.fst) ∧
    ((NewFlexList : FlexList V).afterAll ops).Len =
      (((NewFlexList : FlexList V).afterAll ops).entries.map Prod.fst).length ∧
    ((NewFlexList : FlexList V).afterAll ops).Len =
      ((NewFlexList : FlexList V).afterAll ops).indices.length := by
  have h := FlexList.WF_afterAll (NewFlexList : FlexList V) FlexList.WF_New ops
  refine ⟨h.keys_iff, h.nodup_keys, h.2.2.1, h.2.2.2.1, h.2.2.2.2, h.Has_iff, ?_, ?_⟩
  · simp [FlexList.Len, LinkedList.Len, FlexList.entries]
  · simp [FlexList.Len, LinkedList.Len, h.length_indices]

theorem C26_bijection_witness :
    (∀ k, k ∈ ((NewFlexList : FlexList Nat).afterAll listRun).indices.map Prod.fst ↔
      k ∈ ((NewFlexList : FlexList Nat).afterAll listRun).entries.map Prod.fst) ∧
    (((NewFlexList : FlexList Nat).afterAll listRun).entries.map Prod.fst).Nodup ∧
    (((NewFlexList : FlexList Nat).afterAll listRun).indices.map Prod.fst).Nodup ∧
    (∀ p ∈ ((NewFlexList : FlexList Nat).afterAll listRun).indices,
      p.2 ∈ ((NewFlexList : FlexList Nat).afterAll listRun).items.elems ∧
      p.2.Value.index = p.1) ∧
    (∀ e ∈ ((NewFlexList : FlexList Nat).afterAll listRun).items.elems,
      mapLookup ((NewFlexList : FlexList Nat).afterAll listRun).indices e.Value.index =
        some e) ∧
    (∀ k, ((NewFlexList : FlexList Nat).afterAll listRun).Has k = true ↔
      k ∈ ((NewFlexList : FlexList Nat).afterAll listRun).entries.map Prod.fst) ∧
    ((NewFlexList : FlexList Nat).afterAll listRun).Len =
      (((NewFlexList : FlexList Nat).afterAll listRun).entries.map Prod.fst).length ∧
    ((NewFlexList : FlexList Nat).afterAll listRun).Len =
      ((NewFlexList : FlexList Nat).afterAll listRun).indices.length :=
  C26_bijection listRun


/-- C27: on every well-formed list, the empty list included, PushFront and PushBack
return true exactly when the key is carried by no element.  For a key `k` that no
element carries the new sequence is the pair (k, v) followed by the old sequence
(PushBack: the old sequence followed by the pair) and Len grows by 1; for a key `k'`
that an element carries they return false and the list, with the value stored for `k'`,
is the list before. -/
theorem C27_push_iff_absent {V : Type} (l : FlexList V) (hwf : l.WF) :
    (∀ (x : String) (w : Option V),
      ((l.PushFront x w).1 = true ↔ x ∉ l.entries.map Prod.fst) ∧
      ((l.PushBack x w).1 = true ↔ x ∉ l.entries.map Prod.fst)) ∧
    (∀ (k : String) (v : Option V), k ∉ l.entries.map Prod.fst →
      (l.PushFront k v).1 = true ∧
      (l.PushFront k v).2.entries = (k, v) :: l.entries ∧
      (l.PushFront k v).2.Len = l.Len + 1 ∧
      (l.PushBack k v).1 = true ∧
      (l.PushBack k v).2.entries = l.entries ++ [(k, v)] ∧
      (l.PushBack k v).2.Len = l.Len + 1) ∧
    (∀ (k' : String) (v' : Option V), k' ∈ l.entries.map Prod.fst →
      l.PushFront k' v' = (false, l) ∧ l.PushBack k' v' = (false, l)) := by
  refine ⟨?_, ?_, ?_⟩
  · intro x w
    by_cases hx : x ∈ l.entries.map Prod.fst
    · rw [FlexList.PushFront_present l x w ((hwf.Has_iff x).2 hx),
        FlexList.PushBack_present l x w ((hwf.Has_iff x).2 hx)]
      exact ⟨⟨fun h => Bool.noConfusion h, fun h => absurd hx h⟩,
        ⟨fun h => Bool.noConfusion h, fun h => absurd hx h⟩⟩
    · rw [FlexList.PushFront_absent l x w (hwf.Has_false hx),
        FlexList.PushBack_absent l x w (hwf.Has_false hx)]
      exact ⟨⟨fun _ => hx, fun _ => rfl⟩, ⟨fun _ => hx, fun _ => rfl⟩⟩
  · intro k v hk
    rw [FlexList.PushFront_absent l k v (hwf.Has_false hk),
      FlexList.PushBack_absent l k v (hwf.Has_false hk)]
    refine ⟨rfl, ?_, ?_, rfl, ?_, ?_⟩ <;>
      simp [FlexList.entries, FlexList.Len, LinkedList.Len]
  · intro k' v' hk'
    rw [FlexList.PushFront_present l k' v' ((hwf.Has_iff k').2 hk'),
      FlexList.PushBack_present l k' v' ((hwf.Has_iff k').2 hk')]
    exact ⟨rfl, rfl⟩

theorem C27_push_iff_absent_witness :
    abcList.WF ∧ (NewFlexList : FlexList Nat).WF ∧
    (∀ (x : String) (w : Option Nat),
      (((NewFlexList : FlexList Nat).PushFront x w).1 = true ↔
        x ∉ (NewFlexList : FlexList Nat).entries.map Prod.fst) ∧
      (((NewFlexList : FlexList Nat).PushBack x w).1 = true ↔
        x ∉ (NewFlexList : FlexList Nat).entries.map Prod.fst)) ∧
    (((NewFlexList : FlexList Nat).PushFront "A" (some 1)).1 = true ∧
      ((NewFlexList : FlexList Nat).PushFront "A" (some 1)).2.entries =
        ("A", some 1) :: (NewFlexList : FlexList Nat).entries ∧
      ((NewFlexList : FlexList Nat).PushFront "A" (some 1)).2.Len =
        (NewFlexList : FlexList Nat).Len + 1 ∧
      ((NewFlexList : FlexList Nat).PushBack "A" (some 1)).1 = true ∧
      ((NewFlexList : FlexList Nat).PushBack "A" (some 1)).2.entries =
        (NewFlexList : FlexList Nat).entries ++ [("A", some 1)] ∧
      ((NewFlexList : FlexList Nat).PushBack "A" (some 1)).2.Len =
        (NewFlexList : FlexList Nat).Len + 1) ∧
    ((abcList.PushFront "D" (some 4)).1 = true ∧
      (abcList.PushFront "D" (some 4)).2.entries = ("D", some 4) :: abcList.entries ∧
      (abcList.PushFront "D" (some 4)).2.Len = abcList.Len + 1 ∧
      (abcList.PushBack "D" (some 4)).1 = true ∧
      (abcList.PushBack "D" (some 4)).2.entries = abcList.entries ++ [("D", some 4)] ∧
      (abcList.PushBack "D" (some 4)).2.Len = abcList.Len + 1) ∧
    (abcList.PushFront "B" (some 9) = (false, abcList) ∧
      abcList.PushBack "B" (some 9) = (false, abcList)) :=
  ⟨by decide, by decide,
    (C27_push_iff_absent (NewFlexList : FlexList Nat) (by decide)).1,
    (C27_push_iff_absent (NewFlexList : FlexList Nat) (by decide)).2.1 "A" (some 1)
      (by decide),
    (C27_push_iff_absent abcList (by decide)).2.1 "D" (some 4) (by decide),
    (C27_push_iff_absent abcList (by decide)).2.2 "B" (some 9) (by decide)⟩


/-- C28: on every well-formed list, the empty list included, Update returns true exactly
when the key is carried by an element.  For a key `k` that the sequence holds with the
value `v` between `pre` and `post`, Update returns true, the sequence is the same with
`v` replaced by the new value (the keys are the same at the same places), Len is as
before and Read of `k` returns the new value; for a key `k'` carried by no element
Update returns false and the list is the list before. -/
theorem C28_update_in_place {V : Type} (l : FlexList V) (hwf : l.WF) :
    (∀ (x : String) (w : Option V),
      (l.Update x w).1 = true ↔ x ∈ l.entries.map Prod.fst) ∧
    (∀ (k : String) (v v' : Option V) (pre post : List (String × Option V)),
      l.entries = pre ++ (k, v) :: post →
      (l.Update k v').1 = true ∧
      (l.Update k v').2.entries = pre ++ (k, v') :: post ∧
      (l.Update k v').2.entries.map Prod.fst = l.entries.map Prod.fst ∧
      (l.Update k v').2.Len = l.Len ∧
      (l.Update k v').2.Read k = (v', true)) ∧
    (∀ (k' : String) (v' : Option V), k' ∉ l.entries.map Prod.fst →
      l.Update k' v' = (false, l)) := by
  refine ⟨?_, ?_, ?_⟩
  · intro x w
    rw [← hwf.Has_iff x]
    cases hl : mapLookup l.indices x with
    | none =>
      rw [FlexList.Update_absent l x w hl, (FlexList.Has_eq_false_iff l x).2 hl]
    | some e =>
      rw [(FlexList.Has_eq_true_iff l x).2 ⟨e, hl⟩]
      simp [FlexList.Update, hl]
  · intro k v v' pre post hs
    obtain ⟨pe, po, e, hel, hpe, hpo, rfl, rfl⟩ := l.entries_split pre post _ _ hs
    rw [FlexList.Update_middle l hwf e pe po hel v']
    refine ⟨rfl, ?_, ?_, ?_, ?_⟩
    · simp [FlexList.entries, hpe, hpo]
    · rw [hs]
      simp [FlexList.entries, hpe, hpo]
    · simp [FlexList.Len, LinkedList.Len, hel]
    · simp [FlexList.Read, mapLookup_mapStore_self]
  · intro k' v' hk'
    exact FlexList.Update_absent l k' v'
      ((FlexList.Has_eq_false_iff l k').1 (hwf.Has_false hk'))

theorem C28_update_in_place_witness :
    abcList.WF ∧ (NewFlexList : FlexList Nat).WF ∧
    (∀ (x : String) (w : Option Nat),
      ((NewFlexList : FlexList Nat).Update x w).1 = true ↔
        x ∈ (NewFlexList : FlexList Nat).entries.map Prod.fst) ∧
    (NewFlexList : FlexList Nat).Update "A" (some 9) = (false, NewFlexList) ∧
    ((abcList.Update "B" (some 9)).1 = true ∧
      (abcList.Update "B" (some 9)).2.entries =
        [("A", some 1)] ++ ("B", some 9) :: [("C", some 3)] ∧
      (abcList.Update "B" (some 9)).2.entries.map Prod.fst = abcList.entries.map Prod.fst ∧
      (abcList.Update "B" (some 9)).2.Len = abcList.Len ∧
      (abcList.Update "B" (some 9)).2.Read "B" = (some 9, true)) ∧
    abcList.Update "D" (some 9) = (false, abcList) :=
  ⟨by decide, by decide,
    (C28_update_in_place (NewFlexList : FlexList Nat) (by decide)).1,
    (C28_update_in_place (NewFlexList : FlexList Nat) (by decide)).2.2 "A" (some 9)
      (by decide),
    (C28_update_in_place abcList (by decide)).2.1 "B" (some 2) (some 9) [("A", some 1)]
      [("C", some 3)] (by decide),
    (C28_update_in_place abcList (by decide)).2.2 "D" (some 9) (by decide)⟩


/-- C29: in every state of a FlexList, PullFront returns what ReadFront returns on that
state; when found is true the list after it is the list after Remove of the returned
key, and when found is false, as on a list without elements, it returns ("", nil,
false) and the list is the list before.  The same holds for PullBack with ReadBack and
for Pull of a key with Read of that key. -/
theorem C29_pull_is_read_remove {V : Type} (l : FlexList V) (k : String) :
    l.PullFront.1 = l.ReadFront ∧
    (l.ReadFront.2.2 = true → l.PullFront.2 = (l.Remove l.ReadFront.1).2) ∧
    (l.ReadFront.2.2 = false → l.PullFront = (("", none, false), l)) ∧
    (l.items.elems = [] → l.PullFront = (("", none, false), l)) ∧
    l.PullBack.1 = l.ReadBack ∧
    (l.ReadBack.2.2 = true → l.PullBack.2 = (l.Remove l.ReadBack.1).2) ∧
    (l.ReadBack.2.2 = false → l.PullBack = (("", none, false), l)) ∧
    (l.items.elems = [] → l.PullBack = (("", none, false), l)) ∧
    (l.Pull k).1 = l.Read k ∧
    ((l.Read k).2 = true → (l.Pull k).2 = (l.Remove k).2) ∧
    ((l.Read k).2 = false → l.Pull k = ((none, false), l)) ∧
    (l.WF → l.items.elems = [] → l.Pull k = ((none, false), l)) := by
  refine ⟨?_, ?_, ?_, FlexList.PullFront_nil l, ?_, ?_, ?_, FlexList.PullBack_nil l,
    ?_, ?_, ?_, ?_⟩
  · rw [FlexList.PullFront_eq]
    by_cases h : l.ReadFront.2.2 = true
    · rw [if_pos h, ← h]
    · rw [if_neg h, FlexList.ReadFront_of_not_found l (by simpa using h)]
  · intro h
    rw [FlexList.PullFront_eq, if_pos h]
  · intro h
    rw [FlexList.PullFront_eq, if_neg (by simp [h])]
  · rw [FlexList.PullBack_eq]
    by_cases h : l.ReadBack.2.2 = true
    · rw [if_pos h, ← h]
    · rw [if_neg h, FlexList.ReadBack_of_not_found l (by simpa using h)]
  · intro h
    rw [FlexList.PullBack_eq, if_pos h]
  · intro h
    rw [FlexList.PullBack_eq, if_neg (by simp [h])]
  · rw [FlexList.Pull_eq]
    by_cases h : (l.Read k).2 = true
    · rw [if_pos h, ← h]
    · rw [if_neg h, FlexList.Read_fst_of_not_found l k (by simpa using h)]
  · intro h
    rw [FlexList.Pull_eq, if_pos h]
  · intro h
    rw [FlexList.Pull_eq, if_neg (by simp [h])]
  · intro hwf hel
    have hk : k ∉ l.entries.map Prod.fst := by simp [FlexList.entries, hel]
    have hh := (FlexList.Has_eq_false_iff l k).1 (hwf.Has_false hk)
    simp [FlexList.Pull, FlexList.Read, hh]

theorem C29_pull_is_read_remove_witness :
    abcList.PullFront.1 = abcList.ReadFront ∧
    (abcList.ReadFront.2.2 = true →
      abcList.PullFront.2 = (abcList.Remove abcList.ReadFront.1).2) ∧
    (abcList.ReadFront.2.2 = false → abcList.PullFront = (("", none, false), abcList)) ∧
    (abcList.items.elems = [] → abcList.PullFront = (("", none, false), abcList)) ∧
    abcList.PullBack.1 = abcList.ReadBack ∧
    (abcList.ReadBack.2.2 = true →
      abcList.PullBack.2 = (abcList.Remove abcList.ReadBack.1).2) ∧
    (abcList.ReadBack.2.2 = false → abcList.PullBack = (("", none, false), abcList)) ∧
    (abcList.items.elems = [] → abcList.PullBack = (("", none, false), abcList)) ∧
    (abcList.Pull "B").1 = abcList.Read "B" ∧
    ((abcList.Read "B").2 = true → (abcList.Pull "B").2 = (abcList.Remove "B").2) ∧
    ((abcList.Read "B").2 = false → abcList.Pull "B" = ((none, false), abcList)) ∧
    (abcList.WF → abcList.items.elems = [] → abcList.Pull "B" = ((none, false), abcList)) :=
  C29_pull_is_read_remove abcList "B"


/-- C30: on a well-formed list whose sequence starts with (k1, v1), ends with (kn, vn)
and holds (k, v) between `pre` and `post`, ReadFront returns (k1, v1, true), ReadBack
returns (kn, vn, true), Read of `k` returns (v, true) and Read of a key carried by no
element returns (nil, false); on a list without elements ReadFront and ReadBack return
("", nil, false); and the list after each of these calls is the list before. -/
theorem C30_reads_keep_list {V : Type} (l : FlexList V) (hwf : l.WF)
    (k1 kn k k' : String) (v1 vn v : Option V) (rest1 restn pre post : List (String × Option V))
    (h1 : l.entries = (k1, v1) :: rest1) (hn : l.entries = restn ++ [(kn, vn)])
    (hs : l.entries = pre ++ (k, v) :: post) (hk' : k' ∉ l.entries.map Prod.fst) :
    l.ReadFront = (k1, v1, true) ∧ l.ReadBack = (kn, vn, true) ∧
    l.Read k = (v, true) ∧ l.Read k' = (none, false) ∧
    (∀ l0 : FlexList V, l0.entries = [] →
      l0.ReadFront = ("", none, false) ∧ l0.ReadBack = ("", none, false)) ∧
    l.after .readFront = l ∧ l.after .readBack = l ∧ l.after (.read k) = l ∧
    l.after (.read k') = l ∧
    (l.after .readFront).entries = l.entries ∧ (l.after .readFront).indices = l.indices ∧
    (l.after .readFront).Len = l.Len := by
  refine ⟨?_, ?_, ?_, ?_, ?_, rfl, rfl, rfl, rfl, rfl, rfl, rfl⟩
  · obtain ⟨pe, po, e, hel, hpe, hpo, rfl, rfl⟩ := l.entries_split [] rest1 _ _ h1
    have hpe' : pe = [] := by simpa using hpe
    subst hpe'
    exact FlexList.ReadFront_cons l e po hel
  · have hn' : l.entries = restn ++ (kn, vn) :: [] := hn
    obtain ⟨pe, po, e, hel, hpe, hpo, rfl, rfl⟩ := l.entries_split restn [] _ _ hn'
    have hpo' : po = [] := by simpa using hpo
    subst hpo'
    exact FlexList.ReadBack_snoc l e pe hel
  · obtain ⟨pe, po, e, hel, hpe, hpo, rfl, rfl⟩ := l.entries_split pre post _ _ hs
    exact FlexList.Read_of_mem l hwf e (by simp [hel])
  · have hh := (FlexList.Has_eq_false_iff l k').1 (hwf.Has_false hk')
    simp [FlexList.Read, hh]
  · intro l0 h0
    have hel : l0.items.elems = [] := by simpa [FlexList.entries] using h0
    exact ⟨FlexList.ReadFront_nil l0 hel, FlexList.ReadBack_nil l0 hel⟩

theorem C30_reads_keep_list_witness :
    abcList.WF ∧ abcList.entries = ("A", some 1) :: [("B", some 2), ("C", some 3)] ∧
    abcList.entries = [("A", some 1), ("B", some 2)] ++ [("C", some 3)] ∧
    abcList.entries = [("A", some 1)] ++ ("B", some 2) :: [("C", some 3)] ∧
    "D" ∉ abcList.entries.map Prod.fst ∧
    (abcList.ReadFront = ("A", some 1, true) ∧ abcList.ReadBack = ("C", some 3, true) ∧
    abcList.Read "B" = (some 2, true) ∧ abcList.Read "D" = (none, false) ∧
    (∀ l0 : FlexList Nat, l0.entries = [] →
      l0.ReadFront = ("", none, false) ∧ l0.ReadBack = ("", none, false)) ∧
    abcList.after .readFront = abcList ∧ abcList.after .readBack = abcList ∧
    abcList.after (.read "B") = abcList ∧ abcList.after (.read "D") = abcList ∧
    (abcList.after .readFront).entries = abcList.entries ∧
    (abcList.after .readFront).indices = abcList.indices ∧
    (abcList.after .readFront).Len = abcList.Len) :=
  ⟨by decide, by decide, by decide, by decide, by decide,
    C30_reads_keep_list abcList (by decide) "A" "C" "B" "D" (some 1) (some 3) (some 2)
      [("B", some 2), ("C", some 3)] [("A", some 1), ("B", some 2)] [("A", some 1)]
      [("C", some 3)] (by decide) (by decide) (by decide) (by decide)⟩


/-! ### Runs with SetMax -/

section ExecFacts
variable {C V : Type}

theorem Prim.keeps_max {q q' : FlexQueue C V} (h : Prim q q') : q'.max = q.max := by
  cases h <;> rfl

theorem Prims.chain_max {q q' : FlexQueue C V} (h : Prims q q') : q'.max = q.max := by
  induction h with
  | refl => rfl
  | tail _ hstep ih => rw [Prim.keeps_max hstep, ih]

/-- No operation other than SetMax writes the maximum. -/
theorem step_max (q : FlexQueue C V) (now : Int) (op : Op C V) :
    (step q now op).q.max = q.max :=
  Prims.chain_max (Prims.step q now op)

theorem FlexQueue.SetMax_max (q : FlexQueue C V) (m : Int) :
    (q.SetMax m).max = if m > NoMax then m else q.max := by
  unfold FlexQueue.SetMax
  split <;> rfl

theorem FlexQueue.WF_SetMax (q : FlexQueue C V) (m : Int) (h : q.WF) : (q.SetMax m).WF := by
  unfold FlexQueue.SetMax
  split
  · exact h
  · exact h

theorem exec_append (q : FlexQueue C V) (a b : List (Cmd C V)) :
    exec q (a ++ b) = ((exec (exec q a).1 b).1, (exec q a).2 ++ (exec (exec q a).1 b).2) := by
  induction a generalizing q with
  | nil => simp [exec]
  | cons c a ih =>
    cases c with
    | setMax m => simp [exec, ih]
    | call now op => simp [exec, ih]

/-- The representation invariant holds after every run with SetMax. -/
theorem exec_WF (q : FlexQueue C V) (cmds : List (Cmd C V)) (h : q.WF) : (exec q cmds).1.WF := by
  induction cmds generalizing q with
  | nil => exact h
  | cons c cmds ih =>
    cases c with
    | setMax m => exact ih _ (FlexQueue.WF_SetMax q m h)
    | call now op => exact ih _ (Prims.chain_WF (Prims.step q now op) h)

/-- The maximum is NoMax or not negative after every run with SetMax. -/
theorem exec_max (q : FlexQueue C V) (cmds : List (Cmd C V))
    (h : q.max = NoMax ∨ 0 ≤ q.max) : (exec q cmds).1.max = NoMax ∨ 0 ≤ (exec q cmds).1.max := by
  induction cmds generalizing q with
  | nil => exact h
  | cons c cmds ih =>
    cases c with
    | setMax m =>
      refine ih _ ?_
      rw [FlexQueue.SetMax_max]
      split
      · rename_i hm
        right
        simp only [NoMax] at hm
        omega
      · exact h
    | call now op =>
      refine ih _ ?_
      rw [step_max]
      exact h

end ExecFacts

/-! ### Where the invoked callbacks come from -/

section CallbackFacts
variable {C V : Type}

/-- The callbacks that pruneMessage invokes and leaves in the TTL table are callbacks of
the TTL table. -/
theorem pruneMessage_callbacks (P : C → Prop) (q : FlexQueue C V) (now : Int) (d : String)
    (hq : ∀ p ∈ q.ttl, P p.2.Callback) :
    (∀ p ∈ (q.pruneMessage now d).q.ttl, P p.2.Callback) ∧
    (∀ c ∈ (q.pruneMessage now d).calls, P c.callback) := by
  unfold FlexQueue.pruneMessage
  split
  · rename_i t ht
    split
    · refine ⟨fun p hp => hq p ((mem_mapDelete _ _ _).1 hp).1, ?_⟩
      intro c hc
      rw [List.mem_singleton.1 hc]
      exact hq (d, t) (mem_of_mapLookup _ _ _ ht)
    · exact ⟨hq, fun c hc => by cases hc⟩
  · exact ⟨hq, fun c hc => by cases hc⟩

theorem pullFB_callbacks (P : C → Prop) (q : FlexQueue C V) (front : Bool) (now : Int)
    (hq : ∀ p ∈ q.ttl, P p.2.Callback) :
    (∀ p ∈ (q.pullFB front now).q.ttl, P p.2.Callback) ∧
    (∀ c ∈ (q.pullFB front now).calls, P c.callback) := by
  refine FlexQueue.pullFB_induct front now
    (fun q out => (∀ p ∈ q.ttl, P p.2.Callback) →
      (∀ p ∈ out.q.ttl, P p.2.Callback) ∧ (∀ c ∈ out.calls, P c.callback)) ?_ ?_ ?_ q hq
  · intro q _ h
    exact ⟨h, fun c hc => by cases hc⟩
  · intro q _ _ h
    exact ⟨h, fun c hc => by cases hc⟩
  · intro q p _ hp _ ih h
    have h1 := pruneMessage_callbacks P
      ⟨(if front then q.messages.PullFront else q.messages.PullBack).2, q.ttl, q.max⟩ now
      (if front then q.messages.PullFront else q.messages.PullBack).1.1 h
    rw [← hp] at h1
    obtain ⟨h2, h3⟩ := ih h1.1
    refine ⟨h2, ?_⟩
    intro c hc
    rcases List.mem_append.1 hc with hc | hc
    · exact h1.2 c hc
    · exact h3 c hc

theorem readFB_callbacks (P : C → Prop) (q : FlexQueue C V) (front : Bool) (now : Int)
    (hq : ∀ p ∈ q.ttl, P p.2.Callback) :
    (∀ p ∈ (q.readFB front now).q.ttl, P p.2.Callback) ∧
    (∀ c ∈ (q.readFB front now).calls, P c.callback) := by
  refine FlexQueue.readFB_induct front now
    (fun q out => (∀ p ∈ q.ttl, P p.2.Callback) →
      (∀ p ∈ out.q.ttl, P p.2.Callback) ∧ (∀ c ∈ out.calls, P c.callback)) ?_ ?_ ?_ q hq
  · intro q _ h
    exact ⟨h, fun c hc => by cases hc⟩
  · intro q _ _ h
    exact ⟨h, fun c hc => by cases hc⟩
  · intro q p _ hp _ ih h
    have h1 := pruneMessage_callbacks P q now
      (if front then q.messages.ReadFront else q.messages.ReadBack).1 h
    rw [← hp] at h1
    obtain ⟨h2, h3⟩ := ih h1.1
    refine ⟨h2, ?_⟩
    intro c hc
    rcases List.mem_append.1 hc with hc | hc
    · exact h1.2 c hc
    · exact h3 c hc

theorem pruneLoop_callbacks (P : C → Prop) (now : Int) (visit : List (String × TTL C))
    (acc : Outcome C V Bool) (hv : ∀ p ∈ visit, P p.2.Callback)
    (hq : ∀ p ∈ acc.q.ttl, P p.2.Callback) (hc : ∀ c ∈ acc.calls, P c.callback) :
    (∀ p ∈ (FlexQueue.pruneLoop now visit acc).q.ttl, P p.2.Callback) ∧
    (∀ c ∈ (FlexQueue.pruneLoop now visit acc).calls, P c.callback) := by
  induction visit generalizing acc with
  | nil => exact ⟨hq, hc⟩
  | cons x visit ih =>
    obtain ⟨d, t⟩ := x
    rw [FlexQueue.pruneLoop]
    split
    · refine ih _ (fun p hp => hv p (List.mem_cons_of_mem _ hp)) ?_ ?_
      · exact fun p hp => hq p ((mem_mapDelete _ _ _).1 hp).1
      · intro c hcm
        rcases List.mem_append.1 hcm with hcm | hcm
        · exact hc c hcm
        · rw [List.mem_singleton.1 hcm]
          exact hv (d, t) (List.mem_cons_self _ _)
    · exact ih _ (fun p hp => hv p (List.mem_cons_of_mem _ hp)) hq hc

theorem pushFBTTL_callbacks (P : C → Prop) (q : FlexQueue C V) (now checked : Int)
    (front : Bool)
    (d : String) (v : Option V) (ttl : Int) (cb : C) (hq : ∀ p ∈ q.ttl, P p.2.Callback)
    (hcb : P cb) :
    (∀ p ∈ (q.pushFBTTL now checked front d v ttl cb).q.ttl, P p.2.Callback) ∧
    (∀ c ∈ (q.pushFBTTL now checked front d v ttl cb).calls, P c.callback) := by
  have hpush : ∀ p ∈ (q.pushFB front d v).2.ttl, P p.2.Callback := by
    rw [FlexQueue.pushFB_ttl]
    exact hq
  unfold FlexQueue.pushFBTTL
  split
  · refine ⟨hq, ?_⟩
    intro c hc
    rw [List.mem_singleton.1 hc]
    exact hcb
  · split
    · refine ⟨?_, fun c hc => by cases hc⟩
      intro p hp
      rcases mem_mapStore_or _ _ _ _ hp with rfl | hp
      · exact hcb
      · exact hpush p hp
    · exact ⟨hpush, fun c hc => by cases hc⟩

/-- One call: when the callbacks of the TTL table and the callback argument of the call
satisfy `P`, so do the callbacks that the call invokes and those of the TTL table
afterwards. -/
theorem step_callbacks (P : C → Prop) (q : FlexQueue C V) (now : Int) (op : Op C V)
    (hq : ∀ p ∈ q.ttl, P p.2.Callback) (hop : ∀ cb, op.callbackArg = some cb → P cb) :
    (∀ p ∈ (step q now op).q.ttl, P p.2.Callback) ∧
    (∀ c ∈ (step q now op).calls, P c.callback) := by
  have hpm := fun d => pruneMessage_callbacks P q now d hq
  cases op with
  | pushFront d m =>
    refine ⟨?_, fun c hc => by cases hc⟩
    show ∀ p ∈ (q.pushFB true d m).2.ttl, _
    rw [FlexQueue.pushFB_ttl]
    exact hq
  | pushBack d m =>
    refine ⟨?_, fun c hc => by cases hc⟩
    show ∀ p ∈ (q.pushFB false d m).2.ttl, _
    rw [FlexQueue.pushFB_ttl]
    exact hq
  | pushFrontTTL d m t cb lag =>
    exact pushFBTTL_callbacks P q now (now + lag) true d m t cb hq (hop cb rfl)
  | pushBackTTL d m t cb lag =>
    exact pushFBTTL_callbacks P q now (now + lag) false d m t cb hq (hop cb rfl)
  | pull d =>
    simp only [step, FlexQueue.Pull]
    split <;> exact hpm d
  | pullFront => exact pullFB_callbacks P q true now hq
  | pullBack => exact pullFB_callbacks P q false now hq
  | read d =>
    simp only [step, FlexQueue.Read]
    split <;> exact hpm d
  | readFront => exact readFB_callbacks P q true now hq
  | readBack => exact readFB_callbacks P q false now hq
  | update d m =>
    simp only [step, FlexQueue.Update]
    split <;> exact hpm d
  | resetTTL d t lag1 lag2 =>
    simp only [step, FlexQueue.ResetTTL]
    split
    · exact hpm d
    · split
      · exact hpm d
      · rename_i old hold
        have hold' : P old.Callback := (hpm d).1 (d, old) (mem_of_mapLookup _ _ _ hold)
        split
        · refine ⟨(hpm d).1, ?_⟩
          intro c hc
          rcases List.mem_append.1 hc with hc | hc
          · exact (hpm d).2 c hc
          · rw [List.mem_singleton.1 hc]
            exact hold'
        · refine ⟨?_, (hpm d).2⟩
          intro p hp
          rcases mem_mapStore_or _ _ _ _ hp with rfl | hp
          · exact hold'
          · exact (hpm d).1 p hp
  | remove d =>
    simp only [step, FlexQueue.Remove]
    split
    · exact hpm d
    · split
      · exact ⟨fun p hp => (hpm d).1 p ((mem_mapDelete _ _ _).1 hp).1, (hpm d).2⟩
      · exact hpm d
  | prune =>
    exact pruneLoop_callbacks P now q.ttl ⟨false, q, []⟩ hq hq (fun c hc => by cases hc)
  | has d =>
    simp only [step, FlexQueue.Has]
    split <;> exact hpm d
  | len => exact ⟨hq, fun c hc => by cases hc⟩
  | max => exact ⟨hq, fun c hc => by cases hc⟩
  | isFull => exact ⟨hq, fun c hc => by cases hc⟩
  | isEmpty => exact ⟨hq, fun c hc => by cases hc⟩

/-- A run with SetMax: when the callbacks of the TTL table and the callback arguments of
the calls satisfy `P`, so do the callbacks that the run invokes and those of the TTL
table afterwards. -/
theorem exec_callbacks (P : C → Prop) (q : FlexQueue C V) (cmds : List (Cmd C V))
    (hq : ∀ p ∈ q.ttl, P p.2.Callback)
    (hcmds : ∀ x ∈ cmds, ∀ cb, x.callbackArg = some cb → P cb) :
    (∀ p ∈ (exec q cmds).1.ttl, P p.2.Callback) ∧ (∀ c ∈ (exec q cmds).2, P c.callback) := by
  induction cmds generalizing q with
  | nil => exact ⟨hq, fun c hc => by cases hc⟩
  | cons x cmds ih =>
    have htail : ∀ y ∈ cmds, ∀ cb, y.callbackArg = some cb → P cb :=
      fun y hy => hcmds y (List.mem_cons_of_mem _ hy)
    cases x with
    | setMax m =>
      refine ih _ ?_ htail
      unfold FlexQueue.SetMax
      split
      · exact hq
      · exact hq
    | call now op =>
      have hs := step_callbacks P q now op hq
        (fun cb h => hcmds (.call now op) (List.mem_cons_self _ _) cb h)
      obtain ⟨h1, h2⟩ := ih _ hs.1 htail
      refine ⟨h1, ?_⟩
      intro c hc
      rcases List.mem_append.1 hc with hc | hc
      · exact hs.2 c hc
      · exact h2 c hc

/-- No invocation of nil among invocations of function values. -/
theorem calledNil_eq_false {K V : Type} (calls : List (Call (Option K) V))
    (h : ∀ c ∈ calls, c.callback.isSome = true) : calledNil calls = false := by
  unfold calledNil
  rw [List.any_eq_false]
  intro c hc
  have := h c hc
  cases hcb : c.callback with
  | none => rw [hcb] at this; cases this
  | some k => simp

end CallbackFacts


/-! ### The recursion of pullFB and readFB against the length of the list -/

section LenFuel
variable {C V : Type}

/-- On a well-formed list the removal of an indexed key takes one element out. -/
theorem FlexList.length_Remove_of_Has (l : FlexList V) (hwf : l.WF) (d : String)
    (h : l.Has d = true) :
    (l.Remove d).2.items.elems.length + 1 = l.items.elems.length := by
  obtain ⟨e, he⟩ := (FlexList.Has_eq_true_iff l d).1 h
  obtain ⟨hmem, hidx⟩ := hwf.lookup he
  obtain ⟨pe, po, hsplit⟩ := List.append_of_mem hmem
  subst hidx
  rw [FlexList.Remove_middle l hwf e pe po hsplit, hsplit]
  simp
  omega

theorem FlexList.length_Remove_le (l : FlexList V) (d : String) :
    (l.Remove d).2.items.elems.length ≤ l.items.elems.length := by
  have := FlexList.Len_Remove_le l d
  simp only [FlexList.Len, LinkedList.Len] at this
  omega

/-- Two runs of the recursion of pullFB that both return, return the same. -/
theorem FlexQueue.pullFBFuel_agree (n m : Nat) (q : FlexQueue C V) (front : Bool) (now : Int)
    (hn : (FlexQueue.pullFBFuel n q front now).isSome = true)
    (hm : (FlexQueue.pullFBFuel m q front now).isSome = true) :
    FlexQueue.pullFBFuel n q front now = FlexQueue.pullFBFuel m q front now := by
  induction n generalizing m q with
  | zero => simp [FlexQueue.pullFBFuel] at hn
  | succ n ih =>
    cases m with
    | zero => simp [FlexQueue.pullFBFuel] at hm
    | succ m =>
      rw [FlexQueue.pullFBFuel] at hn hm ⊢
      rw [FlexQueue.pullFBFuel]
      dsimp only at hn hm ⊢
      by_cases h1 : (if front then q.messages.PullFront else q.messages.PullBack).1.2.2 = false
      · rw [if_pos h1, if_pos h1]
      · rw [if_neg h1] at hn hm ⊢
        rw [if_neg h1]
        by_cases hp : (FlexQueue.pruneMessage
            ⟨(if front then q.messages.PullFront else q.messages.PullBack).2, q.ttl, q.max⟩ now
            (if front then q.messages.PullFront else q.messages.PullBack).1.1).ret = true
        · rw [if_pos hp] at hn hm ⊢
          rw [if_pos hp]
          rw [Option.isSome_map'] at hn hm
          rw [ih m _ hn hm]
        · rw [if_neg hp, if_neg hp]

/-- Two runs of the recursion of readFB that both return, return the same. -/
theorem FlexQueue.readFBFuel_agree (n m : Nat) (q : FlexQueue C V) (front : Bool) (now : Int)
    (hn : (FlexQueue.readFBFuel n q front now).isSome = true)
    (hm : (FlexQueue.readFBFuel m q front now).isSome = true) :
    FlexQueue.readFBFuel n q front now = FlexQueue.readFBFuel m q front now := by
  induction n generalizing m q with
  | zero => simp [FlexQueue.readFBFuel] at hn
  | succ n ih =>
    cases m with
    | zero => simp [FlexQueue.readFBFuel] at hm
    | succ m =>
      rw [FlexQueue.readFBFuel] at hn hm ⊢
      rw [FlexQueue.readFBFuel]
      dsimp only at hn hm ⊢
      by_cases h1 : (if front then q.messages.ReadFront else q.messages.ReadBack).2.2 = false
      · rw [if_pos h1, if_pos h1]
      · rw [if_neg h1] at hn hm ⊢
        rw [if_neg h1]
        by_cases hp : (FlexQueue.pruneMessage q now
            (if front then q.messages.ReadFront else q.messages.ReadBack).1).ret = true
        · rw [if_pos hp] at hn hm ⊢
          rw [if_pos hp]
          rw [Option.isSome_map'] at hn hm
          rw [ih m _ hn hm]
        · rw [if_neg hp, if_neg hp]

/-- A pull at either end of a well-formed list that finds an element leaves a
well-formed list with one element less; the pruning that follows does not add one. -/
theorem FlexQueue.pull_then_prune (q : FlexQueue C V) (hwf : q.messages.WF) (front : Bool)
    (now : Int)
    (hok : (if front then q.messages.PullFront else q.messages.PullBack).1.2.2 = true) :
    (FlexQueue.pruneMessage
      ⟨(if front then q.messages.PullFront else q.messages.PullBack).2, q.ttl, q.max⟩ now
      (if front then q.messages.PullFront else q.messages.PullBack).1.1).q.messages.WF ∧
    (FlexQueue.pruneMessage
      ⟨(if front then q.messages.PullFront else q.messages.PullBack).2, q.ttl, q.max⟩ now
      (if front then q.messages.PullFront else q.messages.PullBack).1.1).q.messages.items.elems.length
      < q.messages.items.elems.length := by
  obtain ⟨hhas, heq⟩ := FlexList.pull_end q.messages hwf front hok
  have hlen := FlexList.length_Remove_of_Has q.messages hwf _ hhas
  have hwf1 : (if front then q.messages.PullFront else q.messages.PullBack).2.WF := by
    rw [heq]
    exact FlexList.WF_Remove _ hwf _
  rw [← heq] at hlen
  by_cases hp : (FlexQueue.pruneMessage
      ⟨(if front then q.messages.PullFront else q.messages.PullBack).2, q.ttl, q.max⟩ now
      (if front then q.messages.PullFront else q.messages.PullBack).1.1).ret = true
  · rw [FlexQueue.pruneMessage_fired _ _ _ hp]
    refine ⟨FlexList.WF_Remove _ hwf1 _, ?_⟩
    have := FlexList.length_Remove_le (if front then q.messages.PullFront else q.messages.PullBack).2
      (if front then q.messages.PullFront else q.messages.PullBack).1.1
    simp only at this ⊢
    omega
  · rw [FlexQueue.pruneMessage_of_ret_false _ _ _ (by simpa using hp)]
    refine ⟨hwf1, ?_⟩
    simp only
    omega

/-- A pruning of the digest read at either end of a well-formed list, when it fires,
leaves a well-formed list with one element less. -/
theorem FlexQueue.read_then_prune (q : FlexQueue C V) (hwf : q.messages.WF) (front : Bool)
    (now : Int)
    (hok : (if front then q.messages.ReadFront else q.messages.ReadBack).2.2 = true)
    (hp : (FlexQueue.pruneMessage q now
      (if front then q.messages.ReadFront else q.messages.ReadBack).1).ret = true) :
    (FlexQueue.pruneMessage q now
      (if front then q.messages.ReadFront else q.messages.ReadBack).1).q.messages.WF ∧
    (FlexQueue.pruneMessage q now
      (if front then q.messages.ReadFront else q.messages.ReadBack).1).q.messages.items.elems.length
      < q.messages.items.elems.length := by
  have hhas : q.messages.Has (if front then q.messages.ReadFront else q.messages.ReadBack).1
      = true := by
    cases front
    · simp only [Bool.false_eq_true, if_false] at hok ⊢
      exact FlexList.Has_ReadBack _ hwf hok
    · simp only [if_true] at hok ⊢
      exact FlexList.Has_ReadFront _ hwf hok
  have hlen := FlexList.length_Remove_of_Has q.messages hwf _ hhas
  rw [FlexQueue.pruneMessage_fired _ _ _ hp]
  refine ⟨FlexList.WF_Remove _ hwf _, ?_⟩
  simp only
  omega

/-- On a well-formed list, one call more than the list has elements is enough for the
recursion of pullFB to return. -/
theorem FlexQueue.pullFBFuel_isSome_of_length (fuel : Nat) (q : FlexQueue C V) (front : Bool)
    (now : Int) (hwf : q.messages.WF) (h : q.messages.items.elems.length < fuel) :
    (FlexQueue.pullFBFuel fuel q front now).isSome = true := by
  induction fuel generalizing q with
  | zero => omega
  | succ n ih =>
    rw [FlexQueue.pullFBFuel]
    dsimp only
    by_cases h1 : (if front then q.messages.PullFront else q.messages.PullBack).1.2.2 = false
    · rw [if_pos h1]; rfl
    · rw [if_neg h1]
      have hok : (if front then q.messages.PullFront else q.messages.PullBack).1.2.2 = true := by
        simpa using h1
      obtain ⟨hwf', hlt⟩ := FlexQueue.pull_then_prune q hwf front now hok
      by_cases hp : (FlexQueue.pruneMessage
          ⟨(if front then q.messages.PullFront else q.messages.PullBack).2, q.ttl, q.max⟩ now
          (if front then q.messages.PullFront else q.messages.PullBack).1.1).ret = true
      · rw [if_pos hp, Option.isSome_map']
        exact ih _ hwf' (by omega)
      · rw [if_neg hp]; rfl

/-- On a well-formed list, one call more than the list has elements is enough for the
recursion of readFB to return. -/
theorem FlexQueue.readFBFuel_isSome_of_length (fuel : Nat) (q : FlexQueue C V) (front : Bool)
    (now : Int) (hwf : q.messages.WF) (h : q.messages.items.elems.length < fuel) :
    (FlexQueue.readFBFuel fuel q front now).isSome = true := by
  induction fuel generalizing q with
  | zero => omega
  | succ n ih =>
    rw [FlexQueue.readFBFuel]
    dsimp only
    by_cases h1 : (if front then q.messages.ReadFront else q.messages.ReadBack).2.2 = false
    · rw [if_pos h1]; rfl
    · rw [if_neg h1]
      have hok : (if front then q.messages.ReadFront else q.messages.ReadBack).2.2 = true := by
        simpa using h1
      by_cases hp : (FlexQueue.pruneMessage q now
          (if front then q.messages.ReadFront else q.messages.ReadBack).1).ret = true
      · rw [if_pos hp, Option.isSome_map']
        obtain ⟨hwf', hlt⟩ := FlexQueue.read_then_prune q hwf front now hok hp
        exact ih _ hwf' (by omega)
      · rw [if_neg hp]; rfl

/-- On a well-formed list, the recursion of pullFB run with Len + 1 calls returns the
result of pullFB. -/
theorem FlexQueue.pullFBFuel_of_Len (q : FlexQueue C V) (front : Bool) (now : Int)
    (hwf : q.messages.WF) :
    FlexQueue.pullFBFuel (q.Len.toNat + 1) q front now = some (q.pullFB front now) := by
  have hlen : q.Len.toNat = q.messages.items.elems.length := by
    simp [FlexQueue.Len, FlexList.Len, LinkedList.Len]
  rw [← FlexQueue.pullFBFuel_eq (q.ttl.length + 1) q front now (Nat.lt_succ_self _)]
  exact FlexQueue.pullFBFuel_agree _ _ q front now
    (FlexQueue.pullFBFuel_isSome_of_length _ q front now hwf (by omega))
    (FlexQueue.pullFBFuel_isSome _ q front now (Nat.lt_succ_self _))

/-- On a well-formed list, the recursion of readFB run with Len + 1 calls returns the
result of readFB. -/
theorem FlexQueue.readFBFuel_of_Len (q : FlexQueue C V) (front : Bool) (now : Int)
    (hwf : q.messages.WF) :
    FlexQueue.readFBFuel (q.Len.toNat + 1) q front now = some (q.readFB front now) := by
  have hlen : q.Len.toNat = q.messages.items.elems.length := by
    simp [FlexQueue.Len, FlexList.Len, LinkedList.Len]
  rw [← FlexQueue.readFBFuel_eq (q.ttl.length + 1) q front now (Nat.lt_succ_self _)]
  exact FlexQueue.readFBFuel_agree _ _ q front now
    (FlexQueue.readFBFuel_isSome_of_length _ q front now hwf (by omega))
    (FlexQueue.readFBFuel_isSome _ q front now (Nat.lt_succ_self _))

end LenFuel

/-! ### Prune in another order of the TTL table -/

section PruneOrder
variable {C V : Type}

/-- On a well-formed list, Remove of a key keeps the elements and the index entries
with another key, in their order. -/
theorem FlexList.Remove_eq_filter (l : FlexList V) (hwf : l.WF) (k : String) :
    (l.Remove k).2 =
      ⟨⟨l.items.elems.filter (fun e => decide (e.Value.index ≠ k)), l.items.fresh⟩,
        l.indices.filter (fun p => decide (p.1 ≠ k))⟩ := by
  cases hl : mapLookup l.indices k with
  | none =>
    rw [FlexList.Remove_absent l k hl]
    have h1 : l.items.elems.filter (fun e => decide (e.Value.index ≠ k)) = l.items.elems := by
      rw [List.filter_eq_self]
      intro e he
      simpa using hwf.key_ne he hl
    have h2 : l.indices.filter (fun p => decide (p.1 ≠ k)) = l.indices := by
      rw [← mapDelete_eq_filter, mapDelete_of_mapLookup_none _ _ hl]
    rw [h1, h2]
  | some e =>
    obtain ⟨hmem, hidx⟩ := hwf.lookup hl
    obtain ⟨pe, po, hsplit⟩ := List.append_of_mem hmem
    subst hidx
    rw [FlexList.Remove_middle l hwf e pe po hsplit, mapDelete_eq_filter]
    have hne : ∀ x ∈ pe ++ po, x.Value.index ≠ e.Value.index :=
      fun x hx => hwf.index_ne_of_split pe po hsplit hx
    have hpe : pe.filter (fun x => decide (x.Value.index ≠ e.Value.index)) = pe := by
      rw [List.filter_eq_self]
      intro x hx
      simpa using hne x (List.mem_append_left _ hx)
    have hpo : po.filter (fun x => decide (x.Value.index ≠ e.Value.index)) = po := by
      rw [List.filter_eq_self]
      intro x hx
      simpa using hne x (List.mem_append_right _ hx)
    rw [hsplit, List.filter_append, List.filter_cons, hpe, hpo]
    simp

/-- On a well-formed list, the removal of the keys `ks` keeps the elements and the
index entries with a key outside `ks`, in their order. -/
theorem FlexList.removeAll_eq_filter (l : FlexList V) (hwf : l.WF) (ks : List String) :
    l.removeAll ks =
      ⟨⟨l.items.elems.filter (fun e => decide (e.Value.index ∉ ks)), l.items.fresh⟩,
        l.indices.filter (fun p => decide (p.1 ∉ ks))⟩ := by
  induction ks generalizing l with
  | nil => simp [FlexList.removeAll]
  | cons k ks ih =>
    rw [FlexList.removeAll, ih _ (FlexList.WF_Remove l hwf k), FlexList.Remove_eq_filter l hwf k]
    simp only [List.filter_filter]
    have h1 : l.items.elems.filter
        (fun a => decide (a.Value.index ∉ ks) && decide (a.Value.index ≠ k)) =
        l.items.elems.filter (fun e => decide (e.Value.index ∉ k :: ks)) := by
      apply List.filter_congr
      intro p _
      simp [not_or, eq_comm, Bool.and_comm]
    have h2 : l.indices.filter (fun a => decide (a.1 ∉ ks) && decide (a.1 ≠ k)) =
        l.indices.filter (fun p => decide (p.1 ∉ k :: ks)) := by
      apply List.filter_congr
      intro p _
      simp [not_or, eq_comm, Bool.and_comm]
    rw [h1, h2]

/-- The loop of Prune over any order of the TTL table of a well-formed queue: the
result, the queue afterwards, and the callbacks up to their order. -/
theorem FlexQueue.pruneLoop_perm (q : FlexQueue C V) (now : Int) (hwf : q.WF)
    (visit : List (String × TTL C)) (hv : visit.Perm q.ttl) :
    (FlexQueue.pruneLoop now visit ⟨false, q, []⟩).ret = (q.Prune now).ret ∧
    (FlexQueue.pruneLoop now visit ⟨false, q, []⟩).q = (q.Prune now).q ∧
    (FlexQueue.pruneLoop now visit ⟨false, q, []⟩).calls.Perm (q.Prune now).calls := by
  have hnd : (visit.map Prod.fst).Nodup := ((hv.map Prod.fst).nodup_iff).2 hwf.2
  have he : (expiredControls now visit).Perm (expiredControls now q.ttl) := hv.filter _
  have hk : ∀ k, k ∈ (expiredControls now visit).map Prod.fst ↔
      k ∈ (expiredControls now q.ttl).map Prod.fst := fun k => (he.map Prod.fst).mem_iff
  have hP : q.Prune now = _ := FlexQueue.pruneLoop_eq now q.ttl ⟨false, q, []⟩ hwf.2
  rw [FlexQueue.pruneLoop_eq now visit ⟨false, q, []⟩ hnd, hP]
  refine ⟨?_, ?_, ?_⟩
  · simp only [Bool.false_or]
    congr 1
    cases h1 : expiredControls now visit with
    | nil =>
      rw [h1] at he
      rw [List.nil_perm.1 he]
    | cons a as =>
      rw [h1] at he
      cases h2 : expiredControls now q.ttl with
      | nil => rw [h2] at he; exact absurd he.length_eq (by simp)
      | cons b bs => rfl
  · simp only
    rw [FlexList.removeAll_eq_filter _ hwf.1, FlexList.removeAll_eq_filter _ hwf.1,
      mapDeleteAll_eq_filter, mapDeleteAll_eq_filter]
    have e1 : q.messages.items.elems.filter
        (fun e => decide (e.Value.index ∉ (expiredControls now visit).map Prod.fst)) =
        q.messages.items.elems.filter
        (fun e => decide (e.Value.index ∉ (expiredControls now q.ttl).map Prod.fst)) := by
      apply List.filter_congr
      intro e _
      simp only [hk]
    have e2 : q.messages.indices.filter
        (fun p => decide (p.1 ∉ (expiredControls now visit).map Prod.fst)) =
        q.messages.indices.filter
        (fun p => decide (p.1 ∉ (expiredControls now q.ttl).map Prod.fst)) := by
      apply List.filter_congr
      intro e _
      simp only [hk]
    have e3 : q.ttl.filter
        (fun p => decide (p.1 ∉ (expiredControls now visit).map Prod.fst)) =
        q.ttl.filter
        (fun p => decide (p.1 ∉ (expiredControls now q.ttl).map Prod.fst)) := by
      apply List.filter_congr
      intro e _
      simp only [hk]
    rw [e1, e2, e3]
  · simp only [List.nil_append]
    exact he.map _

end PruneOrder


/-- C31: on every well-formed list, the empty list included, Remove returns true exactly
when the key is carried by an element.  For a key `k` that the sequence holds between
`pre` and `post` it returns true, Has of `k` is false afterwards, Len has decreased by 1
and the sequence is `pre` followed by `post`; for a key `k'` carried by no element it
returns false and the list is the list before. -/
theorem C31_remove {V : Type} (l : FlexList V) (hwf : l.WF) :
    (∀ x : String, (l.Remove x).1 = true ↔ x ∈ l.entries.map Prod.fst) ∧
    (∀ (k : String) (v : Option V) (pre post : List (String × Option V)),
      l.entries = pre ++ (k, v) :: post →
      (l.Remove k).1 = true ∧
      (l.Remove k).2.Has k = false ∧
      (l.Remove k).2.Len + 1 = l.Len ∧
      (l.Remove k).2.Len = l.Len - 1 ∧
      (l.Remove k).2.entries = pre ++ post) ∧
    (∀ k' : String, k' ∉ l.entries.map Prod.fst → l.Remove k' = (false, l)) ∧
    (∀ x : String, (l.Remove x).1 = false → (l.Remove x).2 = l) := by
  refine ⟨?_, ?_, ?_, ?_⟩
  · intro x
    rw [← hwf.Has_iff x]
    cases hl : mapLookup l.indices x with
    | none =>
      rw [FlexList.Remove_absent l x hl, (FlexList.Has_eq_false_iff l x).2 hl]
    | some e =>
      rw [FlexList.Remove_present l x e hl, (FlexList.Has_eq_true_iff l x).2 ⟨e, hl⟩]
  · intro k v pre post hs
    obtain ⟨pe, po, e, hel, hpe, hpo, rfl, rfl⟩ := l.entries_split pre post _ _ hs
    rw [FlexList.Remove_middle l hwf e pe po hel]
    refine ⟨rfl, ?_, ?_, ?_, ?_⟩
    · simp [FlexList.Has, mapLookup_mapDelete_self]
    · simp only [FlexList.Len, LinkedList.Len, hel]
      simp
      omega
    · simp only [FlexList.Len, LinkedList.Len, hel]
      simp
      omega
    · simp [FlexList.entries, hpe, hpo]
  · intro k' hk'
    exact FlexList.Remove_absent l k' ((FlexList.Has_eq_false_iff l k').1 (hwf.Has_false hk'))
  · intro x hx
    cases hl : mapLookup l.indices x with
    | none => rw [FlexList.Remove_absent l x hl]
    | some e =>
      rw [FlexList.Remove_present l x e hl] at hx
      exact Bool.noConfusion hx

theorem C31_remove_witness :
    abcList.WF ∧ (NewFlexList : FlexList Nat).WF ∧
    (∀ x : String, ((NewFlexList : FlexList Nat).Remove x).1 = true ↔
      x ∈ (NewFlexList : FlexList Nat).entries.map Prod.fst) ∧
    (NewFlexList : FlexList Nat).Remove "A" = (false, NewFlexList) ∧
    ((abcList.Remove "B").1 = true ∧
      (abcList.Remove "B").2.Has "B" = false ∧
      (abcList.Remove "B").2.Len + 1 = abcList.Len ∧
      (abcList.Remove "B").2.Len = abcList.Len - 1 ∧
      (abcList.Remove "B").2.entries = [("A", some 1)] ++ [("C", some 3)]) ∧
    abcList.Remove "D" = (false, abcList) :=
  ⟨by decide, by decide,
    (C31_remove (NewFlexList : FlexList Nat) (by decide)).1,
    (C31_remove (NewFlexList : FlexList Nat) (by decide)).2.2.1 "A" (by decide),
    (C31_remove abcList (by decide)).2.1 "B" (some 2) [("A", some 1)] [("C", some 3)]
      (by decide),
    (C31_remove abcList (by decide)).2.2.1 "D" (by decide)⟩


/-- C32 (counterexample): after SetMax(0) on the new queue, Max returns 0, which is
neither NoMax nor a positive integer. -/
theorem C32_counterexample :
    (exec (NewFlexQueue : FlexQueue Nat Nat) [.setMax 0]).1.Max = 0 ∧
    ¬ ((exec (NewFlexQueue : FlexQueue Nat Nat) [.setMax 0]).1.Max = NoMax ∨
      1 ≤ (exec (NewFlexQueue : FlexQueue Nat Nat) [.setMax 0]).1.Max) := by
  decide

/-- C32 (amended): after every sequence of calls of the public operations and of SetMax
from the new queue, Max returns NoMax or an integer that is not negative, and it is the
value of the maximum field; a further SetMax(m) makes Max return m for every m that is
not negative, 0 included, and leaves Max as it is for a negative m. -/
theorem C32_max_unbounded_or_nonneg {C V : Type} (cmds : List (Cmd C V)) (m : Int) :
    ((exec (NewFlexQueue : FlexQueue C V) cmds).1.Max = NoMax ∨
      0 ≤ (exec (NewFlexQueue : FlexQueue C V) cmds).1.Max) ∧
    (exec (NewFlexQueue : FlexQueue C V) cmds).1.Max =
      (exec (NewFlexQueue : FlexQueue C V) cmds).1.max ∧
    (exec (NewFlexQueue : FlexQueue C V) (cmds ++ [.setMax m])).1.Max =
      if 0 ≤ m then m else (exec (NewFlexQueue : FlexQueue C V) cmds).1.Max := by
  have hinv := exec_max (NewFlexQueue : FlexQueue C V) cmds (Or.inl rfl)
  have hMax : (exec (NewFlexQueue : FlexQueue C V) cmds).1.Max =
      (exec (NewFlexQueue : FlexQueue C V) cmds).1.max := by
    unfold FlexQueue.Max
    split
    · rfl
    · rename_i h
      rcases hinv with h1 | h1
      · exact h1.symm
      · simp only [NoMax] at h ⊢
        omega
  refine ⟨hMax ▸ hinv, hMax, ?_⟩
  rw [exec_append]
  simp only [exec]
  rw [hMax]
  unfold FlexQueue.Max
  rw [FlexQueue.SetMax_max]
  simp only [NoMax] at hinv ⊢
  by_cases hm : 0 ≤ m
  · have : m > -1 := by omega
    simp [hm, this]
  · have : ¬ m > -1 := by omega
    simp only [hm, this, if_false]
    split
    · rfl
    · omega

theorem C32_max_unbounded_or_nonneg_witness :
    ((exec (NewFlexQueue : FlexQueue (Option Nat) Nat) mixedCmds).1.Max = NoMax ∨
      0 ≤ (exec (NewFlexQueue : FlexQueue (Option Nat) Nat) mixedCmds).1.Max) ∧
    (exec (NewFlexQueue : FlexQueue (Option Nat) Nat) mixedCmds).1.Max =
      (exec (NewFlexQueue : FlexQueue (Option Nat) Nat) mixedCmds).1.max ∧
    (exec (NewFlexQueue : FlexQueue (Option Nat) Nat) (mixedCmds ++ [.setMax 0])).1.Max =
      if (0 : Int) ≤ 0 then 0
      else (exec (NewFlexQueue : FlexQueue (Option Nat) Nat) mixedCmds).1.Max :=
  C32_max_unbounded_or_nonneg mixedCmds 0


/-- C33 (counterexample): PushBackTTL on the new queue with a nil callback and an
elapsed duration invokes the nil function value; with a duration of 10 it returns true
and stores the control, and Has at instant 20 then invokes the nil function value. -/
theorem C33_counterexample :
    calledNil (exec (NewFlexQueue : FlexQueue (Option Nat) Nat)
      [.call 0 (.pushBackTTL "A" (some 1) (-1) none 1)]).2 = true ∧
    ((NewFlexQueue : FlexQueue (Option Nat) Nat).PushBackTTL 0 1 "A" (some 1) (-1) none).calls =
      [⟨none, "A", some 1⟩] ∧
    ((NewFlexQueue : FlexQueue (Option Nat) Nat).PushBackTTL 0 1 "A" (some 1) 10 none).ret = true ∧
    (((NewFlexQueue : FlexQueue (Option Nat) Nat).PushBackTTL 0 1 "A" (some 1) 10 none).q.Has
      20 "A").calls = [⟨none, "A", some 1⟩] ∧
    calledNil (exec (NewFlexQueue : FlexQueue (Option Nat) Nat)
      [.call 0 (.pushBackTTL "A" (some 1) 10 none 1), .call 20 (.has "A")]).2 = true := by
  decide

/-- C33 (amended): after every sequence of calls of the public operations and of
SetMax from the new queue in which no call passes a nil callback, with any digests,
messages, instants and durations: no call has invoked a nil function value and the TTL
table holds none; the message list is well formed, so every element that the index
hands to the linked list (the mark of InsertAfter in Update, the argument of Remove) is
linked in it; the recursion of pullFB and of readFB returns within Len + 1 calls; and
the empty digest is stored and found like another key.  The same holds for the index of
a FlexList after every sequence of calls from the new list. -/
theorem C33_no_panic {K V : Type} (cmds : List (Cmd (Option K) V)) (front : Bool) (now : Int)
    (v : Option V) (hcb : ∀ x ∈ cmds, x.passesNil = false) :
    calledNil (exec (NewFlexQueue : FlexQueue (Option K) V) cmds).2 = false ∧
    (∀ p ∈ (exec (NewFlexQueue : FlexQueue (Option K) V) cmds).1.ttl,
      p.2.Callback.isSome = true) ∧
    (exec (NewFlexQueue : FlexQueue (Option K) V) cmds).1.WF ∧
    (∀ (k : String) (old : Element V),
      mapLookup (exec (NewFlexQueue : FlexQueue (Option K) V) cmds).1.messages.indices k =
        some old →
      old ∈ (exec (NewFlexQueue : FlexQueue (Option K) V) cmds).1.messages.items.elems) ∧
    FlexQueue.pullFBFuel ((exec (NewFlexQueue : FlexQueue (Option K) V) cmds).1.Len.toNat + 1)
      (exec (NewFlexQueue : FlexQueue (Option K) V) cmds).1 front now =
      some ((exec (NewFlexQueue : FlexQueue (Option K) V) cmds).1.pullFB front now) ∧
    FlexQueue.readFBFuel ((exec (NewFlexQueue : FlexQueue (Option K) V) cmds).1.Len.toNat + 1)
      (exec (NewFlexQueue : FlexQueue (Option K) V) cmds).1 front now =
      some ((exec (NewFlexQueue : FlexQueue (Option K) V) cmds).1.readFB front now) ∧
    ((NewFlexQueue : FlexQueue (Option K) V).PushBack "" v).ret = true ∧
    (((NewFlexQueue : FlexQueue (Option K) V).PushBack "" v).q.Read now "").ret = (v, true) ∧
    (((NewFlexQueue : FlexQueue (Option K) V).PushBack "" v).q.Has now "").ret = true ∧
    (∀ (ops : List (ListOp V)) (k : String) (old : Element V),
      mapLookup ((NewFlexList : FlexList V).afterAll ops).indices k = some old →
      old ∈ ((NewFlexList : FlexList V).afterAll ops).items.elems) := by
  have hcmds : ∀ x ∈ cmds, ∀ cb, x.callbackArg = some cb → cb.isSome = true := by
    intro x hx cb h
    have := hcb x hx
    unfold Cmd.passesNil at this
    rw [h] at this
    cases cb with
    | none => simp at this
    | some k => rfl
  obtain ⟨httl, hcalls⟩ := exec_callbacks (fun c : Option K => c.isSome = true)
    (NewFlexQueue : FlexQueue (Option K) V) cmds (fun p hp => by cases hp) hcmds
  have hwf : (exec (NewFlexQueue : FlexQueue (Option K) V) cmds).1.WF :=
    exec_WF _ cmds (FlexQueue.WF_SetMax_New NoMax)
  refine ⟨calledNil_eq_false _ hcalls, httl, hwf, fun k old h => (hwf.1.lookup h).1,
    FlexQueue.pullFBFuel_of_Len _ front now hwf.1, FlexQueue.readFBFuel_of_Len _ front now hwf.1,
    ?_, ?_, ?_, ?_⟩
  · rfl
  · simp [FlexQueue.PushBack, FlexQueue.pushFB, NewFlexQueue, NewFlexList, LinkedList.New,
      FlexList.Has, FlexList.PushBack, LinkedList.PushBack, mapLookup, mapStore, NoMax,
      FlexQueue.Read, FlexQueue.pruneMessage, FlexList.Read]
  · simp [FlexQueue.PushBack, FlexQueue.pushFB, NewFlexQueue, NewFlexList, LinkedList.New,
      FlexList.Has, FlexList.PushBack, LinkedList.PushBack, mapLookup, mapStore, NoMax,
      FlexQueue.Has, FlexQueue.pruneMessage]
  · intro ops k old h
    exact ((FlexList.WF_afterAll _ FlexList.WF_New ops).lookup h).1

theorem C33_no_panic_witness :
    (∀ x ∈ mixedCmds, x.passesNil = false) ∧
    (calledNil (exec (NewFlexQueue : FlexQueue (Option Nat) Nat) mixedCmds).2 = false ∧
    (∀ p ∈ (exec (NewFlexQueue : FlexQueue (Option Nat) Nat) mixedCmds).1.ttl,
      p.2.Callback.isSome = true) ∧
    (exec (NewFlexQueue : FlexQueue (Option Nat) Nat) mixedCmds).1.WF ∧
    (∀ (k : String) (old : Element Nat),
      mapLookup (exec (NewFlexQueue : FlexQueue (Option Nat) Nat) mixedCmds).1.messages.indices
        k = some old →
      old ∈ (exec (NewFlexQueue : FlexQueue (Option Nat) Nat) mixedCmds).1.messages.items.elems) ∧
    FlexQueue.pullFBFuel
      ((exec (NewFlexQueue : FlexQueue (Option Nat) Nat) mixedCmds).1.Len.toNat + 1)
      (exec (NewFlexQueue : FlexQueue (Option Nat) Nat) mixedCmds).1 true 40 =
      some ((exec (NewFlexQueue : FlexQueue (Option Nat) Nat) mixedCmds).1.pullFB true 40) ∧
    FlexQueue.readFBFuel
      ((exec (NewFlexQueue : FlexQueue (Option Nat) Nat) mixedCmds).1.Len.toNat + 1)
      (exec (NewFlexQueue : FlexQueue (Option Nat) Nat) mixedCmds).1 true 40 =
      some ((exec (NewFlexQueue : FlexQueue (Option Nat) Nat) mixedCmds).1.readFB true 40) ∧
    ((NewFlexQueue : FlexQueue (Option Nat) Nat).PushBack "" (some 1)).ret = true ∧
    (((NewFlexQueue : FlexQueue (Option Nat) Nat).PushBack "" (some 1)).q.Read 40 "").ret =
      (some 1, true) ∧
    (((NewFlexQueue : FlexQueue (Option Nat) Nat).PushBack "" (some 1)).q.Has 40 "").ret = true ∧
    (∀ (ops : List (ListOp Nat)) (k : String) (old : Element Nat),
      mapLookup ((NewFlexList : FlexList Nat).afterAll ops).indices k = some old →
      old ∈ ((NewFlexList : FlexList Nat).afterAll ops).items.elems)) :=
  ⟨by decide, C33_no_panic mixedCmds true 40 (some 1) (by decide)⟩


/-- C35: on a queue with a well-formed message list of n = Len entries, the recursion of
pullFB and of readFB, at either end and at every instant, returns within n + 1 calls,
and what it returns is the result of pullFB and readFB (of PullFront, PullBack,
ReadFront and ReadBack); the queue handed to a recursive call has a well-formed list
with fewer entries: in pullFB after the pull of one entry, in readFB after the pruning
of the entry that was read. -/
theorem C35_skip_terminates {C V : Type} (q : FlexQueue C V) (front : Bool) (now : Int)
    (hwf : q.messages.WF) :
    FlexQueue.pullFBFuel (q.Len.toNat + 1) q front now = some (q.pullFB front now) ∧
    FlexQueue.readFBFuel (q.Len.toNat + 1) q front now = some (q.readFB front now) ∧
    (q.PullFront now = q.pullFB true now ∧ q.PullBack now = q.pullFB false now ∧
      q.ReadFront now = q.readFB true now ∧ q.ReadBack now = q.readFB false now) ∧
    ((if front then q.messages.PullFront else q.messages.PullBack).1.2.2 = true →
      (FlexQueue.pruneMessage
        ⟨(if front then q.messages.PullFront else q.messages.PullBack).2, q.ttl, q.max⟩ now
        (if front then q.messages.PullFront else q.messages.PullBack).1.1).q.Len < q.Len) ∧
    ((if front then q.messages.ReadFront else q.messages.ReadBack).2.2 = true →
      (FlexQueue.pruneMessage q now
        (if front then q.messages.ReadFront else q.messages.ReadBack).1).ret = true →
      (FlexQueue.pruneMessage q now
        (if front then q.messages.ReadFront else q.messages.ReadBack).1).q.Len < q.Len) := by
  refine ⟨FlexQueue.pullFBFuel_of_Len q front now hwf, FlexQueue.readFBFuel_of_Len q front now hwf,
    ⟨rfl, rfl, rfl, rfl⟩, ?_, ?_⟩
  · intro hok
    have := (FlexQueue.pull_then_prune q hwf front now hok).2
    simp only [FlexQueue.Len, FlexList.Len, LinkedList.Len]
    omega
  · intro hok hp
    have := (FlexQueue.read_then_prune q hwf front now hok hp).2
    simp only [FlexQueue.Len, FlexList.Len, LinkedList.Len]
    omega

theorem C35_skip_terminates_witness :
    ttlQueue.messages.WF ∧
    (FlexQueue.pullFBFuel (ttlQueue.Len.toNat + 1) ttlQueue true 40 =
      some (ttlQueue.pullFB true 40) ∧
    FlexQueue.readFBFuel (ttlQueue.Len.toNat + 1) ttlQueue true 40 =
      some (ttlQueue.readFB true 40) ∧
    (ttlQueue.PullFront 40 = ttlQueue.pullFB true 40 ∧
      ttlQueue.PullBack 40 = ttlQueue.pullFB false 40 ∧
      ttlQueue.ReadFront 40 = ttlQueue.readFB true 40 ∧
      ttlQueue.ReadBack 40 = ttlQueue.readFB false 40) ∧
    ((if true then ttlQueue.messages.PullFront else ttlQueue.messages.PullBack).1.2.2 = true →
      (FlexQueue.pruneMessage
        ⟨(if true then ttlQueue.messages.PullFront else ttlQueue.messages.PullBack).2,
          ttlQueue.ttl, ttlQueue.max⟩ 40
        (if true then ttlQueue.messages.PullFront else
          ttlQueue.messages.PullBack).1.1).q.Len < ttlQueue.Len) ∧
    ((if true then ttlQueue.messages.ReadFront else ttlQueue.messages.ReadBack).2.2 = true →
      (FlexQueue.pruneMessage ttlQueue 40
        (if true then ttlQueue.messages.ReadFront else
          ttlQueue.messages.ReadBack).1).ret = true →
      (FlexQueue.pruneMessage ttlQueue 40
        (if true then ttlQueue.messages.ReadFront else
          ttlQueue.messages.ReadBack).1).q.Len < ttlQueue.Len)) :=
  ⟨by decide, C35_skip_terminates ttlQueue true 40 (by decide)⟩


/-- C36: on a well-formed queue that holds `d` with the message `v1` under a control
that is expired at `now` and not yet pruned, PushBack of `d` with another message
returns true, fires no callback and leaves the queue as it is, so the new message is
not stored; Has of `d` at the same instant then returns false after firing the
callback with (d, v1), and `d` is gone from the list and from the TTL table: the
message reported as accepted is neither stored nor passed to a callback. -/
theorem C36_push_on_expired {C V : Type} (q : FlexQueue C V) (now : Int) (d : String)
    (v1 v2 : Option V) (t : TTL C) (pre post : List (String × Option V))
    (hwf : q.messages.WF) (hs : q.messages.entries = pre ++ (d, v1) :: post)
    (ht : mapLookup q.ttl d = some t) (hexp : t.Expires < now) :
    q.PushBack d v2 = ⟨true, q, []⟩ ∧
    (q.PushBack d v2).q.messages.entries = pre ++ (d, v1) :: post ∧
    ((q.PushBack d v2).q.Has now d).ret = false ∧
    ((q.PushBack d v2).q.Has now d).calls = [⟨t.Callback, d, v1⟩] ∧
    ((q.PushBack d v2).q.Has now d).q.messages.entries = pre ++ post ∧
    mapLookup ((q.PushBack d v2).q.Has now d).q.ttl d = none := by
  have hhas : q.messages.Has d = true := by
    rw [hwf.Has_iff, hs]
    simp
  have hpush : q.PushBack d v2 = ⟨true, q, []⟩ := by
    simp [FlexQueue.PushBack, FlexQueue.pushFB_dup q false d v2 hhas]
  rw [hpush]
  obtain ⟨pe, po, e, hel, hpe, hpo, rfl, rfl⟩ := q.messages.entries_split pre post _ _ hs
  have hH : q.Has now e.Value.index =
      ⟨false, ⟨⟨⟨pe ++ po, q.messages.items.fresh⟩,
        mapDelete q.messages.indices e.Value.index⟩, mapDelete q.ttl e.Value.index, q.max⟩,
        [⟨t.Callback, e.Value.index, e.Value.item⟩]⟩ := by
    unfold FlexQueue.Has
    rw [FlexQueue.pruneMessage_expired_middle q now hwf e pe po hel t ht hexp]
    simp
  refine ⟨rfl, hs, ?_, ?_, ?_, ?_⟩
  · show (q.Has now e.Value.index).ret = false
    rw [hH]
  · show (q.Has now e.Value.index).calls = _
    rw [hH]
  · show (q.Has now e.Value.index).q.messages.entries = _
    rw [hH]
    simp [FlexList.entries, hpe, hpo]
  · show mapLookup (q.Has now e.Value.index).q.ttl _ = none
    rw [hH]
    exact mapLookup_mapDelete_self _ _

theorem C36_push_on_expired_witness :
    ttlQueue = (run NewFlexQueue ttlPushes).q ∧ ttlQueue.messages.WF ∧
    ttlQueue.messages.entries = [] ++ ("A", some 1) :: [("B", some 2), ("C", some 3)] ∧
    mapLookup ttlQueue.ttl "A" = some ⟨10, 7⟩ ∧ (⟨10, 7⟩ : TTL Nat).Expires < 20 ∧
    (ttlQueue.PushBack "A" (some 99) = ⟨true, ttlQueue, []⟩ ∧
    (ttlQueue.PushBack "A" (some 99)).q.messages.entries =
      [] ++ ("A", some 1) :: [("B", some 2), ("C", some 3)] ∧
    ((ttlQueue.PushBack "A" (some 99)).q.Has 20 "A").ret = false ∧
    ((ttlQueue.PushBack "A" (some 99)).q.Has 20 "A").calls =
      [⟨(⟨10, 7⟩ : TTL Nat).Callback, "A", some 1⟩] ∧
    ((ttlQueue.PushBack "A" (some 99)).q.Has 20 "A").q.messages.entries =
      [] ++ [("B", some 2), ("C", some 3)] ∧
    mapLookup ((ttlQueue.PushBack "A" (some 99)).q.Has 20 "A").q.ttl "A" = none) :=
  ⟨by decide, by decide, by decide, by decide, by decide,
    C36_push_on_expired ttlQueue 20 "A" (some 1) (some 99) ⟨10, 7⟩ []
      [("B", some 2), ("C", some 3)] (by decide) (by decide) (by decide) (by decide)⟩


/-- C37: on a well-formed queue, the loop of Prune run over the entries of the TTL
table in any two orders gives the same result, the same queue (message list, TTL table
and maximum) and the same callback invocations up to their order, and so the same
(digest, message) pairs up to their order; Prune itself is the loop over one such
order. -/
theorem C37_prune_order_independent {C V : Type} (q : FlexQueue C V) (now : Int)
    (visit1 visit2 : List (String × TTL C)) (hwf : q.WF)
    (h1 : visit1.Perm q.ttl) (h2 : visit2.Perm q.ttl) :
    (FlexQueue.pruneLoop now visit1 ⟨false, q, []⟩).ret =
      (FlexQueue.pruneLoop now visit2 ⟨false, q, []⟩).ret ∧
    (FlexQueue.pruneLoop now visit1 ⟨false, q, []⟩).q =
      (FlexQueue.pruneLoop now visit2 ⟨false, q, []⟩).q ∧
    (FlexQueue.pruneLoop now visit1 ⟨false, q, []⟩).calls.Perm
      (FlexQueue.pruneLoop now visit2 ⟨false, q, []⟩).calls ∧
    ((FlexQueue.pruneLoop now visit1 ⟨false, q, []⟩).calls.map
        fun c => (c.digest, c.message)).Perm
      ((FlexQueue.pruneLoop now visit2 ⟨false, q, []⟩).calls.map
        fun c => (c.digest, c.message)) ∧
    q.Prune now = FlexQueue.pruneLoop now q.ttl ⟨false, q, []⟩ := by
  obtain ⟨r1, q1, c1⟩ := FlexQueue.pruneLoop_perm q now hwf visit1 h1
  obtain ⟨r2, q2, c2⟩ := FlexQueue.pruneLoop_perm q now hwf visit2 h2
  exact ⟨r1.trans r2.symm, q1.trans q2.symm, c1.trans c2.symm,
    (c1.trans c2.symm).map _, rfl⟩

theorem C37_prune_order_independent_witness :
    ttlQueue.WF ∧
    [("C", (⟨10, 9⟩ : TTL Nat)), ("A", ⟨10, 7⟩), ("B", ⟨30, 8⟩)].Perm ttlQueue.ttl ∧
    [("B", (⟨30, 8⟩ : TTL Nat)), ("A", ⟨10, 7⟩), ("C", ⟨10, 9⟩)].Perm ttlQueue.ttl ∧
    ((FlexQueue.pruneLoop 20 [("C", (⟨10, 9⟩ : TTL Nat)), ("A", ⟨10, 7⟩), ("B", ⟨30, 8⟩)]
        ⟨false, ttlQueue, []⟩).ret =
      (FlexQueue.pruneLoop 20 [("B", (⟨30, 8⟩ : TTL Nat)), ("A", ⟨10, 7⟩), ("C", ⟨10, 9⟩)]
        ⟨false, ttlQueue, []⟩).ret ∧
    (FlexQueue.pruneLoop 20 [("C", (⟨10, 9⟩ : TTL Nat)), ("A", ⟨10, 7⟩), ("B", ⟨30, 8⟩)]
        ⟨false, ttlQueue, []⟩).q =
      (FlexQueue.pruneLoop 20 [("B", (⟨30, 8⟩ : TTL Nat)), ("A", ⟨10, 7⟩), ("C", ⟨10, 9⟩)]
        ⟨false, ttlQueue, []⟩).q ∧
    (FlexQueue.pruneLoop 20 [("C", (⟨10, 9⟩ : TTL Nat)), ("A", ⟨10, 7⟩), ("B", ⟨30, 8⟩)]
        ⟨false, ttlQueue, []⟩).calls.Perm
      (FlexQueue.pruneLoop 20 [("B", (⟨30, 8⟩ : TTL Nat)), ("A", ⟨10, 7⟩), ("C", ⟨10, 9⟩)]
        ⟨false, ttlQueue, []⟩).calls ∧
    ((FlexQueue.pruneLoop 20 [("C", (⟨10, 9⟩ : TTL Nat)), ("A", ⟨10, 7⟩), ("B", ⟨30, 8⟩)]
        ⟨false, ttlQueue, []⟩).calls.map fun c => (c.digest, c.message)).Perm
      ((FlexQueue.pruneLoop 20 [("B", (⟨30, 8⟩ : TTL Nat)), ("A", ⟨10, 7⟩), ("C", ⟨10, 9⟩)]
        ⟨false, ttlQueue, []⟩).calls.map fun c => (c.digest, c.message)) ∧
    ttlQueue.Prune 20 = FlexQueue.pruneLoop 20 ttlQueue.ttl ⟨false, ttlQueue, []⟩) :=
  ⟨by decide, by decide, by decide,
    C37_prune_order_independent ttlQueue 20
      [("C", ⟨10, 9⟩), ("A", ⟨10, 7⟩), ("B", ⟨30, 8⟩)]
      [("B", ⟨30, 8⟩), ("A", ⟨10, 7⟩), ("C", ⟨10, 9⟩)] (by decide) (by decide) (by decide)⟩


/-- C38: in every state of a queue, Len, IsEmpty, IsFull and the result of the capacity
check of a push are computed from the message list and the maximum and are the same
whatever the TTL table holds (a push returns true exactly when the digest is in the
list or the queue is not full); and in the queue with maximum 2 that holds "A" and "B",
pushed at the instants 0 and 2 with TTLs that expire at the instant 10, at instant 20
every entry is expired, IsFull is true, PushBack of the new digest "C" returns false and
changes nothing, and PullFront returns found = false. -/
theorem C38_capacity_counts_expired {C V : Type} (q : FlexQueue C V)
    (ttl : List (String × TTL C)) (front : Bool) (d : String) (v : Option V) :
    ((⟨q.messages, ttl, q.max⟩ : FlexQueue C V).Len = q.messages.items.elems.length ∧
    (⟨q.messages, ttl, q.max⟩ : FlexQueue C V).IsEmpty =
      decide (q.messages.items.elems.length = 0) ∧
    (⟨q.messages, ttl, q.max⟩ : FlexQueue C V).IsFull =
      decide (q.max > NoMax ∧ (q.messages.items.elems.length : Int) ≥ q.max) ∧
    ((⟨q.messages, ttl, q.max⟩ : FlexQueue C V).pushFB front d v).1 = (q.pushFB front d v).1 ∧
    (q.pushFB front d v).1 = (q.messages.Has d || !q.IsFull)) ∧
    (expiredFullQueue = (exec NewFlexQueue [.setMax 2,
        .call 0 (.pushBackTTL "A" (some 1) 10 7 1),
        .call 2 (.pushBackTTL "B" (some 2) 8 8 1)]).1 ∧
    expiredFullQueue.Max = 2 ∧
    expiredFullQueue.messages.entries = [("A", some 1), ("B", some 2)] ∧
    (∀ p ∈ expiredFullQueue.messages.entries, expiredFullQueue.expiredAt 20 p.1 = true) ∧
    expiredFullQueue.Len = 2 ∧ expiredFullQueue.IsEmpty = false ∧
    expiredFullQueue.IsFull = true ∧
    expiredFullQueue.messages.Has "C" = false ∧
    expiredFullQueue.PushBack "C" (some 3) = ⟨false, expiredFullQueue, []⟩ ∧
    ((expiredFullQueue.PushBack "C" (some 3)).q.PullFront 20).ret = ("", none, false)) := by
  refine ⟨⟨?_, ?_, ?_, ?_, ?_⟩, by decide⟩
  · simp [FlexQueue.Len, FlexList.Len, LinkedList.Len]
  · simp [FlexQueue.IsEmpty, FlexList.Len, LinkedList.Len]
  · simp [FlexQueue.IsFull, FlexList.Len, LinkedList.Len]
  · unfold FlexQueue.pushFB
    dsimp only
    split
    · rfl
    · split <;> rfl
  · by_cases hd : q.messages.Has d = true
    · rw [FlexQueue.pushFB_dup q front d v hd, hd]
      rfl
    · have hd' : q.messages.Has d = false := by simpa using hd
      by_cases hf : q.IsFull = true
      · rw [FlexQueue.pushFB_full q front d v hd' hf, hd', hf]
        rfl
      · have hf' : q.IsFull = false := by simpa using hf
        rw [FlexQueue.pushFB_room q front d v hd' hf', hd', hf']
        rfl


end flexqueue
